import Mathlib

/-! # DFENCE: trace checker, fence-constraint generator and store-buffer engine

A shallow embedding of the linearizability / SC checker (`CheckTrace.cpp`), of the
fence-constraint generator and the fence insertion (`Constraints.cpp`), of the
store-buffer engine of the interpreter (`Execution.cpp`), of the two recorders
(`History.cpp`, `RWHistory.cpp`) and of the scheduler (`Scheduler.cpp`) of DFENCE, with
the properties of the specification stated and proved over the embedded definitions.

Conventions of the embedding:
* `std::vector` and `std::list` are Lean lists, vector indices are `Nat`;
* thread tags (`Thread::tid()`) are `Nat`, they are used as array indices;
* `int` values that are data (return values, arguments, labels, literals) are `Int`;
* `llvm::Function*` is represented by the function name, the only thing the
  checker reads from it (`func->getName().str()`);
* addresses (`int*`, `void*`) are `Nat`;
* a `std::map` that is iterated is the list of its entries in the order of the keys, a
  `std::map` that is only read with `operator[]` is a function.
-/

namespace DFence

/-! ## History (History.h) -/

/-- The kind of a history entry: `typedef enum {CALL_FUNC, RETURN_FUNC, NONE} inst_type`. -/
inductive inst_type where
  | CALL_FUNC
  | RETURN_FUNC
  | NONE
  deriving DecidableEq, Repr

/-- An entry of the invocation log: `struct trace_elem`. -/
structure trace_elem where
  type : inst_type
  arg_vals : List Int
  ret_val : Int
  func : String
  thread : Nat
  deriving DecidableEq, Repr

instance : Inhabited trace_elem := ⟨⟨inst_type.NONE, [], 0, "", 0⟩⟩

/-- An element of `init_perm`: `pair<pair<int, int>, trace_elem>`, that is
`((call_index, return_index), elem)`. -/
structure perm_elem where
  call : Nat
  ret : Nat
  elem : trace_elem
  deriving DecidableEq, Repr

instance : Inhabited perm_elem := ⟨⟨0, 0, default⟩⟩

/-! ## Configuration (Params.h) -/

/-- The data structure under test:
`typedef enum {NO_PROGRAM, WSQ_CHASE, ..., LINKSET} program_type`. -/
inductive program_type where
  | NO_PROGRAM
  | WSQ_CHASE
  | WSQ_LIFO
  | WSQ_FIFO
  | WSQ_THE
  | WSQ_ANCHOR
  | LF_MALLOC
  | SKIP_LIST
  | QUEUE
  | DEQUE
  | LINKSET
  deriving DecidableEq, Repr

/-- The macro `#define PROP_NONE 0`. -/
def PROP_NONE : Nat := 0
/-- The macro `#define PROP_SC 1`. -/
def PROP_SC : Nat := 1
/-- The macro `#define PROP_LIN 2`. -/
def PROP_LIN : Nat := 2
/-- The macro `#define WMM_NONE 0`. -/
def WMM_NONE : Nat := 0
/-- The macro `#define WMM_TSO 1`. -/
def WMM_TSO : Nat := 1
/-- The macro `#define WMM_PSO 2`. -/
def WMM_PSO : Nat := 2

/-- The static fields of `class Params` that the checker and the constraint generator read. -/
structure Params where
  Property : Nat
  WMM : Nat
  programToCheck : program_type
  logging : Bool
  deriving DecidableEq, Repr

/-- The function `Params::recTrace()`. -/
def Params.recTrace (P : Params) : Bool :=
  if P.Property = PROP_SC ∨ P.Property = PROP_LIN then true else false

/-! ## Sequential reference implementations (wsq.h, linkset.h, SpecMalloc.h, Spec*.cpp)

`class WSQ` holds a `std::deque<int> q`, here a list whose head is the front of the deque.
Every operation returns its `int` result and the new content of `q`. -/

namespace WSQ

/-- The function `WSQ::seq_wsq_put_chase`. -/
def seq_wsq_put_chase (task : Int) (q : List Int) : Int × List Int := (1, q ++ [task])

/-- The function `WSQ::seq_wsq_take_chase`. -/
def seq_wsq_take_chase (q : List Int) : Int × List Int :=
  if q ≠ [] then (q.getLastD 0, q.dropLast) else (-1, q)

/-- The function `WSQ::seq_wsq_steal_chase`. -/
def seq_wsq_steal_chase (q : List Int) : Int × List Int :=
  if q ≠ [] then (q.headD 0, q.tail) else (-1, q)

/-- The function `WSQ::seq_wsq_put_lifo`. -/
def seq_wsq_put_lifo (task : Int) (q : List Int) : Int × List Int := (1, q ++ [task])

/-- The function `WSQ::seq_wsq_take_lifo`. -/
def seq_wsq_take_lifo (q : List Int) : Int × List Int :=
  if q ≠ [] then (q.getLastD 0, q.dropLast) else (-1, q)

/-- The function `WSQ::seq_wsq_steal_lifo`. -/
def seq_wsq_steal_lifo (q : List Int) : Int × List Int :=
  if q ≠ [] then (q.getLastD 0, q.dropLast) else (-1, q)

/-- The function `WSQ::seq_wsq_put_fifo`. -/
def seq_wsq_put_fifo (task : Int) (q : List Int) : Int × List Int := (1, q ++ [task])

/-- The function `WSQ::seq_wsq_take_fifo`. -/
def seq_wsq_take_fifo (q : List Int) : Int × List Int :=
  if q ≠ [] then (q.headD 0, q.tail) else (-1, q)

/-- The function `WSQ::seq_wsq_steal_fifo`. -/
def seq_wsq_steal_fifo (q : List Int) : Int × List Int :=
  if q ≠ [] then (q.headD 0, q.tail) else (-1, q)

/-- The function `WSQ::seq_queue_enqueue`: `q.push_front(task)`. -/
def seq_queue_enqueue (task : Int) (q : List Int) : Int × List Int := (1, task :: q)

/-- The function `WSQ::seq_queue_dequeue`: takes `q.back()`. -/
def seq_queue_dequeue (q : List Int) : Int × List Int :=
  if q ≠ [] then (q.getLastD 0, q.dropLast) else (-1, q)

end WSQ

/-- The members of `class WSQ` that `wsq.h` declares and whose definitions are not among
the sources at hand (the THE and ANCHOR work-stealing queues and the deque); the checker
is parametric in them. Each takes the content of `q` and returns its `int` result with the
new content. -/
structure WSQExtern where
  seq_wsq_put_the : Int → List Int → Int × List Int
  seq_wsq_take_the : List Int → Int × List Int
  seq_wsq_steal_the : List Int → Int × List Int
  seq_wsq_put_anchor : Int → List Int → Int × List Int
  seq_wsq_take_anchor : List Int → Int × List Int
  seq_wsq_steal_anchor : List Int → Int × List Int
  seq_deque_add_left : Int → List Int → Int × List Int
  seq_deque_add_right : Int → List Int → Int × List Int
  seq_deque_remove_left : List Int → Int × List Int
  seq_deque_remove_right : List Int → Int × List Int

namespace LKS

/-- The function `LKS::seq_linkset_add`; the `std::set<int> q` is a list without duplicates (nothing
iterates over the set, only membership is observed). -/
def seq_linkset_add (task : Int) (q : List Int) : Int × List Int := (1, q.insert task)

/-- The function `LKS::seq_linkset_contains`. -/
def seq_linkset_contains (task : Int) (q : List Int) : Int × List Int :=
  if task ∈ q then (1, q) else (0, q)

/-- The function `LKS::seq_linkset_remove`. -/
def seq_linkset_remove (task : Int) (q : List Int) : Int × List Int :=
  if task ∈ q then (1, q.erase task) else (0, q)

end LKS

namespace CheckTrace

/-- The value `init_perm[k].first.first`. -/
def callIdx (init_perm : List perm_elem) (k : Nat) : Nat := (init_perm.getD k default).call

/-- The value `init_perm[k].first.second`. -/
def retIdx (init_perm : List perm_elem) (k : Nat) : Nat := (init_perm.getD k default).ret

/-- The value `init_perm[k].second.thread.tid()`. -/
def tidOf (init_perm : List perm_elem) (k : Nat) : Nat := (init_perm.getD k default).elem.thread

/-- The condition of the `if` in `isRealTimeOrderPreserved`, for `a = curr_perm[i]` and
`b = curr_perm[j]`: the two intervals do not overlap and `a` was called after `b`. -/
def rtViolation (init_perm : List perm_elem) (a b : Nat) : Bool :=
  (!((decide (callIdx init_perm a > callIdx init_perm b) &&
        decide (callIdx init_perm a < retIdx init_perm b)) ||
      (decide (callIdx init_perm b > callIdx init_perm a) &&
        decide (callIdx init_perm b < retIdx init_perm a)))) &&
    decide (callIdx init_perm a > callIdx init_perm b)

/-- The inner loop `for (j = i + 1; j < curr_perm.size(); j++)` of
`isRealTimeOrderPreserved`: `rest` holds `curr_perm[i+1 ..]`; on a violation the flag is
cleared and the loop is left (`break`). -/
def rtInner (init_perm : List perm_elem) (a : Nat) : List Nat → Bool → Bool
  | [], flag => flag
  | b :: rest, flag => if rtViolation init_perm a b then false else rtInner init_perm a rest flag

/-- The outer loop `for (i = 0; i < curr_perm.size(); i++)` of `isRealTimeOrderPreserved`;
the `break` leaves the inner loop only, the outer loop goes on with the flag it has. -/
def rtOuter (init_perm : List perm_elem) : List Nat → Bool → Bool
  | [], flag => flag
  | a :: rest, flag => rtOuter init_perm rest (rtInner init_perm a rest flag)

/-- The function `CheckTrace::isRealTimeOrderPreserved`: false - not preserved; true - preserved. -/
def isRealTimeOrderPreserved (init_perm : List perm_elem) (curr_perm : List Nat) : Bool :=
  rtOuter init_perm curr_perm true

/-! ### Enumeration of the candidate permutations -/

/-- The three static vectors of `class CheckTrace`. -/
structure PermState where
  init_perm : List perm_elem
  thread_perm : List Nat
  curr_perm : List Nat
  deriving DecidableEq, Repr

/-- The first loop of `gen_init_sc_perm`, over `history->trace_rec[i ..]`: `calls` is the
`std::map<Thread, int>` (`none` - no entry); `calls[t]` of a missing entry reads 0, as
`operator[]` does. `acc` is `init_perm`. -/
def matchCalls (trace_rec : List trace_elem) :
    List trace_elem → Nat → (Nat → Option Nat) → List perm_elem → List perm_elem
  | [], _, _, acc => acc
  | e :: rest, i, calls, acc =>
    if e.type = inst_type.CALL_FUNC then
      matchCalls trace_rec rest (i + 1) (Function.update calls e.thread (some i)) acc
    else if e.type = inst_type.RETURN_FUNC then
      let call_index := (calls e.thread).getD 0
      let elem : trace_elem :=
        { type := inst_type.NONE
          func := e.func
          thread := e.thread
          ret_val := e.ret_val
          arg_vals := (trace_rec.getD call_index default).arg_vals }
      matchCalls trace_rec rest (i + 1) (Function.update calls e.thread none)
        (acc ++ [⟨call_index, i, elem⟩])
    else
      matchCalls trace_rec rest (i + 1) calls acc

/-- The inner loop `for (j = index[t]; j < init_perm.size(); j++)` shared by
`gen_init_sc_perm` and `gen_next_sc_perm`: the first `j` from the start value on with
`init_perm[j].second.thread.tid() == t`; `fuel` is `init_perm.size() - j`. -/
def searchCall (init_perm : List perm_elem) (t : Nat) : Nat → Nat → Option Nat
  | 0, _ => none
  | fuel + 1, j =>
    if tidOf init_perm j = t then some j else searchCall init_perm t fuel (j + 1)

/-- The loop `for (i = 0; i < thread_perm.size(); i++)` shared by `gen_init_sc_perm` and
`gen_next_sc_perm`, over `thread_perm[i ..]`: position `i` of `curr_perm` gets the earliest
call of thread `thread_perm[i]` at or after `index[thread_perm[i]]`; when there is none
the position keeps its value. -/
def assignCalls (init_perm : List perm_elem) :
    List Nat → Nat → (Nat → Nat) → List Nat → List Nat
  | [], _, _, curr_perm => curr_perm
  | t :: rest, i, index, curr_perm =>
    match searchCall init_perm t (init_perm.length - index t) (index t) with
    | some j =>
      assignCalls init_perm rest (i + 1) (Function.update index t (j + 1)) (curr_perm.set i j)
    | none => assignCalls init_perm rest (i + 1) index curr_perm

/-- The function `CheckTrace::gen_init_sc_perm`, from empty static vectors (`free_init_sc_perm` empties
them at the end of every `checkHistory`). `junk` is the content of the block that `malloc`
returns for `index`; slots `0 .. nextThreadNum` are zeroed. -/
def gen_init_sc_perm (history : List trace_elem) (nextThreadNum : Nat) (junk : Nat → Nat) :
    PermState :=
  let init_perm := matchCalls history history 0 (fun _ => none) []
  let thread_perm := (init_perm.map (fun c => c.elem.thread)).insertionSort (· ≤ ·)
  let curr_perm := init_perm.map (fun _ => 0)
  let index : Nat → Nat := fun t => if t ≤ nextThreadNum then 0 else junk t
  { init_perm := init_perm
    thread_perm := thread_perm
    curr_perm := assignCalls init_perm thread_perm 0 index curr_perm }

/-- The search `while (!(*i < *--j))` followed by `iter_swap(i, j)` of
`std::next_permutation`, on the suffix read from its last element backwards: the first
element `z` greater than the pivot `x` is exchanged with it. Returns `z` and the suffix
(still read backwards) after the exchange. -/
def swapPivot (x : Nat) : List Nat → Option (Nat × List Nat)
  | [] => none
  | z :: zs =>
    if x < z then some (z, x :: zs)
    else (swapPivot x zs).map (fun p => (p.1, z :: p.2))

/-- The function `std::next_permutation` on a vector of `int`: the pivot is the last position `i` with
`a[i] < a[i+1]`; it is exchanged with the last element greater than it and the suffix
after it is reversed. `none` stands for the return value `false` (there is no ascent; the
C++ then resets the range to its first permutation, which `checkHistory` never reads:
it leaves its loop and clears the vectors). -/
def next_permutation : List Nat → Option (List Nat)
  | [] => none
  | [_] => none
  | x :: y :: rest =>
    match next_permutation (y :: rest) with
    | some t => some (x :: t)
    | none =>
      if x < y then (swapPivot x (y :: rest).reverse).map (fun p => p.1 :: p.2) else none

/-- The function `CheckTrace::gen_next_sc_perm`; `none` stands for the return value `false`. Only the
slots `0 .. nextThreadNum - 1` of `index` are zeroed here, the others hold `junk`. -/
def gen_next_sc_perm (nextThreadNum : Nat) (junk : Nat → Nat) (st : PermState) :
    Option PermState :=
  match next_permutation st.thread_perm with
  | none => none
  | some tp =>
    let index : Nat → Nat := fun t => if t < nextThreadNum then 0 else junk t
    some { init_perm := st.init_perm
           thread_perm := tp
           curr_perm := assignCalls st.init_perm tp 0 index st.curr_perm }

/-- The sequence of `curr_perm` values produced from state `st` on by repeated
`gen_next_sc_perm`, until it returns false (or `fuel` calls were made). -/
def permsFrom (nextThreadNum : Nat) (junk : Nat → Nat) : Nat → PermState → List (List Nat)
  | 0, st => [st.curr_perm]
  | fuel + 1, st =>
    match gen_next_sc_perm nextThreadNum junk st with
    | none => [st.curr_perm]
    | some st' => st.curr_perm :: permsFrom nextThreadNum junk fuel st'

/-- The bound on the number of `gen_next_sc_perm` calls used below: the number of
orderings of the matched calls. -/
def permFuel (st : PermState) : Nat := st.thread_perm.length.factorial

/-- The permutations enumerated for a history: `curr_perm` after `gen_init_sc_perm` and
after each successful `gen_next_sc_perm`. -/
def enumeratedPerms (history : List trace_elem) (nextThreadNum : Nat) (junk : Nat → Nat) :
    List (List Nat) :=
  let st := gen_init_sc_perm history nextThreadNum junk
  permsFrom nextThreadNum junk (permFuel st) st

/-! ### Replay against the sequential reference -/

/-- The elements `init_perm[curr_perm[i]].second`, in the order of `curr_perm`. -/
def permElems (init_perm : List perm_elem) (curr_perm : List Nat) : List trace_elem :=
  curr_perm.map (fun k => (init_perm.getD k default).elem)

/-- The loop of `CheckTrace::checkWSQ` over the elements of the permutation; `q` is the
content of the local `WSQ wsq`, `task` the local `int task`. `arg_vals.back()` of an empty
list (undefined in C++) reads 0. -/
def checkWSQLoop (prog : program_type) (X : WSQExtern) :
    List trace_elem → List Int → Int → Bool
  | [], _, _ => true
  | e :: rest, q, task =>
    if e.func = "wsq_put" then
      let task := e.arg_vals.getLastD 0
      let q :=
        if prog = program_type.WSQ_CHASE then (WSQ.seq_wsq_put_chase task q).2
        else if prog = program_type.WSQ_LIFO then (WSQ.seq_wsq_put_lifo task q).2
        else if prog = program_type.WSQ_FIFO then (WSQ.seq_wsq_put_fifo task q).2
        else if prog = program_type.WSQ_THE then (X.seq_wsq_put_the task q).2
        else if prog = program_type.WSQ_ANCHOR then (X.seq_wsq_put_anchor task q).2
        else q
      if e.ret_val ≠ 1 then false else checkWSQLoop prog X rest q task
    else if e.func = "wsq_take" then
      let r :=
        if prog = program_type.WSQ_CHASE then WSQ.seq_wsq_take_chase q
        else if prog = program_type.WSQ_LIFO then WSQ.seq_wsq_take_lifo q
        else if prog = program_type.WSQ_FIFO then WSQ.seq_wsq_take_fifo q
        else if prog = program_type.WSQ_THE then X.seq_wsq_take_the q
        else if prog = program_type.WSQ_ANCHOR then X.seq_wsq_take_anchor q
        else (task, q)
      if r.1 ≠ e.ret_val then false else checkWSQLoop prog X rest r.2 r.1
    else if e.func = "wsq_steal" then
      let r :=
        if prog = program_type.WSQ_CHASE then WSQ.seq_wsq_steal_chase q
        else if prog = program_type.WSQ_LIFO then WSQ.seq_wsq_steal_lifo q
        else if prog = program_type.WSQ_FIFO then WSQ.seq_wsq_steal_fifo q
        else if prog = program_type.WSQ_THE then X.seq_wsq_steal_the q
        else if prog = program_type.WSQ_ANCHOR then X.seq_wsq_steal_anchor q
        else (task, q)
      if r.1 ≠ e.ret_val then false else checkWSQLoop prog X rest r.2 r.1
    else checkWSQLoop prog X rest q task

/-- The function `CheckTrace::checkWSQ`; `task0` is the indeterminate initial value of `int task`. -/
def checkWSQ (prog : program_type) (X : WSQExtern) (task0 : Int)
    (init_perm : List perm_elem) (curr_perm : List Nat) : Bool :=
  checkWSQLoop prog X (permElems init_perm curr_perm) [] task0

/-- The loop of `CheckTrace::checkQueue`. -/
def checkQueueLoop (prog : program_type) : List trace_elem → List Int → Int → Bool
  | [], _, _ => true
  | e :: rest, q, task =>
    if e.func = "queue_enqueue" then
      let task := e.arg_vals.getLastD 0
      let q := if prog = program_type.QUEUE then (WSQ.seq_queue_enqueue task q).2 else q
      if e.ret_val ≠ 1 then false else checkQueueLoop prog rest q task
    else if e.func = "queue_dequeue" then
      let r := if prog = program_type.QUEUE then WSQ.seq_queue_dequeue q else (task, q)
      if r.1 ≠ e.ret_val then false else checkQueueLoop prog rest r.2 r.1
    else checkQueueLoop prog rest q task

/-- The function `CheckTrace::checkQueue`. -/
def checkQueue (prog : program_type) (task0 : Int)
    (init_perm : List perm_elem) (curr_perm : List Nat) : Bool :=
  checkQueueLoop prog (permElems init_perm curr_perm) [] task0

/-- The loop of `CheckTrace::checkDeque`. -/
def checkDequeLoop (prog : program_type) (X : WSQExtern) :
    List trace_elem → List Int → Int → Bool
  | [], _, _ => true
  | e :: rest, q, task =>
    if e.func = "deque_add_left" then
      let task := e.arg_vals.getLastD 0
      let q := if prog = program_type.DEQUE then (X.seq_deque_add_left task q).2 else q
      if e.ret_val ≠ 1 then false else checkDequeLoop prog X rest q task
    else if e.func = "deque_add_right" then
      let task := e.arg_vals.getLastD 0
      let q := if prog = program_type.DEQUE then (X.seq_deque_add_right task q).2 else q
      if e.ret_val ≠ 1 then false else checkDequeLoop prog X rest q task
    else if e.func = "deque_remove_left" then
      let r := if prog = program_type.DEQUE then X.seq_deque_remove_left q else (task, q)
      if r.1 ≠ e.ret_val then false else checkDequeLoop prog X rest r.2 r.1
    else if e.func = "deque_remove_right" then
      let r := if prog = program_type.DEQUE then X.seq_deque_remove_right q else (task, q)
      if r.1 ≠ e.ret_val then false else checkDequeLoop prog X rest r.2 r.1
    else checkDequeLoop prog X rest q task

/-- The function `CheckTrace::checkDeque`. -/
def checkDeque (prog : program_type) (X : WSQExtern) (task0 : Int)
    (init_perm : List perm_elem) (curr_perm : List Nat) : Bool :=
  checkDequeLoop prog X (permElems init_perm curr_perm) [] task0

/-- The loop of `CheckTrace::checkLinkSet`; the three tests on the function name are
separate `if`s, not an `else if` chain. `q` is the content of the local `LKS wsq`, `task`
and `rst` the locals of these names. -/
def checkLinkSetLoop (prog : program_type) : List trace_elem → List Int → Int → Int → Bool
  | [], _, _, _ => true
  | e :: rest, q, task, rst =>
    let s1 : Option (List Int × Int) :=
      if e.func = "linkset_add" then
        let task := e.arg_vals.getLastD 0
        let q := if prog = program_type.LINKSET then (LKS.seq_linkset_add task q).2 else q
        if e.ret_val ≠ 1 then none else some (q, task)
      else some (q, task)
    match s1 with
    | none => false
    | some (q, task) =>
      let s2 : Option (List Int × Int × Int) :=
        if e.func = "linkset_contains" then
          let task := e.arg_vals.getLastD 0
          let r := if prog = program_type.LINKSET then LKS.seq_linkset_contains task q
            else (rst, q)
          if e.ret_val ≠ r.1 then none else some (r.2, task, r.1)
        else some (q, task, rst)
      match s2 with
      | none => false
      | some (q, task, rst) =>
        if e.func = "linkset_remove" then
          let task := e.arg_vals.getLastD 0
          let r := if prog = program_type.LINKSET then LKS.seq_linkset_remove task q
            else (rst, q)
          if e.ret_val ≠ r.1 then false else checkLinkSetLoop prog rest r.2 task r.1
        else checkLinkSetLoop prog rest q task rst

/-- The function `CheckTrace::checkLinkSet`. -/
def checkLinkSet (prog : program_type) (task0 rst0 : Int)
    (init_perm : List perm_elem) (curr_perm : List Nat) : Bool :=
  checkLinkSetLoop prog (permElems init_perm curr_perm) [] task0 rst0

/-- The cast `(unsigned) x` of an `int` (32 bits). -/
def toUnsigned (x : Int) : Nat := (x % 4294967296).toNat

/-- The sum of two `unsigned` values. -/
def addUnsigned (a b : Nat) : Nat := (a + b) % 4294967296

/-- The loop over `lfmalloc.alloc_list` in the `mmalloc` branch of `checkMalloc`: true when
it reaches a `return false`. An entry `(first, second)` of the list is kept as the pair of
`(unsigned) first` and `(unsigned) second`, the only way the code reads it. -/
def mallocOverlaps (start finish : Nat) : List (Nat × Nat) → Bool
  | [] => false
  | j :: rest =>
    if start ≥ j.1 ∧ start ≤ addUnsigned j.1 j.2 then true
    else if finish ≥ j.1 ∧ finish ≤ addUnsigned j.1 j.2 then true
    else mallocOverlaps start finish rest

/-- The loop over `lfmalloc.alloc_list` in the `mfree` branch of `checkMalloc`: the first
entry whose base is `free_addr` is erased; `none` when the loop ends at
`alloc_list.end()`. -/
def mallocErase (free_addr : Nat) : List (Nat × Nat) → Option (List (Nat × Nat))
  | [] => none
  | j :: rest =>
    if free_addr = j.1 then some rest
    else (mallocErase free_addr rest).map (fun l => j :: l)

/-- The loop of `CheckTrace::checkMalloc`; `alloc_list` is `lfmalloc.alloc_list`.
`arg_vals.front()` of an empty list (undefined in C++) reads 0. -/
def checkMallocLoop : List trace_elem → List (Nat × Nat) → Bool
  | [], _ => true
  | e :: rest, alloc_list =>
    if e.func = "mmalloc" then
      let start := toUnsigned e.ret_val
      let size := toUnsigned (e.arg_vals.headD 0)
      let finish := addUnsigned start size
      if mallocOverlaps start finish alloc_list then false
      else checkMallocLoop rest (alloc_list ++ [(start, size)])
    else if e.func = "mfree" then
      let free_addr := toUnsigned (e.arg_vals.headD 0)
      match mallocErase free_addr alloc_list with
      | none => false
      | some l => checkMallocLoop rest l
    else checkMallocLoop rest alloc_list

/-- The function `CheckTrace::checkMalloc`. -/
def checkMalloc (init_perm : List perm_elem) (curr_perm : List Nat) : Bool :=
  checkMallocLoop (permElems init_perm curr_perm) []

/-- Values the C++ leaves indeterminate: the initial values of the locals `task` and
`rst` of the replay functions, and the content of a fresh `malloc` block. -/
structure Indet where
  task : Int
  rst : Int
  index : Nat → Nat

/-- The function `CheckTrace::checkPermutation`; `none` stands for `exit(254)` ("undefined program"). -/
def checkPermutation (P : Params) (X : WSQExtern) (U : Indet)
    (init_perm : List perm_elem) (curr_perm : List Nat) : Option Bool :=
  if P.programToCheck = program_type.WSQ_CHASE ∨ P.programToCheck = program_type.WSQ_LIFO ∨
      P.programToCheck = program_type.WSQ_FIFO ∨ P.programToCheck = program_type.WSQ_THE ∨
      P.programToCheck = program_type.WSQ_ANCHOR then
    some (checkWSQ P.programToCheck X U.task init_perm curr_perm)
  else if P.programToCheck = program_type.QUEUE then
    some (checkQueue P.programToCheck U.task init_perm curr_perm)
  else if P.programToCheck = program_type.DEQUE then
    some (checkDeque P.programToCheck X U.task init_perm curr_perm)
  else if P.programToCheck = program_type.LINKSET then
    some (checkLinkSet P.programToCheck U.task U.rst init_perm curr_perm)
  else if P.programToCheck = program_type.LF_MALLOC then
    some (checkMalloc init_perm curr_perm)
  else none

/-- How a call of `checkHistory` ends: it returns a value, or the process exits, or the
loop is still running when the fuel is used up. -/
inductive Outcome where
  | returned (v : Int)
  | exited (code : Int)
  | outOfFuel
  deriving DecidableEq, Repr

/-- The `do { ... } while (gen_next_sc_perm(nextThreadNum))` loop of `checkHistory`; the
`continue` of a rejected real-time order jumps to the loop condition. -/
def checkLoop (P : Params) (X : WSQExtern) (U : Indet) (nextThreadNum : Nat) :
    Nat → PermState → Outcome
  | 0, _ => Outcome.outOfFuel
  | fuel + 1, st =>
    if P.Property = PROP_LIN ∧ isRealTimeOrderPreserved st.init_perm st.curr_perm = false then
      match gen_next_sc_perm nextThreadNum U.index st with
      | none => Outcome.returned 253
      | some st' => checkLoop P X U nextThreadNum fuel st'
    else
      match checkPermutation P X U st.init_perm st.curr_perm with
      | none => Outcome.exited 254
      | some true => Outcome.returned 0
      | some false =>
        match gen_next_sc_perm nextThreadNum U.index st with
        | none => Outcome.returned 253
        | some st' => checkLoop P X U nextThreadNum fuel st'

/-- The function `CheckTrace::checkHistory`. The loop gets one more unit of fuel than there are
orderings of the matched calls. -/
def checkHistory (P : Params) (X : WSQExtern) (U : Indet) (history : List trace_elem)
    (nextThreadNum : Nat) : Outcome :=
  if P.recTrace = false then Outcome.returned 1
  else
    let st := gen_init_sc_perm history nextThreadNum U.index
    checkLoop P X U nextThreadNum (permFuel st + 1) st

end CheckTrace

/-! ## Shared read/write log (RWHistory.h) -/

/-- The kind of an entry of the shared read/write log: `RWType`. -/
inductive RWType where
  | READ
  | WRITE
  | FLUSH_INSTR
  | FLUSH_FENCE
  | FLUSH_CAS_TSO
  | FLUSH_CAS_PSO
  | FLUSH_RANDOM_TSO
  | FLUSH_RANDOM_PSO
  | SPAWN
  | JOIN
  deriving DecidableEq, Repr

/-- An entry of the shared read/write log: `struct rwtrace_elem`. -/
structure rwtrace_elem where
  thr : Nat
  type : RWType
  value : Int
  location : Nat
  label : Int
  deriving DecidableEq, Repr

/-- The type `typedef vector<rwtrace_elem> Trace`. -/
abbrev Trace := List rwtrace_elem

/-! ## Constraint generator (Constraints.h, Constraints.cpp) -/

/-- The type `tso_constraint_pair` and `pso_constraint_pair`: `pair<int, int>`, the labels of a
store and of a later load (or store). -/
abbrev constraint_pair := Int × Int

/-- The type `Tso_Constraint_To_Lit` and `Pso_Constraint_To_Lit`: `map<pair<int, int>, int>`, as
the list of its entries in the order of the keys. -/
abbrev Constraint_To_Lit := List (constraint_pair × Int)

/-- The order `operator<` of `pair<int, int>`. -/
def pairLt (a b : constraint_pair) : Bool :=
  decide (a.1 < b.1) || (decide (a.1 = b.1) && decide (a.2 < b.2))

/-- The operation `map::find`: the literal of a pair, `none` for `end()`. -/
def mapFind : Constraint_To_Lit → constraint_pair → Option Int
  | [], _ => none
  | (k, v) :: rest, p => if k = p then some v else mapFind rest p

/-- The operation `map::insert`: no effect when the key is present, else the entry is put at its place
in the order of the keys. -/
def mapInsert (p : constraint_pair) (lit : Int) : Constraint_To_Lit → Constraint_To_Lit
  | [] => [(p, lit)]
  | (k, v) :: rest =>
    if k = p then (k, v) :: rest
    else if pairLt p k then (p, lit) :: (k, v) :: rest
    else (k, v) :: mapInsert p lit rest

/-- The operation `set<int>::insert` on the increasing list of the elements of the set. -/
def setInsert (x : Int) : List Int → List Int
  | [] => [x]
  | y :: rest =>
    if x = y then y :: rest
    else if x < y then x :: y :: rest
    else y :: setInsert x rest

/-- The fields of `class Constraints` that the generator and the selector use; the SAT
solver `S` is outside the model. `ClausesList` (`set<int>`) is an increasing list. -/
structure Constraints where
  clauses : List Int
  clauseIndex : Int
  mapToLit : Constraint_To_Lit
  mapToLit_ss : Constraint_To_Lit
  satSolutions : List (List Int)
  mergedSatSolution : List Int
  deriving DecidableEq, Repr

namespace Constraints

/-- The constructor `Constraints()`: `clauseIndex = 1`, everything else empty. -/
def init : Constraints := ⟨[], 1, [], [], [], []⟩

/-- The function `Constraints::Flush`. -/
def Flush (_c : Constraints) : Constraints := ⟨[], 1, [], [], [], []⟩

/-- The function `Constraints::Flush_partial`. -/
def Flush_partial (c : Constraints) : Constraints :=
  { c with clauses := [], mergedSatSolution := [], satSolutions := [] }

/-- The function `Constraints::GetLitSingleNumber`. -/
def GetLitSingleNumber (c : Constraints) : Nat := c.clauses.length

/-- The body of the innermost `if` of the READ branches of `GenerateClauses`: the literal
of the store-load pair `(st, ld)` is looked up in `mapToLit`, a new one is taken from
`clauseIndex` when there is none, and the literal is put into `clauses`. -/
def emitStoreLoad (c : Constraints) (st ld : Int) : Constraints :=
  match mapFind c.mapToLit (st, ld) with
  | none =>
    { c with
      mapToLit := mapInsert (st, ld) c.clauseIndex c.mapToLit
      clauseIndex := c.clauseIndex + 1
      clauses := setInsert c.clauseIndex c.clauses }
  | some lit => { c with clauses := setInsert lit c.clauses }

/-- The body of the innermost `if` of the WRITE branch of `GenerateClauses` under PSO:
as `emitStoreLoad`, on `mapToLit_ss`. -/
def emitStoreStore (c : Constraints) (st1 st2 : Int) : Constraints :=
  match mapFind c.mapToLit_ss (st1, st2) with
  | none =>
    { c with
      mapToLit_ss := mapInsert (st1, st2) c.clauseIndex c.mapToLit_ss
      clauseIndex := c.clauseIndex + 1
      clauses := setInsert c.clauseIndex c.clauses }
  | some lit => { c with clauses := setInsert lit c.clauses }

/-- The loop over `store_buffer` (TSO) or over one list of `var_store_buffer` (PSO) in a
READ branch: one store-load pair for every buffered entry at another location. -/
def readLoop (e : rwtrace_elem) : List rwtrace_elem → Constraints → Constraints
  | [], c => c
  | w :: rest, c =>
    if e.location ≠ w.location then readLoop e rest (emitStoreLoad c w.label e.label)
    else readLoop e rest c

/-- The loop over one list of `var_store_buffer` in the WRITE branch under PSO: one
store-store pair for every buffered entry at another location. -/
def writeLoop (e : rwtrace_elem) : List rwtrace_elem → Constraints → Constraints
  | [], c => c
  | w :: rest, c =>
    if e.location ≠ w.location then writeLoop e rest (emitStoreStore c w.label e.label)
    else writeLoop e rest c

/-- The TSO loop `for (i = begin; i < end; i++)` of `GenerateClauses` over the entries
`trace[i ..]` of the segment; `store_buffer` is the local `STBuffer`. -/
def tsoLoop : List rwtrace_elem → List rwtrace_elem → Constraints → Constraints
  | [], _, c => c
  | e :: rest, store_buffer, c =>
    if e.type = RWType.READ then tsoLoop rest store_buffer (readLoop e store_buffer c)
    else if e.type = RWType.WRITE then tsoLoop rest (store_buffer ++ [e]) c
    else if e.type = RWType.FLUSH_RANDOM_TSO then
      tsoLoop rest (if store_buffer ≠ [] then store_buffer.tail else store_buffer) c
    else tsoLoop rest store_buffer c

/-- The type `SSBuffer`: `map<int*, list<rwtrace_elem>>`, as the list of its entries in the order
of the addresses. -/
abbrev SSBuffer := List (Nat × List rwtrace_elem)

/-- The access `var_store_buffer[location]` followed by an update `f` of the list found there;
`operator[]` creates an empty list for an address that has none. -/
def bufUpdate (location : Nat) (f : List rwtrace_elem → List rwtrace_elem) :
    SSBuffer → SSBuffer
  | [] => [(location, f [])]
  | (k, l) :: rest =>
    if location = k then (k, f l) :: rest
    else if location < k then (location, f []) :: (k, l) :: rest
    else (k, l) :: bufUpdate location f rest

/-- The outer loop over `var_store_buffer` in the READ branch under PSO. -/
def psoReadLoop (e : rwtrace_elem) : SSBuffer → Constraints → Constraints
  | [], c => c
  | (_, l) :: rest, c => psoReadLoop e rest (readLoop e l c)

/-- The outer loop over `var_store_buffer` in the WRITE branch under PSO. -/
def psoWriteLoop (e : rwtrace_elem) : SSBuffer → Constraints → Constraints
  | [], c => c
  | (_, l) :: rest, c => psoWriteLoop e rest (writeLoop e l c)

/-- The PSO loop `for (i = begin; i < end; i++)` of `GenerateClauses`. -/
def psoLoop : List rwtrace_elem → SSBuffer → Constraints → Constraints
  | [], _, c => c
  | e :: rest, var_store_buffer, c =>
    if e.type = RWType.READ then
      psoLoop rest var_store_buffer (psoReadLoop e var_store_buffer c)
    else if e.type = RWType.WRITE then
      psoLoop rest (bufUpdate e.location (fun l => l ++ [e]) var_store_buffer)
        (psoWriteLoop e var_store_buffer c)
    else if e.type = RWType.FLUSH_RANDOM_PSO then
      psoLoop rest (bufUpdate e.location (fun l => if l ≠ [] then l.tail else l)
        var_store_buffer) c
    else if e.type = RWType.FLUSH_CAS_PSO then
      psoLoop rest (bufUpdate e.location (fun _ => []) var_store_buffer) c
    else psoLoop rest var_store_buffer c

/-- The entries `trace[begin], ..., trace[end - 1]`. -/
def segment (begin_ end_ : Nat) (trace : Trace) : List rwtrace_elem :=
  (trace.drop begin_).take (end_ - begin_)

/-- The function `Constraints::GenerateClauses`; `none` stands for `exit(1)` ("UNRECOGNIZED memory
model!"). -/
def GenerateClauses (P : Params) (begin_ end_ : Nat) (trace : Trace) (c : Constraints) :
    Option Constraints :=
  if P.WMM = WMM_TSO then some (tsoLoop (segment begin_ end_ trace) [] c)
  else if P.WMM = WMM_PSO then some (psoLoop (segment begin_ end_ trace) [] c)
  else none

end Constraints

/-! ### Segmentation and `Calculate` -/

/-- The function `findNextBegin`: from `end_` on, the first index that is `trace.size()` or holds an
entry with a non-zero label. `none`: an access beyond the vector, or no fuel left. -/
def findNextBegin : Nat → Nat → Trace → Option Nat
  | 0, _, _ => none
  | fuel + 1, end_, trace =>
    if end_ = trace.length then some end_
    else
      match (trace)[end_]? with
      | none => none
      | some e => if e.label ≠ 0 then some end_ else findNextBegin fuel (end_ + 1) trace

/-- The function `findNextEnd`: from `begin_` on, the first index that is `trace.size()` or holds an
entry with label 0. `none`: an access beyond the vector, or no fuel left. -/
def findNextEnd : Nat → Nat → Trace → Option Nat
  | 0, _, _ => none
  | fuel + 1, begin_, trace =>
    if begin_ = trace.length then some begin_
    else
      match (trace)[begin_]? with
      | none => none
      | some e => if e.label = 0 then some begin_ else findNextEnd fuel (begin_ + 1) trace

/-- The loop `while (1) { if ((*trace_temp)[front].label != 0) break; front++; }` of
`Calculate`. -/
def findFront : Nat → Nat → Trace → Option Nat
  | 0, _, _ => none
  | fuel + 1, front, trace =>
    match (trace)[front]? with
    | none => none
    | some e => if e.label ≠ 0 then some front else findFront fuel (front + 1) trace

/-- The segmentation loop of `Calculate` for one thread,
`while (1) { if (front == back) break; GenerateClauses(front, back, ...); front =
findNextBegin(back, ...); back = findNextEnd(front, ...); }`, with the call of
`GenerateClauses` as the parameter `body`. -/
def segmentLoop {σ : Type} (body : Nat → Nat → σ → Option σ) (trace : Trace) :
    Nat → Nat → Nat → σ → Option σ
  | 0, _, _, _ => none
  | fuel + 1, front, back, s =>
    if front = back then some s
    else
      match body front back s with
      | none => none
      | some s' =>
        match findNextBegin (trace.length + 1) back trace with
        | none => none
        | some front' =>
          match findNextEnd (trace.length + 1) front' trace with
          | none => none
          | some back' => segmentLoop body trace fuel front' back' s'

/-- The body of the loop `for (Thread i = 1; i < nextThreadNum; ++i)` of `Calculate` that
generates the constraints of one thread's trace; `none` when an assertion fails. Every
loop gets `trace.size() + 1` units of fuel. -/
def perThread {σ : Type} (body : Nat → Nat → σ → Option σ) (trace_temp : Trace) (s : σ) :
    Option σ :=
  match trace_temp with
  | [] => none
  | e :: _ =>
    if e.label = 0 then none
    else
      match findFront (trace_temp.length + 1) 0 trace_temp with
      | none => none
      | some front =>
        match findNextEnd (trace_temp.length + 1) front trace_temp with
        | none => none
        | some back => segmentLoop body trace_temp (trace_temp.length + 1) front back s

/-- The `(begin, end)` ranges that the segmentation of one thread's trace passes to
`GenerateClauses`, in the order of the calls. -/
def threadRanges (trace_temp : Trace) : Option (List (Nat × Nat)) :=
  perThread (fun b e (acc : List (Nat × Nat)) => some (acc ++ [(b, e)])) trace_temp []

namespace Constraints

/-- The trace `allTrace[i]` of `Calculate`: the entries of thread `i`, in log order. -/
def threadTrace (shared_rec : Trace) (i : Nat) : Trace :=
  shared_rec.filter (fun e => decide (e.thr = i))

/-- The loop `for (Thread i = 1; i < nextThreadNum; ++i)` of `Calculate` that generates
the constraints, over the thread tags still to come. -/
def calcThreads (P : Params) (shared_rec : Trace) : List Nat → Constraints → Option Constraints
  | [], c => some c
  | i :: rest, c =>
    match perThread (fun b e s => GenerateClauses P b e (threadTrace shared_rec i) s)
        (threadTrace shared_rec i) c with
    | none => none
    | some c' => calcThreads P shared_rec rest c'

/-- The function `Constraints::Calculate` on `history->shared_rec`. `none`: an entry of a thread
outside `1 .. nextThreadNum - 1` (for which `allTrace` holds no trace), a failed
assertion, or `exit(1)`. -/
def Calculate (P : Params) (shared_rec : Trace) (nextThreadNum : Nat) (c : Constraints) :
    Option Constraints :=
  if shared_rec.all (fun e => decide (1 ≤ e.thr ∧ e.thr < nextThreadNum)) then
    calcThreads P shared_rec (List.range' 1 (nextThreadNum - 1)) { c with clauses := [] }
  else none

end Constraints

/-! ### Selection of the fence sites (`Merge`) and the end of a bad run -/

/-- The type `InstrLabel_map`: `map<int, Instruction*>`, from the label of an instruction to the
instruction; an instruction is named by a number. -/
abbrev InstrLabel_map := List (Int × Nat)

/-- The access `instrLabelMap[label]`: the instruction with that label, `none` for the null pointer
that `operator[]` yields when no instruction has the label. -/
def instrLookup : InstrLabel_map → Int → Option Nat
  | [], _ => none
  | (k, i) :: rest, label => if k = label then some i else instrLookup rest label

namespace Constraints

/-- The first loop of `Merge`: the size of the smallest solution, or `clauseIndex` when all
are larger. -/
def minSolutionSize : List (List Int) → Nat → Nat
  | [], counter => counter
  | list :: rest, counter =>
    minSolutionSize rest (if counter > list.length then list.length else counter)

/-- The second loop of `Merge`: the literals of every solution of the smallest size are
inserted into `mergedSatSolution`. -/
def mergeSolutions (counter : Nat) : List (List Int) → List Int → List Int
  | [], merged => merged
  | list :: rest, merged =>
    mergeSolutions counter rest
      (if counter = list.length then list.foldl (fun m ci => setInsert ci m) merged
        else merged)

/-- The loop over `mapToLit` that looks for the pair of a literal: the first entry, in the
order of the keys, whose literal is `lit`. -/
def findPairOf : Constraint_To_Lit → Int → Option constraint_pair
  | [], _ => none
  | (k, v) :: rest, lit => if v = lit then some k else findPairOf rest lit

/-- The third loop of `Merge`, over the literals of `mergedSatSolution` still to visit:
the pair of the literal is looked up in `mapToLit` (and only there; a default-constructed
pair is `(0, 0)`), the literal is erased when the instruction of the pair's store is in
`solvedStores` and kept otherwise, the instruction then being put into `solvedStores`.
Returns the literals kept and the final `solvedStores`. -/
def mergeLoop (mapToLit : Constraint_To_Lit) (instrLabelMap : InstrLabel_map) :
    List Int → List (Option Nat) → List Int × List (Option Nat)
  | [], solvedStores => ([], solvedStores)
  | lit :: rest, solvedStores =>
    let pair := (findPairOf mapToLit lit).getD (0, 0)
    let thisStore := instrLookup instrLabelMap pair.1
    if thisStore ∈ solvedStores then mergeLoop mapToLit instrLabelMap rest solvedStores
    else
      let r := mergeLoop mapToLit instrLabelMap rest (thisStore :: solvedStores)
      (lit :: r.1, r.2)

/-- The function `Constraints::Merge`. `solvedStores` is the function-local `static set<StoreInst*>`,
which keeps its content from one call to the next; the new content is returned with the
new state. -/
def Merge (instrLabelMap : InstrLabel_map) (solvedStores : List (Option Nat))
    (c : Constraints) : Constraints × List (Option Nat) :=
  let counter := minSolutionSize c.satSolutions c.clauseIndex.toNat
  let merged := mergeSolutions counter c.satSolutions c.mergedSatSolution
  let r := mergeLoop c.mapToLit instrLabelMap merged solvedStores
  ({ c with mergedSatSolution := r.1 }, r.2)

/-- How the treatment of a bad run ends. -/
inductive BadRunEnd where
  | exited (code : Int)
  | constraint (c : Constraints)
  | failed
  deriving DecidableEq, Repr

/-- The treatment of a bad run in `Interpreter::run` in the synthesis mode
(`toFix == true`), after `ExitStatus` became 253 or the segmentation-fault flag was found
set: `constraintsHandler.Calculate(rw_history, nextThreadNum)`, then `exit(255)` when
`GetLitSingleNumber() == 0`. -/
def handleBadRun (P : Params) (shared_rec : Trace) (nextThreadNum : Nat) (c : Constraints) :
    BadRunEnd :=
  match Calculate P shared_rec nextThreadNum c with
  | none => BadRunEnd.failed
  | some c' =>
    if GetLitSingleNumber c' = 0 then BadRunEnd.exited 255 else BadRunEnd.constraint c'

end Constraints

/-- The classification of a run in `Interpreter::run`: bad when `checkHistory` returned
253 or the segmentation-fault flag is set. -/
def classifiedBad (checkerResult : CheckTrace.Outcome) (segmentFaultFlag : Bool) : Prop :=
  checkerResult = CheckTrace.Outcome.returned 253 ∨ segmentFaultFlag = true

/-! ### Notions used to state and prove the properties of the checker -/

namespace CheckTrace

/-- The strict lexicographic order on vectors of thread tags. -/
abbrev LexLt (a b : List Nat) : Prop := List.Lex (· < ·) a b

/-- The sequence of `thread_perm` values produced by repeated `std::next_permutation`,
until it returns false (or `fuel` calls were made). -/
def threadPermsFrom : Nat → List Nat → List (List Nat)
  | 0, tp => [tp]
  | fuel + 1, tp =>
    match next_permutation tp with
    | none => [tp]
    | some tp' => tp :: threadPermsFrom fuel tp'

/-- Starting from `tp`, `next_permutation` returns false after at most `k` successful
calls. -/
def endsWithin : Nat → List Nat → Prop
  | 0, tp => next_permutation tp = none
  | k + 1, tp => ∀ tp', next_permutation tp = some tp' → endsWithin k tp'

/-- The number of permutations of `b` that are greater than `tp`. -/
def permRank (b tp : List Nat) : Nat :=
  (b.permutations.filter (fun q => decide (LexLt tp q))).length

/-- The thread tags of the matched calls, in recording order. -/
def tidsOf (init_perm : List perm_elem) : List Nat := init_perm.map (fun c => c.elem.thread)

/-- Call `j` is the earliest call of thread `t` that is not among `done`. -/
def IsPick (init_perm : List perm_elem) (done : List Nat) (t j : Nat) : Prop :=
  j < init_perm.length ∧ tidOf init_perm j = t ∧ j ∉ done ∧
    ∀ k, k < j → tidOf init_perm k = t → k ∈ done

/-- The relation `Picks init_perm done tp js`: after the calls `done`, the calls `js` are chosen for the
thread tags `tp`, each the earliest call of its thread not chosen before. -/
inductive Picks (init_perm : List perm_elem) : List Nat → List Nat → List Nat → Prop where
  | nil (done : List Nat) : Picks init_perm done [] []
  | cons {done : List Nat} {t j : Nat} {rest js : List Nat} :
      IsPick init_perm done t j → Picks init_perm (done ++ [j]) rest js →
        Picks init_perm done (t :: rest) (j :: js)

/-- The calls of one thread keep their recording order in `p`. -/
def KeepsThreadOrder (init_perm : List perm_elem) (p : List Nat) : Prop :=
  p.Pairwise (fun a b => tidOf init_perm a = tidOf init_perm b → a < b)

/-- The `index` array cuts each thread's calls into the used ones (below) and the rest. -/
def Cut (ip : List perm_elem) (index : Nat → Nat) (done : List Nat) : Prop :=
  ∀ k, k < ip.length → (k < index (tidOf ip k) ↔ k ∈ done)

/-- Earlier calls of a thread are used before later ones. -/
def DownClosed (ip : List perm_elem) (done : List Nat) : Prop :=
  ∀ a ∈ done, ∀ k, k < a → tidOf ip k = tidOf ip a → k ∈ done

/-- The assignment loop run on zeroed `index` and `curr_perm` vectors. -/
def assignFresh (init_perm : List perm_elem) (tp : List Nat) : List Nat :=
  assignCalls init_perm tp 0 (fun _ => 0) (List.replicate init_perm.length 0)

end CheckTrace

namespace CheckTrace

/-- A history entry for the call of `f` on thread `t` with arguments `args`. -/
def callEntry (f : String) (t : Nat) (args : List Int) : trace_elem :=
  ⟨inst_type.CALL_FUNC, args, 0, f, t⟩

/-- A history entry for the return of `f` on thread `t` with value `r`. -/
def returnEntry (f : String) (t : Nat) (r : Int) : trace_elem :=
  ⟨inst_type.RETURN_FUNC, [], r, f, t⟩

/-- A recorded history: thread 1 puts 7 while thread 2 steals it. -/
def sampleHistory : List trace_elem :=
  [callEntry "wsq_put" 1 [7], callEntry "wsq_steal" 2 [], returnEntry "wsq_put" 1 1,
    returnEntry "wsq_steal" 2 7]

end CheckTrace

namespace CheckTrace

/-- The test a permutation has to pass in the loop of `checkHistory`: the real-time order
(under PROP_LIN only) and the replay. -/
def accepted (P : Params) (X : WSQExtern) (U : Indet) (init_perm : List perm_elem)
    (p : List Nat) : Prop :=
  (P.Property = PROP_LIN → isRealTimeOrderPreserved init_perm p = true) ∧
    checkPermutation P X U init_perm p = some true

/-- A value for the reference operations that are not among the sources: the THE and
ANCHOR queues behave like the Chase queue, the deque adds and removes at both ends. -/
def sampleExtern : WSQExtern where
  seq_wsq_put_the := WSQ.seq_wsq_put_chase
  seq_wsq_take_the := WSQ.seq_wsq_take_chase
  seq_wsq_steal_the := WSQ.seq_wsq_steal_chase
  seq_wsq_put_anchor := WSQ.seq_wsq_put_chase
  seq_wsq_take_anchor := WSQ.seq_wsq_take_chase
  seq_wsq_steal_anchor := WSQ.seq_wsq_steal_chase
  seq_deque_add_left := fun task q => (1, task :: q)
  seq_deque_add_right := fun task q => (1, q ++ [task])
  seq_deque_remove_left := WSQ.seq_wsq_steal_chase
  seq_deque_remove_right := WSQ.seq_wsq_take_chase

/-- Indeterminate values, all zero. -/
def sampleIndet : Indet := ⟨0, 0, fun _ => 0⟩

end CheckTrace

/-! ### Notions used to state and prove the properties of the constraint generator -/

/-- The label of `trace[i]`, `none` beyond the trace. -/
def labelAt (trace : Trace) (i : Nat) : Option Int := ((trace)[i]?).map (fun e => e.label)

/-- The range `[b, e)` is a maximal run of consecutive entries with a non-zero label. -/
def IsMaxRun (trace : Trace) (b e : Nat) : Prop :=
  b < e ∧ e ≤ trace.length ∧ (∀ i, b ≤ i → i < e → labelAt trace i ≠ some 0) ∧
    (b = 0 ∨ labelAt trace (b - 1) = some 0) ∧ (e = trace.length ∨ labelAt trace e = some 0)

/-- A log entry without a value. -/
def logEntry (thr : Nat) (type : RWType) (location : Nat) (label : Int) : rwtrace_elem :=
  ⟨thr, type, 0, location, label⟩

/-- A thread's trace with a fence in the middle: a store and a load, the fence, then two
stores, a random flush and two loads, and the final flush of the buffer. -/
def sampleThreadTrace : Trace :=
  [logEntry 1 RWType.WRITE 100 5, logEntry 1 RWType.READ 200 6,
    logEntry 1 RWType.FLUSH_FENCE 0 0,
    logEntry 1 RWType.WRITE 100 7, logEntry 1 RWType.WRITE 200 8,
    logEntry 1 RWType.FLUSH_RANDOM_TSO 0 (-1),
    logEntry 1 RWType.READ 100 9, logEntry 1 RWType.READ 300 10,
    logEntry 1 RWType.FLUSH_INSTR 0 0]

namespace Constraints

/-- Literal assignment is injective over both maps and uses exactly the literals
`1 .. clauseIndex - 1`. -/
structure LitInv (c : Constraints) : Prop where
  index_pos : 1 ≤ c.clauseIndex
  range_sl : ∀ p l, mapFind c.mapToLit p = some l → 1 ≤ l ∧ l < c.clauseIndex
  range_ss : ∀ p l, mapFind c.mapToLit_ss p = some l → 1 ≤ l ∧ l < c.clauseIndex
  inj_sl : ∀ p q l, mapFind c.mapToLit p = some l → mapFind c.mapToLit q = some l → p = q
  inj_ss : ∀ p q l, mapFind c.mapToLit_ss p = some l → mapFind c.mapToLit_ss q = some l → p = q
  disjoint : ∀ p q l, mapFind c.mapToLit p = some l → mapFind c.mapToLit_ss q ≠ some l
  used : ∀ l, 1 ≤ l → l < c.clauseIndex →
    ∃ p, mapFind c.mapToLit p = some l ∨ mapFind c.mapToLit_ss p = some l

/-- Every pair that has a literal in `c` has the same literal in `c'`. -/
structure Stable (c c' : Constraints) : Prop where
  sl : ∀ p l, mapFind c.mapToLit p = some l → mapFind c'.mapToLit p = some l
  ss : ∀ p l, mapFind c.mapToLit_ss p = some l → mapFind c'.mapToLit_ss p = some l
  index_le : c.clauseIndex ≤ c'.clauseIndex

/-- The state `c'` extends `c`: assigned literals are kept and the invariant is kept. -/
def Extends (c c' : Constraints) : Prop := Stable c c' ∧ (LitInv c → LitInv c')

/-- A step of a round that touches the literal maps: a direct call of `GenerateClauses`
on a segment, or the `Calculate` of a bad run. -/
inductive RoundStep where
  | generate (begin_ end_ : Nat) (tr : Trace)
  | calculate (shared_rec : Trace) (nextThreadNum : Nat)

/-- The steps of a round, one after the other; `none` when one of them does not return. -/
def runRound (P : Params) : List RoundStep → Constraints → Option Constraints
  | [], c => some c
  | RoundStep.generate b e tr :: rest, c =>
    match GenerateClauses P b e tr c with
    | none => none
    | some c' => runRound P rest c'
  | RoundStep.calculate shared_rec n :: rest, c =>
    match Calculate P shared_rec n c with
    | none => none
    | some c' => runRound P rest c'

end Constraints

namespace Constraints

/-- The TSO configuration used in the examples. -/
def sampleParamsTSO : Params := ⟨PROP_LIN, WMM_TSO, program_type.WSQ_CHASE, true⟩

/-- The PSO configuration used in the examples. -/
def sampleParamsPSO : Params := ⟨PROP_LIN, WMM_PSO, program_type.WSQ_CHASE, true⟩

/-- The state after `Calculate` on the sample trace under TSO, from a fresh state. -/
def sampleState1 : Constraints :=
  { clauses := [1, 2, 3]
    clauseIndex := 4
    mapToLit := [((5, 6), 1), ((8, 9), 2), ((8, 10), 3)]
    mapToLit_ss := []
    satSolutions := []
    mergedSatSolution := [] }

/-- A second trace: a store and a load of another location. -/
def sampleTrace2 : Trace :=
  [logEntry 1 RWType.WRITE 100 11, logEntry 1 RWType.READ 200 12]

/-- The state after `GenerateClauses` on the first segment of the sample trace and on
the second trace, from `sampleState1`. -/
def sampleState2 : Constraints :=
  { clauses := [1, 2, 3, 4]
    clauseIndex := 5
    mapToLit := [((5, 6), 1), ((8, 9), 2), ((8, 10), 3), ((11, 12), 4)]
    mapToLit_ss := []
    satSolutions := []
    mergedSatSolution := [] }

/-- One step of the FIFO that the TSO branch of `GenerateClauses` simulates, in the words
of the specification: a WRITE is appended, a FLUSH_RANDOM_TSO removes the oldest entry
(if any), every other entry leaves the FIFO as it is. -/
def tsoFifoStep (fifo : List rwtrace_elem) (e : rwtrace_elem) : List rwtrace_elem :=
  if e.type = RWType.WRITE then fifo ++ [e]
  else if e.type = RWType.FLUSH_RANDOM_TSO then fifo.tail
  else fifo

/-- The simulated FIFO when entry `k` of the segment is reached, from the content
`fifo`. -/
def tsoFifoFrom (fifo : List rwtrace_elem) (seg : List rwtrace_elem) (k : Nat) :
    List rwtrace_elem :=
  (seg.take k).foldl tsoFifoStep fifo

/-- The simulated FIFO when entry `k` of the segment is reached; it starts empty. -/
def tsoFifoAt (seg : List rwtrace_elem) (k : Nat) : List rwtrace_elem :=
  tsoFifoFrom [] seg k

end Constraints

namespace Constraints

/-- One step of the FIFOs that the PSO branch of `GenerateClauses` simulates, in the words
of the specification: one FIFO per address; a WRITE at `L` is appended to the FIFO of
`L`, a FLUSH_RANDOM_PSO at `L` removes the oldest entry of the FIFO of `L`, a
FLUSH_CAS_PSO at `L` empties it. -/
def psoFifoStep (fifo : Nat → List rwtrace_elem) (e : rwtrace_elem) :
    Nat → List rwtrace_elem :=
  if e.type = RWType.WRITE then Function.update fifo e.location (fifo e.location ++ [e])
  else if e.type = RWType.FLUSH_RANDOM_PSO then
    Function.update fifo e.location (fifo e.location).tail
  else if e.type = RWType.FLUSH_CAS_PSO then Function.update fifo e.location []
  else fifo

/-- The simulated FIFOs when entry `k` of the segment is reached, from the content
`fifo`. -/
def psoFifoFrom (fifo : Nat → List rwtrace_elem) (seg : List rwtrace_elem) (k : Nat) :
    Nat → List rwtrace_elem :=
  (seg.take k).foldl psoFifoStep fifo

/-- The simulated FIFOs when entry `k` of the segment is reached; all start empty. -/
def psoFifoAt (seg : List rwtrace_elem) (k : Nat) : Nat → List rwtrace_elem :=
  psoFifoFrom (fun _ => []) seg k

/-- The list that `var_store_buffer` holds for an address, empty when it holds none. -/
def bufGet : SSBuffer → Nat → List rwtrace_elem
  | [], _ => []
  | (k, l) :: rest, a => if k = a then l else bufGet rest a

/-- All entries of `var_store_buffer`, in the order the loops of `GenerateClauses` visit
them. -/
def bufAll : SSBuffer → List rwtrace_elem
  | [] => []
  | (_, l) :: rest => l ++ bufAll rest

/-- The change of `var_store_buffer` that the PSO loop makes for the entry `e`. -/
def psoBufStep (buf : SSBuffer) (e : rwtrace_elem) : SSBuffer :=
  if e.type = RWType.READ then buf
  else if e.type = RWType.WRITE then bufUpdate e.location (fun l => l ++ [e]) buf
  else if e.type = RWType.FLUSH_RANDOM_PSO then
    bufUpdate e.location (fun l => if l ≠ [] then l.tail else l) buf
  else if e.type = RWType.FLUSH_CAS_PSO then bufUpdate e.location (fun _ => []) buf
  else buf

/-- A pair with its kind: `true` for a store-load pair (`mapToLit`), `false` for a
store-store pair (`mapToLit_ss`). -/
abbrev KindedPair := Bool × constraint_pair

/-- The literal of a pair of the given kind is looked up or assigned and put into the
clause. -/
def emitPair (c : Constraints) (p : KindedPair) : Constraints :=
  if p.1 then emitStoreLoad c p.2.1 p.2.2 else emitStoreStore c p.2.1 p.2.2

/-- The literal of a pair in the map of its kind. -/
def litOf (c : Constraints) (p : KindedPair) : Option Int :=
  if p.1 then mapFind c.mapToLit p.2 else mapFind c.mapToLit_ss p.2

/-- The pairs of a list are emitted one after the other. -/
def emitAll (ps : List KindedPair) (c : Constraints) : Constraints := ps.foldl emitPair c

/-- The pairs of kind `kind` that the entry `e` forms with the buffered entries at another
location. -/
def pairsWith (kind : Bool) (e : rwtrace_elem) (l : List rwtrace_elem) : List KindedPair :=
  (l.filter (fun w => decide (e.location ≠ w.location))).map
    (fun w => (kind, (w.label, e.label)))

/-- The pairs that the PSO loop emits for the entry `e`. -/
def psoEmitted (e : rwtrace_elem) (buf : SSBuffer) : List KindedPair :=
  if e.type = RWType.READ then pairsWith true e (bufAll buf)
  else if e.type = RWType.WRITE then pairsWith false e (bufAll buf)
  else []

/-- The pairs that the PSO loop emits for a segment, in order. -/
def psoPairs : List rwtrace_elem → SSBuffer → List KindedPair
  | [], _ => []
  | e :: rest, buf => psoEmitted e buf ++ psoPairs rest (psoBufStep buf e)

/-- The content of `var_store_buffer` represents the FIFOs `fifo`: the addresses are in
increasing order, the list of an address is its FIFO, and every entry sits in the FIFO of
its own location. -/
structure Rep (buf : SSBuffer) (fifo : Nat → List rwtrace_elem) : Prop where
  sorted : buf.Pairwise (fun a b => a.1 < b.1)
  get : ∀ a, bufGet buf a = fifo a
  loc : ∀ a, ∀ w ∈ fifo a, w.location = a

end Constraints

/-- The calls of `body` on the ranges of a list, one after the other. -/
def foldRanges {σ : Type} (body : Nat → Nat → σ → Option σ) :
    List (Nat × Nat) → σ → Option σ
  | [], s => some s
  | r :: rs, s =>
    match body r.1 r.2 s with
    | none => none
    | some s' => foldRanges body rs s'

namespace Constraints

/-- The segment exhibits a pair: under TSO a READ is reached while the simulated FIFO
holds an entry at another location; under PSO a READ or a WRITE is reached while the FIFO
of another address is not empty. -/
def ExhibitsPair (P : Params) (seg : List rwtrace_elem) : Prop :=
  (P.WMM = WMM_TSO ∧ ∃ k r w, seg[k]? = some r ∧ r.type = RWType.READ ∧
      w ∈ tsoFifoAt seg k ∧ w.location ≠ r.location) ∨
    (P.WMM = WMM_PSO ∧ ∃ k r a w, seg[k]? = some r ∧
      (r.type = RWType.READ ∨ r.type = RWType.WRITE) ∧ a ≠ r.location ∧
      w ∈ psoFifoAt seg k a)

/-- A shared read/write log of a run of two threads in which no thread has a store
buffered when it loads: thread 1 stores to one location, thread 2 loads it. -/
def plainTrace : Trace :=
  [logEntry 1 RWType.WRITE 100 5, logEntry 2 RWType.READ 100 20]

end Constraints

namespace CheckTrace

/-- A history that no sequential order explains: thread 1 puts 7, thread 2 steals 9. -/
def wrongStealHistory : List trace_elem :=
  [callEntry "wsq_put" 1 [7], returnEntry "wsq_put" 1 1, callEntry "wsq_steal" 2 [],
    returnEntry "wsq_steal" 2 9]

end CheckTrace

namespace Constraints

/-- The label map of a module of 50 instructions: the instruction with label `i` is
named `i`. -/
def sampleLabelMap : InstrLabel_map :=
  (List.range 50).map (fun i => (((i + 1 : Nat) : Int), i + 1))

/-- The trace of a bad run under PSO: thread 1 stores to two locations, from the
instructions labelled 10 and 20. -/
def storeStoreTrace1 : Trace :=
  [logEntry 1 RWType.WRITE 100 10, logEntry 1 RWType.WRITE 200 20]

/-- The trace of a second bad run under PSO: thread 1 stores to two other locations, from
the instructions labelled 30 and 40. -/
def storeStoreTrace2 : Trace :=
  [logEntry 1 RWType.WRITE 300 30, logEntry 1 RWType.WRITE 400 40]

/-- The state after `Calculate` on the two traces under PSO, from a fresh state. -/
def storeStoreState : Constraints :=
  { clauses := [2]
    clauseIndex := 3
    mapToLit := []
    mapToLit_ss := [((10, 20), 1), ((30, 40), 2)]
    satSolutions := []
    mergedSatSolution := [] }

end Constraints

/-! ## Store-buffer engine (Interpreter.h, Interpreter.cpp, Execution.cpp, ExecutionEngine.cpp)

The model follows the build without `VIRTUALMEMORY` (addresses are native addresses) on a
host whose byte order is the target's, so that `StoreValueToMemory` does not reverse the
bytes it has written. Memory is an array of bytes indexed by the address. -/

namespace Interpreter

/-- The members of `GenericValue` (declared in `GenericValue.h`) that the engine reads: the
integer `IntVal` and the address `PointerVal`. -/
structure GenericValue where
  IntVal : Nat
  PointerVal : Nat
  deriving DecidableEq, Repr

/-- A handle `const Type*` of an IR type. -/
abbrev TypeRef := Nat

/-- The byte image of the values of each IR type, which `StoreValueToMemory` and
`LoadValueFromMemory` take from `APInt::getRawData`, `TargetData::getTypeStoreSize` and the
layout of the members of `GenericValue`, all declared outside the sources at hand:
`storeImage ty v` are the bytes that storing `v` with type `ty` leaves at `Ptr`, `Ptr + 1`, ...;
`loadBytes ty` is the number of bytes that a load with type `ty` reads and `loadValue ty` the
value it makes of them. -/
structure Target where
  storeImage : TypeRef → GenericValue → List Nat
  loadBytes : TypeRef → Nat
  loadValue : TypeRef → List Nat → GenericValue

/-- The memory of the host: the byte at each address. -/
abbrev Memory := Nat → Nat

/-- Copies the bytes `bs` to the addresses `p`, `p + 1`, ... (`memcpy` to `p`). -/
def writeBytes (p : Nat) (bs : List Nat) (m : Memory) : Memory :=
  fun a => if p ≤ a ∧ a < p + bs.length then bs.getD (a - p) 0 else m a

/-- The `n` bytes at the addresses `p`, `p + 1`, ... -/
def readBytes (p n : Nat) (m : Memory) : List Nat :=
  (List.range n).map (fun i => m (p + i))

/-- The function `ExecutionEngine::StoreValueToMemory`. -/
def StoreValueToMemory (T : Target) (Val : GenericValue) (Ptr : Nat) (Ty : TypeRef)
    (m : Memory) : Memory :=
  writeBytes Ptr (T.storeImage Ty Val) m

/-- The function `ExecutionEngine::LoadValueFromMemory`. -/
def LoadValueFromMemory (T : Target) (Ptr : Nat) (Ty : TypeRef) (m : Memory) : GenericValue :=
  T.loadValue Ty (readBytes Ptr (T.loadBytes Ty) m)

/-- The conversion of an unsigned value to `int` (32 bit, two's complement). -/
def toInt32 (n : Nat) : Int :=
  if n % 2 ^ 32 < 2 ^ 31 then ((n % 2 ^ 32 : Nat) : Int) else ((n % 2 ^ 32 : Nat) : Int) - 2 ^ 32

/-- The value of an `int` expression, wrapped to 32 bit. -/
def wrapInt32 (x : Int) : Int := toInt32 (x % 2 ^ 32).toNat

/-- The conversion of an `int` to `size_t` (64 bit). -/
def toSizeT (x : Int) : Nat := (x % 2 ^ 64).toNat

/-- The function `ExecutionEngine::getPhysicalBaseAddressHeap` over the entries of
`bytesAtPhysicalAddress` in the order of the keys; the result 0 is `NULL`. The locals
`A`, `B`, `C` are `int`. -/
def getPhysicalBaseAddressHeap : List (Nat × Int) → Nat → Nat
  | [], _ => 0
  | (first, second) :: rest, addr =>
    let C := toInt32 addr
    let A := toInt32 first
    let B := wrapInt32 (A + second)
    if C ≥ A ∧ C < B then first else getPhysicalBaseAddressHeap rest addr

/-- A frame, `struct ExecutionContext`: the member `Allocas` (`AllocaHolder`), that is the
addresses of the stack allocations in the order they were made and the map
`bytesAllocated` (0 for an absent key), and the cursor `CurInst`, the position in the
function of the next instruction to execute. -/
structure ExecutionContext where
  Allocations : List Nat
  bytesAllocated : Nat → Int
  CurInst : Int := 0

/-- An entry of a TSO buffer: `tso_buff_elem`. -/
structure tso_buff_elem where
  pointer : GenericValue
  value : GenericValue
  type : TypeRef
  deriving DecidableEq, Repr

/-- A PSO buffer of one thread: `map<GenericValue, list<GenericValue>>`, as the list of its
entries in the order of the keys. The keys are addresses and are compared as such (the
order on `GenericValue` is declared in `GenericValue.h`). -/
abbrev PsoBuffer := List (Nat × List GenericValue)

/-- The queue at key `p`, empty when the key is absent. -/
def psoQueue : PsoBuffer → Nat → List GenericValue
  | [], _ => []
  | (k, q) :: rest, p => if k = p then q else psoQueue rest p

/-- The access `buffer[p]` followed by a change `f` of the queue found: an absent key is
inserted with an empty queue at its place in the order of the keys. -/
def psoUpdate (p : Nat) (f : List GenericValue → List GenericValue) : PsoBuffer → PsoBuffer
  | [] => [(p, f [])]
  | (k, q) :: rest =>
    if k = p then (k, f q) :: rest
    else if p < k then (p, f []) :: (k, q) :: rest
    else (k, q) :: psoUpdate p f rest

/-- The class `ThreadKey`: the value `key` and the function `destructor`, both 0 for the
null pointer. -/
structure ThreadKey where
  key : Nat
  destructor : Nat
  deriving DecidableEq, Repr

/-- The state of `class Interpreter` that the store-buffer engine reads and writes. The map
`threadKeys` is the list of its entries in the order of the keys, each key the pair of a
thread and the address of a name. -/
structure Interp where
  memory : Memory
  threadStacks : List (Nat × List ExecutionContext)
  currThread : Nat
  thread_buffer_tso : Nat → List tso_buff_elem
  thread_buffer_pso : Nat → PsoBuffer
  pso_types : Nat → TypeRef
  rwtrace_rec : Trace
  bytesAtPhysicalAddress : List (Nat × Int)
  segmentFaultFlag : Bool
  isSharedAccessing : Bool
  isBlocked : Bool := false
  threadKeys : List ((Nat × Nat) × ThreadKey) := []

/-- The access `threadStacks[t]`: the frames of thread `t`. -/
def stackOf : List (Nat × List ExecutionContext) → Nat → List ExecutionContext
  | [], _ => []
  | (k, frames) :: rest, t => if k = t then frames else stackOf rest t

/-- The function `Interpreter::isAddressOnStack`; `A`, `B`, `C` are `size_t`. -/
def isAddressOnStack (mem : Nat) (st : Interp) : Bool :=
  (stackOf st.threadStacks st.currThread).any (fun frame =>
    frame.Allocations.any (fun A =>
      let B := (A + toSizeT (frame.bytesAllocated A)) % 2 ^ 64
      decide (A ≤ mem ∧ mem < B)))

/-- The function `APInt::getLimitedValue()` followed by the conversion to `int`. -/
def limitedInt (v : Nat) : Int := toInt32 (min v (2 ^ 64 - 1))

/-- The function `RWHistory::RecordRWEvent(ptr, val, thr, type, label)`. -/
def RecordRWEvent (ptr val : GenericValue) (thr : Nat) (type : RWType) (label : Int)
    (log : Trace) : Trace :=
  log ++ [{ thr := thr, type := type, value := limitedInt val.IntVal,
            location := ptr.PointerVal, label := label }]

/-- The function `RWHistory::RecordRWEvent(thr, type, label)`; `u` is the indeterminate
initial content of the local `elem`, whose `value` and `location` are not set. -/
def RecordRWEventThr (u : rwtrace_elem) (thr : Nat) (type : RWType) (label : Int)
    (log : Trace) : Trace :=
  log ++ [{ u with thr := thr, type := type, label := label }]

/-- The function `RWHistory::RecordRWEvent(ptr, thr, type, label)`; `u` is the indeterminate
initial content of the local `elem`, whose `value` is not set. -/
def RecordRWEventPtr (u : rwtrace_elem) (ptr : GenericValue) (thr : Nat) (type : RWType)
    (label : Int) (log : Trace) : Trace :=
  log ++ [{ u with location := ptr.PointerVal, thr := thr, type := type, label := label }]

/-- A loop `while (cond) body;`: `none` when `fuel` rounds did not reach the end. -/
def whileLoop (cond : Interp → Bool) (body : Interp → Interp) : Nat → Interp → Option Interp
  | 0, st => if cond st then none else some st
  | fuel + 1, st => if cond st then whileLoop cond body fuel (body st) else some st

end Interpreter

namespace Interpreter

/-! ### TSO -/

/-- The function `Interpreter::visitStoreInstTSO` for a store of `Val` with type `Ty` to the
address `Ptr` by the instruction with label `label_instr`. -/
def visitStoreInstTSO (T : Target) (Val Ptr : GenericValue) (Ty : TypeRef) (label_instr : Int)
    (st : Interp) : Interp :=
  if isAddressOnStack Ptr.PointerVal st then
    { st with memory := StoreValueToMemory T Val Ptr.PointerVal Ty st.memory }
  else
    { st with
      thread_buffer_tso := Function.update st.thread_buffer_tso st.currThread
        (st.thread_buffer_tso st.currThread ++ [{ pointer := Ptr, value := Val, type := Ty }])
      rwtrace_rec := RecordRWEvent Ptr Val st.currThread RWType.WRITE label_instr st.rwtrace_rec
      isSharedAccessing := true }

/-- The search of `visitLoadInstTSO` through the buffer from `rbegin()` to `rend()`: the
first entry met whose address is `a`. -/
def newestEntry (a : Nat) (buffer : List tso_buff_elem) : Option tso_buff_elem :=
  buffer.reverse.find? (fun e => decide (e.pointer.PointerVal = a))

/-- The function `Interpreter::visitLoadInstTSO` for a load with type `Ty` from the address
`Ptr`: the value given to the instruction (`SetValue`) and the new state. -/
def visitLoadInstTSO (T : Target) (Ptr : GenericValue) (Ty : TypeRef) (label_instr : Int)
    (st : Interp) : GenericValue × Interp :=
  match newestEntry Ptr.PointerVal (st.thread_buffer_tso st.currThread) with
  | some e =>
    (e.value,
      { st with
        rwtrace_rec :=
          RecordRWEvent Ptr e.value st.currThread RWType.READ label_instr st.rwtrace_rec })
  | none =>
    let Result := LoadValueFromMemory T Ptr.PointerVal Ty st.memory
    if !isAddressOnStack Ptr.PointerVal st then
      (Result,
        { st with
          rwtrace_rec :=
            RecordRWEvent Ptr Result st.currThread RWType.READ label_instr st.rwtrace_rec
          isSharedAccessing := true })
    else (Result, st)

/-- The function `Interpreter::flush_buffer_tso`. -/
def flush_buffer_tso (T : Target) (t : Nat) (st : Interp) : Interp :=
  match st.thread_buffer_tso t with
  | [] => st
  | elem :: rest =>
    { st with
      thread_buffer_tso := Function.update st.thread_buffer_tso t rest
      memory := StoreValueToMemory T elem.value elem.pointer.PointerVal elem.type st.memory }

/-- The loop `while (!thread_buffer_tso[t].empty()) flush_buffer_tso(t);`. -/
def drain_tso (T : Target) (t : Nat) (fuel : Nat) (st : Interp) : Option Interp :=
  whileLoop (fun s => decide (s.thread_buffer_tso t ≠ [])) (flush_buffer_tso T t) fuel st

/-! ### PSO -/

/-- The state after the access `thread_buffer_pso[t][p]`, which inserts an absent key. -/
def touchPso (t p : Nat) (st : Interp) : Interp :=
  { st with
    thread_buffer_pso := Function.update st.thread_buffer_pso t
      (psoUpdate p (fun q => q) (st.thread_buffer_pso t)) }

/-- The function `Interpreter::visitLoadInstPSO`: the value given to the instruction, `none`
when the function returns before `SetValue`, and the new state. `Result0` is the content
of the local `Result` before it is assigned. -/
def visitLoadInstPSO (T : Target) (Result0 : GenericValue) (Ptr : GenericValue) (Ty : TypeRef)
    (label_instr : Int) (st : Interp) : Option GenericValue × Interp :=
  let queue := psoQueue (st.thread_buffer_pso st.currThread) Ptr.PointerVal
  let st := touchPso st.currThread Ptr.PointerVal st
  if queue ≠ [] then
    let Result := queue.getLastD Result0
    if !isAddressOnStack Ptr.PointerVal st then
      if getPhysicalBaseAddressHeap st.bytesAtPhysicalAddress Ptr.PointerVal = 0 then
        (none, { st with segmentFaultFlag := true })
      else
        (some Result,
          { st with
            rwtrace_rec :=
              RecordRWEvent Ptr Result st.currThread RWType.READ label_instr st.rwtrace_rec
            isSharedAccessing := true })
    else (some Result, st)
  else
    if !isAddressOnStack Ptr.PointerVal st then
      if getPhysicalBaseAddressHeap st.bytesAtPhysicalAddress Ptr.PointerVal = 0 then
        (none, { st with segmentFaultFlag := true })
      else
        (some (LoadValueFromMemory T Ptr.PointerVal Ty st.memory),
          { st with
            rwtrace_rec :=
              RecordRWEvent Ptr Result0 st.currThread RWType.READ label_instr st.rwtrace_rec
            isSharedAccessing := true })
    else (some (LoadValueFromMemory T Ptr.PointerVal Ty st.memory), st)

/-- The function `Interpreter::flush_buffer_pso`; `p` is the address held by its second
argument, the only member of it that is read. -/
def flush_buffer_pso (T : Target) (t : Nat) (p : Nat) (st : Interp) : Interp :=
  match psoQueue (st.thread_buffer_pso t) p with
  | [] => touchPso t p st
  | v :: _ =>
    let st :=
      { st with
        thread_buffer_pso := Function.update st.thread_buffer_pso t
          (psoUpdate p (fun q => q.tail) (st.thread_buffer_pso t)) }
    if getPhysicalBaseAddressHeap st.bytesAtPhysicalAddress p = 0 then
      { st with segmentFaultFlag := true }
    else
      { st with memory := StoreValueToMemory T v p (st.pso_types p) st.memory }

/-- The loop `while (!queue.empty()) flush_buffer_pso(t, p);` for the queue at the key `p` of
`thread_buffer_pso[t]`, a key that the map has. -/
def drain_pso (T : Target) (t p : Nat) (fuel : Nat) (st : Interp) : Option Interp :=
  whileLoop (fun s => decide (psoQueue (s.thread_buffer_pso t) p ≠ []))
    (flush_buffer_pso T t p) fuel st

/-- The loop of `membar_ss` and `membar_sl` over the entries of `thread_buffer_pso[t]`, each
of which is flushed until its queue is empty. -/
def drainAll_pso (T : Target) (t : Nat) (fuel : Nat) (st : Interp) : Option Interp :=
  ((st.thread_buffer_pso t).map Prod.fst).foldlM (fun s p => drain_pso T t p fuel s) st

/-! ### Fences -/

/-- The function `Interpreter::membar_ss`. -/
def membar_ss (P : Params) (T : Target) (u : rwtrace_elem) (fuel : Nat) (t : Nat)
    (st : Interp) : Option Interp :=
  (if P.WMM = WMM_NONE then some st
    else if P.WMM = WMM_TSO then some st
    else if P.WMM = WMM_PSO then drainAll_pso T t fuel st
    else some st).map
    (fun s => { s with rwtrace_rec := RecordRWEventThr u t RWType.FLUSH_FENCE 0 s.rwtrace_rec })

/-- The function `Interpreter::membar_sl`. -/
def membar_sl (P : Params) (T : Target) (u : rwtrace_elem) (fuel : Nat) (t : Nat)
    (st : Interp) : Option Interp :=
  (if P.WMM = WMM_NONE then some st
    else if P.WMM = WMM_TSO then drain_tso T t fuel st
    else if P.WMM = WMM_PSO then drainAll_pso T t fuel st
    else some st).map
    (fun s => { s with rwtrace_rec := RecordRWEventThr u t RWType.FLUSH_FENCE 0 s.rwtrace_rec })

end Interpreter

namespace Interpreter

/-! ### Compare-and-swap, end of a run

The interpreter reads and writes the `int` at `natAddr` itself; the host is little-endian. -/

/-- The `n` low bytes of `v`, lowest first. -/
def leBytes (n v : Nat) : List Nat :=
  (List.range n).map (fun i => v / 256 ^ i % 256)

/-- The number whose bytes, lowest first, are `bs`. -/
def leValue : List Nat → Nat
  | [] => 0
  | b :: bs => b + 256 * leValue bs

/-- The read `*natAddr` of an `int`. -/
def readInt (natAddr : Nat) (m : Memory) : Int := toInt32 (leValue (readBytes natAddr 4 m))

/-- The write `*natAddr = y` of an `int`. -/
def writeInt (natAddr : Nat) (y : Int) (m : Memory) : Memory :=
  writeBytes natAddr (leBytes 4 (y % 2 ^ 32).toNat) m

/-- The part of `Interpreter::visitCAS` (with `inst == CAS32`) that follows the loops which
flush the buffer: the test of the address, the comparison of the `int` at the address with
`arg2`, the write of `arg3` and the entries of the log. The result is the value given to
the call, `none` when the function returns before, and the new state. -/
def casBody (P : Params) (u : rwtrace_elem) (arg1 arg2 arg3 : GenericValue)
    (label_instr : Int) (st : Interp) : Option Int × Interp :=
  let natAddr := arg1.PointerVal
  if getPhysicalBaseAddressHeap st.bytesAtPhysicalAddress natAddr = 0 then
    (none, { st with segmentFaultFlag := true })
  else
    let x := limitedInt arg2.IntVal
    let y := limitedInt arg3.IntVal
    let hit : Bool := decide (readInt natAddr st.memory = x)
    let st :=
      if hit then
        let st := { st with memory := writeInt natAddr y st.memory }
        if P.WMM = WMM_TSO then
          { st with
            rwtrace_rec := RecordRWEvent arg1 arg3 st.currThread RWType.WRITE 0 st.rwtrace_rec }
        else if P.WMM = WMM_PSO then
          { st with
            rwtrace_rec :=
              RecordRWEvent arg1 arg3 st.currThread RWType.WRITE label_instr st.rwtrace_rec }
        else st
      else st
    let ret : Int := if hit then 1 else 0
    let st :=
      if P.WMM = WMM_TSO then
        { st with
          rwtrace_rec :=
            RecordRWEventThr u st.currThread RWType.FLUSH_CAS_TSO 0 st.rwtrace_rec }
      else if P.WMM = WMM_PSO then
        { st with
          rwtrace_rec :=
            RecordRWEventPtr u arg1 st.currThread RWType.FLUSH_CAS_PSO (-1) st.rwtrace_rec }
      else st
    (some ret, st)

/-- The function `Interpreter::visitCAS` with `inst == CAS32`, called by the instruction with
label `label_instr` with the arguments `arg1` (the address), `arg2` and `arg3`; the result
is `none` when `fuel` rounds did not end the loop that flushes the buffer. -/
def visitCAS (P : Params) (T : Target) (u : rwtrace_elem) (fuel : Nat)
    (arg1 arg2 arg3 : GenericValue) (label_instr : Int) (st : Interp) :
    Option (Option Int × Interp) :=
  (if P.WMM = WMM_TSO then drain_tso T st.currThread fuel st
    else if P.WMM = WMM_PSO then
      drain_pso T st.currThread arg1.PointerVal fuel (touchPso st.currThread arg1.PointerVal st)
    else some st).map (casBody P u arg1 arg2 arg3 label_instr)

/-- The function `Interpreter::getAllActiveThreads`: the threads whose stack is not empty. -/
def getAllActiveThreads (st : Interp) : List Nat :=
  (st.threadStacks.filter (fun e => !e.2.isEmpty)).map Prod.fst

/-- The body of the outer loop of `flushAll` under PSO for the thread `t`. -/
def flushAllThreadPso (T : Target) (u : rwtrace_elem) (t : Nat) (st : Interp) : Interp :=
  let st := ((st.thread_buffer_pso t).map Prod.fst).foldl
    (fun s p =>
      if psoQueue (s.thread_buffer_pso t) p ≠ [] then flush_buffer_pso T t p s else s) st
  { st with rwtrace_rec := RecordRWEventThr u t RWType.FLUSH_INSTR 0 st.rwtrace_rec }

/-- The function `Interpreter::flushAll`. -/
def flushAll (P : Params) (T : Target) (u : rwtrace_elem) (fuel : Nat) (st : Interp) :
    Option Interp :=
  if P.WMM = WMM_TSO then
    (getAllActiveThreads st).foldlM (fun s t =>
      (drain_tso T t fuel s).map (fun s =>
        { s with rwtrace_rec := RecordRWEventThr u t RWType.FLUSH_INSTR 0 s.rwtrace_rec })) st
  else if P.WMM = WMM_PSO then
    some ((getAllActiveThreads st).foldl (fun s t => flushAllThreadPso T u t s) st)
  else some st

/-- The engine part of the branch `if (getAllActiveThreads().size() == 0)` of
`Interpreter::run`: `flushAll()` is called when no thread is enabled; `none` stands for the
other branch, in which the scheduler goes on. -/
def runNoThread (P : Params) (T : Target) (u : rwtrace_elem) (fuel : Nat) (st : Interp) :
    Option (Option Interp) :=
  if (getAllActiveThreads st).length = 0 then some (flushAll P T u fuel st) else none

end Interpreter

/-! ## Fence insertion (Constraints.cpp, lli-synth.cpp) -/

/-- An instruction of the module as far as the fence insertion reads and writes it: the
number that names the `Instruction` object (as in `InstrLabel_map`), its `label_instr`, and
for a call the name of the function called (`none` for every other instruction). -/
structure Instruction where
  id : Nat
  label_instr : Int
  callee : Option String
  deriving DecidableEq, Repr

/-- A function of the module: its name and its basic blocks, each the list of its
instructions; a declaration has no block. -/
structure IRFunction where
  name : String
  blocks : List (List Instruction)
  deriving DecidableEq, Repr

/-- The type `Module`: the list of its functions. -/
abbrev Module := List IRFunction

/-- The basic blocks of a module, in the order of the loops `for F ... for BB ...`. -/
def allBlocks (M : Module) : List (List Instruction) := M.flatMap (fun F => F.blocks)

/-- The instructions of a module, in the order of the loops `for F ... for BB ... for I ...`. -/
def allInstructions (M : Module) : List Instruction := (allBlocks M).flatten

/-- The function `Module::getOrInsertFunction`: a function of that name is declared when the
module has none. -/
def getOrInsertFunction (name : String) (M : Module) : Module :=
  if M.any (fun F => decide (F.name = name)) then M else M ++ [⟨name, []⟩]

/-- The number that names the object which `CallInst::Create` allocates: one that names no
instruction of the module. -/
def freshId (M : Module) : Nat := (allInstructions M).foldl (fun m I => max m I.id) 0 + 1

/-- The insertion of `call` before the successor of the instruction `instr` in a basic block:
`BasicBlock::iterator I = instr; I++; CallInst::Create(fence, "", I)`. -/
def insertAfterInBlock (instr : Nat) (call : Instruction) : List Instruction → List Instruction
  | [] => []
  | I :: rest =>
    if I.id = instr then I :: call :: rest else I :: insertAfterInBlock instr call rest

/-- The insertion of `call` after the instruction `instr` in its basic block. -/
def insertAfter (instr : Nat) (call : Instruction) (M : Module) : Module :=
  M.map (fun F => { F with blocks := F.blocks.map (insertAfterInBlock instr call) })

/-- The function `InsertSLFencesAfter`. -/
def InsertSLFencesAfter (instr : Nat) (M : Module) : Module :=
  insertAfter instr ⟨freshId M, 0, some "membar_sl"⟩ (getOrInsertFunction "membar_sl" M)

/-- The function `InsertSSFencesAfter`. -/
def InsertSSFencesAfter (instr : Nat) (M : Module) : Module :=
  insertAfter instr ⟨freshId M, 0, some "membar_ss"⟩ (getOrInsertFunction "membar_ss" M)

/-- The function `Constraints::SetupInstructionLabelMap`, over the instructions of the module
still to visit: `map::insert` has no effect when the label has an entry. -/
def setupLabels : List Instruction → InstrLabel_map → InstrLabel_map
  | [], m => m
  | I :: rest, m =>
    setupLabels rest
      (if (instrLookup m I.label_instr).isSome then m else m ++ [(I.label_instr, I.id)])

/-- The function `Constraints::SetupInstructionLabelMap` on the empty `instrLabelMap`. The
entries are kept in the order of insertion; only `instrLabelMap[label]` reads the map. -/
def SetupInstructionLabelMap (M : Module) : InstrLabel_map := setupLabels (allInstructions M) []

namespace Constraints

/-- The body of the loop of `Constraints::InsertFences` for the literal `lit`: the pair of
the literal is looked for in `mapToLit`, then in `mapToLit_ss` (a default-constructed pair
is `(0, 0)`), and the fence is inserted after `instrLabelMap[pair.first]`; `none` when this
is the null pointer, which the insertion dereferences. -/
def insertFenceFor (instrLabelMap : InstrLabel_map) (c : Constraints) (lit : Int)
    (M : Module) : Option Module :=
  match findPairOf c.mapToLit lit with
  | some pair => (instrLookup instrLabelMap pair.1).map (fun instr => InsertSLFencesAfter instr M)
  | none =>
    let pair := (findPairOf c.mapToLit_ss lit).getD (0, 0)
    (instrLookup instrLabelMap pair.1).map (fun instr => InsertSSFencesAfter instr M)

/-- The loop of `Constraints::InsertFences` over the literals `lits`. -/
def insertFencesFrom (instrLabelMap : InstrLabel_map) (c : Constraints) (lits : List Int)
    (M : Module) : Option Module :=
  lits.foldlM (fun M lit => insertFenceFor instrLabelMap c lit M) M

/-- The function `Constraints::InsertFences`. -/
def InsertFences (instrLabelMap : InstrLabel_map) (c : Constraints) (M : Module) :
    Option Module :=
  insertFencesFrom instrLabelMap c c.mergedSatSolution M

end Constraints

namespace Interpreter

/-- The statement `SF.CurInst--` on the frame `ECStack->back()`, the last frame of the
stack. -/
def rewindBack : List ExecutionContext → List ExecutionContext
  | [] => []
  | SF :: rest =>
    if rest.isEmpty then [{ SF with CurInst := SF.CurInst - 1 }] else SF :: rewindBack rest

/-- A change `f` of the stack `threadStacks[t]`. -/
def onStack (t : Nat) (f : List ExecutionContext → List ExecutionContext) :
    List (Nat × List ExecutionContext) → List (Nat × List ExecutionContext)
  | [] => []
  | (k, frames) :: rest =>
    if k = t then (k, f frames) :: rest else (k, frames) :: onStack t f rest

/-- The function `Interpreter::visitJoinAll`, called with the frame `ECStack->back()` of the
current thread; `u` is the indeterminate content of the log entry that `RecordRWEvent`
does not set. -/
def visitJoinAll (u : rwtrace_elem) (st : Interp) : Interp :=
  let liveThreads := (st.threadStacks.filter (fun e => !e.2.isEmpty)).length
  let st1 : Interp :=
    if liveThreads > 1 then
      { st with
        isBlocked := true
        threadStacks := onStack st.currThread rewindBack st.threadStacks }
    else st
  { st1 with rwtrace_rec := RecordRWEventThr u st1.currThread RWType.JOIN 0 st1.rwtrace_rec }

end Interpreter

/-! ## Scheduler (Action.h, Scheduler.cpp) -/

namespace Scheduler

open Interpreter

/-- The type `enum ActionType`. -/
inductive ActionType where
  | SWITCH_THREAD
  | FLUSH_BUFFER
  | NO_ACTION
  deriving DecidableEq, Repr

/-- The class `Action`; `pso_var` is the address that the `GenericValue` holds. -/
structure Action where
  type : ActionType
  thread : Nat
  pso_var : Nat
  deriving DecidableEq, Repr

/-- The value `RANDOM` of `scheduler_type`. -/
def RANDOM : Nat := 0
/-- The value `DBRR` of `scheduler_type`. -/
def DBRR : Nat := 1
/-- The value `PREDICTIVE` of `scheduler_type`. -/
def PREDICTIVE : Nat := 2

/-- What the scheduler reads besides the interpreter and `Params::WMM`: the field
`Params::Scheduler`, the values that the calls of `rand()` return, in the order of the
calls, and the outcome of the test `((double) r / RAND_MAX) > Params::flushProb` for a
value `r` of `rand()`. -/
structure Env where
  Scheduler : Nat
  rand : Nat → Nat
  overFlushProb : Nat → Bool

/-- What the scheduler keeps between two calls: the number of calls of `rand()` made so
far and the static variable `thdIndex` of `selectAction1`, the tag of a `Thread` that is
`Thread(-1)` at the start. -/
structure State where
  randCalls : Nat
  thdIndex : Int
  deriving DecidableEq, Repr

/-- The function `belongsTo`. -/
def belongsTo : List Nat → Nat → Bool
  | [], _ => false
  | it :: rest, thd => if it = thd then true else belongsTo rest thd

/-- The loop of `pickUpNextThreadRR`: the first element for which `*it > thd` holds, `none`
when the loop ends with `it == thds.end()`. -/
def firstAbove : List Nat → Int → Option Nat
  | [], _ => none
  | it :: rest, thd => if (it : Int) > thd then some it else firstAbove rest thd

/-- The function `pickUpNextThreadRR`; `none` when it reads `*(thds.begin())` of an empty
vector. -/
def pickUpNextThreadRR (thds : List Nat) (thd : Int) : Option Nat :=
  match firstAbove thds thd with
  | some it => some it
  | none => thds.head?

/-- The expression `v[rand() % v.size()]`; `none` when `v` is empty (a division by 0). -/
def pickRandom (C : Env) (v : List Nat) (s : State) : Option (Nat × State) :=
  if v.length = 0 then none
  else some (v.getD (C.rand s.randCalls % v.length) 0, { s with randCalls := s.randCalls + 1 })

/-- The function `Scheduler::selectAction1`. `u` is the content of a fresh `Action` (its
`thread` is `Thread()`, tag 0). The result is `none` when the function does not return an
action: undefined behaviour (an empty list of enabled threads) or a failed
`ASSERT(0, ...)`, taken to end the run (the macro is declared outside the sources at
hand). -/
def selectAction1 (P : Params) (C : Env) (u : Action) (st : Interp) (s : State) :
    Option (Action × State) :=
  let action : Action := { u with thread := 0 }
  if C.Scheduler = RANDOM then
    let enabled := getAllActiveThreads st
    let coin : Bool × State :=
      if P.WMM = WMM_NONE then (true, s)
      else (C.overFlushProb (C.rand s.randCalls), { s with randCalls := s.randCalls + 1 })
    let s := coin.2
    if coin.1 then
      (pickRandom C enabled s).map (fun r => ({ action with type := ActionType.SWITCH_THREAD,
                                                            thread := r.1 }, r.2))
    else if P.WMM = WMM_NONE then
      some ({ action with type := ActionType.NO_ACTION }, s)
    else if P.WMM = WMM_TSO then
      (pickRandom C enabled s).map (fun r => ({ action with type := ActionType.FLUSH_BUFFER,
                                                            thread := r.1 }, r.2))
    else if P.WMM = WMM_PSO then
      (pickRandom C enabled s).bind (fun r =>
        let possibleAddress :=
          ((st.thread_buffer_pso r.1).filter (fun mit => !mit.2.isEmpty)).map Prod.fst
        if possibleAddress.length ≠ 0 then
          (pickRandom C possibleAddress r.2).map (fun a =>
            ({ action with thread := r.1, type := ActionType.FLUSH_BUFFER, pso_var := a.1 },
              a.2))
        else some ({ action with thread := r.1, type := ActionType.NO_ACTION }, r.2))
    else some (action, s)
  else if C.Scheduler = DBRR then
    let enabled := getAllActiveThreads st
    (pickUpNextThreadRR enabled s.thdIndex).bind (fun thd =>
      let action : Action := { action with thread := thd }
      let coin := C.overFlushProb (C.rand s.randCalls)
      let s : State := { randCalls := s.randCalls + 1, thdIndex := thd }
      if coin then
        some ({ action with type := ActionType.SWITCH_THREAD }, s)
      else if P.WMM = WMM_NONE then some ({ action with type := ActionType.NO_ACTION }, s)
      else if P.WMM = WMM_TSO then some ({ action with type := ActionType.FLUSH_BUFFER }, s)
      else if P.WMM = WMM_PSO then none
      else some (action, s))
  else if C.Scheduler = PREDICTIVE then some (action, s)
  else none

/-- The function `Scheduler::selectAction`. -/
def selectAction (P : Params) (C : Env) (u : Action) (st : Interp) (s : State) :
    Option (Action × State) :=
  let enabled := getAllActiveThreads st
  let action : Action := { u with thread := 0 }
  if st.isBlocked then selectAction1 P C u st s
  else if !st.isSharedAccessing then
    let action := { action with type := ActionType.SWITCH_THREAD }
    let curr := st.currThread
    if belongsTo enabled curr then some ({ action with thread := curr }, s)
    else selectAction1 P C u st s
  else selectAction1 P C u st s

end Scheduler

/-! ## Invocation log (History.h, History.cpp, Interpreter.cpp) -/

/-- What the recorder reads of a `Type`: the results of `isPointerTy()` and of
`isIntegerTy()`. -/
structure IRType where
  isPointerTy : Bool
  isIntegerTy : Bool
  deriving DecidableEq, Repr

/-- The data members of `class History`. -/
structure History where
  trace_rec : List trace_elem
  recur_calls : List Int
  paramTypes : List IRType
  intVals : List Int
  deriving DecidableEq, Repr

namespace History

open Interpreter

/-- The state that the constructor `History::History()` leaves. -/
def init : History := ⟨[], [0, 0], [], []⟩

/-- The function `History::RecordFirstEvent`. -/
def RecordFirstEvent (P : Params) (h : History) : History :=
  if P.recTrace then { h with recur_calls := h.recur_calls ++ [0] } else h

/-- The function `Interpreter::getInvokeHistoryData`; `args` are the actual arguments of the
call site, each with its type and its value (`getOperandValue`). The values are
converted to `int`, the element type of `intVals`. -/
def getInvokeHistoryData (args : List (IRType × GenericValue)) (h : History) : History :=
  args.foldl (fun h it =>
    if it.1.isPointerTy then
      { h with paramTypes := h.paramTypes ++ [it.1]
               intVals := h.intVals ++ [toInt32 it.2.PointerVal] }
    else if it.1.isIntegerTy then
      { h with paramTypes := h.paramTypes ++ [it.1]
               intVals := h.intVals ++ [limitedInt it.2.IntVal] }
    else h) { h with paramTypes := [], intVals := [] }

/-- The loop `for (it = 0; it < paramTypes.size(); it++)` of `RecordInvokeEvent`, from the
index `it` on: the values pushed to `elem.arg_vals`; `none` when `intVals[it]` is read
beyond the end of the vector. -/
def argValsFrom (intVals : List Int) : List IRType → Nat → Option (List Int)
  | [], _ => some []
  | ty :: rest, it =>
    if ty.isPointerTy || ty.isIntegerTy then
      match intVals[it]? with
      | none => none
      | some v => (argValsFrom intVals rest (it + 1)).map (fun l => v :: l)
    else (argValsFrom intVals rest (it + 1)).map (fun l => 0 :: l)

/-- The function `History::RecordInvokeEvent`. `funcs_rec` is the set `Params::funcs_rec`,
`junk` the indeterminate `ret_val` of the local `elem`. The result is `none` when a vector
is read beyond its end. The counter is incremented as an integer (it is bounded by the
depth of the call stack). -/
def RecordInvokeEvent (P : Params) (funcs_rec : List String) (junk : Int)
    (currFunction : String) (currThread : Nat) (h : History) : Option History :=
  if P.recTrace then
    if currFunction ∈ funcs_rec then
      match h.recur_calls[currThread]? with
      | none => none
      | some d =>
        (if d = 0 then
          (argValsFrom h.intVals h.paramTypes 0).map (fun arg_vals =>
            { h with trace_rec := h.trace_rec ++
                [⟨inst_type.CALL_FUNC, arg_vals, junk, currFunction, currThread⟩] })
        else some h).map (fun h1 =>
          { h1 with recur_calls := h1.recur_calls.set currThread (d + 1) })
    else some h
  else some h

/-- The value `elem.ret_val` that `RecordReturnEvent` records. -/
def returnValue (RetTy : IRType) (Result : GenericValue) : Int :=
  if RetTy.isPointerTy ∧ Result.PointerVal ≠ 0 then toInt32 Result.PointerVal
  else if RetTy.isIntegerTy then limitedInt Result.IntVal
  else 0

/-- The function `History::RecordReturnEvent`; `none` when `recur_calls` is read beyond its
end. -/
def RecordReturnEvent (P : Params) (funcs_rec : List String) (RetTy : IRType)
    (Result : GenericValue) (currFunction : String) (currThread : Nat) (h : History) :
    Option History :=
  if P.recTrace then
    if currFunction ∈ funcs_rec then
      match h.recur_calls[currThread]? with
      | none => none
      | some d =>
        let h1 : History :=
          if d = 1 then
            { h with trace_rec := h.trace_rec ++
                [⟨inst_type.RETURN_FUNC, [], returnValue RetTy Result, currFunction,
                  currThread⟩] }
          else h
        some { h1 with recur_calls := h1.recur_calls.set currThread (d - 1) }
    else some h
  else some h

/-- What the recorder sees of a thread: a call of a function that `visitCallSite` does not
handle itself (`getInvokeHistoryData` followed by `RecordInvokeEvent`), or the return
from a function (`visitReturnInst`). -/
inductive Event where
  | call (f : String) (args : List (IRType × GenericValue)) (junk : Int)
  | ret (f : String) (RetTy : IRType) (Result : GenericValue)

/-- The recorder at one event of the thread `t`. -/
def recordEvent (P : Params) (funcs_rec : List String) (t : Nat) (h : History) :
    Event → Option History
  | Event.call f args junk =>
    RecordInvokeEvent P funcs_rec junk f t (getInvokeHistoryData args h)
  | Event.ret f RetTy Result => RecordReturnEvent P funcs_rec RetTy Result f t h

/-- The recorder at the events of the thread `t`, one after the other. -/
def recordEvents (P : Params) (funcs_rec : List String) (t : Nat) :
    List Event → History → Option History
  | [], h => some h
  | e :: rest, h => (recordEvent P funcs_rec t h e).bind (recordEvents P funcs_rec t rest)

end History

/-! ## Filter of the shared read/write log (RWHistory.cpp) -/

namespace RWHistory

/-- The access `map[location]` followed by a change `f` of the vector or set found: an
absent key is inserted with an empty value at its place in the order of the keys. -/
def mapModify {α : Type} (location : Nat) (f : List α → List α) :
    List (Nat × List α) → List (Nat × List α)
  | [] => [(location, f [])]
  | (k, v) :: rest =>
    if k = location then (k, f v) :: rest
    else if location < k then (location, f []) :: (k, v) :: rest
    else (k, v) :: mapModify location f rest

/-- The locals of `FindSharedRW` during its first loop: the loop variable `i`, the flags,
the arrays `sharedIndex` and `index` as far as they are written (element `i` is written in
round `i`), the map `m` (the indices of the accesses per location; it is read with
`operator[]` only) and the map `t` (the threads per location). -/
structure Scan where
  i : Nat
  hasSpawn : Bool
  hasJoin : Bool
  sharedIndex : List Bool
  index : List Bool
  m : Nat → List Nat
  t : List (Nat × List Int)

/-- One round of the first loop of `FindSharedRW`, for the entry `e = rwtrace_rec[i]`. The
last `else`, an `assert(0)`, is not reached: the ten values of `RWType` are handled before
it. -/
def scanStep (s : Scan) (e : rwtrace_elem) : Scan :=
  let hasSpawn := if e.type = RWType.SPAWN then true else s.hasSpawn
  let hasJoin := if e.type = RWType.SPAWN then false else s.hasJoin
  let hasSpawn := if e.type = RWType.JOIN then false else hasSpawn
  let hasJoin := if e.type = RWType.JOIN then true else hasJoin
  let sharedIndex := s.sharedIndex ++ [if hasSpawn && !hasJoin then true else false]
  if e.type = RWType.FLUSH_RANDOM_TSO ∨ e.type = RWType.FLUSH_RANDOM_PSO ∨
      e.type = RWType.FLUSH_FENCE ∨ e.type = RWType.FLUSH_INSTR ∨
      e.type = RWType.FLUSH_CAS_TSO ∨ e.type = RWType.FLUSH_CAS_PSO then
    { s with i := s.i + 1, hasSpawn := hasSpawn, hasJoin := hasJoin,
             sharedIndex := sharedIndex, index := s.index ++ [true] }
  else if e.type = RWType.SPAWN ∨ e.type = RWType.JOIN then
    { s with i := s.i + 1, hasSpawn := hasSpawn, hasJoin := hasJoin,
             sharedIndex := sharedIndex, index := s.index ++ [false] }
  else if e.type = RWType.WRITE ∨ e.type = RWType.READ then
    { i := s.i + 1, hasSpawn := hasSpawn, hasJoin := hasJoin,
      sharedIndex := sharedIndex, index := s.index ++ [false],
      m := Function.update s.m e.location (s.m e.location ++ [s.i]),
      t := mapModify e.location (setInsert (e.thr : Int)) s.t }
  else
    { s with i := s.i + 1, hasSpawn := hasSpawn, hasJoin := hasJoin,
             sharedIndex := sharedIndex, index := s.index ++ [false] }

/-- The second loop of `FindSharedRW`, over the entries of `t`: the indices kept in `m` for a
location with a thread are set in `index`. -/
def markLoop (m : Nat → List Nat) : List (Nat × List Int) → List Bool → List Bool
  | [], index => index
  | iter :: rest, index =>
    markLoop m rest
      (if iter.2.length > 0 then
        (m iter.1).foldl (fun index it => index.set it true) index
      else index)

/-- The third loop of `FindSharedRW`: the entries pushed to `shared_rec`. -/
def collect (rwtrace_rec : Trace) (index sharedIndex : List Bool) : Trace :=
  (List.range rwtrace_rec.length).filterMap (fun i =>
    if index.getD i false && sharedIndex.getD i false then (rwtrace_rec)[i]? else none)

/-- The function `RWHistory::FindSharedRW`: the content of `shared_rec` that it leaves. -/
def FindSharedRW (P : Params) (rwtrace_rec shared_rec : Trace) : Trace :=
  if P.logging then
    let s := rwtrace_rec.foldl scanStep ⟨0, false, false, [], [], fun _ => [], []⟩
    let index := markLoop s.m s.t s.index
    shared_rec ++ collect rwtrace_rec index s.sharedIndex
  else shared_rec

end RWHistory

namespace Interpreter

/-! ### Random flush, heap table, thread keys, threads -/

/-- The branch `action.type == FLUSH_BUFFER` of the loop of `Interpreter::run`; `u` is the
indeterminate content of the log entry that `RecordRWEvent` does not set. -/
def runFlushAction (P : Params) (T : Target) (u : rwtrace_elem) (action : Scheduler.Action)
    (st : Interp) : Interp :=
  if P.WMM = WMM_TSO then
    let st := flush_buffer_tso T action.thread st
    { st with
      rwtrace_rec :=
        RecordRWEventThr u st.currThread RWType.FLUSH_RANDOM_TSO (-1) st.rwtrace_rec }
  else if P.WMM = WMM_PSO then
    let st := flush_buffer_pso T action.thread action.pso_var st
    { st with
      rwtrace_rec :=
        RecordRWEventPtr u ⟨0, action.pso_var⟩ st.currThread RWType.FLUSH_RANDOM_PSO (-1)
          st.rwtrace_rec }
  else st

/-- The assignment `bytesAtPhysicalAddress[addr] = numBytes`. -/
def tableSet (addr : Nat) (numBytes : Int) : List (Nat × Int) → List (Nat × Int)
  | [] => [(addr, numBytes)]
  | (k, v) :: rest =>
    if k = addr then (k, numBytes) :: rest
    else if addr < k then (addr, numBytes) :: (k, v) :: rest
    else (k, v) :: tableSet addr numBytes rest

/-- The function `Interpreter::visitMalloc`; `virtualAddr` is the address that the `malloc`
of the host returns. The result is the value given to the call. -/
def visitMalloc (numBytes : Int) (virtualAddr : Nat) (st : Interp) : Nat × Interp :=
  (virtualAddr,
    { st with
      bytesAtPhysicalAddress := tableSet virtualAddr numBytes st.bytesAtPhysicalAddress })

/-- The function `Interpreter::visitFree`; `none` when one of its `ASSERT(0, ...)` is
reached. -/
def visitFree (virtualAddr : Nat) (st : Interp) : Option Interp :=
  let virtualBase := getPhysicalBaseAddressHeap st.bytesAtPhysicalAddress virtualAddr
  if virtualBase = 0 then none
  else if virtualBase ≠ virtualAddr then none
  else some { st with
    bytesAtPhysicalAddress := tableSet virtualBase 0 st.bytesAtPhysicalAddress }

/-- The order of the keys of `threadKeys`: the pairs are compared by the thread first and
by the address of the name next. -/
def keyLt (a b : Nat × Nat) : Bool := decide (a.1 < b.1 ∨ (a.1 = b.1 ∧ a.2 < b.2))

/-- The assignment `threadKeys[k] = thread_key`. -/
def keysSet (k : Nat × Nat) (thread_key : ThreadKey) :
    List ((Nat × Nat) × ThreadKey) → List ((Nat × Nat) × ThreadKey)
  | [] => [(k, thread_key)]
  | (k0, v0) :: rest =>
    if k0 = k then (k0, thread_key) :: rest
    else if keyLt k k0 then (k, thread_key) :: (k0, v0) :: rest
    else (k0, v0) :: keysSet k thread_key rest

/-- The entry of `threadKeys` with the key `k`, if there is one. -/
def keysFind : List ((Nat × Nat) × ThreadKey) → Nat × Nat → Option ThreadKey
  | [], _ => none
  | (k0, v0) :: rest, k => if k0 = k then some v0 else keysFind rest k

/-- The operation `std::set<Thread>::insert` on the increasing list of the elements. -/
def threadInsert (t : Nat) : List Nat → List Nat
  | [] => [t]
  | y :: rest =>
    if t = y then y :: rest
    else if t < y then t :: y :: rest
    else y :: threadInsert t rest

/-- The loop of `visitKeyCreate` that fills `tmp_threads` from the threads of the keys of
`threadKeys`: a thread is inserted when `tmp_threads.find` has found it. -/
def collectThreads (threadKeys : List ((Nat × Nat) × ThreadKey)) : List Nat :=
  threadKeys.foldl (fun tmp_threads cit =>
    if cit.1.1 ∈ tmp_threads then threadInsert cit.1.1 tmp_threads else tmp_threads) []

/-- The function `Interpreter::visitKeyCreate` with the arguments `natAddr` (the address of
the name of the key) and `arg` (the pointer to the destructor). `funcs` are the pointers to
the functions of the module, a function being named by its pointer; `found0` and
`funcAddr0` are the indeterminate initial values of the locals `found` and `funcAddr`. The
result is the value given to the call; `none` when `ASSERT(found, ...)` fails. -/
def visitKeyCreate (funcs : List Nat) (found0 : Bool) (funcAddr0 : Nat) (natAddr arg : Nat)
    (st : Interp) : Option (Int × Interp) :=
  let found := if arg ∈ funcs then true else found0
  let funcAddr := if arg ∈ funcs then arg else funcAddr0
  if found = false then none
  else
    let tmp_threads := collectThreads st.threadKeys
    let threadKeys :=
      tmp_threads.foldl (fun m cit => keysSet (cit, natAddr) ⟨0, 0⟩ m) st.threadKeys
    let threadKeys := keysSet (st.currThread, natAddr) ⟨0, funcAddr⟩ threadKeys
    some (0, { st with threadKeys := threadKeys })

/-- The function `Interpreter::visitKeyGetSpecific`: the pointer given to the call (0 is
`NULL`). -/
def visitKeyGetSpecific (natAddr : Nat) (st : Interp) : Nat :=
  match keysFind st.threadKeys (st.currThread, natAddr) with
  | some thread_key => thread_key.key
  | none => 0

/-- The function `Interpreter::visitKeySetSpecific`; `threadKeys[...]` of an absent key is a fresh
`ThreadKey`, whose members are null. -/
def visitKeySetSpecific (name val : Nat) (st : Interp) : Interp :=
  let thread_key := (keysFind st.threadKeys (st.currThread, name)).getD ⟨0, 0⟩
  { st with
    threadKeys := keysSet (st.currThread, name) { thread_key with key := val } st.threadKeys }

/-- The members of `class Interpreter` that the creation of threads and the recorder of
invocations use: the engine state, the object `history` and the counter
`nextThreadNum` (an `int`, kept as a number: it is bounded by the number of threads). -/
structure Machine where
  interp : Interp
  history : History
  nextThreadNum : Nat

/-- The state that the constructor `Interpreter::Interpreter` leaves; `memory` and `table` are
the memory of the host and the table of the blocks after `physicalizeGlobalVariables`. -/
def construct (memory : Memory) (table : List (Nat × Int)) : Machine where
  interp :=
    { memory := memory
      threadStacks := [(1, [])]
      currThread := 1
      thread_buffer_tso := fun _ => []
      thread_buffer_pso := fun _ => []
      pso_types := fun _ => 0
      rwtrace_rec := []
      bytesAtPhysicalAddress := table
      segmentFaultFlag := false
      isSharedAccessing := false }
  history := History.init
  nextThreadNum := 2

/-- The access `threadStacks[t]` followed by a change `f` of the stack: an absent thread is
inserted with an empty stack at its place in the order of the keys. -/
def stackUpdate (t : Nat) (f : List ExecutionContext → List ExecutionContext) :
    List (Nat × List ExecutionContext) → List (Nat × List ExecutionContext)
  | [] => [(t, f [])]
  | (k, frames) :: rest =>
    if k = t then (k, f frames) :: rest
    else if t < k then (t, f []) :: (k, frames) :: rest
    else (k, frames) :: stackUpdate t f rest

/-- The function `Interpreter::createThread`. `funcs` are the pointers to the functions of
the module; `callee` is the frame that `callFunction` leaves on the stack of the new
thread (`none` for a declaration, whose frame is popped again). The result is `none` when
`ASSERT(found, ...)` fails. -/
def createThread (funcs : List Nat) (callee : Option ExecutionContext)
    (functionToCall : Nat) (m : Machine) : Option Machine :=
  let tag := m.nextThreadNum
  let threadStacks := stackUpdate tag (fun frames => frames) m.interp.threadStacks
  let nextThreadNum := m.nextThreadNum + 1
  if functionToCall ∈ funcs then
    some { m with
      interp := { m.interp with
        threadStacks := stackUpdate tag (fun frames => frames ++ callee.toList) threadStacks }
      nextThreadNum := nextThreadNum }
  else none

/-- The function `Interpreter::visitSpawnThread` for a call `spawn_thread(Arg)`. -/
def visitSpawnThread (P : Params) (funcs : List Nat) (callee : Option ExecutionContext)
    (u : rwtrace_elem) (Arg : Nat) (m : Machine) : Option Machine :=
  (createThread funcs callee Arg m).map (fun m =>
    { m with
      history := History.RecordFirstEvent P m.history
      interp := { m.interp with
        rwtrace_rec :=
          RecordRWEventThr u m.interp.currThread RWType.SPAWN 0 m.interp.rwtrace_rec } })

/-- What a run does with the threads and with the recorder of invocations: the current
thread spawns a thread, the scheduler switches to a thread, the current thread calls a
function that is recorded by `RecordInvokeEvent`, or returns from a function. -/
inductive Step where
  | spawn (Arg : Nat) (callee : Option ExecutionContext)
  | switch (t : Nat)
  | call (f : String) (args : List (IRType × GenericValue)) (junk : Int)
  | ret (f : String) (RetTy : IRType) (Result : GenericValue)

/-- One step of a run. The scheduler switches to threads that have a stack only; the
frames that calls push and returns pop are not followed, so that the steps allowed here
include those of every run. The result is `none` when an `ASSERT` fails or when a vector is
read beyond its end. -/
def step (P : Params) (funcs_rec : List String) (funcs : List Nat) (u : rwtrace_elem)
    (m : Machine) : Step → Option Machine
  | Step.spawn Arg callee => visitSpawnThread P funcs callee u Arg m
  | Step.switch t =>
    if t ∈ m.interp.threadStacks.map Prod.fst then
      some { m with interp := { m.interp with currThread := t } }
    else some m
  | Step.call f args junk =>
    (History.recordEvent P funcs_rec m.interp.currThread m.history
      (History.Event.call f args junk)).map (fun h => { m with history := h })
  | Step.ret f RetTy Result =>
    (History.recordEvent P funcs_rec m.interp.currThread m.history
      (History.Event.ret f RetTy Result)).map (fun h => { m with history := h })

/-- The steps of a run, one after the other. -/
def runSteps (P : Params) (funcs_rec : List String) (funcs : List Nat) (u : rwtrace_elem) :
    List Step → Machine → Option Machine
  | [], m => some m
  | s :: rest, m => (step P funcs_rec funcs u m s).bind (runSteps P funcs_rec funcs u rest)

end Interpreter

/-! ## Configuration (Params.h, Params.cpp) -/

namespace Params

/-- The static fields of `class Params` that `processInputFile` sets, with the local
`methodsFile`. The field `flushProb` is kept as the text given to `atof`, `none` while it has
its initial value 1. -/
structure Config where
  params : Params
  Scheduler : Nat
  flushProb : Option String
  methodsFile : String
  deriving DecidableEq, Repr

/-- The fields at the start of the loop of `processInputFile`: the initial values of the
static fields, `programToCheck = NO_PROGRAM` and `methodsFile = base`. -/
def Config.init (base : String) : Config :=
  ⟨⟨PROP_NONE, WMM_NONE, program_type.NO_PROGRAM, false⟩, Scheduler.RANDOM, none, base⟩

/-- The read `fin >> tmpString` on the words left in the file: at the end of the file
the read fails and the string keeps its content. -/
def readWord : List String → String → String × List String
  | [], tmpString => (tmpString, [])
  | w :: rest, _ => (w, rest)

/-- The chain of `if (str == ...)` in the loop of `processInputFile`, after the two reads
that leave `tmpString`; `none` is a failed `ASSERT(0, ...)`. -/
def applyOption (str tmpString : String) (c : Config) : Option Config :=
  if str = "FLUSHPROB" then some { c with flushProb := some tmpString }
  else if str = "WMM" then
    if tmpString = "NONE" then some { c with params := { c.params with WMM := WMM_NONE } }
    else if tmpString = "TSO" then some { c with params := { c.params with WMM := WMM_TSO } }
    else if tmpString = "PSO" then some { c with params := { c.params with WMM := WMM_PSO } }
    else none
  else if str = "PROPERTY" then
    if tmpString = "LIN" then
      some { c with params := { c.params with Property := PROP_LIN } }
    else if tmpString = "SC" then
      some { c with params := { c.params with Property := PROP_SC } }
    else none
  else if str = "PROGRAM" then
    if tmpString = "WSQ_CHASE" then
      some { c with params := { c.params with programToCheck := program_type.WSQ_CHASE }
                    methodsFile := c.methodsFile ++ "wsq.txt" }
    else if tmpString = "WSQ_LIFO" then
      some { c with params := { c.params with programToCheck := program_type.WSQ_LIFO }
                    methodsFile := c.methodsFile ++ "wsq.txt" }
    else if tmpString = "WSQ_FIFO" then
      some { c with params := { c.params with programToCheck := program_type.WSQ_FIFO }
                    methodsFile := c.methodsFile ++ "wsq.txt" }
    else if tmpString = "WSQ_THE" then
      some { c with params := { c.params with programToCheck := program_type.WSQ_THE }
                    methodsFile := c.methodsFile ++ "wsq.txt" }
    else if tmpString = "WSQ_ANCHOR" then
      some { c with params := { c.params with programToCheck := program_type.WSQ_ANCHOR }
                    methodsFile := c.methodsFile ++ "wsq.txt" }
    else if tmpString = "LF_MALLOC" then
      some { c with params := { c.params with programToCheck := program_type.LF_MALLOC }
                    methodsFile := c.methodsFile ++ "malloc.txt" }
    else if tmpString = "SKIP_LIST" then
      some { c with params := { c.params with programToCheck := program_type.SKIP_LIST }
                    methodsFile := c.methodsFile ++ "skip.txt" }
    else if tmpString = "MS2" ∨ tmpString = "MSN" then
      some { c with params := { c.params with programToCheck := program_type.QUEUE }
                    methodsFile := c.methodsFile ++ "queue.txt" }
    else if tmpString = "SNARK" then
      some { c with params := { c.params with programToCheck := program_type.DEQUE }
                    methodsFile := c.methodsFile ++ "deque.txt" }
    else if tmpString = "LAZYLIST" ∨ tmpString = "HARRIS" then
      some { c with params := { c.params with programToCheck := program_type.LINKSET }
                    methodsFile := c.methodsFile ++ "linkset.txt" }
    else none
  else if str = "LOG" then
    if tmpString = "true" then some { c with params := { c.params with logging := true } }
    else if tmpString = "false" then
      some { c with params := { c.params with logging := false } }
    else none
  else if str = "SCHEDULER" then
    if tmpString = "RANDOM" then some { c with Scheduler := Scheduler.RANDOM }
    else none
  else none

/-- The loop `while (fin >> str)` of `processInputFile` on the words of the file, with the
content of `tmpString`. Every round reads `str` and, for a known option, two more words, the
second of which is the value; the cases are the numbers of words that are left for these
three reads. The result is `none` after a failed `ASSERT(0, ...)`. -/
def parseLoop : List String → String → Config → Option Config
  | [], _, c => some c
  | [str], tmpString, c => applyOption str tmpString c
  | [str, a], _, c => applyOption str a c
  | str :: _ :: b :: rest, _, c => (applyOption str b c).bind (parseLoop rest b)

/-- How `processInputFile` ends: it returns with the fields set, the process exits with a
code, or an `ASSERT` fails. -/
inductive ParseResult where
  | ok (c : Config) (funcs_rec : List String)
  | exited (code : Int)
  | assertFailed
  deriving DecidableEq, Repr

/-- The function `Params::processInputFile`. `confdir` is the value of the environment
variable `CONFDIR`, `files` gives the words of a file that can be opened. The set
`funcs_rec` is given by the words that are inserted. -/
def processInputFile (confdir : Option String) (files : String → Option (List String)) :
    ParseResult :=
  match confdir with
  | none => ParseResult.exited 1
  | some base =>
    match files (base ++ "conf.txt") with
    | none => ParseResult.exited 1
    | some words =>
      match parseLoop words "" (Config.init base) with
      | none => ParseResult.assertFailed
      | some c =>
        if c.params.Property = PROP_LIN ∨ c.params.Property = PROP_SC then
          match files c.methodsFile with
          | none => ParseResult.exited 1
          | some names => ParseResult.ok c names
        else ParseResult.ok c []

end Params

/-! ### Notions used to state and prove the properties of the store-buffer engine -/

namespace Interpreter

/-- The address `a` lies in one of the stack allocations of the current thread. -/
def InStackAllocation (a : Nat) (st : Interp) : Prop :=
  ∃ frame ∈ stackOf st.threadStacks st.currThread, ∃ A ∈ frame.Allocations,
    A ≤ a ∧ a < A + (frame.bytesAllocated A).toNat

/-- The stack allocations of the current thread are blocks of the 64-bit address space: the
sizes are not negative and no block reaches beyond the last address. -/
def StackBlocks (st : Interp) : Prop :=
  ∀ frame ∈ stackOf st.threadStacks st.currThread, ∀ A ∈ frame.Allocations,
    0 ≤ frame.bytesAllocated A ∧ A + (frame.bytesAllocated A).toNat < 2 ^ 64

/-- The memory after the stores of `buffer` were made in the order of the list. -/
def applyStores (T : Target) (buffer : List tso_buff_elem) (m : Memory) : Memory :=
  buffer.foldl (fun m e => StoreValueToMemory T e.value e.pointer.PointerVal e.type m) m

/-- A load of the type `ty` gives back the value `v` stored with this type. -/
def Faithful (T : Target) (ty : TypeRef) (v : GenericValue) : Prop :=
  (T.storeImage ty v).length = T.loadBytes ty ∧ T.loadValue ty (T.storeImage ty v) = v

/-- The bytes written by storing `v` with type `ty` at `p` and the bytes read by a load of
type `ty0` at `a` have no address in common. -/
def Apart (T : Target) (p : Nat) (ty : TypeRef) (v : GenericValue) (a : Nat) (ty0 : TypeRef) :
    Prop :=
  p + (T.storeImage ty v).length ≤ a ∨ a + T.loadBytes ty0 ≤ p

/-- The keys of a PSO buffer increase along the list, as the entries of a `std::map` do. -/
def PsoSorted (buffer : PsoBuffer) : Prop := (buffer.map Prod.fst).Pairwise (· < ·)

/-- The memory after the values of `queue` were stored with type `ty` at `p`, in the order of
the list. -/
def applyQueue (T : Target) (p : Nat) (ty : TypeRef) (queue : List GenericValue)
    (m : Memory) : Memory :=
  queue.foldl (fun m v => StoreValueToMemory T v p ty m) m

/-- The memory after the queues of `buffer` were stored one after the other, in the order of
the list, each with the type that `types` has for its address. -/
def applyPso (T : Target) (types : Nat → TypeRef) (buffer : PsoBuffer) (m : Memory) : Memory :=
  buffer.foldl (fun m e => applyQueue T e.1 (types e.1) e.2 m) m

/-- The PSO buffer with the same keys and every queue empty. -/
def emptied (buffer : PsoBuffer) : PsoBuffer := buffer.map (fun e => (e.1, []))

/-- The address is that of a registered block: `getPhysicalBaseAddressHeap` is not `NULL`. -/
def ValidAddress (st : Interp) (p : Nat) : Prop :=
  getPhysicalBaseAddressHeap st.bytesAtPhysicalAddress p ≠ 0

instance (st : Interp) (p : Nat) : Decidable (ValidAddress st p) := by
  unfold ValidAddress
  exact inferInstance

/-- A target for the examples: the type with handle `n` is the integer of `n` bytes. -/
def sampleTarget : Target where
  storeImage := fun ty v => leBytes ty v.IntVal
  loadBytes := fun ty => ty
  loadValue := fun _ bs => ⟨leValue bs, 0⟩

/-- An indeterminate log entry, for the examples. -/
def sampleElem : rwtrace_elem := ⟨0, RWType.READ, 0, 0, 0⟩

/-- A state for the examples: thread 1 runs in a frame with one stack allocation of 8
bytes at 1000, thread 2 in a frame without any; the words at 100 and 200 belong to a global
block of 256 bytes at 64. Thread 1 has the stores of 5 to 100, of 7 to 200 and of 6 to 100
pending, in this order, thread 2 the store of 9 to 100. -/
def sampleState : Interp where
  memory := fun _ => 0
  threadStacks :=
    [(1, [⟨[1000], fun a => if a = 1000 then 8 else 0, 7⟩]), (2, [⟨[], fun _ => 0, 3⟩])]
  currThread := 1
  thread_buffer_tso := fun t =>
    if t = 1 then [⟨⟨0, 100⟩, ⟨5, 0⟩, 4⟩, ⟨⟨0, 200⟩, ⟨7, 0⟩, 4⟩, ⟨⟨0, 100⟩, ⟨6, 0⟩, 4⟩]
    else if t = 2 then [⟨⟨0, 100⟩, ⟨9, 0⟩, 4⟩] else []
  thread_buffer_pso := fun t =>
    if t = 1 then [(100, [⟨5, 0⟩, ⟨6, 0⟩]), (200, [⟨7, 0⟩])]
    else if t = 2 then [(100, [⟨9, 0⟩])] else []
  pso_types := fun _ => 4
  rwtrace_rec := []
  bytesAtPhysicalAddress := [(0, 0), (64, 256)]
  segmentFaultFlag := false
  isSharedAccessing := false

/-- The sample state at the end of a run: both threads have returned from their last
frame, their stores are still pending. -/
def endState : Interp := { sampleState with threadStacks := [(1, []), (2, [])] }

end Interpreter

/-! ### Notions used to state the properties of the reference implementations -/

namespace CheckTrace

/-- The replay of the calls of a permutation on a double-ended queue `q` (the head of the
list is the head of the queue), after the words of the specification: `wsq_put(x)` puts
its last argument `x` at the tail and must have returned 1; `wsq_take` must have returned
the element at the tail, which is taken out, or -1 when the queue is empty; `wsq_steal`
must have returned the element at the head, which is taken out, or -1 when the queue is
empty; other calls are passed over. -/
def chaseAccepts : List trace_elem → List Int → Prop
  | [], _ => True
  | e :: rest, q =>
    if e.func = "wsq_put" then
      ∃ x, e.arg_vals.getLast? = some x ∧ e.ret_val = 1 ∧ chaseAccepts rest (q ++ [x])
    else if e.func = "wsq_take" then
      (q = [] ∧ e.ret_val = -1 ∧ chaseAccepts rest q) ∨
        ∃ q1 y, q = q1 ++ [y] ∧ e.ret_val = y ∧ chaseAccepts rest q1
    else if e.func = "wsq_steal" then
      (q = [] ∧ e.ret_val = -1 ∧ chaseAccepts rest q) ∨
        ∃ y q1, q = y :: q1 ∧ e.ret_val = y ∧ chaseAccepts rest q1
    else chaseAccepts rest q

/-- A call of the queue reference. -/
inductive QueueCall where
  | enqueue (task : Int)
  | dequeue
  deriving DecidableEq, Repr

/-- The results of a sequence of calls of `seq_queue_enqueue` and `seq_queue_dequeue`,
made one after the other on the queue with content `q`. -/
def runQueueCalls : List QueueCall → List Int → List Int
  | [], _ => []
  | QueueCall.enqueue task :: rest, q =>
    (WSQ.seq_queue_enqueue task q).1 :: runQueueCalls rest (WSQ.seq_queue_enqueue task q).2
  | QueueCall.dequeue :: rest, q =>
    (WSQ.seq_queue_dequeue q).1 :: runQueueCalls rest (WSQ.seq_queue_dequeue q).2

/-- The results that a first-in first-out queue gives to a sequence of calls; `pending` are
the values enqueued and not yet dequeued, the oldest first: an enqueue returns 1, a
dequeue returns the oldest pending value, which is taken out, or -1 when there is none. -/
def fifoResults : List QueueCall → List Int → List Int
  | [], _ => []
  | QueueCall.enqueue task :: rest, pending => 1 :: fifoResults rest (pending ++ [task])
  | QueueCall.dequeue :: rest, [] => -1 :: fifoResults rest []
  | QueueCall.dequeue :: rest, oldest :: pending => oldest :: fifoResults rest pending

end CheckTrace

/-! ### Notions used to state and prove the properties of the fence insertion -/

/-- The numbers that name the instructions of a module. -/
def instructionIds (M : Module) : List Nat := (allInstructions M).map (fun I => I.id)

/-- Every entry of the label map names an instruction of the module that has the label of
the entry. -/
def LabelMapOf (instrLabelMap : InstrLabel_map) (M : Module) : Prop :=
  ∀ label instr, instrLookup instrLabelMap label = some instr →
    ∃ I ∈ allInstructions M, I.id = instr ∧ I.label_instr = label

/-- The module `M2` is `M1` with one call of `callee` more: a new instruction with label 0,
put right after the instruction with the label `label` in its basic block; the blocks and
their instructions are otherwise the same, in the same order. -/
def FenceAfter (callee : String) (label : Int) (M1 M2 : Module) : Prop :=
  ∃ (B1 B2 : List (List Instruction)) (pre post : List Instruction) (store call : Instruction),
    allBlocks M1 = B1 ++ (pre ++ store :: post) :: B2 ∧
    allBlocks M2 = B1 ++ (pre ++ store :: call :: post) :: B2 ∧
    store.label_instr = label ∧ call.label_instr = 0 ∧ call.callee = some callee ∧
    call.id ∉ instructionIds M1

/-- The module `M` is `M0` with `k` calls of `membar_sl` or `membar_ss` more, each with the
label 0: without them the blocks of `M` are the blocks of `M0`, with the same instructions
in the same order. -/
def Grown (M0 M : Module) (k : Nat) : Prop :=
  (allBlocks M).map (List.filter (fun I => decide (I.id ∈ instructionIds M0))) = allBlocks M0 ∧
  (allInstructions M).length = (allInstructions M0).length + k ∧
  (∀ I ∈ allInstructions M, I.id ∉ instructionIds M0 →
    I.label_instr = 0 ∧ (I.callee = some "membar_sl" ∨ I.callee = some "membar_ss")) ∧
  (∀ x ∈ instructionIds M0, x ∈ instructionIds M)

/-- The literal `lit` is the literal of the pair `pair`, in one of the two maps. -/
def PairOfLit (c : Constraints) (lit : Int) (pair : constraint_pair) : Prop :=
  Constraints.findPairOf c.mapToLit lit = some pair ∨
    Constraints.findPairOf c.mapToLit_ss lit = some pair

/-- A module for the examples, as loaded and labelled: one function of two blocks; the
instructions are named 1 to 5 and have the labels 1 to 5. -/
def sampleModule : Module :=
  [⟨"main", [[⟨1, 1, none⟩, ⟨2, 2, none⟩, ⟨3, 3, none⟩], [⟨4, 4, none⟩, ⟨5, 5, none⟩]]⟩]

namespace Constraints

/-- A state for the examples after `Merge`: the store-load pair `(2, 3)` has the literal
1, the store-store pair `(4, 5)` the literal 2, and both literals were selected. -/
def sampleMerged : Constraints :=
  { clauses := []
    clauseIndex := 3
    mapToLit := [((2, 3), 1)]
    mapToLit_ss := [((4, 5), 2)]
    satSolutions := [[1, 2]]
    mergedSatSolution := [1, 2] }

end Constraints

namespace CheckTrace

/-- One step of the live list of the malloc reference, in the words of the specification:
`mmalloc` adds the pair of the base it returned and the size it was asked for, `mfree`
takes out the first pair whose base is its argument, any other call leaves the list as it
is. Bases and sizes are read as `unsigned`, as the checker reads them. -/
def liveStep (live : List (Nat × Nat)) (e : trace_elem) : List (Nat × Nat) :=
  if e.func = "mmalloc" then
    live ++ [(toUnsigned e.ret_val, toUnsigned (e.arg_vals.headD 0))]
  else if e.func = "mfree" then
    live.eraseP (fun j => decide (toUnsigned (e.arg_vals.headD 0) = j.1))
  else live

/-- The allocations that are live after the calls `evs`, from the list `live`. -/
def liveFrom (live : List (Nat × Nat)) (evs : List trace_elem) : List (Nat × Nat) :=
  evs.foldl liveStep live

/-- The allocations that are live after the calls `evs` of a permutation. -/
def liveList (evs : List trace_elem) : List (Nat × Nat) := liveFrom [] evs

/-- No region that an `mmalloc` of `evs` reports runs over the end of the 32 bit address
space. -/
def RegionsFit (evs : List trace_elem) : Prop :=
  ∀ e ∈ evs, e.func = "mmalloc" →
    toUnsigned e.ret_val + toUnsigned (e.arg_vals.headD 0) < 4294967296

/-- The live list has one pair for a base and no pair runs over the end of the address
space. -/
def LiveInv (live : List (Nat × Nat)) : Prop :=
  (live.map Prod.fst).Nodup ∧ ∀ j ∈ live, j.1 + j.2 < 4294967296

/-- A history of thread 1: `mmalloc(10)` returns 100, then `mmalloc(100)` returns 90 while
the first block is still allocated. The region [90, 190) encloses [100, 110). -/
def enclosingHistory : List trace_elem :=
  [callEntry "mmalloc" 1 [10], returnEntry "mmalloc" 1 100,
    callEntry "mmalloc" 1 [100], returnEntry "mmalloc" 1 90]

/-- A history of thread 1: `mmalloc(10)` returns 100, then `mmalloc(10)` returns 110. The
regions [100, 110) and [110, 120) have no byte in common. -/
def adjacentHistory : List trace_elem :=
  [callEntry "mmalloc" 1 [10], returnEntry "mmalloc" 1 100,
    callEntry "mmalloc" 1 [10], returnEntry "mmalloc" 1 110]

/-- A history of thread 1: `mmalloc(10)` returns 100 and the block is freed twice. -/
def doubleFreeHistory : List trace_elem :=
  [callEntry "mmalloc" 1 [10], returnEntry "mmalloc" 1 100,
    callEntry "mfree" 1 [100], returnEntry "mfree" 1 0,
    callEntry "mfree" 1 [100], returnEntry "mfree" 1 0]

/-- The configuration `PROPERTY = SC`, `PROGRAM = LF_MALLOC`. -/
def sampleParamsMalloc : Params := ⟨PROP_SC, WMM_NONE, program_type.LF_MALLOC, false⟩

end CheckTrace

namespace LKS

/-- A call of the linked-set reference. -/
inductive LinkSetCall where
  | add (x : Int)
  | contains (x : Int)
  | remove (x : Int)
  deriving DecidableEq, Repr

/-- The content of the set after one call. -/
def stepLinkSet (q : List Int) : LinkSetCall → List Int
  | LinkSetCall.add x => (seq_linkset_add x q).2
  | LinkSetCall.contains x => (seq_linkset_contains x q).2
  | LinkSetCall.remove x => (seq_linkset_remove x q).2

/-- The content of the set after the calls `calls`, made one after the other on the set
`q`. -/
def runLinkSet (calls : List LinkSetCall) (q : List Int) : List Int :=
  calls.foldl stepLinkSet q

/-- Among the calls made, `x` was added by a `seq_linkset_add` and not removed since. -/
def Present (calls : List LinkSetCall) (x : Int) : Prop :=
  ∃ pre post, calls = pre ++ LinkSetCall.add x :: post ∧ LinkSetCall.remove x ∉ post

end LKS

namespace Scheduler

open Interpreter

/-- The thread `t` is enabled: its stack `threadStacks[t]` is not empty. -/
def Enabled (st : Interp) (t : Nat) : Prop := stackOf st.threadStacks t ≠ []

/-- A scheduler environment for the examples: random policy, `rand()` returns 0, 1, 2, ...
and the flush test holds for the even values. -/
def sampleEnv : Env := ⟨RANDOM, fun n => n, fun r => r % 2 = 0⟩

end Scheduler

namespace History

open Interpreter

/-- The values of the actual arguments that are pointers or integers, converted to `int`,
in the order of the arguments. -/
def recordedArgs (args : List (IRType × GenericValue)) : List Int :=
  args.filterMap (fun it =>
    if it.1.isPointerTy then some (toInt32 it.2.PointerVal)
    else if it.1.isIntegerTy then some (limitedInt it.2.IntVal)
    else none)

/-- A well-nested sequence of invocations of a thread: empty, or an invocation of `f`, with
the invocations `inner` made during its activation, followed by the invocations `rest`. -/
inductive Nest where
  | nil
  | node (f : String) (args : List (IRType × GenericValue)) (junk : Int) (RetTy : IRType)
      (Result : GenericValue) (inner rest : Nest)

/-- The call and return events of a well-nested sequence of invocations, in the order in
which the thread executes them. -/
def Nest.events : Nest → List Event
  | Nest.nil => []
  | Nest.node f args junk RetTy Result inner rest =>
    Event.call f args junk :: (inner.events ++ Event.ret f RetTy Result :: rest.events)

/-- The entries that the specification asks for: for every outermost invocation of a
configured function one CALL entry followed by one RETURN entry, nothing for the
invocations made during its activation and nothing for the functions that are not
configured. -/
def Nest.outermostEntries (funcs_rec : List String) (t : Nat) : Nest → List trace_elem
  | Nest.nil => []
  | Nest.node f args junk RetTy Result inner rest =>
    (if f ∈ funcs_rec then
      [⟨inst_type.CALL_FUNC, recordedArgs args, junk, f, t⟩,
        ⟨inst_type.RETURN_FUNC, [], returnValue RetTy Result, f, t⟩]
    else inner.outermostEntries funcs_rec t) ++ rest.outermostEntries funcs_rec t

/-- The type of an integer argument. -/
def intTy : IRType := ⟨false, true⟩
/-- The type of a pointer argument. -/
def ptrTy : IRType := ⟨true, false⟩
/-- The type of a floating-point argument. -/
def floatTy : IRType := ⟨false, false⟩

/-- The thread 1 calls `wsq_put(7)`, which calls `helper(3)` and itself again before it
returns 1; then the thread calls `helper(4)`. -/
def sampleNest : Nest :=
  Nest.node "wsq_put" [(intTy, ⟨7, 0⟩)] 0 intTy ⟨1, 0⟩
    (Nest.node "helper" [(intTy, ⟨3, 0⟩)] 0 intTy ⟨0, 0⟩ Nest.nil
      (Nest.node "wsq_put" [(intTy, ⟨8, 0⟩)] 0 intTy ⟨1, 0⟩ Nest.nil Nest.nil))
    (Nest.node "helper" [(intTy, ⟨4, 0⟩)] 0 intTy ⟨0, 0⟩ Nest.nil Nest.nil)

end History

namespace RWHistory

/-- The entry is a SPAWN or a JOIN. -/
def isSync (e : rwtrace_elem) : Bool :=
  decide (e.type = RWType.SPAWN ∨ e.type = RWType.JOIN)

/-- The entry is a flush. -/
def isFlush (e : rwtrace_elem) : Bool :=
  decide (e.type = RWType.FLUSH_RANDOM_TSO ∨ e.type = RWType.FLUSH_RANDOM_PSO ∨
    e.type = RWType.FLUSH_FENCE ∨ e.type = RWType.FLUSH_INSTR ∨
    e.type = RWType.FLUSH_CAS_TSO ∨ e.type = RWType.FLUSH_CAS_PSO)

/-- The entry is a read or a write. -/
def isRW (e : rwtrace_elem) : Bool :=
  decide (e.type = RWType.WRITE ∨ e.type = RWType.READ)

/-- The kind of the most recent SPAWN or JOIN entry of a log, if there is one. -/
def lastSync (log : Trace) : Option RWType :=
  (log.reverse.find? isSync).map (fun e => e.type)

/-- The most recent SPAWN or JOIN entry of the log is a SPAWN. -/
def inRegion (log : Trace) : Bool := decide (lastSync log = some RWType.SPAWN)

/-- The entries of the log that are no SPAWN and no JOIN and for which the most recent
SPAWN or JOIN entry before them is a SPAWN, in the order of the log. -/
def sharedRegion (log : Trace) : Trace :=
  (List.range log.length).filterMap (fun i =>
    ((log)[i]?).bind (fun e =>
      if !isSync e && inRegion (log.take i) then some e
      else none))

/-- A log for the examples: a write before the first SPAWN, a write and a flush between
the SPAWN and the JOIN, a read after the JOIN. -/
def sampleLog : Trace :=
  [⟨0, RWType.WRITE, 1, 100, 1⟩, ⟨0, RWType.SPAWN, 0, 0, 0⟩, ⟨1, RWType.WRITE, 2, 100, 2⟩,
    ⟨1, RWType.FLUSH_FENCE, 0, 0, 0⟩, ⟨0, RWType.JOIN, 0, 0, 0⟩, ⟨0, RWType.READ, 2, 100, 3⟩]

/-- The locals of `FindSharedRW` before its first loop. -/
def scanInit : Scan := ⟨0, false, false, [], [], fun _ => [], []⟩

/-- What the first loop of `FindSharedRW` has computed after the entries `log`. -/
structure ScanInv (log : Trace) (s : Scan) : Prop where
  i_eq : s.i = log.length
  flags : (s.hasSpawn && !s.hasJoin) = inRegion log
  shared : s.sharedIndex = (List.range log.length).map (fun i => inRegion (log.take (i + 1)))
  index_eq : s.index = log.map isFlush
  t_pos : ∀ x ∈ s.t, 0 < x.2.length
  t_key : ∀ e ∈ log, isRW e = true → ∃ x ∈ s.t, x.1 = e.location
  m_mem : ∀ i k, i ∈ s.m k ↔ ∃ e, (log)[i]? = some e ∧ isRW e = true ∧ e.location = k

end RWHistory

namespace CheckTrace

/-- The arguments of the `wsq_put` calls among `es`, in their order (`arg_vals.back()`). -/
def putsOf (es : List trace_elem) : List Int :=
  es.filterMap (fun e => if e.func = "wsq_put" then some (e.arg_vals.getLastD 0) else none)

/-- The values other than -1 that the `wsq_take` and `wsq_steal` calls among `es` returned,
in their order. -/
def takenOf (es : List trace_elem) : List Int :=
  es.filterMap (fun e =>
    if (e.func = "wsq_take" ∨ e.func = "wsq_steal") ∧ e.ret_val ≠ -1 then
      some e.ret_val
    else none)

/-- A history of thread 1 and thread 2: `wsq_put(7)` returns 1, then `wsq_steal` returns
7, one call after the other. -/
def sequentialHistory : List trace_elem :=
  [callEntry "wsq_put" 1 [7], returnEntry "wsq_put" 1 1,
    callEntry "wsq_steal" 2 [], returnEntry "wsq_steal" 2 7]

/-- No two calls of the history overlap: the history is a sequence of pairs of a CALL
entry and the RETURN entry of the same thread that follows it at once. -/
def Sequential : List trace_elem → Prop
  | [] => True
  | [_] => False
  | c :: r :: rest =>
    c.type = inst_type.CALL_FUNC ∧ r.type = inst_type.RETURN_FUNC ∧ r.thread = c.thread ∧
      Sequential rest

/-- A recorded history of a skip list: thread 1 inserts 7. -/
def skipHistory : List trace_elem :=
  [callEntry "insert" 1 [7], returnEntry "insert" 1 1]

/-- The calls that `gen_init_sc_perm` matches in a history of calls that do not overlap,
read from the entry `i` on: the call of the entries `i` and `i + 1`, and so on. -/
def seqCalls (trace_rec : List trace_elem) : List trace_elem → Nat → List perm_elem
  | [], _ => []
  | [_], _ => []
  | _ :: r :: rest, i =>
    ⟨i, i + 1,
      { type := inst_type.NONE
        func := r.func
        thread := r.thread
        ret_val := r.ret_val
        arg_vals := (trace_rec.getD i default).arg_vals }⟩ :: seqCalls trace_rec rest (i + 2)

end CheckTrace

namespace RWHistory

/-- A log for the examples: thread 1 spawns thread 2, writes 5 to the word at 100 with
the store labelled 3 and waits for thread 2, which works on its locals only. -/
def spawnJoinLog : Trace :=
  [⟨1, RWType.SPAWN, 0, 0, 0⟩, ⟨1, RWType.WRITE, 5, 100, 3⟩, ⟨1, RWType.JOIN, 0, 0, 0⟩]

/-- A log for the examples: thread 1 spawns thread 2 and calls `join_all`, which blocks and
logs its JOIN; thread 2 writes 5 to the word at 100 with the store labelled 3 and ends, and
the `join_all` of thread 1 goes through. -/
def blockedJoinLog : Trace :=
  [⟨1, RWType.SPAWN, 0, 0, 0⟩, ⟨1, RWType.JOIN, 0, 0, 0⟩, ⟨2, RWType.WRITE, 5, 100, 3⟩,
    ⟨1, RWType.JOIN, 0, 0, 0⟩]

end RWHistory

namespace Scheduler

/-- An environment for the examples in which every draw asks for a flush: `rand()` returns
0, 1, 2, ... and the test against `Params::flushProb` fails. -/
def flushEnv : Env := ⟨RANDOM, fun n => n, fun _ => false⟩

end Scheduler

namespace Interpreter

/-- The address `a` lies in a live block of the table: an entry with the base `b` and the
size `n` such that `b ≤ a < b + n`. A freed block, whose size is 0, holds no address. -/
def InLiveBlock (table : List (Nat × Int)) (a : Nat) : Prop :=
  ∃ e ∈ table, (e.1 : Int) ≤ a ∧ (a : Int) < e.1 + e.2

/-- The address `a` and the blocks of the table are such that the `int` arithmetic of
`getPhysicalBaseAddressHeap` compares them as addresses: they lie below `2 ^ 32`, no size
is negative, and no block reaches across `2 ^ 31`, where the sign of the `int` changes. -/
def TableFits (table : List (Nat × Int)) (a : Nat) : Prop :=
  a < 2 ^ 32 ∧
    ∀ e ∈ table, e.1 < 2 ^ 32 ∧ 0 ≤ e.2 ∧ (e.1 : Int) + e.2 ≤ 2 ^ 32 ∧
      ((e.1 : Int) + e.2 ≤ 2 ^ 31 ∨ 2 ^ 31 ≤ e.1)

/-- The keys of the table `bytesAtPhysicalAddress` increase, as the keys of a `std::map`
do. -/
def TableSorted (table : List (Nat × Int)) : Prop := (table.map Prod.fst).Pairwise (· < ·)

/-- The number of the steps that spawn a thread. -/
def spawns : List Step → Nat
  | [] => 0
  | Step.spawn _ _ :: rest => spawns rest + 1
  | Step.switch _ :: rest => spawns rest
  | Step.call _ _ _ :: rest => spawns rest
  | Step.ret _ _ _ :: rest => spawns rest

/-- What holds of the threads and of the depth counters after `k` threads were spawned:
the next tag is `2 + k`, the threads with a stack are `1, ..., k + 1`, the vector
`recur_calls` has as many entries as `nextThreadNum` says, and the current thread is one
of the threads. -/
structure ThreadsInv (m : Machine) (k : Nat) : Prop where
  next : m.nextThreadNum = 2 + k
  keys : m.interp.threadStacks.map Prod.fst = List.range' 1 (1 + k)
  counters : m.history.recur_calls.length = m.nextThreadNum
  curr : 1 ≤ m.interp.currThread ∧ m.interp.currThread < m.nextThreadNum

/-- A run for the examples: thread 1 spawns two threads running the function at 500, the
scheduler switches to thread 3, which calls and leaves `wsq_put`. -/
def sampleSteps : List Step :=
  [Step.spawn 500 (some ⟨[], fun _ => 0, 0⟩), Step.spawn 500 (some ⟨[], fun _ => 0, 0⟩),
    Step.switch 3, Step.call "wsq_put" [(⟨false, true⟩, ⟨7, 0⟩)] 0,
    Step.ret "wsq_put" ⟨false, true⟩ ⟨1, 0⟩]

/-- The sample state after thread 1 has made a shared access. -/
def sharedState : Interp := { sampleState with isSharedAccessing := true }

/-- The sample state after thread 2 has called `key_setspecific` with the name at 200 and
the value 77; thread 1 is current. -/
def keyState : Interp :=
  { visitKeySetSpecific 200 77 { sampleState with currThread := 2 } with currThread := 1 }

end Interpreter

namespace Params

/-- The outcome `o` of an option has the field `Scheduler` of `c` or the value `RANDOM`. -/
def SchedulerKept (c : Config) (o : Option Config) : Prop :=
  ∀ c1, o = some c1 → c1.Scheduler = c.Scheduler ∨ c1.Scheduler = Scheduler.RANDOM

/-- The files of a configuration directory `d/` for the examples: `conf.txt` holds the
lines of the work-stealing queue of Chase and Lev under TSO with the line
`SCHEDULER = value`, and `wsq.txt` names the three methods. -/
def sampleFiles (value : String) (name : String) : Option (List String) :=
  if name = "d/conf.txt" then
    some ["WMM", "=", "TSO", "PROPERTY", "=", "LIN", "PROGRAM", "=", "WSQ_CHASE",
      "SCHEDULER", "=", value]
  else if name = "d/wsq.txt" then some ["wsq_put", "wsq_take", "wsq_steal"]
  else none

/-- The files of a configuration directory `d/` for the examples, with `PROGRAM = value`;
the file of the recorded methods of every program is there. -/
def programFiles (value : String) (name : String) : Option (List String) :=
  if name = "d/conf.txt" then
    some ["WMM", "=", "TSO", "PROPERTY", "=", "LIN", "PROGRAM", "=", value]
  else some ["insert", "remove"]

end Params

namespace Constraints

/-- The trace of a bad run under PSO: thread 1 stores to the word at 100 from the
instruction labelled 2 and loads the word at 200 from the instruction labelled 3, thread 2
loads the word at 100. -/
def sameStoreTrace1 : Trace :=
  [logEntry 1 RWType.WRITE 100 2, logEntry 1 RWType.READ 200 3, logEntry 2 RWType.READ 100 4]

/-- The trace of a second bad run under PSO: thread 1 stores to the word at 100 from the
instruction labelled 2 and to the word at 300 from the instruction labelled 5, thread 2
loads the word at 100. -/
def sameStoreTrace2 : Trace :=
  [logEntry 1 RWType.WRITE 100 2, logEntry 1 RWType.WRITE 300 5, logEntry 2 RWType.READ 100 4]

/-- The state after `Calculate` on the two traces under PSO, from a fresh state: the
store-load pair `(2, 3)` has the literal 1, the store-store pair `(2, 5)` the literal 2. -/
def sameStoreState : Constraints :=
  { clauses := [2]
    clauseIndex := 3
    mapToLit := [((2, 3), 1)]
    mapToLit_ss := [((2, 5), 2)]
    satSolutions := []
    mergedSatSolution := [] }

end Constraints

namespace Interpreter

/-- The sample state with empty store buffers and the table `table` of the blocks. -/
def heapState (table : List (Nat × Int)) : Interp :=
  { sampleState with
    thread_buffer_tso := fun _ => []
    thread_buffer_pso := fun _ => []
    bytesAtPhysicalAddress := table }

/-- A table for the examples, as on a host with 64 bit addresses: the entry of the null
pointer and a block of 16 bytes at `0x7f0000001000`. -/
def aliasTable : List (Nat × Int) := [(0, 0), (0x7f0000001000, 16)]

/-- A table for the examples: the entry of the null pointer and two blocks of 16 bytes, at
`0x7f0000001000` and, `2 ^ 32` bytes further, at `0x7f0100001000`. -/
def twoBlockTable : List (Nat × Int) := [(0, 0), (0x7f0000001000, 16), (0x7f0100001000, 16)]

end Interpreter

/-! # Theorems -/

namespace CheckTrace

theorem rtInner_true_iff (ip : List perm_elem) (a : Nat) (rest : List Nat) (flag : Bool) :
    rtInner ip a rest flag = true ↔ flag = true ∧ ∀ b ∈ rest, rtViolation ip a b = false := by
  induction rest with
  | nil => simp [rtInner]
  | cons b rest ih =>
    by_cases h : rtViolation ip a b = true
    · simp [rtInner, h]
    · simp only [Bool.not_eq_true] at h
      simp [rtInner, h, ih]

theorem rtOuter_true_iff (ip : List perm_elem) (curr : List Nat) (flag : Bool) :
    rtOuter ip curr flag = true ↔
      flag = true ∧ curr.Pairwise (fun a b => rtViolation ip a b = false) := by
  induction curr generalizing flag with
  | nil => simp [rtOuter]
  | cons a rest ih =>
    simp only [rtOuter, ih, rtInner_true_iff, List.pairwise_cons]
    tauto

theorem rtViolation_iff (ip : List perm_elem) (a b : Nat)
    (hb : callIdx ip b < retIdx ip b) (hne : callIdx ip a ≠ retIdx ip b) :
    rtViolation ip a b = true ↔ retIdx ip b < callIdx ip a := by
  simp only [rtViolation, Bool.and_eq_true, Bool.not_eq_true', Bool.or_eq_false_iff,
    Bool.and_eq_false_imp, decide_eq_true_eq, decide_eq_false_iff_not]
  omega

theorem rt_pairwise_iff (ip : List perm_elem) (curr : List Nat)
    (hwf : ∀ k ∈ curr, callIdx ip k < retIdx ip k)
    (hdist : (curr.map (callIdx ip) ++ curr.map (retIdx ip)).Nodup) :
    isRealTimeOrderPreserved ip curr = true ↔
      curr.Pairwise (fun a b => ¬ retIdx ip b < callIdx ip a) := by
  have hne : ∀ a ∈ curr, ∀ b ∈ curr, callIdx ip a ≠ retIdx ip b := by
    intro a ha b hb h
    have hd := (List.nodup_append.mp hdist).2.2
    exact hd (List.mem_map_of_mem _ ha) (h ▸ List.mem_map_of_mem _ hb)
  unfold isRealTimeOrderPreserved
  rw [rtOuter_true_iff]
  simp only [true_and]
  constructor
  · intro h
    refine (List.Pairwise.and_mem.mp h).imp ?_
    rintro a b ⟨ha, hb, hv⟩ hlt
    rw [← rtViolation_iff ip a b (hwf b hb) (hne a ha b hb)] at hlt
    simp [hv] at hlt
  · intro h
    refine (List.Pairwise.and_mem.mp h).imp ?_
    rintro a b ⟨ha, hb, hv⟩
    rw [← rtViolation_iff ip a b (hwf b hb) (hne a ha b hb)] at hv
    simpa using hv

/-- C3: for a permutation whose intervals are well formed (every call index below its
return index, all indices distinct), `isRealTimeOrderPreserved` returns false exactly when
some call placed later in the permutation returned before a call placed earlier was
invoked; equivalently it returns true exactly when every call that precedes another in
real time also precedes it in the permutation. -/
theorem isRealTimeOrderPreserved_spec (init_perm : List perm_elem) (curr_perm : List Nat)
    (hwf : ∀ k ∈ curr_perm, callIdx init_perm k < retIdx init_perm k)
    (hdist : (curr_perm.map (callIdx init_perm) ++ curr_perm.map (retIdx init_perm)).Nodup) :
    (isRealTimeOrderPreserved init_perm curr_perm = false ↔
        ∃ i j, i < j ∧ j < curr_perm.length ∧
          retIdx init_perm (curr_perm.getD j 0) < callIdx init_perm (curr_perm.getD i 0)) ∧
      (isRealTimeOrderPreserved init_perm curr_perm = true ↔
        ∀ i j, i < curr_perm.length → j < curr_perm.length →
          retIdx init_perm (curr_perm.getD i 0) < callIdx init_perm (curr_perm.getD j 0) →
            i < j) := by
  have hp := rt_pairwise_iff init_perm curr_perm hwf hdist
  have hidx : curr_perm.Pairwise (fun a b => ¬ retIdx init_perm b < callIdx init_perm a) ↔
      ∀ i j, i < j → j < curr_perm.length →
        ¬ retIdx init_perm (curr_perm.getD j 0) < callIdx init_perm (curr_perm.getD i 0) := by
    rw [List.pairwise_iff_getElem]
    constructor
    · intro h i j hij hj
      have hi : i < curr_perm.length := by omega
      rw [List.getD_eq_getElem _ _ hi, List.getD_eq_getElem _ _ hj]
      exact h i j hi hj hij
    · intro h i j hi hj hij
      have := h i j hij hj
      rw [List.getD_eq_getElem _ _ hi, List.getD_eq_getElem _ _ hj] at this
      exact this
  refine ⟨?_, ?_⟩
  · rw [← Bool.not_eq_true, hp, hidx]
    push_neg
    constructor
    · rintro ⟨i, j, hij, hj, h⟩; exact ⟨i, j, hij, hj, h⟩
    · rintro ⟨i, j, hij, hj, h⟩; exact ⟨i, j, hij, hj, h⟩
  · rw [hp, hidx]
    constructor
    · intro h i j hi hj hlt
      by_contra hnot
      have hji : j ≤ i := by omega
      rcases Nat.eq_or_lt_of_le hji with heq | hlt2
      · subst heq
        have hmem : curr_perm.getD j 0 ∈ curr_perm := by
          rw [List.getD_eq_getElem _ _ hj]; exact List.getElem_mem _
        have := hwf _ hmem
        omega
      · exact h j i hlt2 hi hlt
    · intro h i j hij hj hlt
      have hi : i < curr_perm.length := by omega
      have := h j i hj hi hlt
      omega

/-- Witness for C3 -/
theorem isRealTimeOrderPreserved_spec_witness :
    (isRealTimeOrderPreserved
        [⟨0, 1, default⟩, ⟨2, 3, default⟩] [1, 0] = false ↔
        ∃ i j, i < j ∧ j < [1, 0].length ∧
          retIdx [⟨0, 1, default⟩, ⟨2, 3, default⟩] (([1, 0] : List Nat).getD j 0) <
            callIdx [⟨0, 1, default⟩, ⟨2, 3, default⟩] (([1, 0] : List Nat).getD i 0)) ∧
      (isRealTimeOrderPreserved
        [⟨0, 1, default⟩, ⟨2, 3, default⟩] [1, 0] = true ↔
        ∀ i j, i < [1, 0].length → j < [1, 0].length →
          retIdx [⟨0, 1, default⟩, ⟨2, 3, default⟩] (([1, 0] : List Nat).getD i 0) <
            callIdx [⟨0, 1, default⟩, ⟨2, 3, default⟩] (([1, 0] : List Nat).getD j 0) →
            i < j) :=
  isRealTimeOrderPreserved_spec [⟨0, 1, default⟩, ⟨2, 3, default⟩] [1, 0]
    (by decide) (by decide)

end CheckTrace

namespace CheckTrace

/-! ## `std::next_permutation` yields the next permutation in lexicographic order -/

theorem lexLt_irrefl (a : List Nat) : ¬ LexLt a a := by
  induction a with
  | nil => intro h; cases h
  | cons x xs ih =>
    intro h
    cases h with
    | cons h => exact ih h
    | rel h => exact Nat.lt_irrefl _ h

theorem lexLt_trans {a b c : List Nat} (h1 : LexLt a b) (h2 : LexLt b c) : LexLt a c := by
  induction h1 generalizing c with
  | nil => cases h2 <;> exact List.Lex.nil
  | cons _ ih =>
    cases h2 with
    | cons h => exact List.Lex.cons (ih h)
    | rel h => exact List.Lex.rel h
  | rel h =>
    cases h2 with
    | cons _ => exact List.Lex.rel h
    | rel h' => exact List.Lex.rel (Nat.lt_trans h h')

/-- A non-increasing vector is the greatest of its permutations. -/
theorem not_lexLt_of_sorted_ge (s : List Nat) (hs : s.Sorted (· ≥ ·)) :
    ∀ p : List Nat, p.Perm s → ¬ LexLt s p := by
  induction s with
  | nil =>
    intro p hp h
    rw [List.Perm.eq_nil hp] at h
    cases h
  | cons a s ih =>
    intro p hp h
    have ha := List.sorted_cons.mp hs
    cases h with
    | cons h' => exact ih ha.2 _ (List.Perm.cons_inv hp) h'
    | @rel _ _ b ps hab =>
      have hb : b ∈ a :: s := hp.mem_iff.mp (List.mem_cons_self _ _)
      rcases List.mem_cons.mp hb with hb | hb
      · omega
      · have := ha.1 b hb
        omega

/-- A non-decreasing vector is the least of its permutations. -/
theorem not_lexLt_of_sorted_le (s : List Nat) (hs : s.Sorted (· ≤ ·)) :
    ∀ p : List Nat, p.Perm s → ¬ LexLt p s := by
  induction s with
  | nil =>
    intro p hp h
    rw [List.Perm.eq_nil hp] at h
    cases h
  | cons a s ih =>
    intro p hp h
    have ha := List.sorted_cons.mp hs
    cases h with
    | nil => exact absurd hp.symm (List.cons_ne_nil _ _ ∘ List.Perm.eq_nil)
    | cons h' => exact ih ha.2 _ (List.Perm.cons_inv hp) h'
    | @rel b ps _ _ hab =>
      have hb : b ∈ a :: s := hp.mem_iff.mp (List.mem_cons_self _ _)
      rcases List.mem_cons.mp hb with hb | hb
      · omega
      · have := ha.1 b hb
        omega

theorem swapPivot_spec (x : Nat) (r : List Nat) (hr : r.Sorted (· ≤ ·)) :
    ∀ z r', swapPivot x r = some (z, r') →
      z ∈ r ∧ x < z ∧ (z :: r').Perm (x :: r) ∧ r'.Sorted (· ≤ ·) ∧
        ∀ w ∈ r, x < w → z ≤ w := by
  induction r with
  | nil => intro z r' h; simp [swapPivot] at h
  | cons a r ih =>
    intro z r' h
    have ha := List.sorted_cons.mp hr
    by_cases hxa : x < a
    · simp only [swapPivot, hxa, if_true, Option.some.injEq, Prod.mk.injEq] at h
      obtain ⟨rfl, rfl⟩ := h
      refine ⟨List.mem_cons_self _ _, hxa, List.Perm.swap _ _ _, ?_, ?_⟩
      · refine List.sorted_cons.mpr ⟨fun b hb => ?_, ha.2⟩
        have := ha.1 b hb
        omega
      · intro w hw _
        rcases List.mem_cons.mp hw with rfl | hw
        · exact Nat.le_refl _
        · exact ha.1 w hw
    · simp only [swapPivot, hxa, if_false, Option.map_eq_some', Prod.mk.injEq] at h
      obtain ⟨⟨z0, r0⟩, h0, rfl, rfl⟩ := h
      obtain ⟨hz, hxz, hperm, hsorted, hmin⟩ := ih ha.2 z0 r0 h0
      refine ⟨List.mem_cons_of_mem _ hz, hxz, ?_, ?_, ?_⟩
      · calc (z0 :: a :: r0).Perm (a :: z0 :: r0) := List.Perm.swap _ _ _
          _ |>.Perm (a :: x :: r) := List.Perm.cons _ hperm
          _ |>.Perm (x :: a :: r) := List.Perm.swap _ _ _
      · refine List.sorted_cons.mpr ⟨fun b hb => ?_, hsorted⟩
        have hb' : b ∈ x :: r := hperm.mem_iff.mp (List.mem_cons_of_mem _ hb)
        rcases List.mem_cons.mp hb' with rfl | hb'
        · omega
        · exact ha.1 b hb'
      · intro w hw hxw
        rcases List.mem_cons.mp hw with rfl | hw
        · omega
        · exact hmin w hw hxw

theorem swapPivot_isSome (x : Nat) (r : List Nat) (h : ∃ w ∈ r, x < w) :
    ∃ z r', swapPivot x r = some (z, r') := by
  induction r with
  | nil => simp at h
  | cons a r ih =>
    by_cases hxa : x < a
    · exact ⟨a, x :: r, by simp [swapPivot, hxa]⟩
    · obtain ⟨w, hw, hxw⟩ := h
      rcases List.mem_cons.mp hw with rfl | hw
      · exact absurd hxw hxa
      · obtain ⟨z, r', hzr⟩ := ih ⟨w, hw, hxw⟩
        exact ⟨z, a :: r', by simp [swapPivot, hxa, hzr]⟩

theorem next_permutation_none_sorted (l : List Nat) (h : next_permutation l = none) :
    l.Sorted (· ≥ ·) := by
  induction l with
  | nil => exact List.sorted_nil
  | cons x s ih =>
    cases s with
    | nil => exact List.sorted_singleton x
    | cons y rest =>
      simp only [next_permutation] at h
      cases hn : next_permutation (y :: rest) with
      | some t => simp [hn] at h
      | none =>
        have hs := ih hn
        have hxy : ¬ x < y := by
          intro hxy
          obtain ⟨z, r', hzr⟩ := swapPivot_isSome x (y :: rest).reverse
            ⟨y, by simp, hxy⟩
          simp only [hn, hxy, if_true, hzr] at h
          simp at h
        refine List.sorted_cons.mpr ⟨fun b hb => ?_, hs⟩
        rcases List.mem_cons.mp hb with rfl | hb
        · show x ≥ b
          omega
        · have := (List.sorted_cons.mp hs).1 b hb
          show x ≥ b
          omega

/-- The result of `next_permutation` is a permutation of the argument, greater than it,
and no permutation lies strictly between the two. -/
theorem next_permutation_some (l l' : List Nat) (h : next_permutation l = some l') :
    l'.Perm l ∧ LexLt l l' ∧ ∀ p : List Nat, p.Perm l → LexLt l p → ¬ LexLt p l' := by
  induction l generalizing l' with
  | nil => simp [next_permutation] at h
  | cons x s ih =>
    cases s with
    | nil => simp [next_permutation] at h
    | cons y rest =>
      simp only [next_permutation] at h
      cases hn : next_permutation (y :: rest) with
      | some t =>
        simp only [hn, Option.some.injEq] at h
        subst h
        obtain ⟨hperm, hlt, hmin⟩ := ih t hn
        refine ⟨List.Perm.cons _ hperm, List.Lex.cons hlt, ?_⟩
        intro p hp h1 h2
        cases h1 with
        | cons h1' =>
          cases h2 with
          | cons h2' => exact hmin _ (List.Perm.cons_inv hp) h1' h2'
          | rel h2' => exact Nat.lt_irrefl _ h2'
        | rel h1' =>
          cases h2 with
          | cons h2' => exact Nat.lt_irrefl _ h1'
          | rel h2' => omega
      | none =>
        have hs := next_permutation_none_sorted _ hn
        by_cases hxy : x < y
        · simp only [hn, hxy, if_true, Option.map_eq_some'] at h
          obtain ⟨⟨z, r'⟩, hzr, rfl⟩ := h
          have hrs : (y :: rest).reverse.Sorted (· ≤ ·) := by
            have : (y :: rest).reverse.Pairwise (fun a b => b ≥ a) := List.pairwise_reverse.mpr hs
            exact this
          obtain ⟨hz, hxz, hperm, hsorted, hzmin⟩ := swapPivot_spec x _ hrs z r' hzr
          have hperm' : (z :: r').Perm (x :: y :: rest) :=
            hperm.trans (List.Perm.cons _ (List.reverse_perm _))
          refine ⟨hperm', List.Lex.rel hxz, ?_⟩
          intro p hp h1 h2
          cases h1 with
          | cons h1' => exact not_lexLt_of_sorted_ge _ hs _ (List.Perm.cons_inv hp) h1'
          | @rel _ _ a ps hxa =>
            have ha : a ∈ x :: y :: rest := hp.mem_iff.mp (List.mem_cons_self _ _)
            have ha' : a ∈ (y :: rest).reverse := by
              rcases List.mem_cons.mp ha with rfl | ha
              · omega
              · exact List.mem_reverse.mpr ha
            have hza := hzmin a ha' hxa
            cases h2 with
            | cons h2' =>
              exact not_lexLt_of_sorted_le _ hsorted _
                (List.Perm.cons_inv (hp.trans hperm'.symm)) h2'
            | rel h2' => omega
        · simp [hn, hxy] at h

/-- When `next_permutation` returns false the vector is the greatest of its permutations. -/
theorem next_permutation_none (l : List Nat) (h : next_permutation l = none) :
    ∀ p : List Nat, p.Perm l → ¬ LexLt l p :=
  not_lexLt_of_sorted_ge l (next_permutation_none_sorted l h)

theorem lexLt_trichotomy (a b : List Nat) : LexLt a b ∨ a = b ∨ LexLt b a := by
  induction a generalizing b with
  | nil =>
    cases b with
    | nil => exact Or.inr (Or.inl rfl)
    | cons y ys => exact Or.inl List.Lex.nil
  | cons x xs ih =>
    cases b with
    | nil => exact Or.inr (Or.inr List.Lex.nil)
    | cons y ys =>
      rcases Nat.lt_trichotomy x y with h | h | h
      · exact Or.inl (List.Lex.rel h)
      · subst h
        rcases ih ys with h | h | h
        · exact Or.inl (List.Lex.cons h)
        · exact Or.inr (Or.inl (by rw [h]))
        · exact Or.inr (Or.inr (List.Lex.cons h))
      · exact Or.inr (Or.inr (List.Lex.rel h))

theorem countP_lt_countP {α : Type} (p q : α → Bool) (l : List α)
    (hpq : ∀ x ∈ l, p x = true → q x = true) (hex : ∃ x ∈ l, q x = true ∧ p x = false) :
    l.countP p < l.countP q := by
  induction l with
  | nil => simp at hex
  | cons a l ih =>
    have hmono : l.countP p ≤ l.countP q :=
      List.countP_mono_left (fun x hx => hpq x (List.mem_cons_of_mem _ hx))
    obtain ⟨x, hx, hqx, hpx⟩ := hex
    rcases List.mem_cons.mp hx with rfl | hx
    · rw [List.countP_cons_of_pos _ _ hqx, List.countP_cons_of_neg _ _ (by simp [hpx])]
      omega
    · have := ih (fun x hx => hpq x (List.mem_cons_of_mem _ hx)) ⟨x, hx, hqx, hpx⟩
      cases hpa : p a
      · rw [List.countP_cons_of_neg _ _ (by simp [hpa])]
        have := List.countP_le_length q (l := l)
        by_cases hqa : q a = true
        · rw [List.countP_cons_of_pos _ _ hqa]; omega
        · rw [List.countP_cons_of_neg _ _ hqa]; omega
      · rw [List.countP_cons_of_pos _ _ hpa,
          List.countP_cons_of_pos _ _ (hpq a (List.mem_cons_self _ _) hpa)]
        omega

theorem permRank_lt (b tp tp' : List Nat) (hb : tp.Perm b)
    (h : next_permutation tp = some tp') : permRank b tp' < permRank b tp := by
  obtain ⟨hperm, hlt, -⟩ := next_permutation_some tp tp' h
  unfold permRank
  rw [← List.countP_eq_length_filter, ← List.countP_eq_length_filter]
  apply countP_lt_countP
  · intro q _ hq
    simp only [decide_eq_true_eq] at hq ⊢
    exact lexLt_trans hlt hq
  · refine ⟨tp', List.mem_permutations.mpr (hperm.trans hb), ?_, ?_⟩
    · simpa using hlt
    · simpa using lexLt_irrefl tp'

theorem permRank_le (b tp : List Nat) : permRank b tp ≤ b.length.factorial := by
  unfold permRank
  calc (b.permutations.filter (fun q => decide (LexLt tp q))).length
      ≤ b.permutations.length := List.length_filter_le _ _
    _ = b.length.factorial := List.length_permutations b

theorem endsWithin_of_permRank (b : List Nat) :
    ∀ (k : Nat) (tp : List Nat), tp.Perm b → permRank b tp ≤ k → endsWithin k tp := by
  intro k
  induction k with
  | zero =>
    intro tp hb hk
    cases hn : next_permutation tp with
    | none => exact hn
    | some tp' =>
      have := permRank_lt b tp tp' hb hn
      omega
  | succ k ih =>
    intro tp hb hk tp' hn
    have := permRank_lt b tp tp' hb hn
    exact ih tp' ((next_permutation_some tp tp' hn).1.trans hb) (by omega)

/-- Repeated `next_permutation` ends after at most `(length tp)!` successful calls. -/
theorem endsWithin_factorial (tp : List Nat) : endsWithin tp.length.factorial tp :=
  endsWithin_of_permRank tp _ tp (List.Perm.refl _) (permRank_le tp tp)

theorem endsWithin_perm_length (tp tp' : List Nat) (h : next_permutation tp = some tp') :
    tp'.length = tp.length :=
  (next_permutation_some tp tp' h).1.length_eq

theorem mem_threadPermsFrom_sound :
    ∀ (k : Nat) (tp q : List Nat), q ∈ threadPermsFrom k tp → q.Perm tp ∧ (q = tp ∨ LexLt tp q) := by
  intro k
  induction k with
  | zero =>
    intro tp q hq
    simp only [threadPermsFrom, List.mem_singleton] at hq
    subst hq
    exact ⟨List.Perm.refl _, Or.inl rfl⟩
  | succ k ih =>
    intro tp q hq
    simp only [threadPermsFrom] at hq
    cases hn : next_permutation tp with
    | none =>
      simp only [hn, List.mem_singleton] at hq
      subst hq
      exact ⟨List.Perm.refl _, Or.inl rfl⟩
    | some tp' =>
      simp only [hn, List.mem_cons] at hq
      obtain ⟨hperm, hlt, -⟩ := next_permutation_some tp tp' hn
      rcases hq with rfl | hq
      · exact ⟨List.Perm.refl _, Or.inl rfl⟩
      · obtain ⟨h1, h2⟩ := ih tp' q hq
        refine ⟨h1.trans hperm, Or.inr ?_⟩
        rcases h2 with rfl | h2
        · exact hlt
        · exact lexLt_trans hlt h2

theorem mem_threadPermsFrom_complete :
    ∀ (k : Nat) (tp : List Nat), endsWithin k tp →
      ∀ q : List Nat, q.Perm tp → (q = tp ∨ LexLt tp q) → q ∈ threadPermsFrom k tp := by
  intro k
  induction k with
  | zero =>
    intro tp hend q hq hge
    rcases hge with rfl | hlt
    · simp [threadPermsFrom]
    · exact absurd hlt (next_permutation_none tp hend q hq)
  | succ k ih =>
    intro tp hend q hq hge
    simp only [threadPermsFrom]
    cases hn : next_permutation tp with
    | none =>
      rcases hge with rfl | hlt
      · simp
      · exact absurd hlt (next_permutation_none tp hn q hq)
    | some tp' =>
      simp only [List.mem_cons]
      rcases hge with rfl | hlt
      · exact Or.inl rfl
      · right
        obtain ⟨hperm, -, hmin⟩ := next_permutation_some tp tp' hn
        apply ih tp' (hend tp' hn) q (hq.trans hperm.symm)
        rcases lexLt_trichotomy tp' q with h | h | h
        · exact Or.inr h
        · exact Or.inl h.symm
        · exact absurd h (hmin q hq hlt)

theorem threadPermsFrom_nodup :
    ∀ (k : Nat) (tp : List Nat), (threadPermsFrom k tp).Nodup := by
  intro k
  induction k with
  | zero => intro tp; simp [threadPermsFrom]
  | succ k ih =>
    intro tp
    simp only [threadPermsFrom]
    cases hn : next_permutation tp with
    | none => simp
    | some tp' =>
      simp only [List.nodup_cons]
      refine ⟨?_, ih tp'⟩
      intro hmem
      obtain ⟨-, hlt, -⟩ := next_permutation_some tp tp' hn
      rcases (mem_threadPermsFrom_sound k tp' tp hmem).2 with h | h
      · rw [h] at hlt; exact lexLt_irrefl _ hlt
      · exact lexLt_irrefl _ (lexLt_trans hlt h)

/-- From the sorted vector, repeated `next_permutation` visits every permutation. -/
theorem mem_threadPermsFrom_sorted (tids q : List Nat) :
    q ∈ threadPermsFrom tids.length.factorial (tids.insertionSort (· ≤ ·)) ↔ q.Perm tids := by
  have hperm : (tids.insertionSort (· ≤ ·)).Perm tids := List.perm_insertionSort _ _
  have hsorted : (tids.insertionSort (· ≤ ·)).Sorted (· ≤ ·) := List.sorted_insertionSort _ _
  constructor
  · intro h
    exact (mem_threadPermsFrom_sound _ _ q h).1.trans hperm
  · intro h
    have hend := endsWithin_factorial (tids.insertionSort (· ≤ ·))
    rw [hperm.length_eq] at hend
    apply mem_threadPermsFrom_complete _ _ hend q (h.trans hperm.symm)
    rcases lexLt_trichotomy (tids.insertionSort (· ≤ ·)) q with h' | h' | h'
    · exact Or.inr h'
    · exact Or.inl h'.symm
    · exact absurd h' (not_lexLt_of_sorted_le _ hsorted q (h.trans hperm.symm))

end CheckTrace

namespace CheckTrace

/-! ## The assignment loop picks, for each thread tag, the earliest unused call -/

theorem searchCall_of_first (ip : List perm_elem) (t : Nat) :
    ∀ (fuel s j : Nat), s ≤ j → j < s + fuel → tidOf ip j = t →
      (∀ k, s ≤ k → k < j → tidOf ip k ≠ t) → searchCall ip t fuel s = some j := by
  intro fuel
  induction fuel with
  | zero => intro s j h1 h2; omega
  | succ fuel ih =>
    intro s j h1 h2 h3 h4
    by_cases hs : tidOf ip s = t
    · have : s = j := by
        by_contra hne
        exact h4 s (Nat.le_refl _) (by omega) hs
      subst this
      simp [searchCall, hs]
    · have hsj : s ≠ j := by rintro rfl; exact hs h3
      simp only [searchCall, hs, if_false]
      exact ih (s + 1) j (by omega) (by omega) h3 (fun k hk1 hk2 => h4 k (by omega) hk2)

theorem searchCall_of_isPick (ip : List perm_elem) (index : Nat → Nat) (done : List Nat)
    (t j : Nat) (hcut : Cut ip index done) (hp : IsPick ip done t j) :
    searchCall ip t (ip.length - index t) (index t) = some j := by
  obtain ⟨hj, ht, hnd, hmin⟩ := hp
  have hle : index t ≤ j := by
    by_contra hlt
    exact hnd ((hcut j hj).mp (by rw [ht]; omega))
  apply searchCall_of_first ip t _ _ j hle (by omega) ht
  intro k hk1 hk2 hkt
  have := (hcut k (by omega)).mpr (hmin k hk2 hkt)
  rw [hkt] at this
  omega

theorem cut_step (ip : List perm_elem) (index : Nat → Nat) (done : List Nat)
    (t j : Nat) (hcut : Cut ip index done) (hp : IsPick ip done t j) :
    Cut ip (Function.update index t (j + 1)) (done ++ [j]) := by
  obtain ⟨hj, ht, hnd, hmin⟩ := hp
  have hle : index t ≤ j := by
    by_contra hlt
    exact hnd ((hcut j hj).mp (by rw [ht]; omega))
  intro k hk
  by_cases hkt : tidOf ip k = t
  · rw [hkt, Function.update_same, List.mem_append, List.mem_singleton]
    constructor
    · intro hlt
      by_cases hkj : k = j
      · exact Or.inr hkj
      · exact Or.inl (hmin k (by omega) hkt)
    · rintro (h | h)
      · have := (hcut k hk).mpr h
        rw [hkt] at this
        omega
      · omega
  · rw [Function.update_noteq hkt, List.mem_append, List.mem_singleton]
    constructor
    · intro h; exact Or.inl ((hcut k hk).mp h)
    · rintro (h | h)
      · exact (hcut k hk).mpr h
      · subst h; exact absurd ht hkt

theorem take_set_succ (curr : List Nat) (i j : Nat) (hi : i < curr.length) :
    (curr.set i j).take (i + 1) = curr.take i ++ [j] := by
  induction curr generalizing i with
  | nil => simp at hi
  | cons a curr ih =>
    cases i with
    | zero => simp
    | succ i =>
      simp only [List.set_cons_succ, List.take_succ_cons, List.cons_append, List.cons.injEq,
        true_and]
      exact ih i (by simpa using hi)

/-- The assignment loop realises `Picks`, whatever `curr_perm` held before and whatever
`index` holds beyond the cut. -/
theorem assignCalls_of_picks (ip : List perm_elem) (done rest js : List Nat)
    (h : Picks ip done rest js) :
    ∀ (index : Nat → Nat) (curr : List Nat), Cut ip index done →
      curr.length = done.length + rest.length → curr.take done.length = done →
      assignCalls ip rest done.length index curr = done ++ js := by
  induction h with
  | nil done =>
    intro index curr _ hlen htake
    simp only [assignCalls, List.append_nil]
    rw [← htake, List.take_of_length_le (by simp at hlen; omega)]
  | @cons done t j rest js hp _ ih =>
    intro index curr hcut hlen htake
    simp only [assignCalls, searchCall_of_isPick ip index done t j hcut hp]
    have hi : done.length < curr.length := by simp at hlen; omega
    have := ih (Function.update index t (j + 1)) (curr.set done.length j)
      (cut_step ip index done t j hcut hp)
      (by simp at hlen ⊢; omega)
      (by rw [List.length_append, List.length_singleton, take_set_succ _ _ _ hi, htake])
    rw [List.length_append, List.length_singleton] at this
    rw [this, List.append_assoc, List.singleton_append]

theorem picks_valid (ip : List perm_elem) (done rest js : List Nat)
    (h : Picks ip done rest js) :
    done.Nodup → (∀ j ∈ done, j < ip.length) → DownClosed ip done → KeepsThreadOrder ip done →
      (done ++ js).Nodup ∧ (∀ j ∈ done ++ js, j < ip.length) ∧
        KeepsThreadOrder ip (done ++ js) ∧ js.map (tidOf ip) = rest := by
  induction h with
  | nil done =>
    intro h1 h2 _ h4
    simp only [List.append_nil]
    exact ⟨h1, h2, h4, rfl⟩
  | @cons done t j rest js hp _ ih =>
    intro h1 h2 h3 h4
    obtain ⟨hj, ht, hnd, hmin⟩ := hp
    have hnodup : (done ++ [j]).Nodup := by
      rw [List.nodup_append]
      refine ⟨h1, List.nodup_singleton j, ?_⟩
      intro a ha ha'
      rw [List.mem_singleton] at ha'
      subst ha'
      exact hnd ha
    have hlt : ∀ a ∈ done ++ [j], a < ip.length := by
      intro a ha
      rcases List.mem_append.mp ha with ha | ha
      · exact h2 a ha
      · rw [List.mem_singleton] at ha; omega
    have hdc : DownClosed ip (done ++ [j]) := by
      intro a ha k hk hkt
      rcases List.mem_append.mp ha with ha | ha
      · exact List.mem_append_left _ (h3 a ha k hk hkt)
      · rw [List.mem_singleton] at ha
        subst ha
        exact List.mem_append_left _ (hmin k hk (by rw [hkt, ht]))
    have hord : KeepsThreadOrder ip (done ++ [j]) := by
      unfold KeepsThreadOrder
      rw [List.pairwise_append]
      refine ⟨h4, List.pairwise_singleton _ _, ?_⟩
      intro a ha b hb hab
      rw [List.mem_singleton] at hb
      subst hb
      by_contra hnot
      have hne : a ≠ b := by rintro rfl; exact hnd ha
      exact hnd (h3 a ha b (by omega) hab.symm)
    obtain ⟨r1, r2, r3, r4⟩ := ih hnodup hlt hdc hord
    rw [List.append_assoc, List.singleton_append] at r1 r2 r3
    exact ⟨r1, r2, r3, by simp [ht, r4]⟩

end CheckTrace

namespace CheckTrace

theorem tidsOf_eq_map_range (ip : List perm_elem) :
    tidsOf ip = (List.range ip.length).map (tidOf ip) := by
  apply List.ext_getElem
  · simp [tidsOf]
  · intro i h1 h2
    simp only [tidsOf, List.length_map] at h1
    simp [tidsOf, tidOf, List.getElem?_eq_getElem h1]

theorem count_tidsOf (ip : List perm_elem) (t : Nat) :
    (tidsOf ip).count t =
      ((List.range ip.length).filter (fun j => decide (tidOf ip j = t))).length := by
  rw [tidsOf_eq_map_range, List.count, List.countP_map, List.countP_eq_length_filter]
  congr 1

theorem count_map_tidOf (ip : List perm_elem) (done : List Nat) (t : Nat) :
    (done.map (tidOf ip)).count t =
      (done.filter (fun j => decide (tidOf ip j = t))).length := by
  rw [List.count, List.countP_map, List.countP_eq_length_filter]
  congr 1

theorem exists_unused (ip : List perm_elem) (done : List Nat) (t : Nat)
    (hc : (done.map (tidOf ip)).count t < (tidsOf ip).count t) :
    ∃ j, j < ip.length ∧ tidOf ip j = t ∧ j ∉ done := by
  by_contra hno
  push_neg at hno
  have hsub : (List.range ip.length).filter (fun j => decide (tidOf ip j = t)) ⊆
      done.filter (fun j => decide (tidOf ip j = t)) := by
    intro j hj
    simp only [List.mem_filter, List.mem_range, decide_eq_true_eq] at hj ⊢
    exact ⟨hno j hj.1 hj.2, hj.2⟩
  have hnd : ((List.range ip.length).filter (fun j => decide (tidOf ip j = t))).Nodup :=
    (List.nodup_range _).filter _
  have := (hnd.subperm hsub).length_le
  rw [count_tidsOf, count_map_tidOf] at hc
  omega

theorem exists_isPick (ip : List perm_elem) (done : List Nat) (t : Nat)
    (hc : (done.map (tidOf ip)).count t < (tidsOf ip).count t) :
    ∃ j, IsPick ip done t j := by
  have hex := exists_unused ip done t hc
  refine ⟨Nat.find hex, (Nat.find_spec hex).1, (Nat.find_spec hex).2.1,
    (Nat.find_spec hex).2.2, ?_⟩
  intro k hk hkt
  by_contra hnd
  have hklt : k < ip.length := Nat.lt_trans hk (Nat.find_spec hex).1
  exact Nat.find_min hex hk ⟨hklt, hkt, hnd⟩

theorem picks_exist (ip : List perm_elem) :
    ∀ (rest done : List Nat),
      (∀ t, rest.count t + (done.map (tidOf ip)).count t ≤ (tidsOf ip).count t) →
        ∃ js, Picks ip done rest js := by
  intro rest
  induction rest with
  | nil => intro done _; exact ⟨[], Picks.nil done⟩
  | cons t rest ih =>
    intro done hc
    have ht := hc t
    rw [List.count_cons_self] at ht
    obtain ⟨j, hj⟩ := exists_isPick ip done t (by omega)
    have hc' : ∀ t', rest.count t' + ((done ++ [j]).map (tidOf ip)).count t' ≤
        (tidsOf ip).count t' := by
      intro t'
      have := hc t'
      rw [List.map_append, List.count_append, List.map_singleton, hj.2.1]
      rw [List.count_cons] at this
      simp only [List.count_singleton] at *
      by_cases h : t = t'
      · subst h; simp at this ⊢; omega
      · have h' : (t == t') = false := by simpa using h
        simp only [h'] at this ⊢
        simp at this ⊢
        omega
    obtain ⟨js, hjs⟩ := ih (done ++ [j]) hc'
    exact ⟨j :: js, Picks.cons hj hjs⟩

theorem picks_of_valid (ip : List perm_elem) :
    ∀ (q done : List Nat), (done ++ q).Nodup → (∀ k, k < ip.length → k ∈ done ++ q) →
      (∀ j ∈ q, j < ip.length) → KeepsThreadOrder ip (done ++ q) →
        Picks ip done (q.map (tidOf ip)) q := by
  intro q
  induction q with
  | nil => intro done _ _ _ _; exact Picks.nil done
  | cons j q ih =>
    intro done hnd hfull hlt hord
    have hassoc : done ++ j :: q = (done ++ [j]) ++ q := by simp
    rw [List.map_cons]
    refine Picks.cons ⟨hlt j (List.mem_cons_self _ _), rfl, ?_, ?_⟩ ?_
    · intro hj
      have := (List.nodup_append.mp hnd).2.2
      exact this hj (List.mem_cons_self _ _)
    · intro k hk hkt
      have hkm : k < ip.length := Nat.lt_trans hk (hlt j (List.mem_cons_self _ _))
      rcases List.mem_append.mp (hfull k hkm) with h | h
      · exact h
      · exfalso
        rcases List.mem_cons.mp h with h | h
        · omega
        · unfold KeepsThreadOrder at hord
          have h2 := (List.pairwise_append.mp hord).2.1
          have := (List.pairwise_cons.mp h2).1 k h hkt.symm
          omega
    · apply ih (done ++ [j])
      · rw [← hassoc]; exact hnd
      · rw [← hassoc]; exact hfull
      · intro a ha; exact hlt a (List.mem_cons_of_mem _ ha)
      · rw [← hassoc]; exact hord

end CheckTrace

namespace CheckTrace

theorem cut_nil (ip : List perm_elem) (index : Nat → Nat)
    (h : ∀ t ∈ tidsOf ip, index t = 0) : Cut ip index [] := by
  intro k hk
  have hmem : tidOf ip k ∈ tidsOf ip := by
    rw [tidsOf_eq_map_range]
    exact List.mem_map_of_mem _ (List.mem_range.mpr hk)
  rw [h _ hmem]
  simp

theorem assignCalls_of_perm (ip : List perm_elem) (tp : List Nat)
    (htp : tp.Perm (tidsOf ip)) :
    ∃ js, Picks ip [] tp js ∧
      ∀ (index : Nat → Nat) (curr : List Nat), (∀ t ∈ tidsOf ip, index t = 0) →
        curr.length = ip.length → assignCalls ip tp 0 index curr = js := by
  obtain ⟨js, hjs⟩ := picks_exist ip tp [] (by
    intro t
    simp [htp.count_eq t])
  refine ⟨js, hjs, ?_⟩
  intro index curr hidx hlen
  have hl : tp.length = ip.length := by
    rw [htp.length_eq]; simp [tidsOf]
  have := assignCalls_of_picks ip [] tp js hjs index curr (cut_nil ip index hidx)
    (by simp [hl, hlen]) (by simp)
  simpa using this

theorem assignCalls_eq_assignFresh (ip : List perm_elem) (tp : List Nat)
    (htp : tp.Perm (tidsOf ip)) (index : Nat → Nat) (curr : List Nat)
    (hidx : ∀ t ∈ tidsOf ip, index t = 0) (hlen : curr.length = ip.length) :
    assignCalls ip tp 0 index curr = assignFresh ip tp := by
  obtain ⟨js, -, hjs⟩ := assignCalls_of_perm ip tp htp
  rw [hjs index curr hidx hlen]
  unfold assignFresh
  rw [hjs (fun _ => 0) _ (fun _ _ => rfl) (by simp)]

theorem perm_range_of_nodup (js : List Nat) (m : Nat) (hnd : js.Nodup)
    (hlt : ∀ j ∈ js, j < m) (hlen : js.length = m) : js.Perm (List.range m) := by
  have hsub : js ⊆ List.range m := fun j hj => List.mem_range.mpr (hlt j hj)
  exact (hnd.subperm hsub).perm_of_length_le (by simp [hlen])

/-- For a permutation of the thread tags, the assignment picks a bijection onto the calls
that keeps every thread's recording order and puts a call of thread `tp[i]` at position
`i`. -/
theorem assignFresh_valid (ip : List perm_elem) (tp : List Nat)
    (htp : tp.Perm (tidsOf ip)) :
    (assignFresh ip tp).Perm (List.range ip.length) ∧
      KeepsThreadOrder ip (assignFresh ip tp) ∧ (assignFresh ip tp).map (tidOf ip) = tp := by
  obtain ⟨js, hpicks, hjs⟩ := assignCalls_of_perm ip tp htp
  have heq : assignFresh ip tp = js := hjs (fun _ => 0) _ (fun _ _ => rfl) (by simp)
  rw [heq]
  obtain ⟨h1, h2, h3, h4⟩ := picks_valid ip [] tp js hpicks List.nodup_nil
    (by simp) (by intro a ha; simp at ha) List.Pairwise.nil
  simp only [List.nil_append] at h1 h2 h3
  refine ⟨perm_range_of_nodup js _ h1 h2 ?_, h3, h4⟩
  have : (js.map (tidOf ip)).length = tp.length := by rw [h4]
  rw [List.length_map, htp.length_eq] at this
  simpa [tidsOf] using this

/-- Every order-keeping bijection is the assignment of its own vector of thread tags. -/
theorem assignFresh_of_valid (ip : List perm_elem) (p : List Nat)
    (hp : p.Perm (List.range ip.length)) (hord : KeepsThreadOrder ip p) :
    (p.map (tidOf ip)).Perm (tidsOf ip) ∧ assignFresh ip (p.map (tidOf ip)) = p := by
  have hnd : p.Nodup := hp.nodup_iff.mpr (List.nodup_range _)
  have hlt : ∀ j ∈ p, j < ip.length := fun j hj => List.mem_range.mp (hp.mem_iff.mp hj)
  have hfull : ∀ k, k < ip.length → k ∈ p :=
    fun k hk => hp.mem_iff.mpr (List.mem_range.mpr hk)
  have hperm : (p.map (tidOf ip)).Perm (tidsOf ip) := by
    rw [tidsOf_eq_map_range]
    exact hp.map _
  refine ⟨hperm, ?_⟩
  have hpicks := picks_of_valid ip p [] (by simpa using hnd) (by simpa using hfull) hlt
    (by simpa using hord)
  have hlen : p.length = ip.length := by rw [hp.length_eq]; simp
  have := assignCalls_of_picks ip [] _ p hpicks (fun _ => 0) (List.replicate ip.length 0)
    (cut_nil ip _ (fun _ _ => rfl)) (by simp [hlen]) (by simp)
  simpa [assignFresh] using this

theorem assignFresh_length (ip : List perm_elem) (tp : List Nat)
    (htp : tp.Perm (tidsOf ip)) : (assignFresh ip tp).length = ip.length := by
  rw [(assignFresh_valid ip tp htp).1.length_eq]; simp

theorem permsFrom_eq_map (n : Nat) (junk : Nat → Nat) :
    ∀ (k : Nat) (st : PermState), (∀ t ∈ tidsOf st.init_perm, t < n) →
      st.thread_perm.Perm (tidsOf st.init_perm) →
      st.curr_perm = assignFresh st.init_perm st.thread_perm →
      permsFrom n junk k st =
        (threadPermsFrom k st.thread_perm).map (assignFresh st.init_perm) := by
  intro k
  induction k with
  | zero => intro st _ _ hc; simp [permsFrom, threadPermsFrom, hc]
  | succ k ih =>
    intro st hwf htp hc
    simp only [permsFrom, threadPermsFrom, gen_next_sc_perm]
    cases hn : next_permutation st.thread_perm with
    | none => simp [hc]
    | some tp' =>
      have htp' : tp'.Perm (tidsOf st.init_perm) :=
        (next_permutation_some _ _ hn).1.trans htp
      have hcurr : assignCalls st.init_perm tp' 0 (fun t => if t < n then 0 else junk t)
          st.curr_perm = assignFresh st.init_perm tp' := by
        apply assignCalls_eq_assignFresh _ _ htp'
        · intro t ht; simp [hwf t ht]
        · rw [hc]; exact assignFresh_length _ _ htp
      simp only [List.map_cons]
      rw [ih ⟨st.init_perm, tp', _⟩ hwf htp' hcurr, hc]

theorem mem_matchCalls_thread (tr : List trace_elem) :
    ∀ (rest : List trace_elem) (i : Nat) (calls : Nat → Option Nat) (acc : List perm_elem)
      (c : perm_elem), c ∈ matchCalls tr rest i calls acc →
        c ∈ acc ∨ ∃ e ∈ rest, c.elem.thread = e.thread := by
  intro rest
  induction rest with
  | nil => intro i calls acc c h; exact Or.inl h
  | cons e rest ih =>
    intro i calls acc c h
    simp only [matchCalls] at h
    split at h
    · rcases ih _ _ _ c h with h | ⟨e', he', h⟩
      · exact Or.inl h
      · exact Or.inr ⟨e', List.mem_cons_of_mem _ he', h⟩
    · split at h
      · rcases ih _ _ _ c h with h | ⟨e', he', h⟩
        · rcases List.mem_append.mp h with h | h
          · exact Or.inl h
          · rw [List.mem_singleton] at h
            subst h
            exact Or.inr ⟨e, List.mem_cons_self _ _, rfl⟩
        · exact Or.inr ⟨e', List.mem_cons_of_mem _ he', h⟩
      · rcases ih _ _ _ c h with h | ⟨e', he', h⟩
        · exact Or.inl h
        · exact Or.inr ⟨e', List.mem_cons_of_mem _ he', h⟩

theorem tids_lt_of_history (history : List trace_elem) (n : Nat) (junk : Nat → Nat)
    (hwf : ∀ e ∈ history, e.thread < n) :
    ∀ t ∈ tidsOf (gen_init_sc_perm history n junk).init_perm, t < n := by
  intro t ht
  simp only [tidsOf, gen_init_sc_perm, List.mem_map] at ht
  obtain ⟨c, hc, rfl⟩ := ht
  rcases mem_matchCalls_thread history history 0 _ [] c hc with h | ⟨e, he, h⟩
  · simp at h
  · rw [h]; exact hwf e he

theorem enumeratedPerms_eq_map (history : List trace_elem) (n : Nat) (junk : Nat → Nat)
    (hwf : ∀ e ∈ history, e.thread < n) :
    enumeratedPerms history n junk =
      (threadPermsFrom (tidsOf (gen_init_sc_perm history n junk).init_perm).length.factorial
        ((tidsOf (gen_init_sc_perm history n junk).init_perm).insertionSort (· ≤ ·))).map
        (assignFresh (gen_init_sc_perm history n junk).init_perm) := by
  have hlt := tids_lt_of_history history n junk hwf
  have hperm : ((tidsOf (gen_init_sc_perm history n junk).init_perm).insertionSort
      (· ≤ ·)).Perm (tidsOf (gen_init_sc_perm history n junk).init_perm) :=
    List.perm_insertionSort _ _
  have htp : (gen_init_sc_perm history n junk).thread_perm =
      (tidsOf (gen_init_sc_perm history n junk).init_perm).insertionSort (· ≤ ·) := rfl
  have hcurr : (gen_init_sc_perm history n junk).curr_perm =
      assignFresh (gen_init_sc_perm history n junk).init_perm
        (gen_init_sc_perm history n junk).thread_perm := by
    rw [htp]
    apply assignCalls_eq_assignFresh _ _ hperm
    · intro t ht
      have := hlt t ht
      simp only [ite_eq_left_iff, not_le]
      intro h; omega
    · simp [gen_init_sc_perm]
  unfold enumeratedPerms
  simp only []
  rw [permsFrom_eq_map n junk _ _ hlt (htp ▸ hperm) hcurr, htp]
  congr 2
  unfold permFuel
  rw [htp, hperm.length_eq]

end CheckTrace

namespace CheckTrace

theorem gen_next_sc_perm_thread_perm (n : Nat) (junk : Nat → Nat) (st st' : PermState)
    (h : gen_next_sc_perm n junk st = some st') :
    next_permutation st.thread_perm = some st'.thread_perm := by
  unfold gen_next_sc_perm at h
  cases hn : next_permutation st.thread_perm with
  | none => simp [hn] at h
  | some tp =>
    simp only [hn, Option.some.injEq] at h
    subst h
    rfl

/-- Once `next_permutation` has returned false, fuel that is left makes no difference. -/
theorem permsFrom_of_endsWithin (n : Nat) (junk : Nat → Nat) :
    ∀ (k : Nat) (st : PermState), endsWithin k st.thread_perm →
      ∀ fuel, k ≤ fuel → permsFrom n junk fuel st = permsFrom n junk k st := by
  intro k
  induction k with
  | zero =>
    intro st hend fuel _
    have hnone : gen_next_sc_perm n junk st = none := by
      unfold gen_next_sc_perm
      have h0 : next_permutation st.thread_perm = none := hend
      simp [h0]
    cases fuel with
    | zero => rfl
    | succ fuel => simp [permsFrom, hnone]
  | succ k ih =>
    intro st hend fuel hfuel
    cases fuel with
    | zero => omega
    | succ fuel =>
      simp only [permsFrom]
      cases hnext : gen_next_sc_perm n junk st with
      | none => rfl
      | some st' =>
        simp only []
        rw [ih st' (hend _ (gen_next_sc_perm_thread_perm n junk st st' hnext)) fuel (by omega)]

/-- C4: for a history whose entries all belong to threads with a tag below
`nextThreadNum`, the `curr_perm` values produced by `gen_init_sc_perm` and the successive
`gen_next_sc_perm` calls contain exactly once each every ordering of the matched calls
that is a bijection onto their indices and keeps the calls of each thread in recording
order, and contain nothing else; the sequence has ended by then, more calls of
`gen_next_sc_perm` are not made whatever fuel is left. -/
theorem enumeratedPerms_spec (history : List trace_elem) (nextThreadNum : Nat)
    (junk : Nat → Nat) (hwf : ∀ e ∈ history, e.thread < nextThreadNum) :
    (enumeratedPerms history nextThreadNum junk).Nodup ∧
      (∀ p : List Nat, p ∈ enumeratedPerms history nextThreadNum junk ↔
        (p.Perm (List.range (gen_init_sc_perm history nextThreadNum junk).init_perm.length) ∧
          p.Pairwise (fun a b =>
            tidOf (gen_init_sc_perm history nextThreadNum junk).init_perm a =
              tidOf (gen_init_sc_perm history nextThreadNum junk).init_perm b → a < b))) ∧
      (∀ fuel, permFuel (gen_init_sc_perm history nextThreadNum junk) ≤ fuel →
        permsFrom nextThreadNum junk fuel (gen_init_sc_perm history nextThreadNum junk) =
          enumeratedPerms history nextThreadNum junk) := by
  refine ⟨?_, ?_, fun fuel hfuel =>
    permsFrom_of_endsWithin nextThreadNum junk _ _
      (endsWithin_factorial (gen_init_sc_perm history nextThreadNum junk).thread_perm)
      fuel hfuel⟩
  all_goals rw [enumeratedPerms_eq_map history nextThreadNum junk hwf]
  · apply List.Nodup.map_on _ (threadPermsFrom_nodup _ _)
    intro x hx y hy hxy
    rw [mem_threadPermsFrom_sorted] at hx hy
    rw [← (assignFresh_valid _ x hx).2.2, ← (assignFresh_valid _ y hy).2.2, hxy]
  · intro p
    simp only [List.mem_map, mem_threadPermsFrom_sorted]
    constructor
    · rintro ⟨tp, htp, rfl⟩
      exact ⟨(assignFresh_valid _ tp htp).1, (assignFresh_valid _ tp htp).2.1⟩
    · rintro ⟨hp, hord⟩
      obtain ⟨h1, h2⟩ := assignFresh_of_valid _ p hp hord
      exact ⟨_, h1, h2⟩

/-- Witness for C4: the sample history, two threads. -/
theorem enumeratedPerms_spec_witness :
    (∀ e ∈ sampleHistory, e.thread < 3) ∧
      (enumeratedPerms sampleHistory 3 (fun _ => 0)).Nodup ∧
      (∀ p : List Nat, p ∈ enumeratedPerms sampleHistory 3 (fun _ => 0) ↔
        (p.Perm (List.range (gen_init_sc_perm sampleHistory 3 (fun _ => 0)).init_perm.length) ∧
          p.Pairwise (fun a b =>
            tidOf (gen_init_sc_perm sampleHistory 3 (fun _ => 0)).init_perm a =
              tidOf (gen_init_sc_perm sampleHistory 3 (fun _ => 0)).init_perm b → a < b))) ∧
      (∀ fuel, permFuel (gen_init_sc_perm sampleHistory 3 (fun _ => 0)) ≤ fuel →
        permsFrom 3 (fun _ => 0) fuel (gen_init_sc_perm sampleHistory 3 (fun _ => 0)) =
          enumeratedPerms sampleHistory 3 (fun _ => 0)) :=
  ⟨by decide, enumeratedPerms_spec sampleHistory 3 (fun _ => 0) (by decide)⟩

end CheckTrace

namespace CheckTrace

/-! ## `checkHistory` -/

theorem checkPermutation_isSome (P : Params) (X : WSQExtern) (U : Indet)
    (hprog : P.programToCheck ≠ program_type.NO_PROGRAM ∧
      P.programToCheck ≠ program_type.SKIP_LIST)
    (ip : List perm_elem) (cp : List Nat) :
    ∃ b, checkPermutation P X U ip cp = some b := by
  unfold checkPermutation
  cases hp : P.programToCheck <;> simp_all

theorem checkPermutation_none (P : Params) (X : WSQExtern) (U : Indet)
    (hprog : ¬ (P.programToCheck ≠ program_type.NO_PROGRAM ∧
      P.programToCheck ≠ program_type.SKIP_LIST))
    (ip : List perm_elem) (cp : List Nat) :
    checkPermutation P X U ip cp = none := by
  unfold checkPermutation
  cases hp : P.programToCheck <;> simp_all

theorem gen_next_sc_perm_init_perm (n : Nat) (junk : Nat → Nat) (st st' : PermState)
    (h : gen_next_sc_perm n junk st = some st') :
    st'.init_perm = st.init_perm ∧ next_permutation st.thread_perm = some st'.thread_perm := by
  unfold gen_next_sc_perm at h
  cases hn : next_permutation st.thread_perm with
  | none => simp [hn] at h
  | some tp =>
    simp only [hn, Option.some.injEq] at h
    subst h
    exact ⟨rfl, rfl⟩

theorem gen_next_sc_perm_none (n : Nat) (junk : Nat → Nat) (st : PermState) :
    gen_next_sc_perm n junk st = none ↔ next_permutation st.thread_perm = none := by
  unfold gen_next_sc_perm
  cases hn : next_permutation st.thread_perm <;> simp

/-- The loop of `checkHistory` against the enumeration: it returns 0 when one of the
permutations still to come is accepted and 253 when none is. -/
theorem checkLoop_spec (P : Params) (X : WSQExtern) (U : Indet) (n : Nat)
    (hprog : P.programToCheck ≠ program_type.NO_PROGRAM ∧
      P.programToCheck ≠ program_type.SKIP_LIST) :
    ∀ (k : Nat) (st : PermState), endsWithin k st.thread_perm →
      ((∃ p ∈ permsFrom n U.index k st, accepted P X U st.init_perm p) →
          checkLoop P X U n (k + 1) st = Outcome.returned 0) ∧
        ((¬ ∃ p ∈ permsFrom n U.index k st, accepted P X U st.init_perm p) →
          checkLoop P X U n (k + 1) st = Outcome.returned 253) := by
  intro k
  induction k with
  | zero =>
    intro st hend
    have hnone : gen_next_sc_perm n U.index st = none :=
      (gen_next_sc_perm_none n U.index st).mpr hend
    obtain ⟨b, hb⟩ := checkPermutation_isSome P X U hprog st.init_perm st.curr_perm
    simp only [permsFrom, List.mem_singleton, exists_eq_left, accepted, checkLoop, hnone, hb]
    by_cases hlin : P.Property = PROP_LIN ∧
        isRealTimeOrderPreserved st.init_perm st.curr_perm = false
    · simp [hlin]
    · cases b <;> simp only [hlin, if_false] <;> simp
      intro h
      by_contra hrt
      exact hlin ⟨h, by simpa using hrt⟩
  | succ k ih =>
    intro st hend
    obtain ⟨b, hb⟩ := checkPermutation_isSome P X U hprog st.init_perm st.curr_perm
    cases hnext : gen_next_sc_perm n U.index st with
    | none =>
      simp only [permsFrom, hnext, List.mem_singleton, exists_eq_left, accepted, checkLoop, hb]
      by_cases hlin : P.Property = PROP_LIN ∧
          isRealTimeOrderPreserved st.init_perm st.curr_perm = false
      · simp [hlin]
      · cases b <;> simp only [hlin, if_false] <;> simp
        intro h
        by_contra hrt
        exact hlin ⟨h, by simpa using hrt⟩
    | some st' =>
      obtain ⟨hip, htp⟩ := gen_next_sc_perm_init_perm n U.index st st' hnext
      have ih' := ih st' (hend _ htp)
      rw [hip] at ih'
      have hhead : accepted P X U st.init_perm st.curr_perm ↔
          (¬ (P.Property = PROP_LIN ∧
            isRealTimeOrderPreserved st.init_perm st.curr_perm = false) ∧ b = true) := by
        simp only [accepted, hb, Option.some.injEq]
        constructor
        · rintro ⟨h1, h2⟩
          exact ⟨fun h => by simp [h1 h.1] at h, h2⟩
        · rintro ⟨h1, h2⟩
          refine ⟨fun h => ?_, h2⟩
          by_contra hrt
          exact h1 ⟨h, by simpa using hrt⟩
      simp only [permsFrom, hnext, List.exists_mem_cons_iff]
      rw [show checkLoop P X U n (k + 1 + 1) st =
        (if P.Property = PROP_LIN ∧
            isRealTimeOrderPreserved st.init_perm st.curr_perm = false then
          checkLoop P X U n (k + 1) st'
        else if b = true then Outcome.returned 0 else checkLoop P X U n (k + 1) st') by
        simp only [checkLoop, hnext, hb]
        cases b <;> simp]
      by_cases hlin : P.Property = PROP_LIN ∧
          isRealTimeOrderPreserved st.init_perm st.curr_perm = false
      · have hna : ¬ accepted P X U st.init_perm st.curr_perm := by
          rw [hhead]; exact fun h => h.1 hlin
        simp only [hlin, and_self, if_true, hna, false_or]
        exact ih'
      · by_cases hbt : b = true
        · have ha : accepted P X U st.init_perm st.curr_perm := hhead.mpr ⟨hlin, hbt⟩
          simp [hlin, hbt, ha]
        · have hna : ¬ accepted P X U st.init_perm st.curr_perm := by
            rw [hhead]; exact fun h => hbt h.2
          simp only [hlin, if_false, hbt, hna, false_or]
          exact ih'

end CheckTrace

namespace CheckTrace

theorem endsWithin_gen_init (history : List trace_elem) (n : Nat) (junk : Nat → Nat) :
    endsWithin (permFuel (gen_init_sc_perm history n junk))
      (gen_init_sc_perm history n junk).thread_perm :=
  endsWithin_factorial _

/-- C1: with recording enabled and a program that has a reference implementation,
`checkHistory` returns 0 exactly when one of the enumerated permutations passes
`isRealTimeOrderPreserved` (asked for under PROP_LIN only) and is accepted by
`checkPermutation`; in every other case it returns 253. -/
theorem checkHistory_spec (P : Params) (X : WSQExtern) (U : Indet)
    (history : List trace_elem) (nextThreadNum : Nat)
    (hrec : P.Property = PROP_SC ∨ P.Property = PROP_LIN)
    (hprog : P.programToCheck ≠ program_type.NO_PROGRAM ∧
      P.programToCheck ≠ program_type.SKIP_LIST) :
    (checkHistory P X U history nextThreadNum = Outcome.returned 0 ↔
        ∃ p ∈ enumeratedPerms history nextThreadNum U.index,
          (P.Property = PROP_LIN →
            isRealTimeOrderPreserved
              (gen_init_sc_perm history nextThreadNum U.index).init_perm p = true) ∧
          checkPermutation P X U
            (gen_init_sc_perm history nextThreadNum U.index).init_perm p = some true) ∧
      ((¬ ∃ p ∈ enumeratedPerms history nextThreadNum U.index,
          (P.Property = PROP_LIN →
            isRealTimeOrderPreserved
              (gen_init_sc_perm history nextThreadNum U.index).init_perm p = true) ∧
          checkPermutation P X U
            (gen_init_sc_perm history nextThreadNum U.index).init_perm p = some true) →
        checkHistory P X U history nextThreadNum = Outcome.returned 253) := by
  have hrt : P.recTrace = true := by
    unfold Params.recTrace
    simp [hrec]
  have hloop := checkLoop_spec P X U nextThreadNum hprog _ _
    (endsWithin_gen_init history nextThreadNum U.index)
  have hch : checkHistory P X U history nextThreadNum =
      checkLoop P X U nextThreadNum
        (permFuel (gen_init_sc_perm history nextThreadNum U.index) + 1)
        (gen_init_sc_perm history nextThreadNum U.index) := by
    unfold checkHistory
    simp [hrt]
  rw [hch]
  unfold enumeratedPerms
  unfold accepted at hloop
  refine ⟨⟨fun h => ?_, hloop.1⟩, hloop.2⟩
  by_contra hno
  rw [hloop.2 hno] at h
  cases h

/-- Witness for C1: the Chase work-stealing queue under PROP_LIN on the sample history. -/
theorem checkHistory_spec_witness :
    (checkHistory ⟨PROP_LIN, WMM_TSO, program_type.WSQ_CHASE, true⟩ sampleExtern sampleIndet
          sampleHistory 3 = Outcome.returned 0 ↔
        ∃ p ∈ enumeratedPerms sampleHistory 3 sampleIndet.index,
          ((⟨PROP_LIN, WMM_TSO, program_type.WSQ_CHASE, true⟩ : Params).Property = PROP_LIN →
            isRealTimeOrderPreserved
              (gen_init_sc_perm sampleHistory 3 sampleIndet.index).init_perm p = true) ∧
          checkPermutation ⟨PROP_LIN, WMM_TSO, program_type.WSQ_CHASE, true⟩ sampleExtern
            sampleIndet (gen_init_sc_perm sampleHistory 3 sampleIndet.index).init_perm p =
              some true) ∧
      ((¬ ∃ p ∈ enumeratedPerms sampleHistory 3 sampleIndet.index,
          ((⟨PROP_LIN, WMM_TSO, program_type.WSQ_CHASE, true⟩ : Params).Property = PROP_LIN →
            isRealTimeOrderPreserved
              (gen_init_sc_perm sampleHistory 3 sampleIndet.index).init_perm p = true) ∧
          checkPermutation ⟨PROP_LIN, WMM_TSO, program_type.WSQ_CHASE, true⟩ sampleExtern
            sampleIndet (gen_init_sc_perm sampleHistory 3 sampleIndet.index).init_perm p =
              some true) →
        checkHistory ⟨PROP_LIN, WMM_TSO, program_type.WSQ_CHASE, true⟩ sampleExtern sampleIndet
          sampleHistory 3 = Outcome.returned 253) :=
  checkHistory_spec ⟨PROP_LIN, WMM_TSO, program_type.WSQ_CHASE, true⟩ sampleExtern sampleIndet
    sampleHistory 3 (Or.inr rfl) (by decide)

theorem checkLoop_ne_zero_of_none (P : Params) (X : WSQExtern) (U : Indet) (n : Nat)
    (hnone : ∀ ip cp, checkPermutation P X U ip cp = none) :
    ∀ (k : Nat) (st : PermState), checkLoop P X U n k st ≠ Outcome.returned 0 := by
  intro k
  induction k with
  | zero => intro st h; simp [checkLoop] at h
  | succ k ih =>
    intro st h
    simp only [checkLoop, hnone] at h
    split at h
    · split at h
      · simp at h
      · exact ih _ h
    · simp at h

/-- C2: when `checkHistory` accepts a history under PROP_LIN it accepts the same history
under PROP_SC, everything else unchanged. -/
theorem checkHistory_lin_imp_sc (P : Params) (X : WSQExtern) (U : Indet)
    (history : List trace_elem) (nextThreadNum : Nat)
    (hlin : P.Property = PROP_LIN)
    (h : checkHistory P X U history nextThreadNum = Outcome.returned 0) :
    checkHistory { P with Property := PROP_SC } X U history nextThreadNum =
      Outcome.returned 0 := by
  have hrt : P.recTrace = true := by
    unfold Params.recTrace
    simp [hlin]
  have hrt' : ({ P with Property := PROP_SC } : Params).recTrace = true := by
    unfold Params.recTrace
    simp
  unfold checkHistory at h ⊢
  simp only [hrt, hrt', Bool.true_eq_false, if_false] at h ⊢
  by_cases hprog : P.programToCheck ≠ program_type.NO_PROGRAM ∧
      P.programToCheck ≠ program_type.SKIP_LIST
  · have hend := endsWithin_gen_init history nextThreadNum U.index
    have hlin_loop := checkLoop_spec P X U nextThreadNum hprog _ _ hend
    have hsc_loop := checkLoop_spec { P with Property := PROP_SC } X U nextThreadNum hprog
      _ _ hend
    apply hsc_loop.1
    by_contra hno
    have hno' : ¬ ∃ p ∈ permsFrom nextThreadNum U.index
        (permFuel (gen_init_sc_perm history nextThreadNum U.index))
        (gen_init_sc_perm history nextThreadNum U.index),
        accepted P X U (gen_init_sc_perm history nextThreadNum U.index).init_perm p := by
      rintro ⟨p, hp, -, hcheck⟩
      refine hno ⟨p, hp, fun hsc => ?_, hcheck⟩
      have : PROP_SC ≠ PROP_LIN := by decide
      exact absurd hsc this
    rw [hlin_loop.2 hno'] at h
    cases h
  · exfalso
    exact checkLoop_ne_zero_of_none P X U nextThreadNum
      (checkPermutation_none P X U hprog) _ _ h

/-- Witness for C2: the sample history is accepted under PROP_LIN. -/
theorem checkHistory_lin_imp_sc_witness :
    checkHistory { (⟨PROP_LIN, WMM_TSO, program_type.WSQ_CHASE, true⟩ : Params) with
        Property := PROP_SC } sampleExtern sampleIndet sampleHistory 3 = Outcome.returned 0 :=
  checkHistory_lin_imp_sc ⟨PROP_LIN, WMM_TSO, program_type.WSQ_CHASE, true⟩ sampleExtern
    sampleIndet sampleHistory 3 rfl (by decide)

end CheckTrace

/-! ## Segmentation of a thread's trace -/

theorem labelAt_of_lt (tr : Trace) (i : Nat) (h : i < tr.length) :
    labelAt tr i = some (tr[i]).label := by
  simp [labelAt, List.getElem?_eq_getElem h]

theorem findNextEnd_spec (tr : Trace) :
    ∀ (fuel begin_ : Nat), begin_ ≤ tr.length → tr.length - begin_ < fuel →
      ∃ e, findNextEnd fuel begin_ tr = some e ∧ begin_ ≤ e ∧ e ≤ tr.length ∧
        (∀ i, begin_ ≤ i → i < e → labelAt tr i ≠ some 0) ∧
        (e = tr.length ∨ labelAt tr e = some 0) := by
  intro fuel
  induction fuel with
  | zero => intro b _ h; omega
  | succ fuel ih =>
    intro b hb hfuel
    by_cases hlen : b = tr.length
    · exact ⟨b, by simp [findNextEnd, hlen], Nat.le_refl _, hb, fun i h1 h2 => by omega,
        Or.inl hlen⟩
    · have hlt : b < tr.length := by omega
      by_cases hz : (tr[b]).label = 0
      · refine ⟨b, by simp [findNextEnd, hlen, List.getElem?_eq_getElem hlt, hz],
          Nat.le_refl _, hb, fun i h1 h2 => by omega, Or.inr ?_⟩
        rw [labelAt_of_lt tr b hlt, hz]
      · obtain ⟨e, he, h1, h2, h3, h4⟩ := ih (b + 1) (by omega) (by omega)
        refine ⟨e, by simp [findNextEnd, hlen, List.getElem?_eq_getElem hlt, hz, he],
          by omega, h2, ?_, h4⟩
        intro i hi1 hi2
        by_cases hib : i = b
        · subst hib
          rw [labelAt_of_lt tr i hlt]
          simpa using hz
        · exact h3 i (by omega) hi2

theorem findNextBegin_spec (tr : Trace) :
    ∀ (fuel end_ : Nat), end_ ≤ tr.length → tr.length - end_ < fuel →
      ∃ f, findNextBegin fuel end_ tr = some f ∧ end_ ≤ f ∧ f ≤ tr.length ∧
        (∀ i, end_ ≤ i → i < f → labelAt tr i = some 0) ∧
        (f = tr.length ∨ labelAt tr f ≠ some 0) := by
  intro fuel
  induction fuel with
  | zero => intro b _ h; omega
  | succ fuel ih =>
    intro b hb hfuel
    by_cases hlen : b = tr.length
    · exact ⟨b, by simp [findNextBegin, hlen], Nat.le_refl _, hb, fun i h1 h2 => by omega,
        Or.inl hlen⟩
    · have hlt : b < tr.length := by omega
      by_cases hz : (tr[b]).label = 0
      · obtain ⟨f, hf, h1, h2, h3, h4⟩ := ih (b + 1) (by omega) (by omega)
        refine ⟨f, by simp [findNextBegin, hlen, List.getElem?_eq_getElem hlt, hz, hf],
          by omega, h2, ?_, h4⟩
        intro i hi1 hi2
        by_cases hib : i = b
        · subst hib
          rw [labelAt_of_lt tr i hlt, hz]
        · exact h3 i (by omega) hi2
      · refine ⟨b, by simp [findNextBegin, hlen, List.getElem?_eq_getElem hlt, hz],
          Nat.le_refl _, hb, fun i h1 h2 => by omega, Or.inr ?_⟩
        rw [labelAt_of_lt tr b hlt]
        simpa using hz

/-- Two maximal runs that share an index are the same run. -/
theorem isMaxRun_unique (tr : Trace) (b e b' e' i : Nat)
    (h : IsMaxRun tr b e) (h' : IsMaxRun tr b' e')
    (hi : b ≤ i ∧ i < e) (hi' : b' ≤ i ∧ i < e') : b = b' ∧ e = e' := by
  obtain ⟨h1, h2, h3, h4, h5⟩ := h
  obtain ⟨h1', h2', h3', h4', h5'⟩ := h'
  constructor
  · by_contra hne
    rcases Nat.lt_or_gt_of_ne hne with hlt | hlt
    · rcases h4' with h0 | h0
      · omega
      · exact h3 (b' - 1) (by omega) (by omega) h0
    · rcases h4 with h0 | h0
      · omega
      · exact h3' (b - 1) (by omega) (by omega) h0
  · by_contra hne
    rcases Nat.lt_or_gt_of_ne hne with hlt | hlt
    · rcases h5 with h0 | h0
      · omega
      · exact h3' e (by omega) hlt h0
    · rcases h5' with h0 | h0
      · omega
      · exact h3 e' (by omega) hlt h0

/-- The segmentation loop, started at the begin of a run, records the maximal runs from
there on, in order, and covers every entry with a non-zero label. -/
theorem segmentLoop_spec (tr : Trace) :
    ∀ (fuel front back : Nat) (acc : List (Nat × Nat)),
      front ≤ tr.length → tr.length - front < fuel →
      (front = tr.length ∨
        (labelAt tr front ≠ some 0 ∧ (front = 0 ∨ labelAt tr (front - 1) = some 0))) →
      front ≤ back → back ≤ tr.length →
      (∀ i, front ≤ i → i < back → labelAt tr i ≠ some 0) →
      (back = tr.length ∨ labelAt tr back = some 0) →
      ∃ rs, segmentLoop (fun b e (a : List (Nat × Nat)) => some (a ++ [(b, e)])) tr
            fuel front back acc = some (acc ++ rs) ∧
        (∀ r ∈ rs, IsMaxRun tr r.1 r.2 ∧ front ≤ r.1) ∧
        rs.Pairwise (fun r s => r.2 < s.1) ∧
        (∀ i, front ≤ i → i < tr.length → labelAt tr i ≠ some 0 →
          ∃ r ∈ rs, r.1 ≤ i ∧ i < r.2) := by
  intro fuel
  induction fuel with
  | zero => intro front back acc _ h; omega
  | succ fuel ih =>
    intro front back acc hfl hfuel hfront hfb hbl hnz hback
    by_cases heq : front = back
    · have hlen : front = tr.length := by
        rcases hfront with h | ⟨h, -⟩
        · exact h
        · rcases hback with hb | hb
          · omega
          · rw [← heq] at hb; exact absurd hb h
      refine ⟨[], by simp [segmentLoop, heq], by simp, List.Pairwise.nil, ?_⟩
      intro i h1 h2; omega
    · have hlt : front < back := by omega
      have hfront' : labelAt tr front ≠ some 0 ∧
          (front = 0 ∨ labelAt tr (front - 1) = some 0) := by
        rcases hfront with h | h
        · omega
        · exact h
      obtain ⟨f, hf, hf1, hf2, hf3, hf4⟩ :=
        findNextBegin_spec tr (tr.length + 1) back hbl (by omega)
      obtain ⟨e, he, he1, he2, he3, he4⟩ :=
        findNextEnd_spec tr (tr.length + 1) f hf2 (by omega)
      have hfnew : f = tr.length ∨
          (labelAt tr f ≠ some 0 ∧ (f = 0 ∨ labelAt tr (f - 1) = some 0)) := by
        by_cases hfl' : f = tr.length
        · exact Or.inl hfl'
        · have h : labelAt tr f ≠ some 0 := by
            rcases hf4 with h | h
            · exact absurd h hfl'
            · exact h
          refine Or.inr ⟨h, Or.inr ?_⟩
          have hbf : back < f := by
            rcases Nat.eq_or_lt_of_le hf1 with h' | h'
            · exfalso
              rcases hback with hb | hb
              · omega
              · rw [← h'] at h; exact h hb
            · exact h'
          exact hf3 (f - 1) (by omega) (by omega)
      obtain ⟨rs, hrs, hr1, hr2, hr3⟩ := ih f e (acc ++ [(front, back)]) hf2 (by omega)
        hfnew he1 he2 he3 he4
      have hrun : IsMaxRun tr front back := ⟨hlt, hbl, hnz, hfront'.2, hback⟩
      refine ⟨(front, back) :: rs, ?_, ?_, ?_, ?_⟩
      · simp only [segmentLoop, heq, if_false, hf, he, hrs]
        simp
      · intro r hr
        rcases List.mem_cons.mp hr with rfl | hr
        · exact ⟨hrun, Nat.le_refl _⟩
        · exact ⟨(hr1 r hr).1, by have := (hr1 r hr).2; omega⟩
      · refine List.pairwise_cons.mpr ⟨?_, hr2⟩
        intro s hs
        obtain ⟨⟨s1, s2, s3, s4, s5⟩, hs2⟩ := hr1 s hs
        show back < s.1
        by_contra hnot
        have hsb : s.1 = back := by omega
        have hnz' := s3 s.1 (Nat.le_refl _) s1
        rcases hback with hb | hb
        · omega
        · rw [hsb] at hnz'; exact hnz' hb
      · intro i hi1 hi2 hi3
        by_cases hib : i < back
        · exact ⟨(front, back), List.mem_cons_self _ _, hi1, hib⟩
        · have hif : f ≤ i := by
            by_contra hnot
            exact hi3 (hf3 i (by omega) (by omega))
          obtain ⟨r, hr, hri⟩ := hr3 i hif hi2 hi3
          exact ⟨r, List.mem_cons_of_mem _ hr, hri⟩

theorem findFront_zero (tr : Trace) (fuel : Nat) (e : rwtrace_elem) (rest : Trace)
    (htr : tr = e :: rest) (hl : e.label ≠ 0) :
    findFront (fuel + 1) 0 tr = some 0 := by
  subst htr
  simp [findFront, hl]

theorem segmentLoop_record_acc (tr : Trace) :
    ∀ (fuel front back : Nat) (acc : List (Nat × Nat)),
      segmentLoop (fun b e (a : List (Nat × Nat)) => some (a ++ [(b, e)])) tr
          fuel front back acc =
        (segmentLoop (fun b e (a : List (Nat × Nat)) => some (a ++ [(b, e)])) tr
          fuel front back []).map (fun rs => acc ++ rs) := by
  intro fuel
  induction fuel with
  | zero => intro front back acc; simp [segmentLoop]
  | succ fuel ih =>
    intro front back acc
    simp only [segmentLoop]
    split
    · simp
    · cases hf : findNextBegin (tr.length + 1) back tr with
      | none => simp
      | some f =>
        cases he : findNextEnd (tr.length + 1) f tr with
        | none => simp [he]
        | some e =>
          simp only [he, List.nil_append]
          rw [ih f e (acc ++ [(front, back)]), ih f e [(front, back)]]
          cases segmentLoop (fun b e (a : List (Nat × Nat)) => some (a ++ [(b, e)])) tr
            fuel f e [] <;> simp

/-- The segmentation loop calls its body on the recorded ranges, in order. -/
theorem segmentLoop_eq_foldRanges {σ : Type} (body : Nat → Nat → σ → Option σ)
    (tr : Trace) :
    ∀ (fuel front back : Nat) (rs : List (Nat × Nat)) (s : σ),
      segmentLoop (fun b e (a : List (Nat × Nat)) => some (a ++ [(b, e)])) tr
          fuel front back [] = some rs →
      segmentLoop body tr fuel front back s = foldRanges body rs s := by
  intro fuel
  induction fuel with
  | zero => intro front back rs s h; simp [segmentLoop] at h
  | succ fuel ih =>
    intro front back rs s h
    simp only [segmentLoop] at h ⊢
    split at h
    · rename_i heq
      cases h
      simp [heq, foldRanges]
    · rename_i hne
      simp only [hne, if_false]
      cases hf : findNextBegin (tr.length + 1) back tr with
      | none => simp [hf] at h
      | some f =>
        cases he : findNextEnd (tr.length + 1) f tr with
        | none => simp [hf, he] at h
        | some e =>
          simp only [hf, he] at h
          rw [segmentLoop_record_acc] at h
          cases hrec : segmentLoop (fun b e (a : List (Nat × Nat)) => some (a ++ [(b, e)]))
              tr fuel f e [] with
          | none => simp [hrec] at h
          | some rs1 =>
            simp only [hrec, Option.map_some', Option.some.injEq, List.nil_append,
              List.singleton_append] at h
            subst h
            simp only [foldRanges]
            cases body front back s with
            | none => rfl
            | some s1 =>
              simp only [hf, he]
              exact ih f e rs1 s1 hrec

theorem perThread_eq_foldRanges {σ : Type} (body : Nat → Nat → σ → Option σ) (tr : Trace)
    (rs : List (Nat × Nat)) (s : σ) (h : threadRanges tr = some rs) :
    perThread body tr s = foldRanges body rs s := by
  unfold threadRanges perThread at h
  unfold perThread
  split at h
  · cases h
  · rename_i e rest
    split at h
    · cases h
    · rename_i hl
      simp only [hl, if_false]
      split at h
      · cases h
      · rename_i front hfront
        split at h
        · cases h
        · rename_i back hback
          exact segmentLoop_eq_foldRanges body _ _ _ _ rs s h

/-- C8: for a thread's trace that is non-empty and starts with a non-zero label, the
segmentation loop of `Calculate` terminates and the `(begin, end)` ranges it passes to
`GenerateClauses` (the calls made are those on the ranges `rs`, in order) are exactly the
maximal runs of consecutive entries with a non-zero label, each once and in order: every
entry with a non-zero label lies in exactly one range and no entry with label 0 lies in
any. -/
theorem threadRanges_spec (tr : Trace) (hne : tr ≠ [])
    (hfirst : ∀ e, tr.head? = some e → e.label ≠ 0) :
    ∃ rs, threadRanges tr = some rs ∧
      (∀ (P : Params) (c : Constraints),
        perThread (fun b e s => Constraints.GenerateClauses P b e tr s) tr c =
          foldRanges (fun b e s => Constraints.GenerateClauses P b e tr s) rs c) ∧
      (∀ b e, (b, e) ∈ rs ↔ IsMaxRun tr b e) ∧
      rs.Pairwise (fun r s => r.2 < s.1) ∧
      (∀ i, i < tr.length → labelAt tr i ≠ some 0 → ∃! r, r ∈ rs ∧ r.1 ≤ i ∧ i < r.2) ∧
      (∀ i, labelAt tr i = some 0 → ∀ r ∈ rs, ¬ (r.1 ≤ i ∧ i < r.2)) := by
  cases htr : tr with
  | nil => exact absurd htr hne
  | cons e0 rest =>
    rw [← htr]
    have hl : e0.label ≠ 0 := hfirst e0 (by rw [htr]; rfl)
    have hl0 : labelAt tr 0 ≠ some 0 := by
      rw [htr]; simpa [labelAt] using hl
    obtain ⟨back, hback, hb1, hb2, hb3, hb4⟩ :=
      findNextEnd_spec tr (tr.length + 1) 0 (Nat.zero_le _) (by omega)
    obtain ⟨rs, hrs, hr1, hr2, hr3⟩ := segmentLoop_spec tr (tr.length + 1) 0 back []
      (Nat.zero_le _) (by omega) (Or.inr ⟨hl0, Or.inl rfl⟩) hb1 hb2 hb3 hb4
    have hmem : ∀ b e, (b, e) ∈ rs ↔ IsMaxRun tr b e := by
      intro b e
      constructor
      · intro h; exact (hr1 (b, e) h).1
      · intro h
        have hbnz := h.2.2.1 b (Nat.le_refl _) h.1
        obtain ⟨r, hr, hri⟩ := hr3 b (Nat.zero_le _) (by have := h.1; have := h.2.1; omega) hbnz
        have := isMaxRun_unique tr r.1 r.2 b e b (hr1 r hr).1 h hri ⟨Nat.le_refl _, h.1⟩
        have hre : r = (b, e) := Prod.ext this.1 this.2
        rw [← hre]; exact hr
    have hranges : threadRanges tr = some rs := by
      unfold threadRanges perThread
      rw [htr]
      simp only [hl, if_false]
      rw [← htr, findFront_zero tr tr.length e0 rest htr hl]
      simp only [hback]
      simpa using hrs
    refine ⟨rs, hranges, ?_, hmem, hr2, ?_, ?_⟩
    · intro P c
      exact perThread_eq_foldRanges _ tr rs c hranges
    · intro i hi hnz
      obtain ⟨r, hr, hri⟩ := hr3 i (Nat.zero_le _) hi hnz
      refine ⟨r, ⟨hr, hri⟩, ?_⟩
      rintro s ⟨hs, hsi⟩
      have := isMaxRun_unique tr s.1 s.2 r.1 r.2 i (hr1 s hs).1 (hr1 r hr).1 hsi hri
      exact Prod.ext this.1 this.2
    · intro i hz r hr hri
      exact (hr1 r hr).1.2.2.1 i hri.1 hri.2 hz

/-- Witness for C8: the sample trace has the two segments `[0, 2)` and `[3, 8)`. -/
theorem threadRanges_spec_witness :
    ∃ rs, threadRanges sampleThreadTrace = some rs ∧
      (∀ (P : Params) (c : Constraints),
        perThread (fun b e s => Constraints.GenerateClauses P b e sampleThreadTrace s)
            sampleThreadTrace c =
          foldRanges (fun b e s => Constraints.GenerateClauses P b e sampleThreadTrace s)
            rs c) ∧
      (∀ b e, (b, e) ∈ rs ↔ IsMaxRun sampleThreadTrace b e) ∧
      rs.Pairwise (fun r s => r.2 < s.1) ∧
      (∀ i, i < sampleThreadTrace.length → labelAt sampleThreadTrace i ≠ some 0 →
        ∃! r, r ∈ rs ∧ r.1 ≤ i ∧ i < r.2) ∧
      (∀ i, labelAt sampleThreadTrace i = some 0 → ∀ r ∈ rs, ¬ (r.1 ≤ i ∧ i < r.2)) :=
  threadRanges_spec sampleThreadTrace (by decide) (by decide)

namespace Constraints

/-! ## Literal assignment -/

theorem mem_setInsert (x y : Int) (l : List Int) : y ∈ setInsert x l ↔ y = x ∨ y ∈ l := by
  induction l with
  | nil => simp [setInsert]
  | cons a l ih =>
    simp only [setInsert]
    split
    · rename_i h; subst h; simp
    · split
      · simp
      · simp only [List.mem_cons, ih]; tauto

theorem mapFind_mapInsert (m : Constraint_To_Lit) (p q : constraint_pair) (v : Int)
    (h : mapFind m p = none) :
    mapFind (mapInsert p v m) q = if p = q then some v else mapFind m q := by
  induction m with
  | nil => simp [mapInsert, mapFind]
  | cons a m ih =>
    obtain ⟨k, w⟩ := a
    simp only [mapFind] at h
    split at h
    · simp at h
    · rename_i hk
      simp only [mapInsert, hk, if_false]
      split
      · simp only [mapFind]
      · simp only [mapFind, ih h]
        by_cases hkq : k = q
        · have : p ≠ q := fun hpq => hk (hkq.trans hpq.symm)
          simp [hkq, this]
        · simp [hkq]

theorem Stable.stable_refl (c : Constraints) : Stable c c :=
  ⟨fun _ _ h => h, fun _ _ h => h, Int.le_refl _⟩

theorem Stable.stable_trans {a b c : Constraints} (h1 : Stable a b) (h2 : Stable b c) : Stable a c :=
  ⟨fun p l h => h2.sl p l (h1.sl p l h), fun p l h => h2.ss p l (h1.ss p l h),
    Int.le_trans h1.index_le h2.index_le⟩

theorem emitStoreLoad_stable (c : Constraints) (st ld : Int) :
    Stable c (emitStoreLoad c st ld) := by
  unfold emitStoreLoad
  cases hf : mapFind c.mapToLit (st, ld) with
  | some lit => exact ⟨fun _ _ h => h, fun _ _ h => h, Int.le_refl _⟩
  | none =>
    refine ⟨fun p l h => ?_, fun _ _ h => h, by simp⟩
    simp only [mapFind_mapInsert _ _ p _ hf]
    by_cases hp : (st, ld) = p
    · rw [← hp, hf] at h; cases h
    · simp [hp, h]

theorem emitStoreStore_stable (c : Constraints) (st ld : Int) :
    Stable c (emitStoreStore c st ld) := by
  unfold emitStoreStore
  cases hf : mapFind c.mapToLit_ss (st, ld) with
  | some lit => exact ⟨fun _ _ h => h, fun _ _ h => h, Int.le_refl _⟩
  | none =>
    refine ⟨fun _ _ h => h, fun p l h => ?_, by simp⟩
    simp only [mapFind_mapInsert _ _ p _ hf]
    by_cases hp : (st, ld) = p
    · rw [← hp, hf] at h; cases h
    · simp [hp, h]

theorem emitStoreLoad_inv (c : Constraints) (st ld : Int) (h : LitInv c) :
    LitInv (emitStoreLoad c st ld) := by
  unfold emitStoreLoad
  cases hf : mapFind c.mapToLit (st, ld) with
  | some lit => exact ⟨h.1, h.2, h.3, h.4, h.5, h.6, h.7⟩
  | none =>
    have hfind : ∀ q, mapFind (mapInsert (st, ld) c.clauseIndex c.mapToLit) q =
        if (st, ld) = q then some c.clauseIndex else mapFind c.mapToLit q :=
      fun q => mapFind_mapInsert _ _ q _ hf
    constructor
    · show 1 ≤ c.clauseIndex + 1
      have := h.index_pos; omega
    · intro p l hp
      show 1 ≤ l ∧ l < c.clauseIndex + 1
      simp only [hfind] at hp
      split at hp
      · cases hp; have := h.index_pos; omega
      · have := h.range_sl p l hp; omega
    · intro p l hp
      show 1 ≤ l ∧ l < c.clauseIndex + 1
      have := h.range_ss p l hp; omega
    · intro p q l hp hq
      simp only [hfind] at hp hq
      split at hp <;> split at hq
      · rename_i h1 h2; exact h1.symm.trans h2
      · cases hp; have := h.range_sl q _ hq; omega
      · cases hq; have := h.range_sl p _ hp; omega
      · exact h.inj_sl p q l hp hq
    · exact h.inj_ss
    · intro p q l hp hq
      simp only [hfind] at hp
      split at hp
      · cases hp; have := h.range_ss q _ hq; omega
      · exact h.disjoint p q l hp hq
    · intro l h1 h2
      have h2' : l < c.clauseIndex + 1 := h2
      by_cases hl : l = c.clauseIndex
      · exact ⟨(st, ld), Or.inl (by simp [hfind, hl])⟩
      · obtain ⟨p, hp⟩ := h.used l h1 (by omega)
        refine ⟨p, ?_⟩
        rcases hp with hp | hp
        · left
          simp only [hfind]
          split
          · rename_i heq; rw [← heq, hf] at hp; cases hp
          · exact hp
        · exact Or.inr hp

theorem emitStoreStore_inv (c : Constraints) (st ld : Int) (h : LitInv c) :
    LitInv (emitStoreStore c st ld) := by
  unfold emitStoreStore
  cases hf : mapFind c.mapToLit_ss (st, ld) with
  | some lit => exact ⟨h.1, h.2, h.3, h.4, h.5, h.6, h.7⟩
  | none =>
    have hfind : ∀ q, mapFind (mapInsert (st, ld) c.clauseIndex c.mapToLit_ss) q =
        if (st, ld) = q then some c.clauseIndex else mapFind c.mapToLit_ss q :=
      fun q => mapFind_mapInsert _ _ q _ hf
    constructor
    · show 1 ≤ c.clauseIndex + 1
      have := h.index_pos; omega
    · intro p l hp
      show 1 ≤ l ∧ l < c.clauseIndex + 1
      have := h.range_sl p l hp; omega
    · intro p l hp
      show 1 ≤ l ∧ l < c.clauseIndex + 1
      simp only [hfind] at hp
      split at hp
      · cases hp; have := h.index_pos; omega
      · have := h.range_ss p l hp; omega
    · exact h.inj_sl
    · intro p q l hp hq
      simp only [hfind] at hp hq
      split at hp <;> split at hq
      · rename_i h1 h2; exact h1.symm.trans h2
      · cases hp; have := h.range_ss q _ hq; omega
      · cases hq; have := h.range_ss p _ hp; omega
      · exact h.inj_ss p q l hp hq
    · intro p q l hp hq
      simp only [hfind] at hq
      split at hq
      · cases hq; have := h.range_sl p _ hp; omega
      · exact h.disjoint p q l hp hq
    · intro l h1 h2
      have h2' : l < c.clauseIndex + 1 := h2
      by_cases hl : l = c.clauseIndex
      · exact ⟨(st, ld), Or.inr (by simp [hfind, hl])⟩
      · obtain ⟨p, hp⟩ := h.used l h1 (by omega)
        refine ⟨p, ?_⟩
        rcases hp with hp | hp
        · exact Or.inl hp
        · right
          simp only [hfind]
          split
          · rename_i heq; rw [← heq, hf] at hp; cases hp
          · exact hp

end Constraints

namespace Constraints

theorem Extends.extends_refl (c : Constraints) : Extends c c := ⟨Stable.stable_refl c, fun h => h⟩

theorem Extends.extends_trans {a b c : Constraints} (h1 : Extends a b) (h2 : Extends b c) :
    Extends a c :=
  ⟨h1.1.stable_trans h2.1, fun h => h2.2 (h1.2 h)⟩

theorem emitStoreLoad_extends (c : Constraints) (st ld : Int) :
    Extends c (emitStoreLoad c st ld) :=
  ⟨emitStoreLoad_stable c st ld, emitStoreLoad_inv c st ld⟩

theorem emitStoreStore_extends (c : Constraints) (st ld : Int) :
    Extends c (emitStoreStore c st ld) :=
  ⟨emitStoreStore_stable c st ld, emitStoreStore_inv c st ld⟩

theorem clear_extends (c : Constraints) : Extends c { c with clauses := [] } :=
  ⟨⟨fun _ _ h => h, fun _ _ h => h, Int.le_refl _⟩,
    fun h => ⟨h.1, h.2, h.3, h.4, h.5, h.6, h.7⟩⟩

theorem readLoop_extends (e : rwtrace_elem) :
    ∀ (l : List rwtrace_elem) (c : Constraints), Extends c (readLoop e l c) := by
  intro l
  induction l with
  | nil => intro c; exact Extends.extends_refl c
  | cons w l ih =>
    intro c
    simp only [readLoop]
    split
    · exact (emitStoreLoad_extends c _ _).extends_trans (ih _)
    · exact ih c

theorem writeLoop_extends (e : rwtrace_elem) :
    ∀ (l : List rwtrace_elem) (c : Constraints), Extends c (writeLoop e l c) := by
  intro l
  induction l with
  | nil => intro c; exact Extends.extends_refl c
  | cons w l ih =>
    intro c
    simp only [writeLoop]
    split
    · exact (emitStoreStore_extends c _ _).extends_trans (ih _)
    · exact ih c

theorem psoReadLoop_extends (e : rwtrace_elem) :
    ∀ (b : SSBuffer) (c : Constraints), Extends c (psoReadLoop e b c) := by
  intro b
  induction b with
  | nil => intro c; exact Extends.extends_refl c
  | cons a b ih =>
    intro c
    obtain ⟨k, l⟩ := a
    simp only [psoReadLoop]
    exact (readLoop_extends e l c).extends_trans (ih _)

theorem psoWriteLoop_extends (e : rwtrace_elem) :
    ∀ (b : SSBuffer) (c : Constraints), Extends c (psoWriteLoop e b c) := by
  intro b
  induction b with
  | nil => intro c; exact Extends.extends_refl c
  | cons a b ih =>
    intro c
    obtain ⟨k, l⟩ := a
    simp only [psoWriteLoop]
    exact (writeLoop_extends e l c).extends_trans (ih _)

theorem tsoLoop_extends :
    ∀ (seg sb : List rwtrace_elem) (c : Constraints), Extends c (tsoLoop seg sb c) := by
  intro seg
  induction seg with
  | nil => intro sb c; exact Extends.extends_refl c
  | cons e seg ih =>
    intro sb c
    simp only [tsoLoop]
    split
    · exact (readLoop_extends e sb c).extends_trans (ih _ _)
    · split
      · exact ih _ _
      · split
        · exact ih _ _
        · exact ih _ _

theorem psoLoop_extends :
    ∀ (seg : List rwtrace_elem) (b : SSBuffer) (c : Constraints),
      Extends c (psoLoop seg b c) := by
  intro seg
  induction seg with
  | nil => intro b c; exact Extends.extends_refl c
  | cons e seg ih =>
    intro b c
    simp only [psoLoop]
    split
    · exact (psoReadLoop_extends e b c).extends_trans (ih _ _)
    · split
      · exact (psoWriteLoop_extends e b c).extends_trans (ih _ _)
      · split
        · exact ih _ _
        · split
          · exact ih _ _
          · exact ih _ _

theorem GenerateClauses_extends (P : Params) (b e : Nat) (tr : Trace) (c c' : Constraints)
    (h : GenerateClauses P b e tr c = some c') : Extends c c' := by
  unfold GenerateClauses at h
  split at h
  · cases h; exact tsoLoop_extends _ _ _
  · split at h
    · cases h; exact psoLoop_extends _ _ _
    · cases h

end Constraints

/-- The segmentation loop keeps every relation that the body keeps. -/
theorem segmentLoop_rel {σ : Type} (R : σ → σ → Prop) (hrefl : ∀ s, R s s)
    (htrans : ∀ a b c, R a b → R b c → R a c)
    (body : Nat → Nat → σ → Option σ) (hbody : ∀ b e s s', body b e s = some s' → R s s')
    (tr : Trace) :
    ∀ (fuel front back : Nat) (s s' : σ),
      segmentLoop body tr fuel front back s = some s' → R s s' := by
  intro fuel
  induction fuel with
  | zero => intro front back s s' h; simp [segmentLoop] at h
  | succ fuel ih =>
    intro front back s s' h
    simp only [segmentLoop] at h
    split at h
    · cases h; exact hrefl s
    · split at h
      · cases h
      · rename_i s1 hs1
        split at h
        · cases h
        · split at h
          · cases h
          · exact htrans _ _ _ (hbody _ _ _ _ hs1) (ih _ _ _ _ h)

theorem perThread_rel {σ : Type} (R : σ → σ → Prop) (hrefl : ∀ s, R s s)
    (htrans : ∀ a b c, R a b → R b c → R a c)
    (body : Nat → Nat → σ → Option σ) (hbody : ∀ b e s s', body b e s = some s' → R s s')
    (tr : Trace) (s s' : σ) (h : perThread body tr s = some s') : R s s' := by
  unfold perThread at h
  split at h
  · cases h
  · split at h
    · cases h
    · split at h
      · cases h
      · split at h
        · cases h
        · exact segmentLoop_rel R hrefl htrans body hbody _ _ _ _ _ _ h

namespace Constraints

theorem calcThreads_extends (P : Params) (shared_rec : Trace) :
    ∀ (threads : List Nat) (c c' : Constraints),
      calcThreads P shared_rec threads c = some c' → Extends c c' := by
  intro threads
  induction threads with
  | nil => intro c c' h; simp only [calcThreads] at h; cases h; exact Extends.extends_refl c
  | cons i rest ih =>
    intro c c' h
    simp only [calcThreads] at h
    split at h
    · cases h
    · rename_i c1 hc1
      have h1 : Extends c c1 :=
        perThread_rel Extends Extends.extends_refl (fun _ _ _ => Extends.extends_trans) _
          (fun b e s s' hs => GenerateClauses_extends P b e _ s s' hs) _ _ _ hc1
      exact h1.extends_trans (ih _ _ h)

theorem Calculate_extends (P : Params) (shared_rec : Trace) (n : Nat) (c c' : Constraints)
    (h : Calculate P shared_rec n c = some c') : Extends c c' := by
  unfold Calculate at h
  split at h
  · exact (clear_extends c).extends_trans (calcThreads_extends P shared_rec _ _ _ h)
  · cases h

theorem runRound_extends (P : Params) :
    ∀ (steps : List RoundStep) (c c' : Constraints),
      runRound P steps c = some c' → Extends c c' := by
  intro steps
  induction steps with
  | nil => intro c c' h; simp only [runRound] at h; cases h; exact Extends.extends_refl c
  | cons s rest ih =>
    intro c c' h
    cases s with
    | generate b e tr =>
      simp only [runRound] at h
      split at h
      · cases h
      · rename_i c1 hc1
        exact (GenerateClauses_extends P b e tr c c1 hc1).extends_trans (ih _ _ h)
    | calculate shared_rec n =>
      simp only [runRound] at h
      split at h
      · cases h
      · rename_i c1 hc1
        exact (Calculate_extends P shared_rec n c c1 hc1).extends_trans (ih _ _ h)

theorem litInv_flush (c : Constraints) : LitInv (Flush c) := by
  refine ⟨Int.le_refl 1, ?_, ?_, ?_, ?_, ?_, ?_⟩
  · intro p l h; simp [Flush, mapFind] at h
  · intro p l h; simp [Flush, mapFind] at h
  · intro p q l h; simp [Flush, mapFind] at h
  · intro p q l h; simp [Flush, mapFind] at h
  · intro p q l h; simp [Flush, mapFind] at h
  · intro l h1 h2
    have : (Flush c).clauseIndex = 1 := rfl
    omega

end Constraints

namespace Constraints

/-- C7: within a round, that is from the constructor or a `Flush` on, through any
sequence of `GenerateClauses` and `Calculate` calls: two different pairs never have the
same literal (within `mapToLit`, within `mapToLit_ss`, and across the two), a pair keeps
the literal it was given first, and the literals in use are exactly
`1, ..., clauseIndex - 1`. -/
theorem literal_assignment_spec (P : Params) (start : Constraints)
    (steps1 steps2 : List RoundStep) (c1 c2 : Constraints)
    (hstart : start = Constraints.init ∨ ∃ c0, start = Flush c0)
    (h1 : runRound P steps1 start = some c1) (h2 : runRound P steps2 c1 = some c2) :
    (∀ p q l, mapFind c2.mapToLit p = some l → mapFind c2.mapToLit q = some l → p = q) ∧
      (∀ p q l, mapFind c2.mapToLit_ss p = some l → mapFind c2.mapToLit_ss q = some l →
        p = q) ∧
      (∀ p q l, mapFind c2.mapToLit p = some l → mapFind c2.mapToLit_ss q ≠ some l) ∧
      (∀ p l, mapFind c1.mapToLit p = some l → mapFind c2.mapToLit p = some l) ∧
      (∀ p l, mapFind c1.mapToLit_ss p = some l → mapFind c2.mapToLit_ss p = some l) ∧
      (∀ l, (∃ p, mapFind c2.mapToLit p = some l ∨ mapFind c2.mapToLit_ss p = some l) ↔
        (1 ≤ l ∧ l < c2.clauseIndex)) := by
  have hinit : LitInv start := by
    rcases hstart with h | ⟨c0, h⟩
    · rw [h]; exact litInv_flush Constraints.init
    · rw [h]; exact litInv_flush c0
  have e1 := runRound_extends P steps1 start c1 h1
  have e2 := runRound_extends P steps2 c1 c2 h2
  have hinv : LitInv c2 := e2.2 (e1.2 hinit)
  refine ⟨hinv.inj_sl, hinv.inj_ss, hinv.disjoint, e2.1.sl, e2.1.ss, ?_⟩
  intro l
  constructor
  · rintro ⟨p, hp | hp⟩
    · exact hinv.range_sl p l hp
    · exact hinv.range_ss p l hp
  · rintro ⟨h1, h2⟩
    exact hinv.used l h1 h2

/-- Witness for C7: a `Calculate` on the sample trace, then two `GenerateClauses`. -/
theorem literal_assignment_spec_witness :
    (∀ p q l, mapFind sampleState2.mapToLit p = some l →
        mapFind sampleState2.mapToLit q = some l → p = q) ∧
      (∀ p q l, mapFind sampleState2.mapToLit_ss p = some l →
        mapFind sampleState2.mapToLit_ss q = some l → p = q) ∧
      (∀ p q l, mapFind sampleState2.mapToLit p = some l →
        mapFind sampleState2.mapToLit_ss q ≠ some l) ∧
      (∀ p l, mapFind sampleState1.mapToLit p = some l →
        mapFind sampleState2.mapToLit p = some l) ∧
      (∀ p l, mapFind sampleState1.mapToLit_ss p = some l →
        mapFind sampleState2.mapToLit_ss p = some l) ∧
      (∀ l, (∃ p, mapFind sampleState2.mapToLit p = some l ∨
          mapFind sampleState2.mapToLit_ss p = some l) ↔
        (1 ≤ l ∧ l < sampleState2.clauseIndex)) :=
  literal_assignment_spec sampleParamsTSO Constraints.init
    [RoundStep.calculate sampleThreadTrace 2]
    [RoundStep.generate 0 2 sampleThreadTrace, RoundStep.generate 0 2 sampleTrace2]
    sampleState1 sampleState2 (Or.inl rfl) (by decide) (by decide)

end Constraints

namespace Constraints

/-! ## The clause of a segment under TSO -/

theorem emitStoreLoad_clauses (c : Constraints) (st ld lit : Int) :
    lit ∈ (emitStoreLoad c st ld).clauses ↔
      lit ∈ c.clauses ∨ mapFind (emitStoreLoad c st ld).mapToLit (st, ld) = some lit := by
  unfold emitStoreLoad
  cases hf : mapFind c.mapToLit (st, ld) with
  | some l =>
    simp only [mem_setInsert, hf, Option.some.injEq]
    constructor
    · rintro (h | h)
      · exact Or.inr h.symm
      · exact Or.inl h
    · rintro (h | h)
      · exact Or.inr h
      · exact Or.inl h.symm
  | none =>
    simp only [mem_setInsert, mapFind_mapInsert _ _ _ _ hf, if_true, Option.some.injEq]
    constructor
    · rintro (h | h)
      · exact Or.inr h.symm
      · exact Or.inl h
    · rintro (h | h)
      · exact Or.inr h
      · exact Or.inl h.symm

theorem emitStoreLoad_defined (c : Constraints) (st ld : Int) :
    ∃ l, mapFind (emitStoreLoad c st ld).mapToLit (st, ld) = some l := by
  unfold emitStoreLoad
  cases hf : mapFind c.mapToLit (st, ld) with
  | some l => exact ⟨l, hf⟩
  | none => exact ⟨c.clauseIndex, by simp [mapFind_mapInsert _ _ _ _ hf]⟩

theorem emitStoreLoad_ss (c : Constraints) (st ld : Int) :
    (emitStoreLoad c st ld).mapToLit_ss = c.mapToLit_ss := by
  unfold emitStoreLoad
  cases mapFind c.mapToLit (st, ld) <;> rfl

/-- The literals that a READ adds to the clause: those of the pairs with the buffered
entries at another location. -/
theorem readLoop_clauses (e : rwtrace_elem) :
    ∀ (sb : List rwtrace_elem) (c : Constraints) (lit : Int),
      lit ∈ (readLoop e sb c).clauses ↔
        lit ∈ c.clauses ∨ ∃ w ∈ sb, w.location ≠ e.location ∧
          mapFind (readLoop e sb c).mapToLit (w.label, e.label) = some lit := by
  intro sb
  induction sb with
  | nil => intro c lit; simp [readLoop]
  | cons w sb ih =>
    intro c lit
    by_cases hloc : e.location ≠ w.location
    · have hstep : readLoop e (w :: sb) c = readLoop e sb (emitStoreLoad c w.label e.label) := by
        simp [readLoop, hloc]
      rw [hstep, ih, emitStoreLoad_clauses]
      have hst := (readLoop_extends e sb (emitStoreLoad c w.label e.label)).1
      obtain ⟨l1, hl1⟩ := emitStoreLoad_defined c w.label e.label
      constructor
      · rintro ((h | h) | ⟨w', hw', h1, h2⟩)
        · exact Or.inl h
        · exact Or.inr ⟨w, List.mem_cons_self _ _, fun h' => hloc h'.symm, hst.sl _ _ h⟩
        · exact Or.inr ⟨w', List.mem_cons_of_mem _ hw', h1, h2⟩
      · rintro (h | ⟨w', hw', h1, h2⟩)
        · exact Or.inl (Or.inl h)
        · rcases List.mem_cons.mp hw' with rfl | hw'
          · left; right
            have := hst.sl _ _ hl1
            rw [this] at h2
            cases h2
            exact hl1
          · exact Or.inr ⟨w', hw', h1, h2⟩
    · have hstep : readLoop e (w :: sb) c = readLoop e sb c := by
        simp only [readLoop, hloc, if_false]
      rw [hstep, ih]
      constructor
      · rintro (h | ⟨w', hw', h1, h2⟩)
        · exact Or.inl h
        · exact Or.inr ⟨w', List.mem_cons_of_mem _ hw', h1, h2⟩
      · rintro (h | ⟨w', hw', h1, h2⟩)
        · exact Or.inl h
        · rcases List.mem_cons.mp hw' with rfl | hw'
          · exact absurd h1.symm hloc
          · exact Or.inr ⟨w', hw', h1, h2⟩

theorem readLoop_defined (e : rwtrace_elem) :
    ∀ (sb : List rwtrace_elem) (c : Constraints), ∀ w ∈ sb, w.location ≠ e.location →
      ∃ l, mapFind (readLoop e sb c).mapToLit (w.label, e.label) = some l := by
  intro sb
  induction sb with
  | nil => intro c w hw; simp at hw
  | cons w0 sb ih =>
    intro c w hw hloc
    by_cases hloc0 : e.location ≠ w0.location
    · have hstep : readLoop e (w0 :: sb) c =
          readLoop e sb (emitStoreLoad c w0.label e.label) := by
        simp [readLoop, hloc0]
      rw [hstep]
      rcases List.mem_cons.mp hw with rfl | hw
      · obtain ⟨l1, hl1⟩ := emitStoreLoad_defined c w.label e.label
        exact ⟨l1, (readLoop_extends e sb _).1.sl _ _ hl1⟩
      · exact ih _ w hw hloc
    · have hstep : readLoop e (w0 :: sb) c = readLoop e sb c := by
        simp only [readLoop, hloc0, if_false]
      rw [hstep]
      rcases List.mem_cons.mp hw with rfl | hw
      · exact absurd hloc.symm hloc0
      · exact ih _ w hw hloc

theorem readLoop_ss (e : rwtrace_elem) :
    ∀ (sb : List rwtrace_elem) (c : Constraints),
      (readLoop e sb c).mapToLit_ss = c.mapToLit_ss := by
  intro sb
  induction sb with
  | nil => intro c; rfl
  | cons w sb ih =>
    intro c
    simp only [readLoop]
    split
    · rw [ih, emitStoreLoad_ss]
    · exact ih c

theorem tsoLoop_cons (e : rwtrace_elem) (seg sb : List rwtrace_elem) (c : Constraints) :
    tsoLoop (e :: seg) sb c =
      tsoLoop seg (tsoFifoStep sb e) (if e.type = RWType.READ then readLoop e sb c else c) := by
  simp only [tsoLoop, tsoFifoStep]
  by_cases h1 : e.type = RWType.READ
  · simp [h1]
  · by_cases h2 : e.type = RWType.WRITE
    · simp [h2]
    · by_cases h3 : e.type = RWType.FLUSH_RANDOM_TSO
      · simp only [h3, if_true]
        cases sb <;> simp
      · simp [h1, h2, h3]

theorem tsoFifoFrom_succ (sb : List rwtrace_elem) (e : rwtrace_elem)
    (seg : List rwtrace_elem) (k : Nat) :
    tsoFifoFrom sb (e :: seg) (k + 1) = tsoFifoFrom (tsoFifoStep sb e) seg k := by
  simp [tsoFifoFrom]

theorem tsoLoop_ss :
    ∀ (seg sb : List rwtrace_elem) (c : Constraints),
      (tsoLoop seg sb c).mapToLit_ss = c.mapToLit_ss := by
  intro seg
  induction seg with
  | nil => intro sb c; rfl
  | cons e seg ih =>
    intro sb c
    rw [tsoLoop_cons, ih]
    split
    · exact readLoop_ss e sb c
    · rfl

/-- The clause after the TSO loop, from any content of the simulated buffer. -/
theorem tsoLoop_clauses :
    ∀ (seg sb : List rwtrace_elem) (c : Constraints) (lit : Int),
      lit ∈ (tsoLoop seg sb c).clauses ↔
        lit ∈ c.clauses ∨ ∃ k r w, seg[k]? = some r ∧ r.type = RWType.READ ∧
          w ∈ tsoFifoFrom sb seg k ∧ w.location ≠ r.location ∧
          mapFind (tsoLoop seg sb c).mapToLit (w.label, r.label) = some lit := by
  intro seg
  induction seg with
  | nil => intro sb c lit; simp [tsoLoop]
  | cons e seg ih =>
    intro sb c lit
    rw [tsoLoop_cons, ih]
    have hst := (tsoLoop_extends seg (tsoFifoStep sb e)
      (if e.type = RWType.READ then readLoop e sb c else c)).1
    constructor
    · rintro (h | ⟨k, r, w, h1, h2, h3, h4, h5⟩)
      · by_cases hr : e.type = RWType.READ
        · simp only [hr, if_true] at h hst ⊢
          rcases (readLoop_clauses e sb c lit).mp h with h | ⟨w, hw, hloc, hfind⟩
          · exact Or.inl h
          · exact Or.inr ⟨0, e, w, by simp, hr, by simpa [tsoFifoFrom] using hw, hloc,
              hst.sl _ _ hfind⟩
        · simp only [hr, if_false] at h
          exact Or.inl h
      · exact Or.inr ⟨k + 1, r, w, by simpa using h1, h2,
          by rw [tsoFifoFrom_succ]; exact h3, h4, h5⟩
    · rintro (h | ⟨k, r, w, h1, h2, h3, h4, h5⟩)
      · left
        by_cases hr : e.type = RWType.READ
        · simp only [hr, if_true]
          exact (readLoop_clauses e sb c lit).mpr (Or.inl h)
        · simp only [hr, if_false]; exact h
      · cases k with
        | zero =>
          simp only [List.getElem?_cons_zero, Option.some.injEq] at h1
          subst h1
          simp only [tsoFifoFrom, List.take_zero, List.foldl_nil] at h3
          simp only [h2, if_true] at h5 hst ⊢
          left
          obtain ⟨l1, hl1⟩ := readLoop_defined e sb c w h3 h4
          have := hst.sl _ _ hl1
          rw [this] at h5
          cases h5
          exact (readLoop_clauses e sb c _).mpr (Or.inr ⟨w, h3, h4, hl1⟩)
        | succ k =>
          rw [tsoFifoFrom_succ] at h3
          exact Or.inr ⟨k, r, w, by simpa using h1, h2, h3, h4, h5⟩

/-- Every pair that the TSO loop meets has a literal afterwards. -/
theorem tsoLoop_defined :
    ∀ (seg sb : List rwtrace_elem) (c : Constraints) (k : Nat) (r w : rwtrace_elem),
      seg[k]? = some r → r.type = RWType.READ → w ∈ tsoFifoFrom sb seg k →
        w.location ≠ r.location →
        ∃ l, mapFind (tsoLoop seg sb c).mapToLit (w.label, r.label) = some l := by
  intro seg
  induction seg with
  | nil => intro sb c k r w h; simp at h
  | cons e seg ih =>
    intro sb c k r w h1 h2 h3 h4
    rw [tsoLoop_cons]
    cases k with
    | zero =>
      simp only [List.getElem?_cons_zero, Option.some.injEq] at h1
      subst h1
      simp only [tsoFifoFrom, List.take_zero, List.foldl_nil] at h3
      simp only [h2, if_true]
      obtain ⟨l1, hl1⟩ := readLoop_defined e sb c w h3 h4
      exact ⟨l1, (tsoLoop_extends seg _ _).1.sl _ _ hl1⟩
    | succ k =>
      rw [tsoFifoFrom_succ] at h3
      exact ih _ _ k r w (by simpa using h1) h2 h3 h4

end Constraints

namespace Constraints

theorem tsoFifo_writes (seg : List rwtrace_elem) :
    ∀ (fifo : List rwtrace_elem),
      (∀ w ∈ fifo, w.type = RWType.WRITE) →
      ∀ w ∈ seg.foldl tsoFifoStep fifo, w.type = RWType.WRITE ∧ (w ∈ fifo ∨ w ∈ seg) := by
  induction seg with
  | nil => intro fifo h w hw; exact ⟨h w hw, Or.inl hw⟩
  | cons e seg ih =>
    intro fifo h w hw
    simp only [List.foldl_cons] at hw
    have hstep : ∀ x ∈ tsoFifoStep fifo e, x.type = RWType.WRITE ∧ (x ∈ fifo ∨ x = e) := by
      intro x hx
      unfold tsoFifoStep at hx
      split at hx
      · rename_i hty
        rcases List.mem_append.mp hx with hx | hx
        · exact ⟨h x hx, Or.inl hx⟩
        · rw [List.mem_singleton] at hx; subst hx; exact ⟨hty, Or.inr rfl⟩
      · split at hx
        · have := List.mem_of_mem_tail hx
          exact ⟨h x this, Or.inl this⟩
        · exact ⟨h x hx, Or.inl hx⟩
    obtain ⟨h1, h2⟩ := ih (tsoFifoStep fifo e) (fun x hx => (hstep x hx).1) w hw
    refine ⟨h1, ?_⟩
    rcases h2 with h2 | h2
    · rcases (hstep w h2).2 with h3 | h3
      · exact Or.inl h3
      · exact Or.inr (h3 ▸ List.mem_cons_self _ _)
    · exact Or.inr (List.mem_cons_of_mem _ h2)

/-- C5: under TSO `GenerateClauses` returns, and the literals it adds to the clause of a
segment are exactly those of the pairs `(w.label, r.label)` for a READ entry `r` of the
segment and an entry `w` of the simulated FIFO at the time `r` is reached whose location
differs from the one of `r`; the FIFO starts empty, gets every WRITE entry appended and
loses its oldest entry at every FLUSH_RANDOM_TSO. Every such pair has a literal, which is
in the clause, and no store-store literal is assigned. -/
theorem GenerateClauses_tso_spec (P : Params) (begin_ end_ : Nat) (tr : Trace)
    (c : Constraints) (hP : P.WMM = WMM_TSO) :
    ∃ c', GenerateClauses P begin_ end_ tr c = some c' ∧
      (∀ lit, lit ∈ c'.clauses ↔
        lit ∈ c.clauses ∨ ∃ k r w, (segment begin_ end_ tr)[k]? = some r ∧
          r.type = RWType.READ ∧ w ∈ tsoFifoAt (segment begin_ end_ tr) k ∧
          w.location ≠ r.location ∧ mapFind c'.mapToLit (w.label, r.label) = some lit) ∧
      (∀ k r w, (segment begin_ end_ tr)[k]? = some r → r.type = RWType.READ →
        w ∈ tsoFifoAt (segment begin_ end_ tr) k → w.location ≠ r.location →
          ∃ lit, mapFind c'.mapToLit (w.label, r.label) = some lit ∧ lit ∈ c'.clauses) ∧
      (∀ k w, w ∈ tsoFifoAt (segment begin_ end_ tr) k →
        w.type = RWType.WRITE ∧ w ∈ (segment begin_ end_ tr).take k) ∧
      c'.mapToLit_ss = c.mapToLit_ss := by
  refine ⟨tsoLoop (segment begin_ end_ tr) [] c, by simp [GenerateClauses, hP], ?_, ?_, ?_, ?_⟩
  · intro lit
    exact tsoLoop_clauses _ [] c lit
  · intro k r w h1 h2 h3 h4
    obtain ⟨l, hl⟩ := tsoLoop_defined _ [] c k r w h1 h2 h3 h4
    exact ⟨l, hl, (tsoLoop_clauses _ [] c l).mpr (Or.inr ⟨k, r, w, h1, h2, h3, h4, hl⟩)⟩
  · intro k w hw
    have := tsoFifo_writes ((segment begin_ end_ tr).take k) [] (by simp) w hw
    exact ⟨this.1, by simpa using this.2⟩
  · exact tsoLoop_ss _ _ _

/-- Witness for C5: the second segment of the sample trace. -/
theorem GenerateClauses_tso_spec_witness :
    ∃ c', GenerateClauses sampleParamsTSO 3 8 sampleThreadTrace Constraints.init = some c' ∧
      (∀ lit, lit ∈ c'.clauses ↔
        lit ∈ Constraints.init.clauses ∨ ∃ k r w,
          (segment 3 8 sampleThreadTrace)[k]? = some r ∧
          r.type = RWType.READ ∧ w ∈ tsoFifoAt (segment 3 8 sampleThreadTrace) k ∧
          w.location ≠ r.location ∧ mapFind c'.mapToLit (w.label, r.label) = some lit) ∧
      (∀ k r w, (segment 3 8 sampleThreadTrace)[k]? = some r → r.type = RWType.READ →
        w ∈ tsoFifoAt (segment 3 8 sampleThreadTrace) k → w.location ≠ r.location →
          ∃ lit, mapFind c'.mapToLit (w.label, r.label) = some lit ∧ lit ∈ c'.clauses) ∧
      (∀ k w, w ∈ tsoFifoAt (segment 3 8 sampleThreadTrace) k →
        w.type = RWType.WRITE ∧ w ∈ (segment 3 8 sampleThreadTrace).take k) ∧
      c'.mapToLit_ss = Constraints.init.mapToLit_ss :=
  GenerateClauses_tso_spec sampleParamsTSO 3 8 sampleThreadTrace Constraints.init rfl

end Constraints

namespace Constraints

/-! ## The clause of a segment under PSO -/

theorem emitStoreStore_clauses (c : Constraints) (st ld lit : Int) :
    lit ∈ (emitStoreStore c st ld).clauses ↔
      lit ∈ c.clauses ∨ mapFind (emitStoreStore c st ld).mapToLit_ss (st, ld) = some lit := by
  unfold emitStoreStore
  cases hf : mapFind c.mapToLit_ss (st, ld) with
  | some l =>
    simp only [mem_setInsert, hf, Option.some.injEq]
    constructor
    · rintro (h | h)
      · exact Or.inr h.symm
      · exact Or.inl h
    · rintro (h | h)
      · exact Or.inr h
      · exact Or.inl h.symm
  | none =>
    simp only [mem_setInsert, mapFind_mapInsert _ _ _ _ hf, if_true, Option.some.injEq]
    constructor
    · rintro (h | h)
      · exact Or.inr h.symm
      · exact Or.inl h
    · rintro (h | h)
      · exact Or.inr h
      · exact Or.inl h.symm

theorem emitStoreStore_defined (c : Constraints) (st ld : Int) :
    ∃ l, mapFind (emitStoreStore c st ld).mapToLit_ss (st, ld) = some l := by
  unfold emitStoreStore
  cases hf : mapFind c.mapToLit_ss (st, ld) with
  | some l => exact ⟨l, hf⟩
  | none => exact ⟨c.clauseIndex, by simp [mapFind_mapInsert _ _ _ _ hf]⟩

theorem emitPair_extends (c : Constraints) (p : KindedPair) : Extends c (emitPair c p) := by
  unfold emitPair
  split
  · exact emitStoreLoad_extends c _ _
  · exact emitStoreStore_extends c _ _

theorem emitAll_extends :
    ∀ (ps : List KindedPair) (c : Constraints), Extends c (emitAll ps c) := by
  intro ps
  induction ps with
  | nil => intro c; exact Extends.extends_refl c
  | cons p ps ih =>
    intro c
    exact (emitPair_extends c p).extends_trans (ih _)

theorem emitAll_append (ps qs : List KindedPair) (c : Constraints) :
    emitAll (ps ++ qs) c = emitAll qs (emitAll ps c) := by
  simp [emitAll, List.foldl_append]

theorem litOf_stable (c c' : Constraints) (h : Stable c c') (p : KindedPair) (l : Int)
    (hl : litOf c p = some l) : litOf c' p = some l := by
  unfold litOf at hl ⊢
  split
  · rename_i hp; simp only [hp, if_true] at hl; exact h.sl _ _ hl
  · rename_i hp; simp only [hp] at hl; exact h.ss _ _ hl

theorem emitPair_clauses (c : Constraints) (p : KindedPair) (lit : Int) :
    lit ∈ (emitPair c p).clauses ↔ lit ∈ c.clauses ∨ litOf (emitPair c p) p = some lit := by
  obtain ⟨kind, st, ld⟩ := p
  cases kind
  · simp only [emitPair, litOf]
    exact emitStoreStore_clauses c st ld lit
  · simp only [emitPair, litOf, if_true]
    exact emitStoreLoad_clauses c st ld lit

theorem emitPair_defined (c : Constraints) (p : KindedPair) :
    ∃ l, litOf (emitPair c p) p = some l := by
  obtain ⟨kind, st, ld⟩ := p
  cases kind
  · simp only [emitPair, litOf]
    exact emitStoreStore_defined c st ld
  · simp only [emitPair, litOf, if_true]
    exact emitStoreLoad_defined c st ld

theorem emitAll_defined :
    ∀ (ps : List KindedPair) (c : Constraints), ∀ p ∈ ps,
      ∃ l, litOf (emitAll ps c) p = some l := by
  intro ps
  induction ps with
  | nil => intro c p hp; simp at hp
  | cons q ps ih =>
    intro c p hp
    rcases List.mem_cons.mp hp with rfl | hp
    · obtain ⟨l, hl⟩ := emitPair_defined c p
      exact ⟨l, litOf_stable _ _ (emitAll_extends ps _).1 p l hl⟩
    · exact ih (emitPair c q) p hp

/-- The clause after a list of pairs was emitted holds, besides what it held before, the
literals of these pairs. -/
theorem emitAll_clauses :
    ∀ (ps : List KindedPair) (c : Constraints) (lit : Int),
      lit ∈ (emitAll ps c).clauses ↔
        lit ∈ c.clauses ∨ ∃ p ∈ ps, litOf (emitAll ps c) p = some lit := by
  intro ps
  induction ps with
  | nil => intro c lit; simp [emitAll]
  | cons q ps ih =>
    intro c lit
    have hcons : emitAll (q :: ps) c = emitAll ps (emitPair c q) := rfl
    rw [hcons, ih, emitPair_clauses]
    have hst := (emitAll_extends ps (emitPair c q)).1
    obtain ⟨l1, hl1⟩ := emitPair_defined c q
    constructor
    · rintro ((h | h) | ⟨p, hp, h⟩)
      · exact Or.inl h
      · exact Or.inr ⟨q, List.mem_cons_self _ _, litOf_stable _ _ hst q lit h⟩
      · exact Or.inr ⟨p, List.mem_cons_of_mem _ hp, h⟩
    · rintro (h | ⟨p, hp, h⟩)
      · exact Or.inl (Or.inl h)
      · rcases List.mem_cons.mp hp with rfl | hp
        · left; right
          have := litOf_stable _ _ hst p l1 hl1
          rw [this] at h
          cases h
          exact hl1
        · exact Or.inr ⟨p, hp, h⟩

theorem readLoop_eq_emitAll (e : rwtrace_elem) :
    ∀ (l : List rwtrace_elem) (c : Constraints),
      readLoop e l c = emitAll (pairsWith true e l) c := by
  intro l
  induction l with
  | nil => intro c; rfl
  | cons w l ih =>
    intro c
    by_cases h : e.location ≠ w.location
    · simp only [readLoop, h, if_true, not_false_eq_true, ih]
      simp [pairsWith, h, emitAll, emitPair]
    · simp only [readLoop, h, if_false, ih]
      simp [pairsWith, h]

theorem writeLoop_eq_emitAll (e : rwtrace_elem) :
    ∀ (l : List rwtrace_elem) (c : Constraints),
      writeLoop e l c = emitAll (pairsWith false e l) c := by
  intro l
  induction l with
  | nil => intro c; rfl
  | cons w l ih =>
    intro c
    by_cases h : e.location ≠ w.location
    · simp only [writeLoop, h, if_true, not_false_eq_true, ih]
      simp [pairsWith, h, emitAll, emitPair]
    · simp only [writeLoop, h, if_false, ih]
      simp [pairsWith, h]

theorem pairsWith_append (kind : Bool) (e : rwtrace_elem) (l1 l2 : List rwtrace_elem) :
    pairsWith kind e (l1 ++ l2) = pairsWith kind e l1 ++ pairsWith kind e l2 := by
  simp [pairsWith]

theorem psoReadLoop_eq_emitAll (e : rwtrace_elem) :
    ∀ (buf : SSBuffer) (c : Constraints),
      psoReadLoop e buf c = emitAll (pairsWith true e (bufAll buf)) c := by
  intro buf
  induction buf with
  | nil => intro c; rfl
  | cons a buf ih =>
    intro c
    obtain ⟨k, l⟩ := a
    simp only [psoReadLoop, bufAll, pairsWith_append, emitAll_append, ih, readLoop_eq_emitAll]

theorem psoWriteLoop_eq_emitAll (e : rwtrace_elem) :
    ∀ (buf : SSBuffer) (c : Constraints),
      psoWriteLoop e buf c = emitAll (pairsWith false e (bufAll buf)) c := by
  intro buf
  induction buf with
  | nil => intro c; rfl
  | cons a buf ih =>
    intro c
    obtain ⟨k, l⟩ := a
    simp only [psoWriteLoop, bufAll, pairsWith_append, emitAll_append, ih,
      writeLoop_eq_emitAll]

/-- The PSO loop emits the pairs of `psoPairs`, in order. -/
theorem psoLoop_eq_emitAll :
    ∀ (seg : List rwtrace_elem) (buf : SSBuffer) (c : Constraints),
      psoLoop seg buf c = emitAll (psoPairs seg buf) c := by
  intro seg
  induction seg with
  | nil => intro buf c; rfl
  | cons e seg ih =>
    intro buf c
    simp only [psoLoop, psoPairs, emitAll_append, psoEmitted, psoBufStep]
    by_cases h1 : e.type = RWType.READ
    · simp only [h1, if_true, ih, psoReadLoop_eq_emitAll]
    · by_cases h2 : e.type = RWType.WRITE
      · simp only [h2, if_true, ih, psoWriteLoop_eq_emitAll]
        simp
      · by_cases h3 : e.type = RWType.FLUSH_RANDOM_PSO
        · simp only [h3, if_true, ih]
          simp [emitAll]
        · by_cases h4 : e.type = RWType.FLUSH_CAS_PSO
          · simp only [h4, if_true, ih]
            simp [emitAll]
          · simp only [h1, h2, h3, h4, if_false, ih]
            simp [emitAll]

end Constraints

namespace Constraints

theorem bufGet_eq_nil (buf : SSBuffer) (a : Nat) (h : ∀ x ∈ buf, a < x.1) :
    bufGet buf a = [] := by
  induction buf with
  | nil => rfl
  | cons x buf ih =>
    obtain ⟨k, l⟩ := x
    have hk : a < k := h (k, l) (List.mem_cons_self _ _)
    have hne : k ≠ a := by omega
    simp only [bufGet, hne, if_false]
    exact ih (fun y hy => h y (List.mem_cons_of_mem _ hy))

theorem mem_bufUpdate_key (loc : Nat) (f : List rwtrace_elem → List rwtrace_elem) :
    ∀ (buf : SSBuffer) (x : Nat × List rwtrace_elem), x ∈ bufUpdate loc f buf →
      x.1 = loc ∨ ∃ y ∈ buf, y.1 = x.1 := by
  intro buf
  induction buf with
  | nil =>
    intro x hx
    simp only [bufUpdate, List.mem_singleton] at hx
    subst hx; exact Or.inl rfl
  | cons a buf ih =>
    intro x hx
    obtain ⟨k, l⟩ := a
    simp only [bufUpdate] at hx
    split at hx
    · rename_i hk
      rcases List.mem_cons.mp hx with rfl | hx
      · exact Or.inl hk.symm
      · exact Or.inr ⟨x, List.mem_cons_of_mem _ hx, rfl⟩
    · split at hx
      · rcases List.mem_cons.mp hx with rfl | hx
        · exact Or.inl rfl
        · exact Or.inr ⟨x, hx, rfl⟩
      · rcases List.mem_cons.mp hx with rfl | hx
        · exact Or.inr ⟨(k, l), List.mem_cons_self _ _, rfl⟩
        · rcases ih x hx with h | ⟨y, hy, h⟩
          · exact Or.inl h
          · exact Or.inr ⟨y, List.mem_cons_of_mem _ hy, h⟩

theorem bufUpdate_sorted (loc : Nat) (f : List rwtrace_elem → List rwtrace_elem) :
    ∀ (buf : SSBuffer), buf.Pairwise (fun a b => a.1 < b.1) →
      (bufUpdate loc f buf).Pairwise (fun a b => a.1 < b.1) := by
  intro buf
  induction buf with
  | nil => intro _; simp [bufUpdate]
  | cons a buf ih =>
    intro h
    obtain ⟨k, l⟩ := a
    have hc := List.pairwise_cons.mp h
    simp only [bufUpdate]
    split
    · exact List.pairwise_cons.mpr ⟨fun y hy => hc.1 y hy, hc.2⟩
    · split
      · rename_i h1 h2
        refine List.pairwise_cons.mpr ⟨?_, h⟩
        intro y hy
        rcases List.mem_cons.mp hy with rfl | hy
        · exact h2
        · have := hc.1 y hy
          show loc < y.1
          have h3 : k < y.1 := this
          omega
      · rename_i h1 h2
        refine List.pairwise_cons.mpr ⟨?_, ih hc.2⟩
        intro y hy
        show k < y.1
        rcases mem_bufUpdate_key loc f buf y hy with h3 | ⟨z, hz, h3⟩
        · omega
        · have : k < z.1 := hc.1 z hz
          omega

theorem bufGet_bufUpdate (loc : Nat) (f : List rwtrace_elem → List rwtrace_elem) :
    ∀ (buf : SSBuffer), buf.Pairwise (fun a b => a.1 < b.1) → ∀ a,
      bufGet (bufUpdate loc f buf) a = if a = loc then f (bufGet buf loc) else bufGet buf a := by
  intro buf
  induction buf with
  | nil =>
    intro _ a
    simp only [bufUpdate, bufGet]
    by_cases h : a = loc
    · simp [h]
    · have : loc ≠ a := fun h' => h h'.symm
      simp [h, this]
  | cons x buf ih =>
    intro hs a
    obtain ⟨k, l⟩ := x
    have hc := List.pairwise_cons.mp hs
    simp only [bufUpdate]
    by_cases h1 : loc = k
    · subst h1
      simp only [if_true, bufGet]
      by_cases h : a = loc
      · simp [h]
      · have : loc ≠ a := fun h' => h h'.symm
        simp [h, this]
    · simp only [h1, if_false]
      by_cases h2 : loc < k
      · simp only [h2, if_true]
        have hnil : bufGet ((k, l) :: buf) loc = [] := by
          apply bufGet_eq_nil
          intro y hy
          rcases List.mem_cons.mp hy with rfl | hy
          · exact h2
          · have : k < y.1 := hc.1 y hy
            omega
        rw [hnil]
        by_cases h : a = loc
        · simp [bufGet, h]
        · have : loc ≠ a := fun h' => h h'.symm
          simp [bufGet, h, this]
      · simp only [h2, if_false]
        have hk : k ≠ loc := fun h' => h1 h'.symm
        simp only [bufGet, hk, if_false, ih hc.2]
        by_cases h : a = loc
        · subst h
          simp [hk]
        · simp [h]

theorem mem_bufAll (buf : SSBuffer) (hs : buf.Pairwise (fun a b => a.1 < b.1))
    (w : rwtrace_elem) : w ∈ bufAll buf ↔ ∃ a, w ∈ bufGet buf a := by
  induction buf with
  | nil => simp [bufAll, bufGet]
  | cons x buf ih =>
    obtain ⟨k, l⟩ := x
    have hc := List.pairwise_cons.mp hs
    simp only [bufAll, List.mem_append, ih hc.2]
    constructor
    · rintro (h | ⟨a, ha⟩)
      · exact ⟨k, by simp [bufGet, h]⟩
      · refine ⟨a, ?_⟩
        have hka : k ≠ a := by
          intro hka
          subst hka
          have : bufGet buf k = [] := by
            apply bufGet_eq_nil
            intro y hy
            exact hc.1 y hy
          rw [this] at ha
          simp at ha
        simp [bufGet, hka, ha]
    · rintro ⟨a, ha⟩
      simp only [bufGet] at ha
      split at ha
      · exact Or.inl ha
      · exact Or.inr ⟨a, ha⟩

theorem rep_init : Rep [] (fun _ => []) :=
  ⟨List.Pairwise.nil, fun _ => rfl, fun _ w hw => by simp at hw⟩

theorem rep_update (buf : SSBuffer) (fifo : Nat → List rwtrace_elem) (h : Rep buf fifo)
    (loc : Nat) (f : List rwtrace_elem → List rwtrace_elem)
    (hf : ∀ w ∈ f (fifo loc), w.location = loc) :
    Rep (bufUpdate loc f buf) (Function.update fifo loc (f (fifo loc))) := by
  refine ⟨bufUpdate_sorted loc f buf h.sorted, ?_, ?_⟩
  · intro a
    rw [bufGet_bufUpdate loc f buf h.sorted a]
    by_cases ha : a = loc
    · subst ha; simp [h.get]
    · simp [ha, h.get]
  · intro a w hw
    by_cases ha : a = loc
    · subst ha
      rw [Function.update_same] at hw
      exact hf w hw
    · rw [Function.update_noteq ha] at hw
      exact h.loc a w hw

theorem rep_step (buf : SSBuffer) (fifo : Nat → List rwtrace_elem) (h : Rep buf fifo)
    (e : rwtrace_elem) : Rep (psoBufStep buf e) (psoFifoStep fifo e) := by
  unfold psoBufStep psoFifoStep
  by_cases h1 : e.type = RWType.READ
  · simp [h1, h]
  · by_cases h2 : e.type = RWType.WRITE
    · simp only [h2, if_true]
      have := rep_update buf fifo h e.location (fun l => l ++ [e]) (by
        intro w hw
        rcases List.mem_append.mp hw with hw | hw
        · exact h.loc _ w hw
        · rw [List.mem_singleton] at hw; rw [hw])
      simpa using this
    · by_cases h3 : e.type = RWType.FLUSH_RANDOM_PSO
      · simp only [h3, if_true]
        have := rep_update buf fifo h e.location (fun l => if l ≠ [] then l.tail else l) (by
          intro w hw
          beta_reduce at hw
          split at hw
          · exact h.loc _ w (List.mem_of_mem_tail hw)
          · exact h.loc _ w hw)
        have htail : (if fifo e.location ≠ [] then (fifo e.location).tail
            else fifo e.location) = (fifo e.location).tail := by
          cases hfl : fifo e.location <;> simp
        simp only [htail] at this
        simpa using this
      · by_cases h4 : e.type = RWType.FLUSH_CAS_PSO
        · simp only [h4, if_true]
          have := rep_update buf fifo h e.location (fun _ => []) (by
            intro w hw; simp at hw)
          simpa using this
        · simp only [h1, h2, h3, h4, if_false]
          exact h

end Constraints

namespace Constraints

theorem mem_pairsWith (kind : Bool) (e : rwtrace_elem) (l : List rwtrace_elem)
    (p : KindedPair) :
    p ∈ pairsWith kind e l ↔
      ∃ w ∈ l, e.location ≠ w.location ∧ p = (kind, (w.label, e.label)) := by
  simp only [pairsWith, List.mem_map, List.mem_filter, decide_eq_true_eq]
  constructor
  · rintro ⟨w, ⟨hw, hloc⟩, rfl⟩; exact ⟨w, hw, hloc, rfl⟩
  · rintro ⟨w, hw, hloc, rfl⟩; exact ⟨w, ⟨hw, hloc⟩, rfl⟩

theorem mem_psoEmitted (e : rwtrace_elem) (buf : SSBuffer) (fifo : Nat → List rwtrace_elem)
    (h : Rep buf fifo) (p : KindedPair) :
    p ∈ psoEmitted e buf ↔
      ∃ a w, a ≠ e.location ∧ w ∈ fifo a ∧
        ((e.type = RWType.READ ∧ p = (true, (w.label, e.label))) ∨
          (e.type = RWType.WRITE ∧ p = (false, (w.label, e.label)))) := by
  have hmem : ∀ w, (w ∈ bufAll buf ∧ e.location ≠ w.location) ↔
      ∃ a, a ≠ e.location ∧ w ∈ fifo a := by
    intro w
    rw [mem_bufAll buf h.sorted]
    constructor
    · rintro ⟨⟨a, ha⟩, hloc⟩
      rw [h.get] at ha
      have := h.loc a w ha
      exact ⟨a, by rw [← this]; exact fun h' => hloc h'.symm, ha⟩
    · rintro ⟨a, ha, hw⟩
      have := h.loc a w hw
      exact ⟨⟨a, by rw [h.get]; exact hw⟩, by rw [this]; exact fun h' => ha h'.symm⟩
  unfold psoEmitted
  by_cases h1 : e.type = RWType.READ
  · rw [if_pos h1]
    simp only [mem_pairsWith]
    constructor
    · rintro ⟨w, hw, hloc, rfl⟩
      obtain ⟨a, ha, hwa⟩ := (hmem w).mp ⟨hw, hloc⟩
      exact ⟨a, w, ha, hwa, Or.inl ⟨h1, rfl⟩⟩
    · rintro ⟨a, w, ha, hwa, ⟨-, hp⟩ | ⟨hp, -⟩⟩
      · obtain ⟨hw, hloc⟩ := (hmem w).mpr ⟨a, ha, hwa⟩
        exact ⟨w, hw, hloc, hp⟩
      · rw [h1] at hp; cases hp
  · by_cases h2 : e.type = RWType.WRITE
    · rw [if_neg h1, if_pos h2]
      simp only [mem_pairsWith]
      constructor
      · rintro ⟨w, hw, hloc, rfl⟩
        obtain ⟨a, ha, hwa⟩ := (hmem w).mp ⟨hw, hloc⟩
        exact ⟨a, w, ha, hwa, Or.inr ⟨h2, rfl⟩⟩
      · rintro ⟨a, w, ha, hwa, ⟨hp, -⟩ | ⟨-, hp⟩⟩
        · exact absurd hp h1
        · obtain ⟨hw, hloc⟩ := (hmem w).mpr ⟨a, ha, hwa⟩
          exact ⟨w, hw, hloc, hp⟩
    · rw [if_neg h1, if_neg h2]
      simp only [List.not_mem_nil, false_iff]
      rintro ⟨a, w, -, -, ⟨hp, -⟩ | ⟨hp, -⟩⟩
      · exact h1 hp
      · exact h2 hp

theorem psoFifoFrom_succ (fifo : Nat → List rwtrace_elem) (e : rwtrace_elem)
    (seg : List rwtrace_elem) (k : Nat) :
    psoFifoFrom fifo (e :: seg) (k + 1) = psoFifoFrom (psoFifoStep fifo e) seg k := by
  simp [psoFifoFrom]

/-- The pairs that the PSO loop emits, in the words of the specification. -/
theorem mem_psoPairs :
    ∀ (seg : List rwtrace_elem) (buf : SSBuffer) (fifo : Nat → List rwtrace_elem),
      Rep buf fifo → ∀ p : KindedPair,
      (p ∈ psoPairs seg buf ↔
        ∃ k r a w, seg[k]? = some r ∧ a ≠ r.location ∧ w ∈ psoFifoFrom fifo seg k a ∧
          ((r.type = RWType.READ ∧ p = (true, (w.label, r.label))) ∨
            (r.type = RWType.WRITE ∧ p = (false, (w.label, r.label))))) := by
  intro seg
  induction seg with
  | nil => intro buf fifo _ p; simp [psoPairs]
  | cons e seg ih =>
    intro buf fifo h p
    simp only [psoPairs, List.mem_append, mem_psoEmitted e buf fifo h p,
      ih _ _ (rep_step buf fifo h e) p]
    constructor
    · rintro (⟨a, w, ha, hw, hp⟩ | ⟨k, r, a, w, h1, h2, h3, h4⟩)
      · exact ⟨0, e, a, w, by simp, ha, by simpa [psoFifoFrom] using hw, hp⟩
      · exact ⟨k + 1, r, a, w, by simpa using h1, h2, by rw [psoFifoFrom_succ]; exact h3, h4⟩
    · rintro ⟨k, r, a, w, h1, h2, h3, h4⟩
      cases k with
      | zero =>
        simp only [List.getElem?_cons_zero, Option.some.injEq] at h1
        subst h1
        simp only [psoFifoFrom, List.take_zero, List.foldl_nil] at h3
        exact Or.inl ⟨a, w, h2, h3, h4⟩
      | succ k =>
        rw [psoFifoFrom_succ] at h3
        exact Or.inr ⟨k, r, a, w, by simpa using h1, h2, h3, h4⟩

/-- C6: under PSO `GenerateClauses` returns, and the literals it adds to the clause of a
segment are exactly those of the store-load pairs `(w.label, r.label)` for a READ entry
`r` and of the store-store pairs `(w.label, r.label)` for a WRITE entry `r`, with `w` an
entry of the simulated FIFO of an address other than the location of `r` at the time `r`
is reached; there is one FIFO per address, all empty at first, a WRITE is appended to the
FIFO of its location (after its pairs are taken), a FLUSH_RANDOM_PSO removes the oldest
entry of the FIFO of its location and a FLUSH_CAS_PSO empties it. Every such pair has a
literal, which is in the clause. -/
theorem GenerateClauses_pso_spec (P : Params) (begin_ end_ : Nat) (tr : Trace)
    (c : Constraints) (hP : P.WMM = WMM_PSO) :
    ∃ c', GenerateClauses P begin_ end_ tr c = some c' ∧
      (∀ lit, lit ∈ c'.clauses ↔
        lit ∈ c.clauses ∨
        (∃ k r a w, (segment begin_ end_ tr)[k]? = some r ∧ r.type = RWType.READ ∧
          a ≠ r.location ∧ w ∈ psoFifoAt (segment begin_ end_ tr) k a ∧
          mapFind c'.mapToLit (w.label, r.label) = some lit) ∨
        (∃ k r a w, (segment begin_ end_ tr)[k]? = some r ∧ r.type = RWType.WRITE ∧
          a ≠ r.location ∧ w ∈ psoFifoAt (segment begin_ end_ tr) k a ∧
          mapFind c'.mapToLit_ss (w.label, r.label) = some lit)) ∧
      (∀ k r a w, (segment begin_ end_ tr)[k]? = some r → r.type = RWType.READ →
        a ≠ r.location → w ∈ psoFifoAt (segment begin_ end_ tr) k a →
          ∃ lit, mapFind c'.mapToLit (w.label, r.label) = some lit ∧ lit ∈ c'.clauses) ∧
      (∀ k r a w, (segment begin_ end_ tr)[k]? = some r → r.type = RWType.WRITE →
        a ≠ r.location → w ∈ psoFifoAt (segment begin_ end_ tr) k a →
          ∃ lit, mapFind c'.mapToLit_ss (w.label, r.label) = some lit ∧ lit ∈ c'.clauses) := by
  have hgen : GenerateClauses P begin_ end_ tr c =
      some (emitAll (psoPairs (segment begin_ end_ tr) []) c) := by
    have hne : WMM_PSO ≠ WMM_TSO := by decide
    simp only [GenerateClauses, hP, hne, if_false, if_true, psoLoop_eq_emitAll]
  have hmem := mem_psoPairs (segment begin_ end_ tr) [] (fun _ => []) rep_init
  have hcl := emitAll_clauses (psoPairs (segment begin_ end_ tr) []) c
  have hdef := emitAll_defined (psoPairs (segment begin_ end_ tr) []) c
  refine ⟨_, hgen, ?_, ?_, ?_⟩
  · intro lit
    rw [hcl]
    constructor
    · rintro (h | ⟨p, hp, hl⟩)
      · exact Or.inl h
      · obtain ⟨k, r, a, w, h1, h2, h3, ⟨h4, rfl⟩ | ⟨h4, rfl⟩⟩ := (hmem p).mp hp
        · exact Or.inr (Or.inl ⟨k, r, a, w, h1, h4, h2, h3, by simpa [litOf] using hl⟩)
        · exact Or.inr (Or.inr ⟨k, r, a, w, h1, h4, h2, h3, by simpa [litOf] using hl⟩)
    · rintro (h | ⟨k, r, a, w, h1, h4, h2, h3, hl⟩ | ⟨k, r, a, w, h1, h4, h2, h3, hl⟩)
      · exact Or.inl h
      · exact Or.inr ⟨(true, (w.label, r.label)),
          (hmem _).mpr ⟨k, r, a, w, h1, h2, h3, Or.inl ⟨h4, rfl⟩⟩, by simpa [litOf] using hl⟩
      · exact Or.inr ⟨(false, (w.label, r.label)),
          (hmem _).mpr ⟨k, r, a, w, h1, h2, h3, Or.inr ⟨h4, rfl⟩⟩, by simpa [litOf] using hl⟩
  · intro k r a w h1 h4 h2 h3
    have hp := (hmem (true, (w.label, r.label))).mpr ⟨k, r, a, w, h1, h2, h3, Or.inl ⟨h4, rfl⟩⟩
    obtain ⟨l, hl⟩ := hdef _ hp
    exact ⟨l, by simpa [litOf] using hl, (hcl l).mpr (Or.inr ⟨_, hp, hl⟩)⟩
  · intro k r a w h1 h4 h2 h3
    have hp := (hmem (false, (w.label, r.label))).mpr ⟨k, r, a, w, h1, h2, h3, Or.inr ⟨h4, rfl⟩⟩
    obtain ⟨l, hl⟩ := hdef _ hp
    exact ⟨l, by simpa [litOf] using hl, (hcl l).mpr (Or.inr ⟨_, hp, hl⟩)⟩

/-- Witness for C6: the second segment of the sample trace. -/
theorem GenerateClauses_pso_spec_witness :
    ∃ c', GenerateClauses sampleParamsPSO 3 8 sampleThreadTrace Constraints.init = some c' ∧
      (∀ lit, lit ∈ c'.clauses ↔
        lit ∈ Constraints.init.clauses ∨
        (∃ k r a w, (segment 3 8 sampleThreadTrace)[k]? = some r ∧ r.type = RWType.READ ∧
          a ≠ r.location ∧ w ∈ psoFifoAt (segment 3 8 sampleThreadTrace) k a ∧
          mapFind c'.mapToLit (w.label, r.label) = some lit) ∨
        (∃ k r a w, (segment 3 8 sampleThreadTrace)[k]? = some r ∧ r.type = RWType.WRITE ∧
          a ≠ r.location ∧ w ∈ psoFifoAt (segment 3 8 sampleThreadTrace) k a ∧
          mapFind c'.mapToLit_ss (w.label, r.label) = some lit)) ∧
      (∀ k r a w, (segment 3 8 sampleThreadTrace)[k]? = some r → r.type = RWType.READ →
        a ≠ r.location → w ∈ psoFifoAt (segment 3 8 sampleThreadTrace) k a →
          ∃ lit, mapFind c'.mapToLit (w.label, r.label) = some lit ∧ lit ∈ c'.clauses) ∧
      (∀ k r a w, (segment 3 8 sampleThreadTrace)[k]? = some r → r.type = RWType.WRITE →
        a ≠ r.location → w ∈ psoFifoAt (segment 3 8 sampleThreadTrace) k a →
          ∃ lit, mapFind c'.mapToLit_ss (w.label, r.label) = some lit ∧ lit ∈ c'.clauses) :=
  GenerateClauses_pso_spec sampleParamsPSO 3 8 sampleThreadTrace Constraints.init rfl

end Constraints

/-! ## The clause of a bad run -/

theorem segmentLoop_some_fold {σ : Type} (body : Nat → Nat → σ → Option σ) (tr : Trace) :
    ∀ (fuel front back : Nat) (s s' : σ) (acc : List (Nat × Nat)),
      segmentLoop body tr fuel front back s = some s' →
      ∃ rs, segmentLoop (fun b e (a : List (Nat × Nat)) => some (a ++ [(b, e)])) tr
            fuel front back acc = some (acc ++ rs) ∧
        foldRanges body rs s = some s' := by
  intro fuel
  induction fuel with
  | zero => intro front back s s' acc h; simp [segmentLoop] at h
  | succ fuel ih =>
    intro front back s s' acc h
    simp only [segmentLoop] at h ⊢
    split at h
    · cases h
      refine ⟨[], ?_, rfl⟩
      rename_i heq
      simp [heq]
    · rename_i hne
      split at h
      · cases h
      · rename_i s1 hs1
        split at h
        · cases h
        · rename_i f hf
          split at h
          · cases h
          · rename_i e he
            obtain ⟨rs, hrs, hfold⟩ := ih f e s1 s' (acc ++ [(front, back)]) h
            refine ⟨(front, back) :: rs, ?_, ?_⟩
            · simp only [hne, if_false, hf, he, hrs]
              simp
            · simp only [foldRanges, hs1, hfold]

/-- The segmentation of a thread's trace calls its body on the ranges of `threadRanges`,
in order. -/
theorem perThread_some_fold {σ : Type} (body : Nat → Nat → σ → Option σ) (tr : Trace)
    (s s' : σ) (h : perThread body tr s = some s') :
    ∃ rs, threadRanges tr = some rs ∧ foldRanges body rs s = some s' := by
  unfold perThread at h
  unfold threadRanges perThread
  split at h
  · cases h
  · rename_i e rest
    split at h
    · cases h
    · rename_i hl
      split at h
      · cases h
      · rename_i front hfront
        split at h
        · cases h
        · rename_i back hback
          obtain ⟨rs, hrs, hfold⟩ := segmentLoop_some_fold body _ _ _ _ _ _ [] h
          refine ⟨rs, ?_, hfold⟩
          simp only [hl, if_false, hfront, hback]
          simpa using hrs

namespace Constraints

theorem emitAll_nonempty (ps : List KindedPair) (c : Constraints) :
    (emitAll ps c).clauses ≠ [] ↔ c.clauses ≠ [] ∨ ps ≠ [] := by
  constructor
  · intro hnil
    obtain ⟨lit, hlit⟩ := List.exists_mem_of_ne_nil _ hnil
    rcases (emitAll_clauses ps c lit).mp hlit with hl | ⟨p, hp, -⟩
    · exact Or.inl (List.ne_nil_of_mem hl)
    · exact Or.inr (List.ne_nil_of_mem hp)
  · rintro (hnil | hnil)
    · obtain ⟨lit, hlit⟩ := List.exists_mem_of_ne_nil _ hnil
      exact List.ne_nil_of_mem ((emitAll_clauses ps c lit).mpr (Or.inl hlit))
    · obtain ⟨p, hp⟩ := List.exists_mem_of_ne_nil _ hnil
      obtain ⟨l, hl⟩ := emitAll_defined ps c p hp
      exact List.ne_nil_of_mem ((emitAll_clauses ps c l).mpr (Or.inr ⟨p, hp, hl⟩))

theorem GenerateClauses_nonempty (P : Params) (b e : Nat) (tr : Trace) (c c' : Constraints)
    (h : GenerateClauses P b e tr c = some c') :
    c'.clauses ≠ [] ↔ c.clauses ≠ [] ∨ ExhibitsPair P (segment b e tr) := by
  by_cases hT : P.WMM = WMM_TSO
  · have hc' : c' = tsoLoop (segment b e tr) [] c := by
      simp only [GenerateClauses, hT, if_true, Option.some.injEq] at h
      exact h.symm
    subst hc'
    have hne : WMM_TSO ≠ WMM_PSO := by decide
    constructor
    · intro hnil
      obtain ⟨lit, hlit⟩ := List.exists_mem_of_ne_nil _ hnil
      rcases (tsoLoop_clauses _ [] c lit).mp hlit with hl | ⟨k, r, w, h1, h2, h3, h4, -⟩
      · exact Or.inl (List.ne_nil_of_mem hl)
      · exact Or.inr (Or.inl ⟨hT, k, r, w, h1, h2, h3, h4⟩)
    · rintro (hnil | ⟨-, k, r, w, h1, h2, h3, h4⟩ | ⟨hP, -⟩)
      · obtain ⟨lit, hlit⟩ := List.exists_mem_of_ne_nil _ hnil
        exact List.ne_nil_of_mem ((tsoLoop_clauses _ [] c lit).mpr (Or.inl hlit))
      · obtain ⟨lit, hlit⟩ := tsoLoop_defined _ [] c k r w h1 h2 h3 h4
        exact List.ne_nil_of_mem
          ((tsoLoop_clauses _ [] c lit).mpr (Or.inr ⟨k, r, w, h1, h2, h3, h4, hlit⟩))
      · rw [hT] at hP; exact absurd hP hne
  · by_cases hPSO : P.WMM = WMM_PSO
    · have hc' : c' = emitAll (psoPairs (segment b e tr) []) c := by
        unfold GenerateClauses at h
        rw [if_neg hT, if_pos hPSO, psoLoop_eq_emitAll] at h
        cases h
        rfl
      subst hc'
      have hmem := mem_psoPairs (segment b e tr) [] (fun _ => []) rep_init
      rw [emitAll_nonempty]
      constructor
      · rintro (hnil | hnil)
        · exact Or.inl hnil
        · obtain ⟨p, hp⟩ := List.exists_mem_of_ne_nil _ hnil
          obtain ⟨k, r, a, w, h1, h2, h3, h4⟩ := (hmem p).mp hp
          refine Or.inr (Or.inr ⟨hPSO, k, r, a, w, h1, ?_, h2, h3⟩)
          rcases h4 with ⟨h4, -⟩ | ⟨h4, -⟩
          · exact Or.inl h4
          · exact Or.inr h4
      · rintro (hnil | ⟨hP, -⟩ | ⟨-, k, r, a, w, h1, h2 | h2, h3, h4⟩)
        · exact Or.inl hnil
        · exact absurd hP hT
        · exact Or.inr (List.ne_nil_of_mem
            ((hmem _).mpr ⟨k, r, a, w, h1, h3, h4, Or.inl ⟨h2, rfl⟩⟩))
        · exact Or.inr (List.ne_nil_of_mem
            ((hmem _).mpr ⟨k, r, a, w, h1, h3, h4, Or.inr ⟨h2, rfl⟩⟩))
    · simp [GenerateClauses, hT, hPSO] at h

theorem foldRanges_nonempty (P : Params) (tr : Trace) :
    ∀ (rs : List (Nat × Nat)) (c c' : Constraints),
      foldRanges (fun b e s => GenerateClauses P b e tr s) rs c = some c' →
      (c'.clauses ≠ [] ↔
        c.clauses ≠ [] ∨ ∃ r ∈ rs, ExhibitsPair P (segment r.1 r.2 tr)) := by
  intro rs
  induction rs with
  | nil =>
    intro c c' h
    simp only [foldRanges, Option.some.injEq] at h
    subst h
    simp
  | cons r rs ih =>
    intro c c' h
    simp only [foldRanges] at h
    split at h
    · cases h
    · rename_i c1 hc1
      rw [ih c1 c' h, GenerateClauses_nonempty P r.1 r.2 tr c c1 hc1]
      simp only [List.exists_mem_cons_iff]
      tauto

theorem calcThreads_nonempty (P : Params) (shared_rec : Trace) :
    ∀ (threads : List Nat) (c c' : Constraints),
      calcThreads P shared_rec threads c = some c' →
      (c'.clauses ≠ [] ↔
        c.clauses ≠ [] ∨ ∃ i ∈ threads, ∃ rs,
          threadRanges (threadTrace shared_rec i) = some rs ∧
          ∃ r ∈ rs, ExhibitsPair P (segment r.1 r.2 (threadTrace shared_rec i))) := by
  intro threads
  induction threads with
  | nil =>
    intro c c' h
    simp only [calcThreads, Option.some.injEq] at h
    subst h
    simp
  | cons i rest ih =>
    intro c c' h
    simp only [calcThreads] at h
    split at h
    · cases h
    · rename_i c1 hc1
      obtain ⟨rs, hrs, hfold⟩ := perThread_some_fold _ _ _ _ hc1
      rw [ih c1 c' h, foldRanges_nonempty P _ rs c c1 hfold]
      constructor
      · rintro ((h1 | ⟨r, hr, hex⟩) | ⟨j, hj, hrest⟩)
        · exact Or.inl h1
        · exact Or.inr ⟨i, List.mem_cons_self _ _, rs, hrs, r, hr, hex⟩
        · exact Or.inr ⟨j, List.mem_cons_of_mem _ hj, hrest⟩
      · rintro (h1 | ⟨j, hj, rs', hrs', r, hr, hex⟩)
        · exact Or.inl (Or.inl h1)
        · rcases List.mem_cons.mp hj with rfl | hj
          · rw [hrs] at hrs'
            cases hrs'
            exact Or.inl (Or.inr ⟨r, hr, hex⟩)
          · exact Or.inr ⟨j, hj, rs', hrs', r, hr, hex⟩

/-- C9 as amended: the clause that `Calculate` computes for a bad run is non-empty
exactly when some segment of some thread's trace exhibits a pair; when it is empty the
treatment of the bad run ends with `exit(255)`, else it ends with the clause. -/
theorem calculate_clause_nonempty_iff (P : Params) (shared_rec : Trace)
    (nextThreadNum : Nat) (c c' : Constraints)
    (h : Calculate P shared_rec nextThreadNum c = some c') :
    (c'.clauses ≠ [] ↔
        ∃ i, 1 ≤ i ∧ i < nextThreadNum ∧ ∃ rs,
          threadRanges (threadTrace shared_rec i) = some rs ∧
          ∃ r ∈ rs, ExhibitsPair P (segment r.1 r.2 (threadTrace shared_rec i))) ∧
      handleBadRun P shared_rec nextThreadNum c =
        (if c'.clauses = [] then BadRunEnd.exited 255 else BadRunEnd.constraint c') := by
  constructor
  · unfold Calculate at h
    split at h
    · rw [calcThreads_nonempty P shared_rec _ _ c' h]
      simp only [ne_eq, not_true_eq_false, false_or, List.mem_range'_1]
      constructor
      · rintro ⟨i, ⟨h1, h2⟩, hrest⟩
        exact ⟨i, h1, by omega, hrest⟩
      · rintro ⟨i, h1, h2, hrest⟩
        exact ⟨i, ⟨h1, by omega⟩, hrest⟩
    · cases h
  · unfold handleBadRun
    rw [h]
    simp [GetLitSingleNumber]

/-- Witness for C9 as amended: the sample trace, whose clause is `{1, 2, 3}`. -/
theorem calculate_clause_nonempty_iff_witness :
    (sampleState1.clauses ≠ [] ↔
        ∃ i, 1 ≤ i ∧ i < 2 ∧ ∃ rs,
          threadRanges (threadTrace sampleThreadTrace i) = some rs ∧
          ∃ r ∈ rs, ExhibitsPair sampleParamsTSO
            (segment r.1 r.2 (threadTrace sampleThreadTrace i))) ∧
      handleBadRun sampleParamsTSO sampleThreadTrace 2 Constraints.init =
        (if sampleState1.clauses = [] then BadRunEnd.exited 255
          else BadRunEnd.constraint sampleState1) :=
  calculate_clause_nonempty_iff sampleParamsTSO sampleThreadTrace 2 Constraints.init
    sampleState1 (by decide)

/-- Counterexample to C9 as stated: a run that the checker classifies as bad (it returns
253: the steal returned a value that was never put) and whose shared read/write log has
no load or store with another store buffered; the clause that `Calculate` computes is
empty and the run ends with `exit(255)`. -/
theorem calculate_clause_empty_counterexample :
    classifiedBad
        (CheckTrace.checkHistory sampleParamsTSO CheckTrace.sampleExtern
          CheckTrace.sampleIndet CheckTrace.wrongStealHistory 3) false ∧
      (Calculate sampleParamsTSO plainTrace 3 Constraints.init).map (fun c => c.clauses) =
        some [] ∧
      handleBadRun sampleParamsTSO plainTrace 3 Constraints.init = BadRunEnd.exited 255 := by
  refine ⟨Or.inl ?_, ?_, ?_⟩ <;> decide

end Constraints

namespace Constraints

/-! ## `Merge` -/

/-- The third loop of `Merge` on literals that have no entry in `mapToLit` (the
store-store literals): all of them are taken for the store with label 0, so at most the
first one is kept. -/
theorem mergeLoop_of_not_found (mapToLit : Constraint_To_Lit) (ilm : InstrLabel_map) :
    ∀ (lits : List Int) (solvedStores : List (Option Nat)),
      (∀ l ∈ lits, findPairOf mapToLit l = none) →
      (mergeLoop mapToLit ilm lits solvedStores).1 =
        if instrLookup ilm 0 ∈ solvedStores then [] else lits.take 1 := by
  intro lits
  induction lits with
  | nil => intro solved _; simp [mergeLoop]
  | cons l rest ih =>
    intro solved h
    have hl : findPairOf mapToLit l = none := h l (List.mem_cons_self _ _)
    have hrest : ∀ x ∈ rest, findPairOf mapToLit x = none :=
      fun x hx => h x (List.mem_cons_of_mem _ hx)
    simp only [mergeLoop, hl, Option.getD_none]
    by_cases hs : instrLookup ilm 0 ∈ solved
    · simp only [hs, if_true]
      rw [ih solved hrest]
      simp [hs]
    · simp only [hs, if_false]
      rw [ih (instrLookup ilm 0 :: solved) hrest]
      simp

/-- C10, the code at the failing input: after two bad runs under PSO the store-store
pairs `(10, 20)` and `(30, 40)` have the literals 1 and 2; with the solution `{1, 2}`
selected, `Merge` keeps literal 1 only, although the two pairs have different store
labels. -/
theorem merge_drops_store_store_literal :
    runRound sampleParamsPSO
        [RoundStep.calculate storeStoreTrace1 2, RoundStep.calculate storeStoreTrace2 2]
        Constraints.init = some storeStoreState ∧
      mapFind storeStoreState.mapToLit_ss (10, 20) = some 1 ∧
      mapFind storeStoreState.mapToLit_ss (30, 40) = some 2 ∧
      (Merge sampleLabelMap [] { storeStoreState with satSolutions := [[1, 2]] }).1.mergedSatSolution
        = [1] := by
  refine ⟨?_, ?_, ?_, ?_⟩ <;> decide

end Constraints

/-! ### Fence insertion -/

theorem allBlocks_getOrInsertFunction (name : String) (M : Module) :
    allBlocks (getOrInsertFunction name M) = allBlocks M := by
  unfold getOrInsertFunction allBlocks
  split
  · rfl
  · simp

theorem allBlocks_insertAfter (instr : Nat) (call : Instruction) (M : Module) :
    allBlocks (insertAfter instr call M) = (allBlocks M).map (insertAfterInBlock instr call) := by
  unfold insertAfter allBlocks
  induction M with
  | nil => rfl
  | cons F rest ih =>
    simp only [List.map_cons, List.flatMap_cons, List.map_append, ih]

theorem insertAfterInBlock_of_not_mem (instr : Nat) (call : Instruction) :
    ∀ block : List Instruction, (∀ I ∈ block, I.id ≠ instr) →
      insertAfterInBlock instr call block = block := by
  intro block
  induction block with
  | nil => intro _; rfl
  | cons I rest ih =>
    intro h
    have h1 : I.id ≠ instr := h I (List.mem_cons_self _ _)
    simp only [insertAfterInBlock, h1, if_false]
    rw [ih (fun J hJ => h J (List.mem_cons_of_mem _ hJ))]

theorem insertAfterInBlock_split (instr : Nat) (call store : Instruction)
    (post : List Instruction) (hs : store.id = instr) :
    ∀ pre : List Instruction, (∀ I ∈ pre, I.id ≠ instr) →
      insertAfterInBlock instr call (pre ++ store :: post) = pre ++ store :: call :: post := by
  intro pre
  induction pre with
  | nil => intro _; simp [insertAfterInBlock, hs]
  | cons I rest ih =>
    intro h
    have h1 : I.id ≠ instr := h I (List.mem_cons_self _ _)
    have := ih (fun J hJ => h J (List.mem_cons_of_mem _ hJ))
    simp only [List.cons_append, insertAfterInBlock, h1, if_false]
    exact congrArg _ this

theorem map_insertAfterInBlock_of_not_mem (instr : Nat) (call : Instruction) :
    ∀ blocks : List (List Instruction), (∀ b ∈ blocks, ∀ I ∈ b, I.id ≠ instr) →
      blocks.map (insertAfterInBlock instr call) = blocks := by
  intro blocks h
  conv_rhs => rw [← List.map_id blocks]
  apply List.map_congr_left
  intro b hb
  exact insertAfterInBlock_of_not_mem instr call b (h b hb)

theorem le_foldl_max (l : List Instruction) :
    ∀ m : Nat, m ≤ l.foldl (fun m I => max m I.id) m ∧
      ∀ I ∈ l, I.id ≤ l.foldl (fun m I => max m I.id) m := by
  induction l with
  | nil => intro m; exact ⟨le_refl _, fun I hI => absurd hI (List.not_mem_nil _)⟩
  | cons J rest ih =>
    intro m
    obtain ⟨h1, h2⟩ := ih (max m J.id)
    refine ⟨le_trans (le_max_left _ _) h1, ?_⟩
    intro I hI
    rcases List.mem_cons.1 hI with h | h
    · subst h
      exact le_trans (le_max_right _ _) h1
    · exact h2 I h

theorem freshId_not_mem (M : Module) : freshId M ∉ instructionIds M := by
  intro h
  unfold instructionIds at h
  obtain ⟨I, hI, hid⟩ := List.mem_map.1 h
  have := (le_foldl_max (allInstructions M) 0).2 I hI
  unfold freshId at hid
  omega

/-- In a module whose instructions have distinct names, the blocks split at an instruction
into parts that have no other instruction of this name. -/
theorem allBlocks_split (M : Module) (hids : (instructionIds M).Nodup) (store : Instruction)
    (hmem : store ∈ allInstructions M) :
    ∃ (B1 B2 : List (List Instruction)) (pre post : List Instruction),
      allBlocks M = B1 ++ (pre ++ store :: post) :: B2 ∧
      (∀ b ∈ B1, ∀ I ∈ b, I.id ≠ store.id) ∧ (∀ I ∈ pre, I.id ≠ store.id) ∧
      (∀ b ∈ B2, ∀ I ∈ b, I.id ≠ store.id) := by
  unfold allInstructions at hmem
  obtain ⟨b, hb, hsb⟩ := List.mem_flatten.1 hmem
  obtain ⟨B1, B2, hB⟩ := List.append_of_mem hb
  obtain ⟨pre, post, hp⟩ := List.append_of_mem hsb
  subst hp
  refine ⟨B1, B2, pre, post, hB, ?_⟩
  unfold instructionIds allInstructions at hids
  rw [hB] at hids
  simp only [List.flatten_append, List.flatten_cons, List.map_append, List.map_cons,
    List.append_assoc] at hids
  rw [List.nodup_append] at hids
  obtain ⟨_, h2, h3⟩ := hids
  rw [List.nodup_append] at h2
  obtain ⟨_, h5, h6⟩ := h2
  rw [List.cons_append, List.nodup_cons] at h5
  refine ⟨?_, ?_, ?_⟩
  · intro b1 hb1 I hI heq
    have hin : I.id ∈ List.map (fun I => I.id) B1.flatten :=
      List.mem_map_of_mem _ (List.mem_flatten.2 ⟨b1, hb1, hI⟩)
    exact h3 hin (by rw [heq]; simp)
  · intro I hI heq
    have hin : I.id ∈ List.map (fun I => I.id) pre := List.mem_map_of_mem _ hI
    exact h6 hin (by rw [heq]; simp)
  · intro b2 hb2 I hI heq
    have hin : I.id ∈ List.map (fun I => I.id) B2.flatten :=
      List.mem_map_of_mem _ (List.mem_flatten.2 ⟨b2, hb2, hI⟩)
    apply h5.1
    rw [← heq]
    simp only [List.mem_append, List.mem_map]
    exact Or.inr ⟨I, List.mem_flatten.2 ⟨b2, hb2, hI⟩, rfl⟩

/-- The insertion of a new call after an instruction of the module. -/
theorem fenceAfter_insert (callee : String) (M : Module) (hids : (instructionIds M).Nodup)
    (store : Instruction) (hmem : store ∈ allInstructions M) :
    FenceAfter callee store.label_instr M
      (insertAfter store.id ⟨freshId M, 0, some callee⟩ (getOrInsertFunction callee M)) := by
  obtain ⟨B1, B2, pre, post, hB, h1, h2, h3⟩ := allBlocks_split M hids store hmem
  refine ⟨B1, B2, pre, post, store, ⟨freshId M, 0, some callee⟩, hB, ?_, rfl, rfl, rfl,
    freshId_not_mem M⟩
  rw [allBlocks_insertAfter, allBlocks_getOrInsertFunction, hB, List.map_append, List.map_cons,
    map_insertAfterInBlock_of_not_mem _ _ B1 h1, map_insertAfterInBlock_of_not_mem _ _ B2 h3,
    insertAfterInBlock_split _ _ store post rfl pre h2]

theorem fenceAfter_linear (callee : String) (label : Int) (M1 M2 : Module)
    (h : FenceAfter callee label M1 M2) :
    ∃ (X Y : List Instruction) (store call : Instruction),
      allInstructions M1 = X ++ store :: Y ∧ allInstructions M2 = X ++ store :: call :: Y ∧
      call.label_instr = 0 ∧ call.callee = some callee ∧ call.id ∉ instructionIds M1 := by
  obtain ⟨B1, B2, pre, post, store, call, h1, h2, _, h4, h5, h6⟩ := h
  refine ⟨B1.flatten ++ pre, post ++ B2.flatten, store, call, ?_, ?_, h4, h5, h6⟩
  · unfold allInstructions
    rw [h1]
    simp
  · unfold allInstructions
    rw [h2]
    simp

theorem fenceAfter_nodup (callee : String) (label : Int) (M1 M2 : Module)
    (h : FenceAfter callee label M1 M2) (hids : (instructionIds M1).Nodup) :
    (instructionIds M2).Nodup := by
  obtain ⟨X, Y, store, call, h1, h2, _, _, h5⟩ := fenceAfter_linear callee label M1 M2 h
  unfold instructionIds at hids h5 ⊢
  rw [h1] at hids h5
  rw [h2]
  have hperm : (List.map (fun I => I.id) (X ++ store :: call :: Y)).Perm
      (call.id :: List.map (fun I => I.id) (X ++ store :: Y)) := by
    have hm :
        (List.map (fun I => I.id) X ++ [store.id] ++ call.id :: List.map (fun I => I.id) Y).Perm
          (call.id :: (List.map (fun I => I.id) X ++ [store.id] ++ List.map (fun I => I.id) Y)) :=
      List.perm_middle
    simpa using hm
  exact hperm.nodup_iff.2 (List.nodup_cons.2 ⟨h5, hids⟩)

theorem fenceAfter_mem (callee : String) (label : Int) (M1 M2 : Module)
    (h : FenceAfter callee label M1 M2) :
    (∀ I ∈ allInstructions M1, I ∈ allInstructions M2) ∧
    (∀ I ∈ allInstructions M2, I ∈ allInstructions M1 ∨
      (I.label_instr = 0 ∧ I.callee = some callee ∧ I.id ∉ instructionIds M1)) := by
  obtain ⟨X, Y, store, call, h1, h2, h3, h4, h5⟩ := fenceAfter_linear callee label M1 M2 h
  rw [h1, h2]
  constructor
  · intro I hI
    simp only [List.mem_append, List.mem_cons] at hI ⊢
    tauto
  · intro I hI
    simp only [List.mem_append, List.mem_cons] at hI ⊢
    rcases hI with hI | hI | hI | hI
    · exact Or.inl (Or.inl hI)
    · exact Or.inl (Or.inr (Or.inl hI))
    · subst hI
      exact Or.inr ⟨h3, h4, h5⟩
    · exact Or.inl (Or.inr (Or.inr hI))

theorem fenceAfter_labelMap (callee : String) (label : Int) (M1 M2 : Module)
    (h : FenceAfter callee label M1 M2) (instrLabelMap : InstrLabel_map)
    (hmap : LabelMapOf instrLabelMap M1) : LabelMapOf instrLabelMap M2 := by
  intro l instr hl
  obtain ⟨I, hI, h1, h2⟩ := hmap l instr hl
  exact ⟨I, (fenceAfter_mem callee label M1 M2 h).1 I hI, h1, h2⟩

theorem grown_refl (M : Module) : Grown M M 0 := by
  refine ⟨?_, rfl, ?_, fun x hx => hx⟩
  · conv_rhs => rw [← List.map_id (allBlocks M)]
    apply List.map_congr_left
    intro b hb
    rw [id, List.filter_eq_self]
    intro I hI
    simp only [decide_eq_true_eq]
    unfold instructionIds allInstructions
    exact List.mem_map_of_mem _ (List.mem_flatten.2 ⟨b, hb, hI⟩)
  · intro I hI hnot
    exact absurd (List.mem_map_of_mem _ hI) hnot

theorem grown_step (M0 M M2 : Module) (k : Nat) (callee : String) (label : Int)
    (hg : Grown M0 M k) (h : FenceAfter callee label M M2)
    (hc : callee = "membar_sl" ∨ callee = "membar_ss") : Grown M0 M2 (k + 1) := by
  obtain ⟨g1, g2, g3, g4⟩ := hg
  obtain ⟨hm1, hm2⟩ := fenceAfter_mem callee label M M2 h
  refine ⟨?_, ?_, ?_, ?_⟩
  · obtain ⟨B1, B2, pre, post, store, call, h1, h2, _, _, _, h6⟩ := h
    have hcall : call.id ∉ instructionIds M0 := fun hin => h6 (g4 _ hin)
    rw [← g1, h1, h2]
    simp only [List.map_append, List.map_cons, List.filter_append, List.filter_cons, hcall,
      decide_False, Bool.false_eq_true, if_false]
  · obtain ⟨X, Y, store, call, h1, h2, _⟩ := fenceAfter_linear callee label M M2 h
    rw [h2, ← Nat.add_assoc, ← g2, h1]
    simp only [List.length_append, List.length_cons]
    omega
  · intro I hI hnot
    rcases hm2 I hI with h1 | ⟨h1, h2, _⟩
    · exact g3 I h1 hnot
    · refine ⟨h1, ?_⟩
      rcases hc with hc | hc
      · exact Or.inl (hc ▸ h2)
      · exact Or.inr (hc ▸ h2)
  · intro x hx
    have := g4 x hx
    unfold instructionIds at this ⊢
    obtain ⟨I, hI, hid⟩ := List.mem_map.1 this
    exact List.mem_map.2 ⟨I, hm1 I hI, hid⟩

namespace Constraints

theorem insertFenceFor_spec (instrLabelMap : InstrLabel_map) (c : Constraints) (lit : Int)
    (M : Module) (hids : (instructionIds M).Nodup) (hmap : LabelMapOf instrLabelMap M)
    (hdisj : ∀ p q, findPairOf c.mapToLit lit = some p →
      findPairOf c.mapToLit_ss lit = some q → False)
    (hex : ∃ pair, PairOfLit c lit pair)
    (hlook : ∀ pair, PairOfLit c lit pair → (instrLookup instrLabelMap pair.1).isSome) :
    ∃ M2, insertFenceFor instrLabelMap c lit M = some M2 ∧
      (∀ pair, findPairOf c.mapToLit lit = some pair → FenceAfter "membar_sl" pair.1 M M2) ∧
      (∀ pair, findPairOf c.mapToLit_ss lit = some pair →
        FenceAfter "membar_ss" pair.1 M M2) ∧
      (∃ callee label, (callee = "membar_sl" ∨ callee = "membar_ss") ∧
        FenceAfter callee label M M2) := by
  cases hsl : findPairOf c.mapToLit lit with
  | some pair =>
    obtain ⟨instr, hinstr⟩ := Option.isSome_iff_exists.1 (hlook pair (Or.inl hsl))
    obtain ⟨I, hI, hid, hlabel⟩ := hmap pair.1 instr hinstr
    have hf := fenceAfter_insert "membar_sl" M hids I hI
    rw [hid, hlabel] at hf
    refine ⟨InsertSLFencesAfter instr M, ?_, ?_, ?_, ⟨_, _, Or.inl rfl, hf⟩⟩
    · unfold insertFenceFor
      simp only [hsl, hinstr, Option.map_some']
    · intro pair2 h2
      cases h2
      exact hf
    · intro pair2 h2
      exact absurd h2 (fun h => hdisj pair pair2 hsl h)
  | none =>
    obtain ⟨pair, hp⟩ := hex
    have hss : findPairOf c.mapToLit_ss lit = some pair := by
      rcases hp with hp | hp
      · rw [hsl] at hp
        cases hp
      · exact hp
    obtain ⟨instr, hinstr⟩ := Option.isSome_iff_exists.1 (hlook pair (Or.inr hss))
    obtain ⟨I, hI, hid, hlabel⟩ := hmap pair.1 instr hinstr
    have hf := fenceAfter_insert "membar_ss" M hids I hI
    rw [hid, hlabel] at hf
    refine ⟨InsertSSFencesAfter instr M, ?_, ?_, ?_, ⟨_, _, Or.inr rfl, hf⟩⟩
    · unfold insertFenceFor
      simp only [hsl, hss, Option.getD_some, hinstr, Option.map_some']
    · intro pair2 h2
      cases h2
    · intro pair2 h2
      rw [hss] at h2
      cases h2
      exact hf

theorem insertFencesFrom_cons (instrLabelMap : InstrLabel_map) (c : Constraints) (lit : Int)
    (rest : List Int) (M : Module) :
    insertFencesFrom instrLabelMap c (lit :: rest) M =
      (insertFenceFor instrLabelMap c lit M).bind (insertFencesFrom instrLabelMap c rest) := by
  unfold insertFencesFrom
  rw [List.foldlM_cons]
  rfl

theorem insertFencesFrom_append (instrLabelMap : InstrLabel_map) (c : Constraints)
    (l1 l2 : List Int) (M : Module) :
    insertFencesFrom instrLabelMap c (l1 ++ l2) M =
      (insertFencesFrom instrLabelMap c l1 M).bind (insertFencesFrom instrLabelMap c l2) := by
  unfold insertFencesFrom
  rw [List.foldlM_append]
  rfl

/-- The loop of `InsertFences` returns, and the module it returns is the module it was given
with one fence call more for each literal. -/
theorem insertFencesFrom_grown (instrLabelMap : InstrLabel_map) (c : Constraints) (M0 : Module)
    (hdisj : ∀ lit p q, findPairOf c.mapToLit lit = some p →
      findPairOf c.mapToLit_ss lit = some q → False) :
    ∀ (lits : List Int) (M : Module) (k : Nat), (instructionIds M).Nodup →
      LabelMapOf instrLabelMap M → Grown M0 M k →
      (∀ lit ∈ lits, (∃ pair, PairOfLit c lit pair) ∧
        ∀ pair, PairOfLit c lit pair → (instrLookup instrLabelMap pair.1).isSome) →
      ∃ M1, insertFencesFrom instrLabelMap c lits M = some M1 ∧ (instructionIds M1).Nodup ∧
        LabelMapOf instrLabelMap M1 ∧ Grown M0 M1 (k + lits.length) := by
  intro lits
  induction lits with
  | nil =>
    intro M k hids hmap hg _
    exact ⟨M, rfl, hids, hmap, hg⟩
  | cons lit rest ih =>
    intro M k hids hmap hg hlits
    obtain ⟨hex, hlook⟩ := hlits lit (List.mem_cons_self _ _)
    obtain ⟨M2, h1, _, _, callee, label, hc, hf⟩ :=
      insertFenceFor_spec instrLabelMap c lit M hids hmap (hdisj lit) hex hlook
    obtain ⟨M3, h3, h4, h5, h6⟩ := ih M2 (k + 1) (fenceAfter_nodup _ _ _ _ hf hids)
      (fenceAfter_labelMap _ _ _ _ hf _ hmap) (grown_step _ _ _ _ _ _ hg hf hc)
      (fun l hl => hlits l (List.mem_cons_of_mem _ hl))
    refine ⟨M3, ?_, h4, h5, ?_⟩
    · rw [insertFencesFrom_cons, h1]
      exact h3
    · rw [List.length_cons]
      have : k + (rest.length + 1) = k + 1 + rest.length := by omega
      rw [this]
      exact h6

end Constraints

theorem instrLookup_mem :
    ∀ (m : InstrLabel_map) (label : Int) (instr : Nat),
      instrLookup m label = some instr → (label, instr) ∈ m := by
  intro m
  induction m with
  | nil => intro label instr h; cases h
  | cons e rest ih =>
    intro label instr h
    obtain ⟨k, i⟩ := e
    unfold instrLookup at h
    split at h
    · rename_i hk
      cases h
      rw [hk]
      exact List.mem_cons_self _ _
    · exact List.mem_cons_of_mem _ (ih label instr h)

theorem setupLabels_mem (P : Int × Nat → Prop) :
    ∀ (l : List Instruction) (m : InstrLabel_map), (∀ e ∈ m, P e) →
      (∀ I ∈ l, P (I.label_instr, I.id)) → ∀ e ∈ setupLabels l m, P e := by
  intro l
  induction l with
  | nil => intro m hm _; exact hm
  | cons I rest ih =>
    intro m hm hl
    unfold setupLabels
    apply ih
    · split
      · exact hm
      · intro e he
        rcases List.mem_append.1 he with he | he
        · exact hm e he
        · rw [List.mem_singleton] at he
          rw [he]
          exact hl I (List.mem_cons_self _ _)
    · exact fun J hJ => hl J (List.mem_cons_of_mem _ hJ)

/-- The label map that `SetupInstructionLabelMap` builds names instructions of the module,
each under its label. -/
theorem labelMapOf_setup (M : Module) : LabelMapOf (SetupInstructionLabelMap M) M := by
  intro label instr h
  have := setupLabels_mem
    (fun e => ∃ I ∈ allInstructions M, I.id = e.2 ∧ I.label_instr = e.1)
    (allInstructions M) [] (fun e he => absurd he (List.not_mem_nil _))
    (fun I hI => ⟨I, hI, rfl, rfl⟩) (label, instr) (instrLookup_mem _ _ _ h)
  exact this

namespace Constraints

/-- What `InsertFences` does literal by literal: for each literal of the merged solution it
inserts one call, of `membar_sl` when the literal is that of a store-load pair and of
`membar_ss` when it is that of a store-store pair; at the moment of the insertion the call
is put right after the instruction that has the store label of the pair, and it has the
label 0; the instructions that were there keep their labels and their order. The
instructions of the module are distinct objects, the label map names instructions of the
module under their labels, no literal stands for pairs of both kinds, and every literal
of the merged solution is that of a pair whose store label is in the label map. A call
inserted for a later literal with the same store label comes to stand before it. -/
theorem InsertFences_spec (instrLabelMap : InstrLabel_map) (c : Constraints) (M : Module)
    (hids : (instructionIds M).Nodup) (hmap : LabelMapOf instrLabelMap M)
    (hdisj : ∀ lit p q, findPairOf c.mapToLit lit = some p →
      findPairOf c.mapToLit_ss lit = some q → False)
    (hlits : ∀ lit ∈ c.mergedSatSolution, (∃ pair, PairOfLit c lit pair) ∧
      ∀ pair, PairOfLit c lit pair → (instrLookup instrLabelMap pair.1).isSome) :
    ∃ M', InsertFences instrLabelMap c M = some M' ∧
      Grown M M' c.mergedSatSolution.length ∧
      ∀ pre lit post, c.mergedSatSolution = pre ++ lit :: post →
        ∃ M1 M2, insertFencesFrom instrLabelMap c pre M = some M1 ∧
          insertFenceFor instrLabelMap c lit M1 = some M2 ∧
          insertFencesFrom instrLabelMap c post M2 = some M' ∧
          (∀ pair, findPairOf c.mapToLit lit = some pair →
            FenceAfter "membar_sl" pair.1 M1 M2) ∧
          (∀ pair, findPairOf c.mapToLit_ss lit = some pair →
            FenceAfter "membar_ss" pair.1 M1 M2) := by
  obtain ⟨M', h1, _, _, h4⟩ := insertFencesFrom_grown instrLabelMap c M hdisj
    c.mergedSatSolution M 0 hids hmap (grown_refl M) hlits
  rw [Nat.zero_add] at h4
  refine ⟨M', h1, h4, ?_⟩
  intro pre lit post hsplit
  have hpre : ∀ l ∈ pre, (∃ pair, PairOfLit c l pair) ∧
      ∀ pair, PairOfLit c l pair → (instrLookup instrLabelMap pair.1).isSome :=
    fun l hl => hlits l (by rw [hsplit]; simp [hl])
  have hpost : ∀ l ∈ post, (∃ pair, PairOfLit c l pair) ∧
      ∀ pair, PairOfLit c l pair → (instrLookup instrLabelMap pair.1).isSome :=
    fun l hl => hlits l (by rw [hsplit]; simp [hl])
  obtain ⟨hex, hlook⟩ := hlits lit (by rw [hsplit]; simp)
  obtain ⟨M1, p1, p2, p3, p4⟩ := insertFencesFrom_grown instrLabelMap c M hdisj
    pre M 0 hids hmap (grown_refl M) hpre
  obtain ⟨M2, q1, q2, q3, callee, label, hc, hf⟩ :=
    insertFenceFor_spec instrLabelMap c lit M1 p2 p3 (hdisj lit) hex hlook
  obtain ⟨M3, r1, _, _, _⟩ := insertFencesFrom_grown instrLabelMap c M hdisj
    post M2 (0 + pre.length + 1) (fenceAfter_nodup _ _ _ _ hf p2)
    (fenceAfter_labelMap _ _ _ _ hf _ p3) (grown_step _ _ _ _ _ _ p4 hf hc) hpost
  have hall : InsertFences instrLabelMap c M = some M3 := by
    unfold InsertFences
    rw [hsplit, insertFencesFrom_append, p1, Option.some_bind, insertFencesFrom_cons, q1,
      Option.some_bind, r1]
  have hM : M3 = M' := by
    unfold InsertFences at hall
    rw [h1] at hall
    exact (Option.some.inj hall).symm
  rw [hM] at r1
  exact ⟨M1, M2, p1, q1, r1, q2, q3⟩

theorem InsertFences_spec_witness :
    ∃ M', InsertFences (SetupInstructionLabelMap sampleModule) sampleMerged sampleModule =
        some M' ∧
      Grown sampleModule M' 2 ∧
      ∃ M1, insertFenceFor (SetupInstructionLabelMap sampleModule) sampleMerged 1 sampleModule =
          some M1 ∧
        FenceAfter "membar_sl" 2 sampleModule M1 ∧
        insertFenceFor (SetupInstructionLabelMap sampleModule) sampleMerged 2 M1 = some M' ∧
        FenceAfter "membar_ss" 4 M1 M' := by
  have hdisj : ∀ lit p q, findPairOf sampleMerged.mapToLit lit = some p →
      findPairOf sampleMerged.mapToLit_ss lit = some q → False := by
    intro lit p q h1 h2
    simp only [sampleMerged, findPairOf] at h1 h2
    split at h1
    · split at h2
      · omega
      · cases h2
    · cases h1
  have hlits : ∀ lit ∈ sampleMerged.mergedSatSolution, (∃ pair, PairOfLit sampleMerged lit pair) ∧
      ∀ pair, PairOfLit sampleMerged lit pair →
        (instrLookup (SetupInstructionLabelMap sampleModule) pair.1).isSome := by
    intro lit hl
    simp only [sampleMerged, List.mem_cons, List.mem_singleton, List.not_mem_nil,
      or_false] at hl
    rcases hl with hl | hl
    · subst hl
      refine ⟨⟨(2, 3), Or.inl rfl⟩, ?_⟩
      rintro pair (h | h)
      · cases h
        decide
      · simp [sampleMerged, findPairOf] at h
    · subst hl
      refine ⟨⟨(4, 5), Or.inr rfl⟩, ?_⟩
      rintro pair (h | h)
      · simp [sampleMerged, findPairOf] at h
      · cases h
        decide
  obtain ⟨M', h1, h2, h3⟩ := InsertFences_spec (SetupInstructionLabelMap sampleModule)
    sampleMerged sampleModule (by decide) (labelMapOf_setup sampleModule) hdisj hlits
  obtain ⟨M1, M2, a1, a2, a3, a4, _⟩ := h3 [] 1 [2] rfl
  obtain ⟨N1, N2, b1, b2, b3, _, b5⟩ := h3 [1] 2 [] rfl
  have e1 : M1 = sampleModule := (Option.some.inj a1).symm
  subst e1
  have e2 : N1 = M2 := by
    have : insertFencesFrom (SetupInstructionLabelMap sampleModule) sampleMerged [1]
        sampleModule = some M2 := by
      rw [insertFencesFrom_cons, a2]
      rfl
    rw [this] at b1
    exact (Option.some.inj b1).symm
  subst e2
  have e3 : N2 = M' := Option.some.inj b3
  subst e3
  exact ⟨N2, h1, h2, N1, a2, a4 (2, 3) rfl, b2, b5 (4, 5) rfl⟩

end Constraints

namespace Constraints

/-! ### Two fences after one store (C11) -/

/-- C11 (fails on the code): the specification asks that the call inserted for a literal
is the instruction right after the instruction with the store label of its pair. After
two bad runs under PSO the store-load pair `(2, 3)` has the literal 1 and the store-store
pair `(2, 5)` the literal 2; both unit clauses force the solution `{1, 2}`. `Merge` looks
the literal 2 up in `mapToLit` only, takes it for a literal of another store and keeps
both literals, and `InsertFences` puts the call of `membar_ss` between the instruction
labelled 2 and the call of `membar_sl` that it has inserted for the literal 1. -/
theorem InsertFences_two_fences_after_one_store :
    runRound sampleParamsPSO
        [RoundStep.calculate sameStoreTrace1 3, RoundStep.calculate sameStoreTrace2 3]
        Constraints.init = some sameStoreState ∧
      (Merge (SetupInstructionLabelMap sampleModule) []
        { sameStoreState with satSolutions := [[1, 2]] }).1.mergedSatSolution = [1, 2] ∧
      InsertFences (SetupInstructionLabelMap sampleModule)
        (Merge (SetupInstructionLabelMap sampleModule) []
          { sameStoreState with satSolutions := [[1, 2]] }).1 sampleModule =
        some [⟨"main",
            [[⟨1, 1, none⟩, ⟨2, 2, none⟩, ⟨7, 0, some "membar_ss"⟩, ⟨6, 0, some "membar_sl"⟩,
                ⟨3, 3, none⟩],
              [⟨4, 4, none⟩, ⟨5, 5, none⟩]]⟩,
          ⟨"membar_sl", []⟩, ⟨"membar_ss", []⟩] := by
  refine ⟨?_, ?_, ?_⟩ <;> decide

end Constraints

/-! ## Store-buffer engine: stores, loads, flushes, fences, compare-and-swap -/

namespace Interpreter

theorem toSizeT_of_nonneg (x : Int) (h0 : 0 ≤ x) (h1 : x.toNat < 2 ^ 64) :
    toSizeT x = x.toNat := by
  unfold toSizeT
  have hx : x = (x.toNat : Int) := (Int.toNat_of_nonneg h0).symm
  have hlt : x < 2 ^ 64 := by
    rw [hx]
    exact_mod_cast h1
  rw [Int.emod_eq_of_lt h0 hlt]

/-- For stack allocations that are blocks of the address space, `isAddressOnStack` tells
whether the address lies in one of the blocks of the current thread. -/
theorem isAddressOnStack_iff (a : Nat) (st : Interp) (hwf : StackBlocks st) :
    isAddressOnStack a st = true ↔ InStackAllocation a st := by
  unfold isAddressOnStack InStackAllocation
  simp only [List.any_eq_true, decide_eq_true_eq]
  constructor
  · rintro ⟨frame, hf, A, hA, h1, h2⟩
    refine ⟨frame, hf, A, hA, h1, ?_⟩
    obtain ⟨h0, hb⟩ := hwf frame hf A hA
    rw [toSizeT_of_nonneg _ h0 (by omega), Nat.mod_eq_of_lt hb] at h2
    exact h2
  · rintro ⟨frame, hf, A, hA, h1, h2⟩
    refine ⟨frame, hf, A, hA, h1, ?_⟩
    obtain ⟨h0, hb⟩ := hwf frame hf A hA
    rw [toSizeT_of_nonneg _ h0 (by omega), Nat.mod_eq_of_lt hb]
    exact h2

/-- C12: under TSO a store by the current thread to an address outside its stack allocations
leaves memory as it is, puts the entry (address, value, type) at the tail of the buffer of
this thread, leaves the buffers of the other threads as they are and adds one WRITE entry to
the log; a store to an address inside one of its stack allocations writes the value to
memory and changes neither a buffer nor the log. -/
theorem visitStoreInstTSO_spec (T : Target) (Val Ptr : GenericValue) (Ty : TypeRef)
    (label_instr : Int) (st : Interp) (hwf : StackBlocks st) :
    (¬ InStackAllocation Ptr.PointerVal st →
      (visitStoreInstTSO T Val Ptr Ty label_instr st).memory = st.memory ∧
      (visitStoreInstTSO T Val Ptr Ty label_instr st).thread_buffer_tso st.currThread =
        st.thread_buffer_tso st.currThread ++ [{ pointer := Ptr, value := Val, type := Ty }] ∧
      (∀ t, t ≠ st.currThread →
        (visitStoreInstTSO T Val Ptr Ty label_instr st).thread_buffer_tso t =
          st.thread_buffer_tso t) ∧
      (visitStoreInstTSO T Val Ptr Ty label_instr st).rwtrace_rec =
        st.rwtrace_rec ++
          [{ thr := st.currThread, type := RWType.WRITE, value := limitedInt Val.IntVal,
             location := Ptr.PointerVal, label := label_instr }]) ∧
    (InStackAllocation Ptr.PointerVal st →
      (visitStoreInstTSO T Val Ptr Ty label_instr st).memory =
        StoreValueToMemory T Val Ptr.PointerVal Ty st.memory ∧
      (visitStoreInstTSO T Val Ptr Ty label_instr st).thread_buffer_tso = st.thread_buffer_tso ∧
      (visitStoreInstTSO T Val Ptr Ty label_instr st).thread_buffer_pso = st.thread_buffer_pso ∧
      (visitStoreInstTSO T Val Ptr Ty label_instr st).rwtrace_rec = st.rwtrace_rec) := by
  constructor
  · intro h
    have hs : isAddressOnStack Ptr.PointerVal st = false := by
      rw [← Bool.not_eq_true, isAddressOnStack_iff _ _ hwf]
      exact h
    unfold visitStoreInstTSO
    simp only [hs, Bool.false_eq_true, if_false]
    refine ⟨trivial, ?_, ?_, rfl⟩
    · simp
    · intro t ht
      simp [Function.update_noteq ht]
  · intro h
    have hs : isAddressOnStack Ptr.PointerVal st = true := (isAddressOnStack_iff _ _ hwf).2 h
    unfold visitStoreInstTSO
    simp only [hs, if_true]
    exact ⟨trivial, trivial, trivial, trivial⟩

theorem stackBlocks_sampleState : StackBlocks sampleState := by
  intro frame hf A hA
  simp [sampleState, stackOf] at hf
  subst hf
  simp at hA
  subst hA
  simp

theorem not_inStack_sampleState : ¬ InStackAllocation 100 sampleState := by
  rintro ⟨frame, hf, A, hA, h1, _⟩
  simp [sampleState, stackOf] at hf
  subst hf
  simp at hA
  subst hA
  omega

theorem inStack_sampleState : InStackAllocation 1004 sampleState :=
  ⟨⟨[1000], fun a => if a = 1000 then 8 else 0, 7⟩, by simp [sampleState, stackOf], 1000,
    by simp, by decide, by decide⟩

theorem visitStoreInstTSO_spec_witness :
    ((visitStoreInstTSO sampleTarget ⟨8, 0⟩ ⟨0, 100⟩ 4 3 sampleState).memory
          = sampleState.memory ∧
      (visitStoreInstTSO sampleTarget ⟨8, 0⟩ ⟨0, 100⟩ 4 3 sampleState).thread_buffer_tso
          sampleState.currThread =
        sampleState.thread_buffer_tso sampleState.currThread ++
          [{ pointer := ⟨0, 100⟩, value := ⟨8, 0⟩, type := 4 }] ∧
      (∀ t, t ≠ sampleState.currThread →
        (visitStoreInstTSO sampleTarget ⟨8, 0⟩ ⟨0, 100⟩ 4 3 sampleState).thread_buffer_tso t =
          sampleState.thread_buffer_tso t) ∧
      (visitStoreInstTSO sampleTarget ⟨8, 0⟩ ⟨0, 100⟩ 4 3 sampleState).rwtrace_rec =
        sampleState.rwtrace_rec ++
          [{ thr := sampleState.currThread, type := RWType.WRITE, value := limitedInt 8,
             location := 100, label := 3 }]) ∧
    ((visitStoreInstTSO sampleTarget ⟨8, 0⟩ ⟨0, 1004⟩ 4 3 sampleState).memory =
        StoreValueToMemory sampleTarget ⟨8, 0⟩ 1004 4 sampleState.memory ∧
      (visitStoreInstTSO sampleTarget ⟨8, 0⟩ ⟨0, 1004⟩ 4 3 sampleState).thread_buffer_tso =
        sampleState.thread_buffer_tso ∧
      (visitStoreInstTSO sampleTarget ⟨8, 0⟩ ⟨0, 1004⟩ 4 3 sampleState).thread_buffer_pso =
        sampleState.thread_buffer_pso ∧
      (visitStoreInstTSO sampleTarget ⟨8, 0⟩ ⟨0, 1004⟩ 4 3 sampleState).rwtrace_rec =
        sampleState.rwtrace_rec) :=
  ⟨(visitStoreInstTSO_spec sampleTarget ⟨8, 0⟩ ⟨0, 100⟩ 4 3 sampleState
      stackBlocks_sampleState).1 not_inStack_sampleState,
    (visitStoreInstTSO_spec sampleTarget ⟨8, 0⟩ ⟨0, 1004⟩ 4 3 sampleState
      stackBlocks_sampleState).2 inStack_sampleState⟩

end Interpreter

namespace Interpreter

theorem newestEntry_of_last (a : Nat) (pre post : List tso_buff_elem) (e : tso_buff_elem)
    (he : e.pointer.PointerVal = a) (hpost : ∀ x ∈ post, x.pointer.PointerVal ≠ a) :
    newestEntry a (pre ++ e :: post) = some e := by
  unfold newestEntry
  rw [List.reverse_append, List.reverse_cons, List.append_assoc, List.find?_append]
  have hnone : List.find? (fun x => decide (x.pointer.PointerVal = a)) post.reverse = none := by
    rw [List.find?_eq_none]
    intro x hx
    simpa using hpost x (List.mem_reverse.1 hx)
  rw [hnone]
  simp [he]

theorem newestEntry_of_absent (a : Nat) (buffer : List tso_buff_elem)
    (h : ∀ x ∈ buffer, x.pointer.PointerVal ≠ a) : newestEntry a buffer = none := by
  unfold newestEntry
  rw [List.find?_eq_none]
  intro x hx
  simpa using h x (List.mem_reverse.1 hx)

theorem visitLoadInstTSO_value (T : Target) (Ptr : GenericValue) (Ty : TypeRef)
    (label_instr : Int) (st : Interp) :
    (visitLoadInstTSO T Ptr Ty label_instr st).1 =
      match newestEntry Ptr.PointerVal (st.thread_buffer_tso st.currThread) with
      | some e => e.value
      | none => LoadValueFromMemory T Ptr.PointerVal Ty st.memory := by
  unfold visitLoadInstTSO
  cases newestEntry Ptr.PointerVal (st.thread_buffer_tso st.currThread) with
  | some e => rfl
  | none =>
    simp only []
    split <;> rfl

theorem visitLoadInstTSO_frame (T : Target) (Ptr : GenericValue) (Ty : TypeRef)
    (label_instr : Int) (st : Interp) :
    (visitLoadInstTSO T Ptr Ty label_instr st).2.memory = st.memory ∧
    (visitLoadInstTSO T Ptr Ty label_instr st).2.thread_buffer_tso = st.thread_buffer_tso ∧
    (visitLoadInstTSO T Ptr Ty label_instr st).2.thread_buffer_pso = st.thread_buffer_pso := by
  unfold visitLoadInstTSO
  cases newestEntry Ptr.PointerVal (st.thread_buffer_tso st.currThread) with
  | some e => exact ⟨rfl, rfl, rfl⟩
  | none =>
    simp only []
    split <;> exact ⟨rfl, rfl, rfl⟩

/-- C13: under TSO a load of the address `a` by the current thread yields the value of the
newest entry for `a` in the buffer of this thread when there is one, else the value that
memory holds at `a`; the value depends on no other buffer, and the load changes neither
memory nor a buffer. -/
theorem visitLoadInstTSO_spec (T : Target) (Ptr : GenericValue) (Ty : TypeRef)
    (label_instr : Int) (st : Interp) :
    (∀ pre e post, st.thread_buffer_tso st.currThread = pre ++ e :: post →
      e.pointer.PointerVal = Ptr.PointerVal →
      (∀ x ∈ post, x.pointer.PointerVal ≠ Ptr.PointerVal) →
      (visitLoadInstTSO T Ptr Ty label_instr st).1 = e.value) ∧
    ((∀ x ∈ st.thread_buffer_tso st.currThread, x.pointer.PointerVal ≠ Ptr.PointerVal) →
      (visitLoadInstTSO T Ptr Ty label_instr st).1 =
        LoadValueFromMemory T Ptr.PointerVal Ty st.memory) ∧
    (∀ st2 : Interp, st2.currThread = st.currThread → st2.memory = st.memory →
      st2.thread_buffer_tso st.currThread = st.thread_buffer_tso st.currThread →
      (visitLoadInstTSO T Ptr Ty label_instr st2).1 =
        (visitLoadInstTSO T Ptr Ty label_instr st).1) ∧
    (visitLoadInstTSO T Ptr Ty label_instr st).2.memory = st.memory ∧
    (visitLoadInstTSO T Ptr Ty label_instr st).2.thread_buffer_tso = st.thread_buffer_tso ∧
    (visitLoadInstTSO T Ptr Ty label_instr st).2.thread_buffer_pso = st.thread_buffer_pso := by
  refine ⟨?_, ?_, ?_, visitLoadInstTSO_frame T Ptr Ty label_instr st⟩
  · intro pre e post hbuf he hpost
    rw [visitLoadInstTSO_value, hbuf, newestEntry_of_last _ pre post e he hpost]
  · intro h
    rw [visitLoadInstTSO_value, newestEntry_of_absent _ _ h]
  · intro st2 hc hm hb
    rw [visitLoadInstTSO_value, visitLoadInstTSO_value, hc, hm, hb]

theorem visitLoadInstTSO_spec_witness :
    (visitLoadInstTSO sampleTarget ⟨0, 100⟩ 4 3 sampleState).1 = ⟨6, 0⟩ ∧
    (visitLoadInstTSO sampleTarget ⟨0, 300⟩ 4 3 sampleState).1 =
      LoadValueFromMemory sampleTarget 300 4 sampleState.memory :=
  ⟨(visitLoadInstTSO_spec sampleTarget ⟨0, 100⟩ 4 3 sampleState).1
      [⟨⟨0, 100⟩, ⟨5, 0⟩, 4⟩, ⟨⟨0, 200⟩, ⟨7, 0⟩, 4⟩] ⟨⟨0, 100⟩, ⟨6, 0⟩, 4⟩ [] rfl rfl
      (by simp),
    (visitLoadInstTSO_spec sampleTarget ⟨0, 300⟩ 4 3 sampleState).2.1
      (by simp [sampleState])⟩

end Interpreter

namespace Interpreter

/-! ### Memory -/

theorem writeBytes_inside (p : Nat) (bs : List Nat) (m : Memory) (i : Nat)
    (hi : i < bs.length) : writeBytes p bs m (p + i) = bs.getD i 0 := by
  unfold writeBytes
  rw [if_pos ⟨by omega, by omega⟩, Nat.add_sub_cancel_left]

theorem writeBytes_outside (p : Nat) (bs : List Nat) (m : Memory) (a : Nat)
    (ha : a < p ∨ p + bs.length ≤ a) : writeBytes p bs m a = m a := by
  unfold writeBytes
  rw [if_neg]
  omega

theorem readBytes_writeBytes_same (p : Nat) (bs : List Nat) (m : Memory) :
    readBytes p bs.length (writeBytes p bs m) = bs := by
  apply List.ext_getElem
  · simp [readBytes]
  · intro i h1 h2
    simp only [readBytes, List.getElem_map, List.getElem_range]
    rw [writeBytes_inside p bs m i h2, List.getD_eq_getElem _ _ h2]

theorem readBytes_writeBytes_apart (p a n : Nat) (bs : List Nat) (m : Memory)
    (h : p + bs.length ≤ a ∨ a + n ≤ p) :
    readBytes a n (writeBytes p bs m) = readBytes a n m := by
  unfold readBytes
  apply List.map_congr_left
  intro i hi
  rw [List.mem_range] at hi
  apply writeBytes_outside
  omega

theorem load_store_same (T : Target) (p : Nat) (ty : TypeRef) (v : GenericValue) (m : Memory)
    (h : Faithful T ty v) :
    LoadValueFromMemory T p ty (StoreValueToMemory T v p ty m) = v := by
  unfold LoadValueFromMemory StoreValueToMemory
  rw [← h.1, readBytes_writeBytes_same, h.2]

theorem load_store_apart (T : Target) (p a : Nat) (ty ty0 : TypeRef) (v : GenericValue)
    (m : Memory) (h : Apart T p ty v a ty0) :
    LoadValueFromMemory T a ty0 (StoreValueToMemory T v p ty m) =
      LoadValueFromMemory T a ty0 m := by
  unfold LoadValueFromMemory StoreValueToMemory
  rw [readBytes_writeBytes_apart _ _ _ _ _ h]

theorem applyStores_append (T : Target) (b1 b2 : List tso_buff_elem) (m : Memory) :
    applyStores T (b1 ++ b2) m = applyStores T b2 (applyStores T b1 m) := by
  unfold applyStores
  rw [List.foldl_append]

theorem load_applyStores_apart (T : Target) (a : Nat) (ty0 : TypeRef) :
    ∀ (post : List tso_buff_elem) (m : Memory),
      (∀ x ∈ post, Apart T x.pointer.PointerVal x.type x.value a ty0) →
      LoadValueFromMemory T a ty0 (applyStores T post m) = LoadValueFromMemory T a ty0 m := by
  intro post
  induction post with
  | nil => intro m _; rfl
  | cons x rest ih =>
    intro m h
    have hx := h x (List.mem_cons_self _ _)
    have hrest := fun y hy => h y (List.mem_cons_of_mem _ hy)
    show LoadValueFromMemory T a ty0 (applyStores T rest _) = _
    rw [ih _ hrest, load_store_apart _ _ _ _ _ _ _ hx]

/-- After the stores of a buffer were made in order, memory holds at the address of an entry
its value, when no later entry of the buffer writes to the bytes of this entry. -/
theorem load_applyStores_last (T : Target) (pre post : List tso_buff_elem) (e : tso_buff_elem)
    (m : Memory) (hf : Faithful T e.type e.value)
    (hpost : ∀ x ∈ post,
      Apart T x.pointer.PointerVal x.type x.value e.pointer.PointerVal e.type) :
    LoadValueFromMemory T e.pointer.PointerVal e.type (applyStores T (pre ++ e :: post) m) =
      e.value := by
  rw [applyStores_append]
  show LoadValueFromMemory T _ _ (applyStores T post _) = _
  rw [load_applyStores_apart _ _ _ _ _ hpost, load_store_same _ _ _ _ _ hf]

/-! ### Loops that flush a TSO buffer -/

theorem flush_buffer_tso_cons (T : Target) (t : Nat) (st : Interp) (e : tso_buff_elem)
    (rest : List tso_buff_elem) (h : st.thread_buffer_tso t = e :: rest) :
    flush_buffer_tso T t st =
      { st with
        thread_buffer_tso := Function.update st.thread_buffer_tso t rest
        memory := StoreValueToMemory T e.value e.pointer.PointerVal e.type st.memory } := by
  unfold flush_buffer_tso
  rw [h]

theorem flush_buffer_tso_nil (T : Target) (t : Nat) (st : Interp)
    (h : st.thread_buffer_tso t = []) : flush_buffer_tso T t st = st := by
  unfold flush_buffer_tso
  rw [h]

/-- The state after a TSO buffer was flushed entry by entry. -/
theorem flush_buffer_tso_iterate (T : Target) (t : Nat) :
    ∀ (buffer : List tso_buff_elem) (st : Interp), st.thread_buffer_tso t = buffer →
      (flush_buffer_tso T t)^[buffer.length] st =
        { st with
          thread_buffer_tso := Function.update st.thread_buffer_tso t []
          memory := applyStores T buffer st.memory } := by
  intro buffer
  induction buffer with
  | nil =>
    intro st h
    simp only [List.length_nil, Function.iterate_zero, id_eq, applyStores, List.foldl_nil]
    rw [← h, Function.update_eq_self]
  | cons e rest ih =>
    intro st h
    rw [List.length_cons, Function.iterate_succ_apply, flush_buffer_tso_cons T t st e rest h]
    rw [ih _ (by simp)]
    simp [applyStores]

/-- The loop `while (!thread_buffer_tso[t].empty()) flush_buffer_tso(t)` ends within as
many rounds as the buffer has entries, in the state in which they were all flushed. -/
theorem drain_tso_eq (T : Target) (t : Nat) :
    ∀ (buffer : List tso_buff_elem) (st : Interp) (fuel : Nat),
      st.thread_buffer_tso t = buffer → buffer.length ≤ fuel →
      drain_tso T t fuel st =
        some { st with
          thread_buffer_tso := Function.update st.thread_buffer_tso t []
          memory := applyStores T buffer st.memory } := by
  intro buffer
  induction buffer with
  | nil =>
    intro st fuel h _
    have hst : ({ st with thread_buffer_tso := Function.update st.thread_buffer_tso t []
                          memory := applyStores T [] st.memory } : Interp) = st := by
      simp only [applyStores, List.foldl_nil]
      rw [← h, Function.update_eq_self]
    rw [hst]
    unfold drain_tso
    cases fuel <;> simp [whileLoop, h]
  | cons e rest ih =>
    intro st fuel h hfuel
    cases fuel with
    | zero => simp at hfuel
    | succ fuel =>
      have := ih (flush_buffer_tso T t st) fuel
        (by rw [flush_buffer_tso_cons T t st e rest h]; simp)
        (by simpa using hfuel)
      unfold drain_tso at this ⊢
      simp only [whileLoop, h]
      simp only [ne_eq, reduceCtorEq, not_false_eq_true, decide_True, if_true]
      rw [this, flush_buffer_tso_cons T t st e rest h]
      simp [applyStores]

end Interpreter

namespace Interpreter

/-- C14: `flush_buffer_tso(t)` takes the oldest entry out of the buffer of `t` and writes its
value to memory at its address, and changes nothing when the buffer is empty; flushing
as many times as the buffer has entries empties it and makes the stores in the order
in which they were buffered, after which memory holds at each address stored to the value
of the last store to it (for stores that are read back as they were written and later
stores to other addresses that do not write to the same bytes). -/
theorem flush_buffer_tso_spec (T : Target) (t : Nat) (st : Interp) :
    (∀ e rest, st.thread_buffer_tso t = e :: rest →
      flush_buffer_tso T t st =
        { st with
          thread_buffer_tso := Function.update st.thread_buffer_tso t rest
          memory := StoreValueToMemory T e.value e.pointer.PointerVal e.type st.memory }) ∧
    (st.thread_buffer_tso t = [] → flush_buffer_tso T t st = st) ∧
    (flush_buffer_tso T t)^[(st.thread_buffer_tso t).length] st =
      { st with
        thread_buffer_tso := Function.update st.thread_buffer_tso t []
        memory := applyStores T (st.thread_buffer_tso t) st.memory } ∧
    (∀ pre e post, st.thread_buffer_tso t = pre ++ e :: post →
      (∀ x ∈ post, x.pointer.PointerVal ≠ e.pointer.PointerVal) →
      Faithful T e.type e.value →
      (∀ x ∈ post, x.pointer.PointerVal ≠ e.pointer.PointerVal →
        Apart T x.pointer.PointerVal x.type x.value e.pointer.PointerVal e.type) →
      LoadValueFromMemory T e.pointer.PointerVal e.type
        ((flush_buffer_tso T t)^[(st.thread_buffer_tso t).length] st).memory = e.value) := by
  refine ⟨fun e rest h => flush_buffer_tso_cons T t st e rest h,
    fun h => flush_buffer_tso_nil T t st h,
    flush_buffer_tso_iterate T t _ st rfl, ?_⟩
  intro pre e post hbuf hlast hf hapart
  rw [flush_buffer_tso_iterate T t _ st rfl]
  show LoadValueFromMemory T _ _ (applyStores T (st.thread_buffer_tso t) st.memory) = _
  rw [hbuf]
  exact load_applyStores_last T pre post e st.memory hf (fun x hx => hapart x hx (hlast x hx))

theorem faithful_sampleTarget_6 : Faithful sampleTarget 4 ⟨6, 0⟩ := by
  unfold Faithful
  decide

theorem faithful_sampleTarget_7 : Faithful sampleTarget 4 ⟨7, 0⟩ := by
  unfold Faithful
  decide

theorem flush_buffer_tso_spec_witness :
    flush_buffer_tso sampleTarget 1 sampleState =
      { sampleState with
        thread_buffer_tso := Function.update sampleState.thread_buffer_tso 1
          [⟨⟨0, 200⟩, ⟨7, 0⟩, 4⟩, ⟨⟨0, 100⟩, ⟨6, 0⟩, 4⟩]
        memory := StoreValueToMemory sampleTarget ⟨5, 0⟩ 100 4 sampleState.memory } ∧
    flush_buffer_tso sampleTarget 3 sampleState = sampleState ∧
    LoadValueFromMemory sampleTarget 100 4
      ((flush_buffer_tso sampleTarget 1)^[(sampleState.thread_buffer_tso 1).length]
        sampleState).memory = ⟨6, 0⟩ ∧
    LoadValueFromMemory sampleTarget 200 4
      ((flush_buffer_tso sampleTarget 1)^[(sampleState.thread_buffer_tso 1).length]
        sampleState).memory = ⟨7, 0⟩ :=
  ⟨(flush_buffer_tso_spec sampleTarget 1 sampleState).1 ⟨⟨0, 100⟩, ⟨5, 0⟩, 4⟩
      [⟨⟨0, 200⟩, ⟨7, 0⟩, 4⟩, ⟨⟨0, 100⟩, ⟨6, 0⟩, 4⟩] rfl,
    (flush_buffer_tso_spec sampleTarget 3 sampleState).2.1 rfl,
    (flush_buffer_tso_spec sampleTarget 1 sampleState).2.2.2
      [⟨⟨0, 100⟩, ⟨5, 0⟩, 4⟩, ⟨⟨0, 200⟩, ⟨7, 0⟩, 4⟩] ⟨⟨0, 100⟩, ⟨6, 0⟩, 4⟩ [] rfl
      (by simp) faithful_sampleTarget_6 (by simp),
    (flush_buffer_tso_spec sampleTarget 1 sampleState).2.2.2
      [⟨⟨0, 100⟩, ⟨5, 0⟩, 4⟩] ⟨⟨0, 200⟩, ⟨7, 0⟩, 4⟩ [⟨⟨0, 100⟩, ⟨6, 0⟩, 4⟩] rfl
      (by simp) faithful_sampleTarget_7
      (by
        intro x hx _
        rw [List.mem_singleton] at hx
        subst hx
        exact Or.inl (by decide))⟩

end Interpreter

namespace Interpreter

/-! ### PSO buffers -/

theorem psoQueue_nil_of_lt (p : Nat) :
    ∀ buffer : PsoBuffer, (∀ k ∈ buffer.map Prod.fst, p < k) → psoQueue buffer p = [] := by
  intro buffer
  induction buffer with
  | nil => intro _; rfl
  | cons e rest ih =>
    intro h
    obtain ⟨k, q⟩ := e
    have hk : p < k := h k (by simp)
    have hne : k ≠ p := by omega
    simp only [psoQueue, hne, if_false]
    exact ih (fun x hx => h x (by simp at hx ⊢; exact Or.inr hx))

theorem psoQueue_mid (k : Nat) (q : List GenericValue) (rest : PsoBuffer) :
    ∀ done : PsoBuffer, PsoSorted (done ++ (k, q) :: rest) →
      psoQueue (done ++ (k, q) :: rest) k = q := by
  intro done
  induction done with
  | nil => intro _; simp [psoQueue]
  | cons e d ih =>
    intro hs
    obtain ⟨k0, q0⟩ := e
    unfold PsoSorted at hs
    simp only [List.cons_append, List.map_cons, List.pairwise_cons] at hs
    have hlt : k0 < k := hs.1 k (by simp)
    have hne : k0 ≠ k := by omega
    simp only [List.cons_append, psoQueue, hne, if_false]
    exact ih hs.2

theorem psoUpdate_mid (k : Nat) (f : List GenericValue → List GenericValue)
    (q : List GenericValue) (rest : PsoBuffer) :
    ∀ done : PsoBuffer, PsoSorted (done ++ (k, q) :: rest) →
      psoUpdate k f (done ++ (k, q) :: rest) = done ++ (k, f q) :: rest := by
  intro done
  induction done with
  | nil => intro _; simp [psoUpdate]
  | cons e d ih =>
    intro hs
    obtain ⟨k0, q0⟩ := e
    unfold PsoSorted at hs
    simp only [List.cons_append, List.map_cons, List.pairwise_cons] at hs
    have hlt : k0 < k := hs.1 k (by simp)
    have hne : k0 ≠ k := by omega
    have hnlt : ¬ k < k0 := by omega
    have := ih hs.2
    simp only [List.cons_append, psoUpdate, hne, hnlt, if_false]
    exact congrArg _ this

theorem psoUpdate_comp (p : Nat) (f g : List GenericValue → List GenericValue) :
    ∀ buffer : PsoBuffer,
      psoUpdate p g (psoUpdate p f buffer) = psoUpdate p (fun q => g (f q)) buffer := by
  intro buffer
  induction buffer with
  | nil => simp [psoUpdate]
  | cons e rest ih =>
    obtain ⟨k, q⟩ := e
    by_cases h1 : k = p
    · simp [psoUpdate, h1]
    · by_cases h2 : p < k
      · simp [psoUpdate, h1, h2]
      · simp [psoUpdate, h1, h2, ih]

theorem keys_psoUpdate (p : Nat) (f : List GenericValue → List GenericValue) :
    ∀ (buffer : PsoBuffer) (x : Nat), x ∈ (psoUpdate p f buffer).map Prod.fst →
      x = p ∨ x ∈ buffer.map Prod.fst := by
  intro buffer
  induction buffer with
  | nil => intro x hx; simp [psoUpdate] at hx; exact Or.inl hx
  | cons e rest ih =>
    intro x hx
    obtain ⟨k, q⟩ := e
    by_cases h1 : k = p
    · simp only [psoUpdate, h1, if_true, List.map_cons, List.mem_cons] at hx
      simp only [List.map_cons, List.mem_cons, h1]
      tauto
    · by_cases h2 : p < k
      · simp only [psoUpdate, h1, h2, if_false, if_true, List.map_cons, List.mem_cons] at hx
        simp only [List.map_cons, List.mem_cons]
        tauto
      · simp only [psoUpdate, h1, h2, if_false, List.map_cons, List.mem_cons] at hx
        simp only [List.map_cons, List.mem_cons]
        rcases hx with hx | hx
        · exact Or.inr (Or.inl hx)
        · rcases ih x hx with h | h
          · exact Or.inl h
          · exact Or.inr (Or.inr h)

theorem psoUpdate_sorted (p : Nat) (f : List GenericValue → List GenericValue) :
    ∀ buffer : PsoBuffer, PsoSorted buffer → PsoSorted (psoUpdate p f buffer) := by
  intro buffer
  induction buffer with
  | nil => intro _; simp [psoUpdate, PsoSorted]
  | cons e rest ih =>
    intro hs
    obtain ⟨k, q⟩ := e
    have hs0 := hs
    unfold PsoSorted at hs ⊢
    simp only [List.map_cons, List.pairwise_cons] at hs
    by_cases h1 : k = p
    · simp only [psoUpdate, h1, if_true, List.map_cons, List.pairwise_cons]
      exact ⟨fun x hx => h1 ▸ hs.1 x hx, hs.2⟩
    · by_cases h2 : p < k
      · simp only [psoUpdate, h1, h2, if_false, if_true, List.map_cons, List.pairwise_cons]
        refine ⟨?_, hs⟩
        intro x hx
        rcases List.mem_cons.1 hx with hx | hx
        · omega
        · have := hs.1 x hx
          omega
      · simp only [psoUpdate, h1, h2, if_false, List.map_cons, List.pairwise_cons]
        refine ⟨?_, ih hs.2⟩
        intro x hx
        rcases keys_psoUpdate p f rest x hx with h | h
        · omega
        · exact hs.1 x h

/-- In a buffer with increasing keys the access to the key `p` finds or makes one entry for
`p`, whose queue is the queue that `psoQueue` reads. -/
theorem psoUpdate_split (p : Nat) (f : List GenericValue → List GenericValue) :
    ∀ buffer : PsoBuffer, PsoSorted buffer →
      ∃ done rest, psoUpdate p f buffer = done ++ (p, f (psoQueue buffer p)) :: rest := by
  intro buffer
  induction buffer with
  | nil => intro _; exact ⟨[], [], by simp [psoUpdate, psoQueue]⟩
  | cons e rest ih =>
    intro hs
    obtain ⟨k, q⟩ := e
    unfold PsoSorted at hs
    simp only [List.map_cons, List.pairwise_cons] at hs
    by_cases h1 : k = p
    · exact ⟨[], rest, by simp [psoUpdate, psoQueue, h1]⟩
    · by_cases h2 : p < k
      · refine ⟨[], (k, q) :: rest, ?_⟩
        have hnil : psoQueue rest p = [] :=
          psoQueue_nil_of_lt p rest (fun x hx => lt_trans h2 (hs.1 x hx))
        simp [psoUpdate, psoQueue, h1, h2, hnil]
      · obtain ⟨done, rest', h⟩ := ih hs.2
        exact ⟨(k, q) :: done, rest', by simp [psoUpdate, psoQueue, h1, h2, h]⟩

end Interpreter

namespace Interpreter

/-! ### Loops that flush a PSO queue -/

theorem flush_buffer_pso_cons (T : Target) (t p : Nat) (st : Interp) (v : GenericValue)
    (rest : List GenericValue) (h : psoQueue (st.thread_buffer_pso t) p = v :: rest) :
    flush_buffer_pso T t p st =
      { st with
        thread_buffer_pso := Function.update st.thread_buffer_pso t
          (psoUpdate p (fun q => q.tail) (st.thread_buffer_pso t))
        memory :=
          if ValidAddress st p then StoreValueToMemory T v p (st.pso_types p) st.memory
          else st.memory
        segmentFaultFlag := if ValidAddress st p then st.segmentFaultFlag else true } := by
  unfold flush_buffer_pso
  rw [h]
  by_cases hv : ValidAddress st p
  · have hv0 := hv
    unfold ValidAddress at hv0
    simp only [hv0, hv, if_true, if_false]
  · have hv0 := hv
    unfold ValidAddress at hv0
    rw [not_not] at hv0
    simp only [hv0, hv, if_true, if_false]

/-- The loop that flushes the queue at a key of the map ends within as many rounds as the
queue has values. The queue is empty then, the rest of the buffer is as before, and the
values were stored in order when the address is valid; they were dropped and the
segmentation-fault flag was set when it is not. -/
theorem drain_pso_mid (T : Target) (t k : Nat) :
    ∀ (q : List GenericValue) (st : Interp) (fuel : Nat) (done rest : PsoBuffer),
      st.thread_buffer_pso t = done ++ (k, q) :: rest →
      PsoSorted (done ++ (k, q) :: rest) → q.length ≤ fuel →
      drain_pso T t k fuel st =
        some { st with
          thread_buffer_pso := Function.update st.thread_buffer_pso t (done ++ (k, []) :: rest)
          memory :=
            if ValidAddress st k then applyQueue T k (st.pso_types k) q st.memory
            else st.memory
          segmentFaultFlag :=
            if ValidAddress st k ∨ q = [] then st.segmentFaultFlag else true } := by
  intro q
  induction q with
  | nil =>
    intro st fuel done rest h hs _
    have hq : psoQueue (st.thread_buffer_pso t) k = [] := by
      rw [h]
      exact psoQueue_mid k [] rest done hs
    have hst : ({ st with
          thread_buffer_pso := Function.update st.thread_buffer_pso t (done ++ (k, []) :: rest)
          memory :=
            if ValidAddress st k then applyQueue T k (st.pso_types k) [] st.memory
            else st.memory
          segmentFaultFlag :=
            if ValidAddress st k ∨ ([] : List GenericValue) = [] then st.segmentFaultFlag
            else true } : Interp) = st := by
      simp only [applyQueue, List.foldl_nil, ite_self, or_true, if_true]
      rw [← h, Function.update_eq_self]
    rw [hst]
    unfold drain_pso
    cases fuel <;> simp [whileLoop, hq]
  | cons v q ih =>
    intro st fuel done rest h hs hfuel
    have hq : psoQueue (st.thread_buffer_pso t) k = v :: q := by
      rw [h]
      exact psoQueue_mid k (v :: q) rest done hs
    cases fuel with
    | zero => simp at hfuel
    | succ fuel =>
      have hflush := flush_buffer_pso_cons T t k st v q hq
      rw [h, psoUpdate_mid k _ (v :: q) rest done hs, List.tail_cons] at hflush
      have hs2 : PsoSorted (done ++ (k, q) :: rest) := by
        unfold PsoSorted at hs ⊢
        simpa using hs
      have := ih (flush_buffer_pso T t k st) fuel done rest
        (by rw [hflush]; simp) hs2 (by simpa using hfuel)
      unfold drain_pso at this ⊢
      simp only [whileLoop, hq]
      simp only [ne_eq, reduceCtorEq, not_false_eq_true, decide_True, if_true]
      rw [this, hflush]
      by_cases hv : ValidAddress st k
      · have hv2 : ValidAddress
            { st with
              thread_buffer_pso := Function.update st.thread_buffer_pso t (done ++ (k, q) :: rest)
              memory := StoreValueToMemory T v k (st.pso_types k) st.memory
              segmentFaultFlag := st.segmentFaultFlag } k := hv
        simp [hv, hv2, applyQueue]
      · have hv2 : ¬ ValidAddress
            { st with
              thread_buffer_pso := Function.update st.thread_buffer_pso t (done ++ (k, q) :: rest)
              memory := st.memory
              segmentFaultFlag := true } k := hv
        simp [hv, hv2]

end Interpreter

namespace Interpreter

/-- The value that `visitLoadInstPSO` gives to the load of an address that lies in a stack
allocation of the current thread or in a registered block. -/
theorem visitLoadInstPSO_value (T : Target) (Result0 Ptr : GenericValue) (Ty : TypeRef)
    (label_instr : Int) (st : Interp)
    (h : isAddressOnStack Ptr.PointerVal st = true ∨ ValidAddress st Ptr.PointerVal) :
    (visitLoadInstPSO T Result0 Ptr Ty label_instr st).1 =
      some (if psoQueue (st.thread_buffer_pso st.currThread) Ptr.PointerVal ≠ [] then
          (psoQueue (st.thread_buffer_pso st.currThread) Ptr.PointerVal).getLastD Result0
        else LoadValueFromMemory T Ptr.PointerVal Ty st.memory) := by
  unfold visitLoadInstPSO
  have hs : isAddressOnStack Ptr.PointerVal (touchPso st.currThread Ptr.PointerVal st) =
      isAddressOnStack Ptr.PointerVal st := rfl
  have hb : (touchPso st.currThread Ptr.PointerVal st).bytesAtPhysicalAddress =
      st.bytesAtPhysicalAddress := rfl
  have hm : (touchPso st.currThread Ptr.PointerVal st).memory = st.memory := rfl
  simp only [hs, hb, hm]
  by_cases hq : psoQueue (st.thread_buffer_pso st.currThread) Ptr.PointerVal = []
  · simp only [hq, ne_eq, not_true_eq_false, if_false]
    cases hst : isAddressOnStack Ptr.PointerVal st with
    | true => simp
    | false =>
      have hv : ValidAddress st Ptr.PointerVal := by
        rcases h with h | h
        · rw [hst] at h; cases h
        · exact h
      unfold ValidAddress at hv
      simp [hv]
  · simp only [hq, ne_eq, not_false_eq_true, if_true]
    cases hst : isAddressOnStack Ptr.PointerVal st with
    | true => simp
    | false =>
      have hv : ValidAddress st Ptr.PointerVal := by
        rcases h with h | h
        · rw [hst] at h; cases h
        · exact h
      unfold ValidAddress at hv
      simp [hv]

end Interpreter

namespace Interpreter

end Interpreter

namespace Interpreter

theorem psoSorted_sampleState : ∀ t, PsoSorted (sampleState.thread_buffer_pso t) := by
  intro t
  unfold PsoSorted
  simp only [sampleState]
  split_ifs <;> simp

end Interpreter

namespace Interpreter

/-! ### The loop of the fences under PSO -/

theorem validAddress_congr (st st2 : Interp) (p : Nat)
    (h : st2.bytesAtPhysicalAddress = st.bytesAtPhysicalAddress) :
    ValidAddress st2 p ↔ ValidAddress st p := by
  unfold ValidAddress
  rw [h]

/-- The loop of `membar_ss` and `membar_sl` over the keys from some key of the map on: each
queue is emptied in turn, and its values are stored in order. -/
theorem drainAll_pso_from (T : Target) (t fuel : Nat) :
    ∀ (rest done : PsoBuffer) (st : Interp), st.thread_buffer_pso t = done ++ rest →
      PsoSorted (done ++ rest) →
      (∀ e ∈ rest, e.2 ≠ [] → ValidAddress st e.1) → (∀ e ∈ rest, e.2.length ≤ fuel) →
      (rest.map Prod.fst).foldlM (fun s p => drain_pso T t p fuel s) st =
        some { st with
          thread_buffer_pso := Function.update st.thread_buffer_pso t (done ++ emptied rest)
          memory := applyPso T st.pso_types rest st.memory } := by
  intro rest
  induction rest with
  | nil =>
    intro done st h _ _ _
    simp only [List.map_nil, List.foldlM_nil, emptied, List.append_nil, applyPso, List.foldl_nil]
    rw [List.append_nil] at h
    rw [← h, Function.update_eq_self]
    rfl
  | cons e rest ih =>
    intro done st h hs hv hlen
    obtain ⟨k, q⟩ := e
    have hd := drain_pso_mid T t k q st fuel done rest h hs
      (hlen (k, q) (List.mem_cons_self _ _))
    have hst1 : ({ st with
          thread_buffer_pso := Function.update st.thread_buffer_pso t (done ++ (k, []) :: rest)
          memory :=
            if ValidAddress st k then applyQueue T k (st.pso_types k) q st.memory
            else st.memory
          segmentFaultFlag :=
            if ValidAddress st k ∨ q = [] then st.segmentFaultFlag else true } : Interp) =
        { st with
          thread_buffer_pso := Function.update st.thread_buffer_pso t (done ++ (k, []) :: rest)
          memory := applyQueue T k (st.pso_types k) q st.memory } := by
      by_cases hq : q = []
      · subst hq
        simp [applyQueue]
      · have hvk : ValidAddress st k := hv (k, q) (List.mem_cons_self _ _) hq
        simp [hvk]
    rw [hst1] at hd
    simp only [List.map_cons, List.foldlM_cons, hd, Option.bind_eq_bind, Option.some_bind]
    have hs2 : PsoSorted ((done ++ [(k, [])]) ++ rest) := by
      unfold PsoSorted at hs ⊢
      simpa using hs
    have hih := ih (done ++ [(k, [])])
      { st with
        thread_buffer_pso := Function.update st.thread_buffer_pso t (done ++ (k, []) :: rest)
        memory := applyQueue T k (st.pso_types k) q st.memory }
      (by simp) hs2
      (fun e he hne => (validAddress_congr st _ e.1 rfl).2
        (hv e (List.mem_cons_of_mem _ he) hne))
      (fun e he => hlen e (List.mem_cons_of_mem _ he))
    rw [hih]
    simp [emptied, applyPso]

theorem drainAll_pso_eq (T : Target) (t fuel : Nat) (st : Interp)
    (hs : PsoSorted (st.thread_buffer_pso t))
    (hv : ∀ e ∈ st.thread_buffer_pso t, e.2 ≠ [] → ValidAddress st e.1)
    (hlen : ∀ e ∈ st.thread_buffer_pso t, e.2.length ≤ fuel) :
    drainAll_pso T t fuel st =
      some { st with
        thread_buffer_pso := Function.update st.thread_buffer_pso t
          (emptied (st.thread_buffer_pso t))
        memory := applyPso T st.pso_types (st.thread_buffer_pso t) st.memory } := by
  unfold drainAll_pso
  have := drainAll_pso_from T t fuel (st.thread_buffer_pso t) [] st rfl hs hv hlen
  simpa using this

theorem psoQueue_emptied (p : Nat) : ∀ buffer : PsoBuffer, psoQueue (emptied buffer) p = [] := by
  intro buffer
  induction buffer with
  | nil => rfl
  | cons e rest ih =>
    obtain ⟨k, q⟩ := e
    unfold emptied at ih ⊢
    simp only [List.map_cons, psoQueue]
    split
    · rfl
    · exact ih

theorem psoQueue_split (a : Nat) :
    ∀ buffer : PsoBuffer, psoQueue buffer a ≠ [] →
      ∃ done rest, buffer = done ++ (a, psoQueue buffer a) :: rest := by
  intro buffer
  induction buffer with
  | nil => intro h; exact absurd rfl h
  | cons e rest ih =>
    intro h
    obtain ⟨k, q⟩ := e
    by_cases hk : k = a
    · subst hk
      exact ⟨[], rest, by simp [psoQueue]⟩
    · simp only [psoQueue, hk, if_false] at h ⊢
      obtain ⟨done, rest', h'⟩ := ih h
      exact ⟨(k, q) :: done, rest', by rw [List.cons_append, ← h']⟩

theorem load_applyQueue_apart (T : Target) (p : Nat) (ty : TypeRef) (a : Nat) (ty0 : TypeRef) :
    ∀ (queue : List GenericValue) (m : Memory), (∀ v ∈ queue, Apart T p ty v a ty0) →
      LoadValueFromMemory T a ty0 (applyQueue T p ty queue m) = LoadValueFromMemory T a ty0 m := by
  intro queue
  induction queue with
  | nil => intro m _; rfl
  | cons v rest ih =>
    intro m h
    show LoadValueFromMemory T a ty0 (applyQueue T p ty rest _) = _
    rw [ih _ (fun x hx => h x (List.mem_cons_of_mem _ hx)),
      load_store_apart _ _ _ _ _ _ _ (h v (List.mem_cons_self _ _))]

theorem load_applyPso_apart (T : Target) (types : Nat → TypeRef) (a : Nat) (ty0 : TypeRef) :
    ∀ (buffer : PsoBuffer) (m : Memory),
      (∀ e ∈ buffer, ∀ v ∈ e.2, Apart T e.1 (types e.1) v a ty0) →
      LoadValueFromMemory T a ty0 (applyPso T types buffer m) = LoadValueFromMemory T a ty0 m := by
  intro buffer
  induction buffer with
  | nil => intro m _; rfl
  | cons e rest ih =>
    intro m h
    show LoadValueFromMemory T a ty0 (applyPso T types rest _) = _
    rw [ih _ (fun x hx => h x (List.mem_cons_of_mem _ hx)),
      load_applyQueue_apart _ _ _ _ _ _ _ (h e (List.mem_cons_self _ _))]

/-- After the queues of a PSO buffer were stored, memory holds at the address of a queue the
last value of this queue, when no queue of a later key writes to the same bytes. -/
theorem load_applyPso_last (T : Target) (types : Nat → TypeRef) (a : Nat)
    (pre : List GenericValue) (v : GenericValue) (done rest : PsoBuffer) (m : Memory)
    (hf : Faithful T (types a) v)
    (hrest : ∀ e ∈ rest, ∀ x ∈ e.2, Apart T e.1 (types e.1) x a (types a)) :
    LoadValueFromMemory T a (types a) (applyPso T types (done ++ (a, pre ++ [v]) :: rest) m) =
      v := by
  have h1 : applyPso T types (done ++ (a, pre ++ [v]) :: rest) m =
      applyPso T types rest
        (StoreValueToMemory T v a (types a) (applyQueue T a (types a) pre
          (applyPso T types done m))) := by
    simp [applyPso, applyQueue, List.foldl_append]
  rw [h1, load_applyPso_apart _ _ _ _ _ _ hrest, load_store_same _ _ _ _ _ hf]

end Interpreter

namespace Interpreter

theorem membar_sl_tso (P : Params) (T : Target) (u : rwtrace_elem) (fuel t : Nat)
    (st : Interp) (hT : P.WMM = WMM_TSO) (hfuel : (st.thread_buffer_tso t).length ≤ fuel) :
    membar_sl P T u fuel t st =
      some { st with
        thread_buffer_tso := Function.update st.thread_buffer_tso t []
        memory := applyStores T (st.thread_buffer_tso t) st.memory
        rwtrace_rec := RecordRWEventThr u t RWType.FLUSH_FENCE 0 st.rwtrace_rec } := by
  have h0 : ¬ P.WMM = WMM_NONE := by rw [hT]; decide
  unfold membar_sl
  simp only [h0, hT, if_true, if_false]
  rw [drain_tso_eq T t _ st fuel rfl hfuel]
  rfl

theorem membar_pso (P : Params) (T : Target) (u : rwtrace_elem) (fuel t : Nat)
    (st : Interp) (hP : P.WMM = WMM_PSO) (hs : PsoSorted (st.thread_buffer_pso t))
    (hv : ∀ e ∈ st.thread_buffer_pso t, e.2 ≠ [] → ValidAddress st e.1)
    (hlen : ∀ e ∈ st.thread_buffer_pso t, e.2.length ≤ fuel) :
    membar_sl P T u fuel t st =
      some { st with
        thread_buffer_pso := Function.update st.thread_buffer_pso t
          (emptied (st.thread_buffer_pso t))
        memory := applyPso T st.pso_types (st.thread_buffer_pso t) st.memory
        rwtrace_rec := RecordRWEventThr u t RWType.FLUSH_FENCE 0 st.rwtrace_rec } ∧
    membar_ss P T u fuel t st =
      some { st with
        thread_buffer_pso := Function.update st.thread_buffer_pso t
          (emptied (st.thread_buffer_pso t))
        memory := applyPso T st.pso_types (st.thread_buffer_pso t) st.memory
        rwtrace_rec := RecordRWEventThr u t RWType.FLUSH_FENCE 0 st.rwtrace_rec } := by
  have h0 : ¬ P.WMM = WMM_NONE := by rw [hP]; decide
  have h1 : ¬ P.WMM = WMM_TSO := by rw [hP]; decide
  constructor
  · unfold membar_sl
    rw [if_neg h0, if_neg h1, if_pos hP, drainAll_pso_eq T t fuel st hs hv hlen]
    rfl
  · unfold membar_ss
    rw [if_neg h0, if_neg h1, if_pos hP, drainAll_pso_eq T t fuel st hs hv hlen]
    rfl

/-- C16: `membar_sl(t)` under TSO, and `membar_sl(t)` and `membar_ss(t)` under PSO with every
buffered address in a registered block, return (the loops end within as many rounds as
the longest queue has entries) in a state in which thread `t` has no store pending, the
buffers of the other threads are as before, the pending stores of `t` were made in order,
and the log has one more entry, FLUSH_FENCE of `t`. Memory then holds at each address
that `t` had buffered the last value that `t` stored there (for stores that are read back
as written and do not write to each other's bytes), and a load of such an address yields
this value for every thread that has no store of its own to the address pending. -/
theorem membar_spec (P : Params) (T : Target) (u : rwtrace_elem) (fuel t : Nat) (st : Interp) :
    (P.WMM = WMM_TSO → (st.thread_buffer_tso t).length ≤ fuel →
      ∃ st1, membar_sl P T u fuel t st = some st1 ∧
        st1.thread_buffer_tso t = [] ∧
        (∀ t0, t0 ≠ t → st1.thread_buffer_tso t0 = st.thread_buffer_tso t0) ∧
        st1.memory = applyStores T (st.thread_buffer_tso t) st.memory ∧
        st1.rwtrace_rec =
          st.rwtrace_rec ++ [{ u with thr := t, type := RWType.FLUSH_FENCE, label := 0 }] ∧
        (∀ pre e post, st.thread_buffer_tso t = pre ++ e :: post →
          (∀ x ∈ post, x.pointer.PointerVal ≠ e.pointer.PointerVal) →
          Faithful T e.type e.value →
          (∀ x ∈ post, x.pointer.PointerVal ≠ e.pointer.PointerVal →
            Apart T x.pointer.PointerVal x.type x.value e.pointer.PointerVal e.type) →
          LoadValueFromMemory T e.pointer.PointerVal e.type st1.memory = e.value ∧
          ∀ (t0 : Nat) (label_instr : Int),
            (∀ x ∈ st1.thread_buffer_tso t0, x.pointer.PointerVal ≠ e.pointer.PointerVal) →
            (visitLoadInstTSO T e.pointer e.type label_instr
              { st1 with currThread := t0 }).1 = e.value)) ∧
    (P.WMM = WMM_PSO → PsoSorted (st.thread_buffer_pso t) →
      (∀ e ∈ st.thread_buffer_pso t, e.2 ≠ [] → ValidAddress st e.1) →
      (∀ e ∈ st.thread_buffer_pso t, e.2.length ≤ fuel) →
      ∃ st1, membar_sl P T u fuel t st = some st1 ∧ membar_ss P T u fuel t st = some st1 ∧
        (∀ p, psoQueue (st1.thread_buffer_pso t) p = []) ∧
        (∀ t0, t0 ≠ t → st1.thread_buffer_pso t0 = st.thread_buffer_pso t0) ∧
        st1.memory = applyPso T st.pso_types (st.thread_buffer_pso t) st.memory ∧
        st1.rwtrace_rec =
          st.rwtrace_rec ++ [{ u with thr := t, type := RWType.FLUSH_FENCE, label := 0 }] ∧
        (∀ a pre v, psoQueue (st.thread_buffer_pso t) a = pre ++ [v] →
          Faithful T (st.pso_types a) v →
          (∀ e ∈ st.thread_buffer_pso t, e.1 ≠ a →
            ∀ x ∈ e.2, Apart T e.1 (st.pso_types e.1) x a (st.pso_types a)) →
          LoadValueFromMemory T a (st.pso_types a) st1.memory = v ∧
          ∀ (t0 : Nat) (Result0 : GenericValue) (iv : Nat) (label_instr : Int),
            psoQueue (st1.thread_buffer_pso t0) a = [] →
            (visitLoadInstPSO T Result0 ⟨iv, a⟩ (st.pso_types a) label_instr
              { st1 with currThread := t0 }).1 = some v)) := by
  constructor
  · intro hT hfuel
    refine ⟨_, membar_sl_tso P T u fuel t st hT hfuel, ?_, ?_, rfl, rfl, ?_⟩
    · simp
    · intro t0 ht0
      simp [Function.update_noteq ht0]
    · intro pre e post hbuf hlast hf hapart
      have hload : LoadValueFromMemory T e.pointer.PointerVal e.type
          (applyStores T (st.thread_buffer_tso t) st.memory) = e.value := by
        rw [hbuf]
        exact load_applyStores_last T pre post e st.memory hf
          (fun x hx => hapart x hx (hlast x hx))
      refine ⟨hload, ?_⟩
      intro t0 label_instr habs
      rw [visitLoadInstTSO_value, newestEntry_of_absent _ _ habs]
      exact hload
  · intro hP hs hv hlen
    obtain ⟨hsl, hss⟩ := membar_pso P T u fuel t st hP hs hv hlen
    refine ⟨_, hsl, hss, ?_, ?_, rfl, rfl, ?_⟩
    · intro p
      simp only [Function.update_same]
      exact psoQueue_emptied p _
    · intro t0 ht0
      simp [Function.update_noteq ht0]
    · intro a pre v hq hf hapart
      have hne : psoQueue (st.thread_buffer_pso t) a ≠ [] := by rw [hq]; simp
      obtain ⟨done, rest, hsplit⟩ := psoQueue_split a _ hne
      rw [hq] at hsplit
      have hrest : ∀ e ∈ rest, ∀ x ∈ e.2,
          Apart T e.1 (st.pso_types e.1) x a (st.pso_types a) := by
        intro e he
        have hmem : e ∈ st.thread_buffer_pso t := by
          rw [hsplit]; simp [he]
        have hlt : a < e.1 := by
          have hs' := hs
          unfold PsoSorted at hs'
          rw [hsplit, List.map_append, List.map_cons, List.pairwise_append] at hs'
          exact (List.pairwise_cons.1 hs'.2.1).1 e.1 (List.mem_map_of_mem _ he)
        exact hapart e hmem (by omega)
      have hload : LoadValueFromMemory T a (st.pso_types a)
          (applyPso T st.pso_types (st.thread_buffer_pso t) st.memory) = v := by
        rw [hsplit]
        exact load_applyPso_last T st.pso_types a pre v done rest st.memory hf hrest
      refine ⟨hload, ?_⟩
      intro t0 Result0 iv label_instr hq0
      have hvalid : ValidAddress st a :=
        hv (a, pre ++ [v]) (by rw [hsplit]; simp) (by simp)
      refine (visitLoadInstPSO_value T Result0 ⟨iv, a⟩ _ label_instr _ (Or.inr ?_)).trans ?_
      · exact hvalid
      · simp only [hq0, ne_eq, not_true_eq_false, if_false]
        exact congrArg some hload

end Interpreter

namespace Interpreter

theorem membar_spec_witness :
    (∃ st1, membar_sl Constraints.sampleParamsTSO sampleTarget sampleElem 3 1 sampleState =
          some st1 ∧
        st1.thread_buffer_tso 1 = [] ∧
        st1.thread_buffer_tso 2 = sampleState.thread_buffer_tso 2 ∧
        st1.rwtrace_rec = [⟨1, RWType.FLUSH_FENCE, 0, 0, 0⟩] ∧
        LoadValueFromMemory sampleTarget 200 4 st1.memory = ⟨7, 0⟩ ∧
        (visitLoadInstTSO sampleTarget ⟨0, 200⟩ 4 9 { st1 with currThread := 2 }).1 = ⟨7, 0⟩) ∧
    (∃ st1, membar_sl Constraints.sampleParamsPSO sampleTarget sampleElem 2 1 sampleState =
          some st1 ∧
        membar_ss Constraints.sampleParamsPSO sampleTarget sampleElem 2 1 sampleState =
          some st1 ∧
        psoQueue (st1.thread_buffer_pso 1) 100 = [] ∧
        st1.thread_buffer_pso 2 = sampleState.thread_buffer_pso 2 ∧
        LoadValueFromMemory sampleTarget 100 4 st1.memory = ⟨6, 0⟩ ∧
        (visitLoadInstPSO sampleTarget ⟨0, 0⟩ ⟨0, 100⟩ 4 9 { st1 with currThread := 3 }).1 =
          some ⟨6, 0⟩) := by
  constructor
  · obtain ⟨st1, h1, h2, h3, _, h5, h6⟩ :=
      (membar_spec Constraints.sampleParamsTSO sampleTarget sampleElem 3 1 sampleState).1 rfl
        (by decide)
    have h7 := h6 [⟨⟨0, 100⟩, ⟨5, 0⟩, 4⟩] ⟨⟨0, 200⟩, ⟨7, 0⟩, 4⟩ [⟨⟨0, 100⟩, ⟨6, 0⟩, 4⟩] rfl
      (by simp) faithful_sampleTarget_7
      (by
        intro x hx _
        rw [List.mem_singleton] at hx
        subst hx
        exact Or.inl (by decide))
    refine ⟨st1, h1, h2, h3 2 (by decide), h5, h7.1, h7.2 2 9 ?_⟩
    rw [h3 2 (by decide)]
    simp [sampleState]
  · obtain ⟨st1, h1, h2, h3, h4, _, _, h7⟩ :=
      (membar_spec Constraints.sampleParamsPSO sampleTarget sampleElem 2 1 sampleState).2 rfl
        (psoSorted_sampleState 1)
        (by
          intro e he _
          simp [sampleState] at he
          rcases he with he | he <;> subst he <;> decide)
        (by
          intro e he
          simp [sampleState] at he
          rcases he with he | he <;> subst he <;> decide)
    have h8 := h7 100 [⟨5, 0⟩] ⟨6, 0⟩ rfl faithful_sampleTarget_6
      (by
        intro e he hne x hx
        simp [sampleState] at he
        rcases he with he | he
        · subst he; exact absurd rfl hne
        · subst he
          exact Or.inr (by decide))
    refine ⟨st1, h1, h2, h3 100, h4 2 (by decide), h8.1, h8.2 3 ⟨0, 0⟩ 0 9 ?_⟩
    rw [h4 3 (by decide)]
    rfl

end Interpreter

namespace Interpreter

end Interpreter

namespace Interpreter

theorem visitCAS_tso (P : Params) (T : Target) (u : rwtrace_elem) (fuel : Nat)
    (arg1 arg2 arg3 : GenericValue) (label_instr : Int) (st : Interp) (hT : P.WMM = WMM_TSO)
    (hfuel : (st.thread_buffer_tso st.currThread).length ≤ fuel) :
    visitCAS P T u fuel arg1 arg2 arg3 label_instr st =
      some (casBody P u arg1 arg2 arg3 label_instr
        { st with
          thread_buffer_tso := Function.update st.thread_buffer_tso st.currThread []
          memory := applyStores T (st.thread_buffer_tso st.currThread) st.memory }) := by
  unfold visitCAS
  rw [if_pos hT, drain_tso_eq T st.currThread _ st fuel rfl hfuel]
  rfl

theorem visitCAS_pso (P : Params) (T : Target) (u : rwtrace_elem) (fuel : Nat)
    (arg1 arg2 arg3 : GenericValue) (label_instr : Int) (st : Interp) (hP : P.WMM = WMM_PSO)
    (hs : PsoSorted (st.thread_buffer_pso st.currThread))
    (hfuel : (psoQueue (st.thread_buffer_pso st.currThread) arg1.PointerVal).length ≤ fuel) :
    visitCAS P T u fuel arg1 arg2 arg3 label_instr st =
      some (casBody P u arg1 arg2 arg3 label_instr
        { st with
          thread_buffer_pso := Function.update st.thread_buffer_pso st.currThread
            (psoUpdate arg1.PointerVal (fun _ => []) (st.thread_buffer_pso st.currThread))
          memory :=
            if ValidAddress st arg1.PointerVal then
              applyQueue T arg1.PointerVal (st.pso_types arg1.PointerVal)
                (psoQueue (st.thread_buffer_pso st.currThread) arg1.PointerVal) st.memory
            else st.memory
          segmentFaultFlag :=
            if ValidAddress st arg1.PointerVal ∨
                psoQueue (st.thread_buffer_pso st.currThread) arg1.PointerVal = [] then
              st.segmentFaultFlag
            else true }) := by
  have h1 : ¬ P.WMM = WMM_TSO := by rw [hP]; decide
  obtain ⟨done, rest, hB⟩ :=
    psoUpdate_split arg1.PointerVal (fun q => q) (st.thread_buffer_pso st.currThread) hs
  have hsB := psoUpdate_sorted arg1.PointerVal (fun q => q) _ hs
  rw [hB] at hsB
  have hd := drain_pso_mid T st.currThread arg1.PointerVal _
    (touchPso st.currThread arg1.PointerVal st) fuel done rest
    (by simp [touchPso, hB]) hsB hfuel
  have hfin : psoUpdate arg1.PointerVal (fun _ => []) (st.thread_buffer_pso st.currThread) =
      done ++ (arg1.PointerVal, []) :: rest := by
    rw [← psoUpdate_mid arg1.PointerVal (fun _ => [])
      (psoQueue (st.thread_buffer_pso st.currThread) arg1.PointerVal) rest done hsB, ← hB,
      psoUpdate_comp]
  unfold visitCAS
  rw [if_neg h1, if_pos hP, hd, hfin]
  simp [touchPso, ValidAddress]

end Interpreter

namespace Interpreter

end Interpreter

namespace Interpreter

/-- In a state without an active thread `flushAll` changes nothing: its loops run over the
active threads. -/
theorem flushAll_of_no_active (P : Params) (T : Target) (u : rwtrace_elem) (fuel : Nat)
    (st : Interp) (h : getAllActiveThreads st = []) : flushAll P T u fuel st = some st := by
  unfold flushAll
  rw [h]
  split_ifs <;> rfl

/-- C18, the code at a failing input: at the end of a run in which thread 1 still has three
stores pending under TSO (two values for the address 100 under PSO), `run()` finds no
active thread and calls `flushAll()`, which leaves the state as it is: the stores stay in
the buffers, memory is not written and no FLUSH_INSTR entry is logged. (With active
threads, the PSO branch of `flushAll` takes one value only from each queue.) -/
theorem flushAll_at_end_keeps_stores :
    getAllActiveThreads endState = [] ∧
    runNoThread Constraints.sampleParamsTSO sampleTarget sampleElem 3 endState =
      some (some endState) ∧
    runNoThread Constraints.sampleParamsPSO sampleTarget sampleElem 3 endState =
      some (some endState) ∧
    (endState.thread_buffer_tso 1).length = 3 ∧
    psoQueue (endState.thread_buffer_pso 1) 100 = [⟨5, 0⟩, ⟨6, 0⟩] ∧
    readBytes 100 4 endState.memory = [0, 0, 0, 0] ∧
    endState.rwtrace_rec = [] ∧
    (flushAll Constraints.sampleParamsPSO sampleTarget sampleElem 3 sampleState).map
      (fun s => psoQueue (s.thread_buffer_pso 1) 100) = some [⟨6, 0⟩] := by
  refine ⟨rfl, ?_, ?_, rfl, rfl, rfl, rfl, by decide⟩
  · unfold runNoThread
    rw [flushAll_of_no_active _ _ _ _ endState rfl]
    rfl
  · unfold runNoThread
    rw [flushAll_of_no_active _ _ _ _ endState rfl]
    rfl

end Interpreter

/-! ## Sequential references: work-stealing queue and queue -/

namespace CheckTrace

theorem getLastD_of_getLast? (l : List Int) (x d : Int) (h : l.getLast? = some x) :
    l.getLastD d = x := by
  rw [List.getLastD_eq_getLast?, h]
  rfl

theorem ite_false_eq_true_iff (c : Prop) [Decidable c] (b : Bool) :
    ((if c then false else b) = true) ↔ ¬ c ∧ b = true := by
  by_cases h : c <;> simp [h]

theorem checkWSQLoop_chase (X : WSQExtern) :
    ∀ (elems : List trace_elem) (q : List Int) (task : Int),
      (∀ e ∈ elems, e.func = "wsq_put" → e.arg_vals ≠ []) →
      (checkWSQLoop program_type.WSQ_CHASE X elems q task = true ↔ chaseAccepts elems q) := by
  intro elems
  induction elems with
  | nil => intro q task _; simp [checkWSQLoop, chaseAccepts]
  | cons e rest ih =>
    intro q task hargs
    have hrest : ∀ x ∈ rest, x.func = "wsq_put" → x.arg_vals ≠ [] :=
      fun x hx => hargs x (List.mem_cons_of_mem _ hx)
    unfold checkWSQLoop chaseAccepts
    by_cases hput : e.func = "wsq_put"
    · simp only [if_pos hput]
      cases hlast : e.arg_vals.getLast? with
      | none =>
        exact absurd (List.getLast?_eq_none_iff.1 hlast) (hargs e (List.mem_cons_self _ _) hput)
      | some x =>
        rw [getLastD_of_getLast? _ x 0 hlast, ite_false_eq_true_iff, ih _ _ hrest]
        simp only [WSQ.seq_wsq_put_chase, ne_eq, not_not]
        constructor
        · rintro ⟨h1, h2⟩
          exact ⟨x, rfl, h1, h2⟩
        · rintro ⟨x2, h0, h1, h2⟩
          cases h0
          exact ⟨h1, h2⟩
    · by_cases htake : e.func = "wsq_take"
      · simp only [if_neg hput, if_pos htake]
        rw [ite_false_eq_true_iff, ih _ _ hrest]
        rcases List.eq_nil_or_concat q with hq | ⟨q1, y, hq⟩
        · subst hq
          simp only [WSQ.seq_wsq_take_chase, ne_eq, not_true_eq_false, if_false, not_not]
          constructor
          · rintro ⟨h1, h2⟩
            exact Or.inl ⟨trivial, h1.symm, h2⟩
          · rintro (⟨_, h1, h2⟩ | ⟨q2, y2, h1, _, _⟩)
            · exact ⟨h1.symm, h2⟩
            · simp at h1
        · rw [List.concat_eq_append] at hq
          subst hq
          have hne : q1 ++ [y] ≠ [] := by simp
          have hy : (q1 ++ [y]).getLastD 0 = y := by simp
          have hd : (q1 ++ [y]).dropLast = q1 := by simp
          simp only [WSQ.seq_wsq_take_chase, hne, ne_eq, not_false_eq_true, if_true, hy, hd,
            not_not]
          constructor
          · rintro ⟨h1, h2⟩
            exact Or.inr ⟨q1, y, rfl, h1.symm, h2⟩
          · rintro (⟨h, _⟩ | ⟨q2, y2, h1, h2, h3⟩)
            · exact h.elim
            · obtain ⟨h4, h5⟩ := List.append_inj' h1 rfl
              rw [List.singleton_inj] at h5
              rw [h4, h5]
              exact ⟨h2.symm, h3⟩
      · by_cases hsteal : e.func = "wsq_steal"
        · simp only [if_neg hput, if_neg htake, if_pos hsteal]
          rw [ite_false_eq_true_iff, ih _ _ hrest]
          cases q with
          | nil =>
            simp only [WSQ.seq_wsq_steal_chase, ne_eq, not_true_eq_false, if_false, not_not]
            constructor
            · rintro ⟨h1, h2⟩
              exact Or.inl ⟨trivial, h1.symm, h2⟩
            · rintro (⟨_, h1, h2⟩ | ⟨y2, q2, h1, _, _⟩)
              · exact ⟨h1.symm, h2⟩
              · cases h1
          | cons y q1 =>
            have hne : y :: q1 ≠ [] := by simp
            simp only [WSQ.seq_wsq_steal_chase, hne, ne_eq, not_false_eq_true, if_true,
              List.headD_cons, List.tail_cons, not_not]
            constructor
            · rintro ⟨h1, h2⟩
              exact Or.inr ⟨y, q1, rfl, h1.symm, h2⟩
            · rintro (⟨h, _⟩ | ⟨y2, q2, h1, h2, h3⟩)
              · exact h.elim
              · cases h1
                exact ⟨h2.symm, h3⟩
        · simp only [if_neg hput, if_neg htake, if_neg hsteal]
          exact ih q task hrest

/-- C19: with `PROGRAM = WSQ_CHASE`, `checkWSQ` accepts a permutation if and only if its
calls, replayed in order on a double-ended queue that is empty at the start, have the
return values of the reference: `wsq_put(x)` puts `x` at the tail and returned 1,
`wsq_take` returned the element at the tail (taken out) or -1 on the empty queue,
`wsq_steal` returned the element at the head (taken out) or -1 on the empty queue. Every
recorded `wsq_put` has its argument. -/
theorem checkWSQ_chase_spec (X : WSQExtern) (task0 : Int) (init_perm : List perm_elem)
    (curr_perm : List Nat)
    (hargs : ∀ e ∈ permElems init_perm curr_perm, e.func = "wsq_put" → e.arg_vals ≠ []) :
    checkWSQ program_type.WSQ_CHASE X task0 init_perm curr_perm = true ↔
      chaseAccepts (permElems init_perm curr_perm) [] := by
  unfold checkWSQ
  exact checkWSQLoop_chase X _ [] task0 hargs

theorem checkWSQ_chase_spec_witness :
    chaseAccepts (permElems (gen_init_sc_perm sampleHistory 3 (fun _ => 0)).init_perm [0, 1])
        [] ∧
    ¬ chaseAccepts (permElems (gen_init_sc_perm sampleHistory 3 (fun _ => 0)).init_perm [1, 0])
        [] :=
  ⟨(checkWSQ_chase_spec sampleExtern 0
      (gen_init_sc_perm sampleHistory 3 (fun _ => 0)).init_perm [0, 1] (by decide)).1
      (by decide),
    fun h => absurd
      ((checkWSQ_chase_spec sampleExtern 0
        (gen_init_sc_perm sampleHistory 3 (fun _ => 0)).init_perm [1, 0] (by decide)).2 h)
      (by decide)⟩

end CheckTrace

namespace CheckTrace

theorem runQueueCalls_eq_fifoResults :
    ∀ (calls : List QueueCall) (q : List Int),
      runQueueCalls calls q = fifoResults calls q.reverse := by
  intro calls
  induction calls with
  | nil => intro q; rfl
  | cons c rest ih =>
    intro q
    cases c with
    | enqueue task =>
      simp only [runQueueCalls, WSQ.seq_queue_enqueue, ih, List.reverse_cons, fifoResults]
    | dequeue =>
      rcases List.eq_nil_or_concat q with hq | ⟨q1, y, hq⟩
      · subst hq
        simp [runQueueCalls, WSQ.seq_queue_dequeue, fifoResults, ih]
      · subst hq
        simp [runQueueCalls, WSQ.seq_queue_dequeue, fifoResults, ih]

theorem fifoResults_enqueues (xs : List Int) :
    ∀ (rest : List QueueCall) (pending : List Int),
      fifoResults (xs.map QueueCall.enqueue ++ rest) pending =
        List.replicate xs.length 1 ++ fifoResults rest (pending ++ xs) := by
  induction xs with
  | nil => intro rest pending; simp
  | cons x xs ih =>
    intro rest pending
    simp [fifoResults, ih, List.replicate_succ]

theorem fifoResults_dequeues (xs : List Int) :
    ∀ rest : List QueueCall,
      fifoResults (List.replicate xs.length QueueCall.dequeue ++ rest) xs =
        xs ++ fifoResults rest [] := by
  induction xs with
  | nil => intro rest; simp
  | cons x xs ih =>
    intro rest
    simp [fifoResults, ih, List.replicate_succ]

/-- C20: the queue reference is first-in first-out. The results of every sequence of calls of
`seq_queue_enqueue` and `seq_queue_dequeue` on a queue that is empty at the start are
those of a first-in first-out queue: each dequeue returns the oldest value enqueued and
not yet dequeued, which it takes out, and -1 when there is none. In particular the
values of any number of enqueues are returned by as many dequeues in the order in which
they were enqueued, one more dequeue returns -1, and after `enqueue(1); enqueue(2)` two
dequeues return 1 and then 2. -/
theorem seq_queue_fifo :
    (∀ calls : List QueueCall, runQueueCalls calls [] = fifoResults calls []) ∧
    (∀ xs : List Int,
      runQueueCalls (xs.map QueueCall.enqueue ++
          (List.replicate xs.length QueueCall.dequeue ++ [QueueCall.dequeue])) [] =
        List.replicate xs.length 1 ++ (xs ++ [-1])) ∧
    runQueueCalls [QueueCall.enqueue 1, QueueCall.enqueue 2, QueueCall.dequeue,
      QueueCall.dequeue] [] = [1, 1, 1, 2] := by
  refine ⟨fun calls => runQueueCalls_eq_fifoResults calls [], ?_, by decide⟩
  intro xs
  rw [runQueueCalls_eq_fifoResults, List.reverse_nil, fifoResults_enqueues, List.nil_append,
    fifoResults_dequeues]
  rfl

end CheckTrace

namespace CheckTrace

/-! ### The malloc reference (C21, C22, C23) -/

/-- What the overlap test of `checkMalloc` asks: the start or the end address of the new
region lies in the range from `base` to `base + size`, both included, of a live pair. -/
theorem mallocOverlaps_iff (start finish : Nat) (l : List (Nat × Nat)) :
    mallocOverlaps start finish l = true ↔
      ∃ j ∈ l, (j.1 ≤ start ∧ start ≤ addUnsigned j.1 j.2) ∨
        (j.1 ≤ finish ∧ finish ≤ addUnsigned j.1 j.2) := by
  induction l with
  | nil => simp [mallocOverlaps]
  | cons j rest ih =>
    unfold mallocOverlaps
    by_cases h1 : start ≥ j.1 ∧ start ≤ addUnsigned j.1 j.2
    · rw [if_pos h1]
      exact ⟨fun _ => ⟨j, List.mem_cons_self _ _, Or.inl h1⟩, fun _ => rfl⟩
    · rw [if_neg h1]
      by_cases h2 : finish ≥ j.1 ∧ finish ≤ addUnsigned j.1 j.2
      · rw [if_pos h2]
        exact ⟨fun _ => ⟨j, List.mem_cons_self _ _, Or.inr h2⟩, fun _ => rfl⟩
      · rw [if_neg h2, ih]
        constructor
        · rintro ⟨k, hk, hor⟩
          exact ⟨k, List.mem_cons_of_mem _ hk, hor⟩
        · rintro ⟨k, hk, hor⟩
          rcases List.mem_cons.1 hk with rfl | hk
          · rcases hor with h | h
            · exact absurd h h1
            · exact absurd h h2
          · exact ⟨k, hk, hor⟩

/-- C21: the overlap test of `checkMalloc` misses a region that encloses a live one. In the
history in which `mmalloc(10)` returns 100 and then `mmalloc(100)` returns 90, the second
region [90, 190) overlaps the live region [100, 110), yet `checkMalloc` returns true for
the permutation and `checkHistory` reports success (0). -/
theorem checkMalloc_accepts_enclosing_region :
    permElems (gen_init_sc_perm enclosingHistory 2 (fun _ => 0)).init_perm [0, 1] =
      [⟨inst_type.NONE, [10], 100, "mmalloc", 1⟩, ⟨inst_type.NONE, [100], 90, "mmalloc", 1⟩] ∧
    (90 < 100 + 10 ∧ 100 < 90 + 100) ∧
    checkMalloc (gen_init_sc_perm enclosingHistory 2 (fun _ => 0)).init_perm [0, 1] = true ∧
    checkHistory sampleParamsMalloc sampleExtern sampleIndet enclosingHistory 2 =
      Outcome.returned 0 := by
  decide

/-- C22: the overlap test of `checkMalloc` rejects a region that begins where a live one
ends. In the history in which `mmalloc(10)` returns 100 and then `mmalloc(10)` returns
110, the regions [100, 110) and [110, 120) are disjoint and nothing is freed, yet
`checkMalloc` returns false for the only permutation and `checkHistory` reports failure
(253). -/
theorem checkMalloc_rejects_adjacent_region :
    permElems (gen_init_sc_perm adjacentHistory 2 (fun _ => 0)).init_perm [0, 1] =
      [⟨inst_type.NONE, [10], 100, "mmalloc", 1⟩, ⟨inst_type.NONE, [10], 110, "mmalloc", 1⟩] ∧
    ¬ (110 < 100 + 10 ∧ 100 < 110 + 10) ∧
    checkMalloc (gen_init_sc_perm adjacentHistory 2 (fun _ => 0)).init_perm [0, 1] = false ∧
    enumeratedPerms adjacentHistory 2 (fun _ => 0) = [[0, 1]] ∧
    checkHistory sampleParamsMalloc sampleExtern sampleIndet adjacentHistory 2 =
      Outcome.returned 253 := by
  decide

end CheckTrace

namespace CheckTrace

theorem mallocErase_none_iff (a : Nat) (l : List (Nat × Nat)) :
    mallocErase a l = none ↔ ∀ j ∈ l, j.1 ≠ a := by
  induction l with
  | nil => simp [mallocErase]
  | cons j rest ih =>
    unfold mallocErase
    by_cases h : a = j.1
    · simp [h]
    · simp only [if_neg h, Option.map_eq_none', ih, List.mem_cons, forall_eq_or_imp]
      exact ⟨fun hr => ⟨fun hj => h hj.symm, hr⟩, fun hr => hr.2⟩

theorem mallocErase_some (a : Nat) (l l1 : List (Nat × Nat)) (h : mallocErase a l = some l1) :
    l1 = l.eraseP (fun j => decide (a = j.1)) := by
  induction l generalizing l1 with
  | nil => simp [mallocErase] at h
  | cons j rest ih =>
    unfold mallocErase at h
    by_cases hj : a = j.1
    · rw [if_pos hj] at h
      rw [List.eraseP_cons_of_pos (by simpa using hj)]
      exact (Option.some.inj h).symm
    · rw [if_neg hj] at h
      rw [List.eraseP_cons_of_neg (by simpa using hj)]
      cases hr : mallocErase a rest with
      | none => rw [hr] at h; simp at h
      | some l2 =>
        rw [hr] at h
        rw [← ih l2 hr]
        exact (Option.some.inj h).symm

theorem mfree_ne_mmalloc (e : trace_elem) (h : e.func = "mfree") : e.func ≠ "mmalloc" := by
  rw [h]; decide

theorem checkMallocLoop_cons (e : trace_elem) (rest : List trace_elem)
    (alloc_list : List (Nat × Nat)) :
    checkMallocLoop (e :: rest) alloc_list =
      if e.func = "mmalloc" then
        if mallocOverlaps (toUnsigned e.ret_val)
            (addUnsigned (toUnsigned e.ret_val) (toUnsigned (e.arg_vals.headD 0)))
            alloc_list then false
        else checkMallocLoop rest
          (alloc_list ++ [(toUnsigned e.ret_val, toUnsigned (e.arg_vals.headD 0))])
      else if e.func = "mfree" then
        match mallocErase (toUnsigned (e.arg_vals.headD 0)) alloc_list with
        | none => false
        | some l => checkMallocLoop rest l
      else checkMallocLoop rest alloc_list := by
  rw [checkMallocLoop]

/-- The loop of `checkMalloc` either returns false within a prefix of the permutation or
checks the rest against the live list of the prefix. -/
theorem checkMallocLoop_prefix (pre post : List trace_elem) (l : List (Nat × Nat)) :
    checkMallocLoop (pre ++ post) l = false ∨
      checkMallocLoop (pre ++ post) l = checkMallocLoop post (liveFrom l pre) := by
  induction pre generalizing l with
  | nil => exact Or.inr rfl
  | cons e pre ih =>
    rw [List.cons_append, checkMallocLoop_cons]
    by_cases hm : e.func = "mmalloc"
    · simp only [if_pos hm]
      cases ho : mallocOverlaps (toUnsigned e.ret_val)
          (addUnsigned (toUnsigned e.ret_val) (toUnsigned (e.arg_vals.headD 0))) l with
      | true => exact Or.inl (by simp)
      | false =>
        simp only [Bool.false_eq_true, if_false]
        have hs : liveFrom l (e :: pre) =
            liveFrom (l ++ [(toUnsigned e.ret_val, toUnsigned (e.arg_vals.headD 0))]) pre := by
          simp [liveFrom, liveStep, hm]
        rw [hs]
        exact ih _
    · simp only [if_neg hm]
      by_cases hf : e.func = "mfree"
      · simp only [if_pos hf]
        cases he : mallocErase (toUnsigned (e.arg_vals.headD 0)) l with
        | none => exact Or.inl rfl
        | some l1 =>
          have hs : liveFrom l (e :: pre) = liveFrom l1 pre := by
            simp [liveFrom, liveStep, hm, hf, mallocErase_some _ _ _ he]
          rw [hs]
          exact ih _
      · simp only [if_neg hf]
        have hs : liveFrom l (e :: pre) = liveFrom l pre := by
          simp [liveFrom, liveStep, hm, hf]
        rw [hs]
        exact ih _

theorem checkMallocLoop_of_prefix_true (pre post : List trace_elem) (l : List (Nat × Nat))
    (h : checkMallocLoop pre l = true) :
    checkMallocLoop (pre ++ post) l = checkMallocLoop post (liveFrom l pre) := by
  induction pre generalizing l with
  | nil => rfl
  | cons e pre ih =>
    rw [List.cons_append]
    rw [checkMallocLoop_cons] at h ⊢
    by_cases hm : e.func = "mmalloc"
    · simp only [if_pos hm] at h ⊢
      cases ho : mallocOverlaps (toUnsigned e.ret_val)
          (addUnsigned (toUnsigned e.ret_val) (toUnsigned (e.arg_vals.headD 0))) l with
      | true => rw [ho] at h; simp at h
      | false =>
        rw [ho] at h
        simp only [Bool.false_eq_true, if_false] at h ⊢
        have hs : liveFrom l (e :: pre) =
            liveFrom (l ++ [(toUnsigned e.ret_val, toUnsigned (e.arg_vals.headD 0))]) pre := by
          simp [liveFrom, liveStep, hm]
        rw [hs]
        exact ih _ h
    · simp only [if_neg hm] at h ⊢
      by_cases hf : e.func = "mfree"
      · simp only [if_pos hf] at h ⊢
        cases he : mallocErase (toUnsigned (e.arg_vals.headD 0)) l with
        | none => rw [he] at h; simp at h
        | some l1 =>
          rw [he] at h
          have hs : liveFrom l (e :: pre) = liveFrom l1 pre := by
            simp [liveFrom, liveStep, hm, hf, mallocErase_some _ _ _ he]
          rw [hs]
          exact ih _ h
      · simp only [if_neg hf] at h ⊢
        have hs : liveFrom l (e :: pre) = liveFrom l pre := by
          simp [liveFrom, liveStep, hm, hf]
        rw [hs]
        exact ih _ h

/-- A call of `mfree` whose argument is no base of the list ends the loop with false. -/
theorem checkMallocLoop_bad_free (e : trace_elem) (post : List trace_elem)
    (l : List (Nat × Nat)) (hf : e.func = "mfree")
    (hl : ∀ j ∈ l, j.1 ≠ toUnsigned (e.arg_vals.headD 0)) :
    checkMallocLoop (e :: post) l = false := by
  rw [checkMallocLoop_cons, if_neg (mfree_ne_mmalloc e hf), if_pos hf, (mallocErase_none_iff _ l).2 hl]

theorem mallocOverlaps_false (start finish : Nat) (l : List (Nat × Nat))
    (h : mallocOverlaps start finish l = false) :
    ∀ j ∈ l, ¬ (start ≥ j.1 ∧ start ≤ addUnsigned j.1 j.2) := by
  induction l with
  | nil => simp
  | cons j rest ih =>
    unfold mallocOverlaps at h
    by_cases h1 : start ≥ j.1 ∧ start ≤ addUnsigned j.1 j.2
    · rw [if_pos h1] at h; simp at h
    · rw [if_neg h1] at h
      by_cases h2 : finish ≥ j.1 ∧ finish ≤ addUnsigned j.1 j.2
      · rw [if_pos h2] at h; simp at h
      · rw [if_neg h2] at h
        intro k hk
        rcases List.mem_cons.1 hk with rfl | hk
        · exact h1
        · exact ih h k hk

/-- While no region runs over the end of the address space, the loop of `checkMalloc`
keeps one pair for a base in its list. -/
theorem checkMallocLoop_prefix_inv (pre post : List trace_elem) (l : List (Nat × Nat))
    (hw : RegionsFit pre) (hl : LiveInv l) :
    checkMallocLoop (pre ++ post) l = false ∨
      (checkMallocLoop (pre ++ post) l = checkMallocLoop post (liveFrom l pre) ∧
        LiveInv (liveFrom l pre)) := by
  induction pre generalizing l with
  | nil => exact Or.inr ⟨rfl, hl⟩
  | cons e pre ih =>
    have hw1 : RegionsFit pre := fun x hx => hw x (List.mem_cons_of_mem _ hx)
    rw [List.cons_append, checkMallocLoop_cons]
    by_cases hm : e.func = "mmalloc"
    · simp only [if_pos hm]
      cases ho : mallocOverlaps (toUnsigned e.ret_val)
          (addUnsigned (toUnsigned e.ret_val) (toUnsigned (e.arg_vals.headD 0))) l with
      | true => exact Or.inl (by simp)
      | false =>
        simp only [Bool.false_eq_true, if_false]
        have hs : liveFrom l (e :: pre) =
            liveFrom (l ++ [(toUnsigned e.ret_val, toUnsigned (e.arg_vals.headD 0))]) pre := by
          simp [liveFrom, liveStep, hm]
        rw [hs]
        refine ih _ hw1 ⟨?_, ?_⟩
        · rw [List.map_append, List.nodup_append]
          refine ⟨hl.1, by simp, ?_⟩
          intro a ha hb
          simp only [List.map_cons, List.map_nil, List.mem_singleton] at hb
          obtain ⟨j, hj, hja⟩ := List.mem_map.1 ha
          have hno := mallocOverlaps_false _ _ _ ho j hj
          have hfit := hl.2 j hj
          apply hno
          unfold addUnsigned
          rw [Nat.mod_eq_of_lt hfit]
          rw [hja, hb]
          omega
        · intro j hj
          rcases List.mem_append.1 hj with hj | hj
          · exact hl.2 j hj
          · rw [List.mem_singleton] at hj
            rw [hj]
            exact hw e (List.mem_cons_self _ _) hm
    · simp only [if_neg hm]
      by_cases hf : e.func = "mfree"
      · simp only [if_pos hf]
        cases he : mallocErase (toUnsigned (e.arg_vals.headD 0)) l with
        | none => exact Or.inl rfl
        | some l1 =>
          have hl1 := mallocErase_some _ _ _ he
          have hs : liveFrom l (e :: pre) = liveFrom l1 pre := by
            simp [liveFrom, liveStep, hm, hf, hl1]
          rw [hs]
          have hsub : l1.Sublist l := by rw [hl1]; exact List.eraseP_sublist _
          exact ih _ hw1 ⟨(hsub.map Prod.fst).nodup hl.1, fun j hj => hl.2 j (hsub.subset hj)⟩
      · simp only [if_neg hf]
        have hs : liveFrom l (e :: pre) = liveFrom l pre := by
          simp [liveFrom, liveStep, hm, hf]
        rw [hs]
        exact ih _ hw1 hl

/-- A base that is not in the live list stays out of it while no `mmalloc` returns it. -/
theorem liveFrom_not_mem (a : Nat) (mid : List trace_elem) (l : List (Nat × Nat))
    (hl : ∀ j ∈ l, j.1 ≠ a)
    (hmid : ∀ e ∈ mid, e.func = "mmalloc" → toUnsigned e.ret_val ≠ a) :
    ∀ j ∈ liveFrom l mid, j.1 ≠ a := by
  induction mid generalizing l with
  | nil => exact hl
  | cons e mid ih =>
    have hs : liveFrom l (e :: mid) = liveFrom (liveStep l e) mid := rfl
    rw [hs]
    refine ih _ ?_ (fun x hx => hmid x (List.mem_cons_of_mem _ hx))
    unfold liveStep
    by_cases hm : e.func = "mmalloc"
    · rw [if_pos hm]
      intro j hj
      rcases List.mem_append.1 hj with hj | hj
      · exact hl j hj
      · rw [List.mem_singleton] at hj
        rw [hj]
        exact hmid e (List.mem_cons_self _ _) hm
    · rw [if_neg hm]
      by_cases hf : e.func = "mfree"
      · rw [if_pos hf]
        exact fun j hj => hl j ((List.eraseP_sublist _).subset hj)
      · rw [if_neg hf]
        exact hl

/-- Taking the first pair with base `a` out of a list with one pair for a base leaves no
pair with base `a`. -/
theorem eraseP_base_not_mem (a : Nat) (l : List (Nat × Nat)) (hl : (l.map Prod.fst).Nodup) :
    ∀ j ∈ l.eraseP (fun j => decide (a = j.1)), j.1 ≠ a := by
  induction l with
  | nil => simp
  | cons k rest ih =>
    rw [List.map_cons, List.nodup_cons] at hl
    by_cases hk : a = k.1
    · rw [List.eraseP_cons_of_pos (by simpa using hk)]
      intro j hj hja
      exact hl.1 (List.mem_map.2 ⟨j, hj, by rw [hja, hk]⟩)
    · rw [List.eraseP_cons_of_neg (by simpa using hk)]
      intro j hj
      rcases List.mem_cons.1 hj with rfl | hj
      · exact fun h => hk h.symm
      · exact ih hl.2 j hj

/-- C23: `checkMalloc` returns false for every permutation in which the argument of some
`mfree` is not the base of an allocation that is live at that point, the live list being
the one of the specification (`mmalloc` adds the pair of base and size, `mfree` takes
the pair with its base out); after a prefix that it accepts, `checkMalloc` checks the
rest of the permutation against that live list; and it returns false for every
permutation with a second `mfree` of a base after a first one when no `mmalloc` between
the two returns that base (the regions reported before the first one lying within the
32 bit address space). -/
theorem checkMalloc_bad_free_spec (init_perm : List perm_elem) (curr_perm : List Nat) :
    (∀ pre e post, permElems init_perm curr_perm = pre ++ e :: post → e.func = "mfree" →
      (∀ j ∈ liveList pre, j.1 ≠ toUnsigned (e.arg_vals.headD 0)) →
      checkMalloc init_perm curr_perm = false) ∧
    (∀ pre post, permElems init_perm curr_perm = pre ++ post →
      checkMallocLoop pre [] = true →
      checkMalloc init_perm curr_perm = checkMallocLoop post (liveList pre)) ∧
    (∀ pre e1 mid e2 post,
      permElems init_perm curr_perm = pre ++ e1 :: (mid ++ e2 :: post) →
      e1.func = "mfree" → e2.func = "mfree" →
      toUnsigned (e2.arg_vals.headD 0) = toUnsigned (e1.arg_vals.headD 0) →
      (∀ e ∈ mid, e.func = "mmalloc" →
        toUnsigned e.ret_val ≠ toUnsigned (e1.arg_vals.headD 0)) →
      RegionsFit pre →
      checkMalloc init_perm curr_perm = false) := by
  refine ⟨?_, ?_, ?_⟩
  · intro pre e post hp hf hl
    unfold checkMalloc
    rw [hp]
    rcases checkMallocLoop_prefix pre (e :: post) [] with h | h
    · exact h
    · rw [h]
      exact checkMallocLoop_bad_free e post _ hf hl
  · intro pre post hp hpre
    unfold checkMalloc
    rw [hp]
    exact checkMallocLoop_of_prefix_true pre post [] hpre
  · intro pre e1 mid e2 post hp hf1 hf2 harg hmid hfit
    unfold checkMalloc
    rw [hp]
    rcases checkMallocLoop_prefix_inv pre (e1 :: (mid ++ e2 :: post)) [] hfit
      ⟨by simp, by simp⟩ with h | ⟨h, hinv⟩
    · exact h
    · rw [h]
      rw [checkMallocLoop_cons, if_neg (mfree_ne_mmalloc e1 hf1), if_pos hf1]
      cases he : mallocErase (toUnsigned (e1.arg_vals.headD 0)) (liveFrom [] pre) with
      | none => rfl
      | some l1 =>
        simp only []
        have hl1 : ∀ j ∈ l1, j.1 ≠ toUnsigned (e1.arg_vals.headD 0) := by
          rw [mallocErase_some _ _ _ he]
          exact eraseP_base_not_mem _ _ hinv.1
        rcases checkMallocLoop_prefix mid (e2 :: post) l1 with h2 | h2
        · exact h2
        · rw [h2]
          refine checkMallocLoop_bad_free e2 post _ hf2 ?_
          rw [harg]
          exact liveFrom_not_mem _ mid l1 hl1 hmid

theorem checkMalloc_bad_free_spec_witness :
    checkMalloc (gen_init_sc_perm doubleFreeHistory 2 (fun _ => 0)).init_perm [0, 1, 2] =
      false :=
  (checkMalloc_bad_free_spec (gen_init_sc_perm doubleFreeHistory 2 (fun _ => 0)).init_perm
    [0, 1, 2]).2.2 [⟨inst_type.NONE, [10], 100, "mmalloc", 1⟩]
    ⟨inst_type.NONE, [100], 0, "mfree", 1⟩ [] ⟨inst_type.NONE, [100], 0, "mfree", 1⟩ []
    (by decide) (by decide) (by decide) (by decide) (by simp) (by
      intro e he hm
      rw [List.mem_singleton] at he
      rw [he]
      decide)

end CheckTrace

namespace LKS

/-! ### The linked-set reference (C24) -/

theorem present_nil (x : Int) : ¬ Present [] x := by
  rintro ⟨pre, post, h, _⟩
  cases pre <;> simp at h

theorem present_concat (calls : List LinkSetCall) (c : LinkSetCall) (x : Int) :
    Present (calls ++ [c]) x ↔
      c = LinkSetCall.add x ∨ (Present calls x ∧ c ≠ LinkSetCall.remove x) := by
  constructor
  · rintro ⟨pre, post, h, hno⟩
    rcases List.eq_nil_or_concat post with rfl | ⟨post1, c1, rfl⟩
    · left
      have h1 : calls ++ [c] = pre ++ [LinkSetCall.add x] := h
      exact (List.append_inj' h1 rfl).2 |> List.singleton_inj.1
    · right
      rw [List.concat_eq_append] at h hno
      have h1 : calls ++ [c] = (pre ++ LinkSetCall.add x :: post1) ++ [c1] := by
        rw [h]; simp
      have h2 := List.append_inj' h1 rfl
      have hc : c = c1 := List.singleton_inj.1 h2.2
      rw [List.mem_append, not_or] at hno
      refine ⟨⟨pre, post1, h2.1, hno.1⟩, ?_⟩
      rw [hc]
      intro h3
      exact hno.2 (by rw [h3]; exact List.mem_singleton_self _)
  · rintro (rfl | ⟨⟨pre, post, h, hno⟩, hc⟩)
    · exact ⟨calls, [], rfl, by simp⟩
    · refine ⟨pre, post ++ [c], by rw [h]; simp, ?_⟩
      rw [List.mem_append, not_or]
      exact ⟨hno, fun h3 => hc (List.mem_singleton.1 h3).symm⟩

/-- The set that the calls build from the empty set has no element twice, and holds `x`
exactly when `x` was added and not removed since. -/
theorem runLinkSet_inv (calls : List LinkSetCall) :
    (runLinkSet calls []).Nodup ∧ ∀ x, x ∈ runLinkSet calls [] ↔ Present calls x := by
  induction calls using List.reverseRecOn with
  | nil => exact ⟨List.nodup_nil, fun x => by simp [runLinkSet, present_nil]⟩
  | append_singleton calls c ih =>
    have hrun : runLinkSet (calls ++ [c]) [] = stepLinkSet (runLinkSet calls []) c := by
      simp [runLinkSet, List.foldl_append]
    rw [hrun]
    obtain ⟨hnd, hmem⟩ := ih
    cases c with
    | add y =>
      refine ⟨hnd.insert, fun x => ?_⟩
      rw [present_concat]
      simp only [stepLinkSet, seq_linkset_add, List.mem_insert_iff, hmem, LinkSetCall.add.injEq,
        ne_eq, not_false_eq_true, and_true, reduceCtorEq]
      exact ⟨fun h => h.imp_left Eq.symm, fun h => h.imp_left Eq.symm⟩
    | contains y =>
      have hs : stepLinkSet (runLinkSet calls []) (LinkSetCall.contains y) =
          runLinkSet calls [] := by
        show (seq_linkset_contains y (runLinkSet calls [])).2 = runLinkSet calls []
        unfold seq_linkset_contains
        split <;> rfl
      rw [hs]
      refine ⟨hnd, fun x => ?_⟩
      rw [present_concat, hmem]
      simp
    | remove y =>
      have hs : stepLinkSet (runLinkSet calls []) (LinkSetCall.remove y) =
          (runLinkSet calls []).erase y := by
        show (seq_linkset_remove y (runLinkSet calls [])).2 = (runLinkSet calls []).erase y
        unfold seq_linkset_remove
        split
        · rfl
        · rename_i h
          exact (List.erase_of_not_mem h).symm
      rw [hs]
      refine ⟨hnd.erase y, fun x => ?_⟩
      rw [present_concat, hnd.mem_erase_iff, hmem]
      simp only [LinkSetCall.remove.injEq, ne_eq, reduceCtorEq, false_or]
      exact ⟨fun h => ⟨h.2, fun h3 => h.1 h3.symm⟩, fun h => ⟨fun h3 => h.2 h3.symm, h.1⟩⟩

/-- C24: the linked-set reference behaves as a set of integers. After every sequence of
calls on a set that is empty at the start: `seq_linkset_contains(x)` returns 1 if and
only if `x` was added by an earlier `seq_linkset_add` and not removed since, returns 0
otherwise and leaves the set as it is; `seq_linkset_remove(x)` returns 1 if and only if
`x` is present, returns 0 and leaves the set as it is otherwise, and in both cases `x` is
absent after it; `seq_linkset_add(x)` returns 1 and a second `seq_linkset_add(x)` leaves
the set that the first one has left. -/
theorem seq_linkset_is_set (calls : List LinkSetCall) (x : Int) :
    ((seq_linkset_contains x (runLinkSet calls [])).1 = 1 ↔ Present calls x) ∧
    ((seq_linkset_contains x (runLinkSet calls [])).1 = 0 ↔ ¬ Present calls x) ∧
    (seq_linkset_contains x (runLinkSet calls [])).2 = runLinkSet calls [] ∧
    ((seq_linkset_remove x (runLinkSet calls [])).1 = 1 ↔ Present calls x) ∧
    ((seq_linkset_remove x (runLinkSet calls [])).1 = 0 ∧
        (seq_linkset_remove x (runLinkSet calls [])).2 = runLinkSet calls [] ↔
      ¬ Present calls x) ∧
    ¬ Present (calls ++ [LinkSetCall.remove x]) x ∧
    (seq_linkset_contains x (seq_linkset_remove x (runLinkSet calls [])).2).1 = 0 ∧
    (seq_linkset_add x (runLinkSet calls [])).1 = 1 ∧
    (seq_linkset_add x (seq_linkset_add x (runLinkSet calls [])).2).2 =
      (seq_linkset_add x (runLinkSet calls [])).2 := by
  obtain ⟨hnd, hmem⟩ := runLinkSet_inv calls
  have hrm : ¬ Present (calls ++ [LinkSetCall.remove x]) x := by
    rw [present_concat]
    simp
  have hadd : (seq_linkset_add x (seq_linkset_add x (runLinkSet calls [])).2).2 =
      (seq_linkset_add x (runLinkSet calls [])).2 := by
    unfold seq_linkset_add
    simp
  by_cases h : x ∈ runLinkSet calls []
  · have hp : Present calls x := (hmem x).1 h
    refine ⟨?_, ?_, ?_, ?_, ?_, hrm, ?_, rfl, hadd⟩
    · simp [seq_linkset_contains, h, hp]
    · simp [seq_linkset_contains, h, hp]
    · simp [seq_linkset_contains, h]
    · simp [seq_linkset_remove, h, hp]
    · simp [seq_linkset_remove, h, hp]
    · simp [seq_linkset_remove, seq_linkset_contains, h, hnd.mem_erase_iff]
  · have hp : ¬ Present calls x := fun hp => h ((hmem x).2 hp)
    refine ⟨?_, ?_, ?_, ?_, ?_, hrm, ?_, rfl, hadd⟩
    · simp [seq_linkset_contains, h, hp]
    · simp [seq_linkset_contains, h, hp]
    · simp [seq_linkset_contains, h]
    · simp [seq_linkset_remove, h, hp]
    · simp [seq_linkset_remove, h, hp]
    · simp [seq_linkset_remove, seq_linkset_contains, h]

end LKS

namespace History

open Interpreter

/-! ### The recorder of invocations (C25, C26) -/

/-- The loop of `getInvokeHistoryData` from a state with the types `pt` and the values `iv`:
it adds a type and a value for every pointer and integer argument, and nothing else. -/
theorem getInvokeHistoryData_loop (args : List (IRType × GenericValue)) (h : History) :
    ∃ tys,
      args.foldl (fun h it =>
        if it.1.isPointerTy then
          { h with paramTypes := h.paramTypes ++ [it.1]
                   intVals := h.intVals ++ [toInt32 it.2.PointerVal] }
        else if it.1.isIntegerTy then
          { h with paramTypes := h.paramTypes ++ [it.1]
                   intVals := h.intVals ++ [limitedInt it.2.IntVal] }
        else h) h =
        { h with paramTypes := h.paramTypes ++ tys, intVals := h.intVals ++ recordedArgs args } ∧
      tys.length = (recordedArgs args).length ∧
      ∀ ty ∈ tys, (ty.isPointerTy || ty.isIntegerTy) = true := by
  induction args generalizing h with
  | nil => exact ⟨[], by simp [recordedArgs], rfl, by simp⟩
  | cons it rest ih =>
    rw [List.foldl_cons]
    by_cases hp : it.1.isPointerTy = true
    · obtain ⟨tys, heq, hlen, hall⟩ := ih
        { h with paramTypes := h.paramTypes ++ [it.1]
                 intVals := h.intVals ++ [toInt32 it.2.PointerVal] }
      refine ⟨it.1 :: tys, ?_, ?_, ?_⟩
      · rw [if_pos hp, heq]
        simp [recordedArgs, List.filterMap_cons, hp]
      · simp [recordedArgs, List.filterMap_cons, hp] at hlen ⊢
        exact hlen
      · intro ty hty
        rcases List.mem_cons.1 hty with rfl | hty
        · simp [hp]
        · exact hall ty hty
    · by_cases hi : it.1.isIntegerTy = true
      · obtain ⟨tys, heq, hlen, hall⟩ := ih
          { h with paramTypes := h.paramTypes ++ [it.1]
                   intVals := h.intVals ++ [limitedInt it.2.IntVal] }
        refine ⟨it.1 :: tys, ?_, ?_, ?_⟩
        · rw [if_neg hp, if_pos hi, heq]
          simp [recordedArgs, List.filterMap_cons, hp, hi]
        · simp [recordedArgs, List.filterMap_cons, hp, hi] at hlen ⊢
          exact hlen
        · intro ty hty
          rcases List.mem_cons.1 hty with rfl | hty
          · simp [hi]
          · exact hall ty hty
      · obtain ⟨tys, heq, hlen, hall⟩ := ih h
        refine ⟨tys, ?_, ?_, hall⟩
        · rw [if_neg hp, if_neg hi, heq]
          simp [recordedArgs, List.filterMap_cons, hp, hi]
        · simp [recordedArgs, List.filterMap_cons, hp, hi] at hlen ⊢
          exact hlen

theorem argValsFrom_all (pre vs : List Int) (tys : List IRType) (hlen : tys.length = vs.length)
    (hall : ∀ ty ∈ tys, (ty.isPointerTy || ty.isIntegerTy) = true) :
    argValsFrom (pre ++ vs) tys pre.length = some vs := by
  induction tys generalizing pre vs with
  | nil =>
    cases vs with
    | nil => rfl
    | cons v vs => simp at hlen
  | cons ty rest ih =>
    cases vs with
    | nil => simp at hlen
    | cons v vs =>
      unfold argValsFrom
      rw [if_pos (hall ty (List.mem_cons_self _ _))]
      have hget : (pre ++ v :: vs)[pre.length]? = some v := by
        rw [List.getElem?_append_right (le_refl _)]
        simp
      rw [hget]
      have hih := ih (pre ++ [v]) vs (by simpa using hlen)
        (fun ty hty => hall ty (List.mem_cons_of_mem _ hty))
      simp only [List.append_assoc, List.singleton_append, List.length_append,
        List.length_singleton] at hih
      simp only [hih, Option.map_some']

/-- What `getInvokeHistoryData` leaves: the log and the counters as they were, and types and
values from which `RecordInvokeEvent` reads the values of the pointer and integer
arguments, in their order. -/
theorem getInvokeHistoryData_spec (args : List (IRType × GenericValue)) (h : History) :
    (getInvokeHistoryData args h).trace_rec = h.trace_rec ∧
    (getInvokeHistoryData args h).recur_calls = h.recur_calls ∧
    argValsFrom (getInvokeHistoryData args h).intVals (getInvokeHistoryData args h).paramTypes 0 =
      some (recordedArgs args) := by
  unfold getInvokeHistoryData
  obtain ⟨tys, heq, hlen, hall⟩ :=
    getInvokeHistoryData_loop args { h with paramTypes := [], intVals := [] }
  rw [heq]
  refine ⟨rfl, rfl, ?_⟩
  exact argValsFrom_all [] (recordedArgs args) tys hlen hall

theorem recordEvents_cons (P : Params) (funcs_rec : List String) (t : Nat) (e : Event)
    (rest : List Event) (h : History) :
    recordEvents P funcs_rec t (e :: rest) h =
      (recordEvent P funcs_rec t h e).bind (recordEvents P funcs_rec t rest) := by
  rw [recordEvents]

theorem recordEvents_append (P : Params) (funcs_rec : List String) (t : Nat)
    (es1 es2 : List Event) (h : History) :
    recordEvents P funcs_rec t (es1 ++ es2) h =
      (recordEvents P funcs_rec t es1 h).bind (recordEvents P funcs_rec t es2) := by
  induction es1 generalizing h with
  | nil => rfl
  | cons e rest ih =>
    rw [List.cons_append, recordEvents_cons, recordEvents_cons]
    cases recordEvent P funcs_rec t h e with
    | none => rfl
    | some h1 => exact ih h1

/-- A call of a configured function by a thread with the counter `d`. -/
theorem recordEvent_call (P : Params) (funcs_rec : List String) (t : Nat) (h : History)
    (f : String) (args : List (IRType × GenericValue)) (junk : Int) (d : Int)
    (hrec : P.recTrace = true) (hf : f ∈ funcs_rec) (hd : h.recur_calls[t]? = some d) :
    ∃ h1, recordEvent P funcs_rec t h (Event.call f args junk) = some h1 ∧
      h1.trace_rec = (if d = 0 then
        h.trace_rec ++ [⟨inst_type.CALL_FUNC, recordedArgs args, junk, f, t⟩]
        else h.trace_rec) ∧
      h1.recur_calls = h.recur_calls.set t (d + 1) := by
  obtain ⟨h1, h2, h3⟩ := getInvokeHistoryData_spec args h
  unfold recordEvent RecordInvokeEvent
  simp only [hrec, if_true, if_pos hf, h2, hd, h3, Option.map_some']
  by_cases h0 : d = 0
  · simp only [if_pos h0, Option.map_some', h1]
    exact ⟨_, rfl, rfl, by simp only [h2]⟩
  · simp only [if_neg h0, Option.map_some', h1]
    exact ⟨_, rfl, rfl, by simp only [h2]⟩

/-- The return from a configured function by a thread with the counter `d`. -/
theorem recordEvent_ret (P : Params) (funcs_rec : List String) (t : Nat) (h : History)
    (f : String) (RetTy : IRType) (Result : GenericValue) (d : Int)
    (hrec : P.recTrace = true) (hf : f ∈ funcs_rec) (hd : h.recur_calls[t]? = some d) :
    ∃ h1, recordEvent P funcs_rec t h (Event.ret f RetTy Result) = some h1 ∧
      h1.trace_rec = (if d = 1 then
        h.trace_rec ++ [⟨inst_type.RETURN_FUNC, [], returnValue RetTy Result, f, t⟩]
        else h.trace_rec) ∧
      h1.recur_calls = h.recur_calls.set t (d - 1) := by
  unfold recordEvent RecordReturnEvent
  simp only [hrec, if_true, if_pos hf, hd]
  by_cases h1 : d = 1
  · simp only [if_pos h1]
    exact ⟨_, rfl, rfl, rfl⟩
  · simp only [if_neg h1]
    exact ⟨_, rfl, rfl, rfl⟩

/-- An event of a function that is not recorded (the function is not configured, or
recording is off) changes neither the log nor the counters. -/
theorem recordEvent_skip (P : Params) (funcs_rec : List String) (t : Nat) (h : History)
    (e : Event) (f : String)
    (he : (∃ args junk, e = Event.call f args junk) ∨ ∃ RetTy Result, e = Event.ret f RetTy Result)
    (hskip : P.recTrace = false ∨ f ∉ funcs_rec) :
    ∃ h1, recordEvent P funcs_rec t h e = some h1 ∧ h1.trace_rec = h.trace_rec ∧
      h1.recur_calls = h.recur_calls := by
  rcases he with ⟨args, junk, rfl⟩ | ⟨RetTy, Result, rfl⟩
  · obtain ⟨h1, h2, -⟩ := getInvokeHistoryData_spec args h
    unfold recordEvent RecordInvokeEvent
    rcases hskip with hr | hf
    · simp only [hr, Bool.false_eq_true, if_false]
      exact ⟨_, rfl, h1, h2⟩
    · by_cases hr : P.recTrace = true
      · simp only [hr, if_true, if_neg hf]
        exact ⟨_, rfl, h1, h2⟩
      · simp only [hr, if_false]
        exact ⟨_, rfl, h1, h2⟩
  · unfold recordEvent RecordReturnEvent
    rcases hskip with hr | hf
    · simp only [hr, Bool.false_eq_true, if_false]
      exact ⟨_, rfl, rfl, rfl⟩
    · by_cases hr : P.recTrace = true
      · simp only [hr, if_true, if_neg hf]
        exact ⟨_, rfl, rfl, rfl⟩
      · simp only [hr, if_false]
        exact ⟨_, rfl, rfl, rfl⟩

theorem set_set_back (l : List Int) (t : Nat) (d d1 : Int) (hd : l[t]? = some d) :
    (l.set t d1).set t d = l ∧ (l.set t d1)[t]? = some d1 := by
  have hlt : t < l.length := by
    by_contra hge
    rw [List.getElem?_eq_none (not_lt.1 hge)] at hd
    exact Option.noConfusion hd
  refine ⟨?_, ?_⟩
  · rw [List.set_set]
    apply List.ext_getElem?
    intro i
    by_cases hi : t = i
    · subst hi
      rw [List.getElem?_set_self hlt, hd]
    · rw [List.getElem?_set_ne hi]
  · rw [List.getElem?_set_self hlt]

/-- During the activation of a configured function (the counter of the thread is at least
1) a well-nested sequence of invocations adds nothing to the log and leaves the counters
as they were. -/
theorem recordEvents_nested (P : Params) (funcs_rec : List String) (t : Nat)
    (hrec : P.recTrace = true) (nest : Nest) :
    ∀ (h : History) (d : Int), 1 ≤ d → h.recur_calls[t]? = some d →
      ∃ h1, recordEvents P funcs_rec t nest.events h = some h1 ∧
        h1.trace_rec = h.trace_rec ∧ h1.recur_calls = h.recur_calls := by
  induction nest with
  | nil => exact fun h d _ _ => ⟨h, rfl, rfl, rfl⟩
  | node f args junk RetTy Result inner rest ihi ihr =>
    intro h d hd1 hd
    rw [Nest.events, recordEvents_cons]
    by_cases hf : f ∈ funcs_rec
    · obtain ⟨h1, e1, t1, r1⟩ := recordEvent_call P funcs_rec t h f args junk d hrec hf hd
      rw [if_neg (by omega)] at t1
      obtain ⟨hback, hget⟩ := set_set_back h.recur_calls t d (d + 1) hd
      obtain ⟨h2, e2, t2, r2⟩ := ihi h1 (d + 1) (by omega) (by rw [r1]; exact hget)
      obtain ⟨h3, e3, t3, r3⟩ := recordEvent_ret P funcs_rec t h2 f RetTy Result (d + 1) hrec hf
        (by rw [r2, r1]; exact hget)
      rw [if_neg (by omega)] at t3
      have r3b : h3.recur_calls = h.recur_calls := by
        rw [r3, r2, r1, add_sub_cancel_right]
        exact hback
      obtain ⟨h4, e4, t4, r4⟩ := ihr h3 d hd1 (by rw [r3b]; exact hd)
      refine ⟨h4, ?_, ?_, ?_⟩
      · rw [e1, Option.some_bind, recordEvents_append, e2, Option.some_bind, recordEvents_cons,
          e3, Option.some_bind, e4]
      · rw [t4, t3, t2, t1]
      · rw [r4, r3b]
    · obtain ⟨h1, e1, t1, r1⟩ := recordEvent_skip P funcs_rec t h (Event.call f args junk) f
        (Or.inl ⟨args, junk, rfl⟩) (Or.inr hf)
      obtain ⟨h2, e2, t2, r2⟩ := ihi h1 d hd1 (by rw [r1]; exact hd)
      obtain ⟨h3, e3, t3, r3⟩ := recordEvent_skip P funcs_rec t h2 (Event.ret f RetTy Result) f
        (Or.inr ⟨RetTy, Result, rfl⟩) (Or.inr hf)
      obtain ⟨h4, e4, t4, r4⟩ := ihr h3 d hd1 (by rw [r3, r2, r1]; exact hd)
      refine ⟨h4, ?_, ?_, ?_⟩
      · rw [e1, Option.some_bind, recordEvents_append, e2, Option.some_bind, recordEvents_cons,
          e3, Option.some_bind, e4]
      · rw [t4, t3, t2, t1]
      · rw [r4, r3, r2, r1]

/-- With recording off no event changes the log or the counters. -/
theorem recordEvents_off (P : Params) (funcs_rec : List String) (t : Nat)
    (hrec : P.recTrace = false) (nest : Nest) :
    ∀ h : History, ∃ h1, recordEvents P funcs_rec t nest.events h = some h1 ∧
      h1.trace_rec = h.trace_rec ∧ h1.recur_calls = h.recur_calls := by
  induction nest with
  | nil => exact fun h => ⟨h, rfl, rfl, rfl⟩
  | node f args junk RetTy Result inner rest ihi ihr =>
    intro h
    rw [Nest.events, recordEvents_cons]
    obtain ⟨h1, e1, t1, r1⟩ := recordEvent_skip P funcs_rec t h (Event.call f args junk) f
      (Or.inl ⟨args, junk, rfl⟩) (Or.inl hrec)
    obtain ⟨h2, e2, t2, r2⟩ := ihi h1
    obtain ⟨h3, e3, t3, r3⟩ := recordEvent_skip P funcs_rec t h2 (Event.ret f RetTy Result) f
      (Or.inr ⟨RetTy, Result, rfl⟩) (Or.inl hrec)
    obtain ⟨h4, e4, t4, r4⟩ := ihr h3
    refine ⟨h4, ?_, ?_, ?_⟩
    · rw [e1, Option.some_bind, recordEvents_append, e2, Option.some_bind, recordEvents_cons,
        e3, Option.some_bind, e4]
    · rw [t4, t3, t2, t1]
    · rw [r4, r3, r2, r1]

theorem outermostEntries_nil_config (t : Nat) (nest : Nest) :
    nest.outermostEntries [] t = [] := by
  induction nest with
  | nil => rfl
  | node f args junk RetTy Result inner rest ihi ihr =>
    rw [Nest.outermostEntries, if_neg (List.not_mem_nil f), ihi, ihr]
    rfl

/-- From the counter 0 a well-nested sequence of invocations adds the entries of its
outermost invocations of configured functions to the log and leaves the counters as
they were. -/
theorem recordEvents_outermost (P : Params) (funcs_rec : List String) (t : Nat)
    (hrec : P.recTrace = true) (nest : Nest) :
    ∀ h : History, h.recur_calls[t]? = some 0 →
      ∃ h1, recordEvents P funcs_rec t nest.events h = some h1 ∧
        h1.trace_rec = h.trace_rec ++ nest.outermostEntries funcs_rec t ∧
        h1.recur_calls = h.recur_calls := by
  induction nest with
  | nil => exact fun h _ => ⟨h, rfl, by simp [Nest.outermostEntries], rfl⟩
  | node f args junk RetTy Result inner rest ihi ihr =>
    intro h hd
    rw [Nest.events, recordEvents_cons, Nest.outermostEntries]
    by_cases hf : f ∈ funcs_rec
    · obtain ⟨h1, e1, t1, r1⟩ := recordEvent_call P funcs_rec t h f args junk 0 hrec hf hd
      rw [if_pos rfl] at t1
      obtain ⟨hback, hget⟩ := set_set_back h.recur_calls t 0 (0 + 1) hd
      obtain ⟨h2, e2, t2, r2⟩ := recordEvents_nested P funcs_rec t hrec inner h1 (0 + 1)
        (by omega) (by rw [r1]; exact hget)
      obtain ⟨h3, e3, t3, r3⟩ := recordEvent_ret P funcs_rec t h2 f RetTy Result (0 + 1) hrec hf
        (by rw [r2, r1]; exact hget)
      rw [if_pos (by omega)] at t3
      have r3b : h3.recur_calls = h.recur_calls := by
        rw [r3, r2, r1, add_sub_cancel_right]
        exact hback
      obtain ⟨h4, e4, t4, r4⟩ := ihr h3 (by rw [r3b]; exact hd)
      refine ⟨h4, ?_, ?_, ?_⟩
      · rw [e1, Option.some_bind, recordEvents_append, e2, Option.some_bind, recordEvents_cons,
          e3, Option.some_bind, e4]
      · rw [t4, t3, t2, t1, if_pos hf]
        simp
      · rw [r4, r3b]
    · obtain ⟨h1, e1, t1, r1⟩ := recordEvent_skip P funcs_rec t h (Event.call f args junk) f
        (Or.inl ⟨args, junk, rfl⟩) (Or.inr hf)
      obtain ⟨h2, e2, t2, r2⟩ := ihi h1 (by rw [r1]; exact hd)
      obtain ⟨h3, e3, t3, r3⟩ := recordEvent_skip P funcs_rec t h2 (Event.ret f RetTy Result) f
        (Or.inr ⟨RetTy, Result, rfl⟩) (Or.inr hf)
      obtain ⟨h4, e4, t4, r4⟩ := ihr h3 (by rw [r3, r2, r1]; exact hd)
      refine ⟨h4, ?_, ?_, ?_⟩
      · rw [e1, Option.some_bind, recordEvents_append, e2, Option.some_bind, recordEvents_cons,
          e3, Option.some_bind, e4]
      · rw [t4, t3, t2, t1, if_neg hf]
        simp
      · rw [r4, r3, r2, r1]

/-- C25: for a thread whose depth counter is 0 and a well-nested sequence of call and
return events of that thread, the recorder returns, the log gains, for every outermost
invocation of a configured function, one CALL entry followed by one RETURN entry of that
function and thread, in the order of the invocations, and nothing for the invocations
made during the activation of a configured function nor for the functions that are not
configured; the counters are at the end what they were, so the counter of the thread
is 0 again. The set of configured functions is empty when recording is off
(`Params::processInputFile` fills it under PROPERTY = SC or LIN only). -/
theorem history_records_outermost_invocations (P : Params) (funcs_rec : List String)
    (t : Nat) (nest : Nest) (h : History)
    (hcfg : P.recTrace = false → funcs_rec = [])
    (hd : h.recur_calls[t]? = some 0) :
    ∃ h1, recordEvents P funcs_rec t nest.events h = some h1 ∧
      h1.trace_rec = h.trace_rec ++ nest.outermostEntries funcs_rec t ∧
      h1.recur_calls = h.recur_calls ∧ h1.recur_calls[t]? = some 0 := by
  by_cases hrec : P.recTrace = true
  · obtain ⟨h1, e1, t1, r1⟩ := recordEvents_outermost P funcs_rec t hrec nest h hd
    exact ⟨h1, e1, t1, r1, by rw [r1]; exact hd⟩
  · have hoff : P.recTrace = false := by simpa using hrec
    obtain ⟨h1, e1, t1, r1⟩ := recordEvents_off P funcs_rec t hoff nest h
    refine ⟨h1, e1, ?_, r1, by rw [r1]; exact hd⟩
    rw [t1, hcfg hoff, outermostEntries_nil_config]
    simp

theorem history_records_outermost_invocations_witness :
    ∃ h1, recordEvents Constraints.sampleParamsTSO ["wsq_put"] 1 sampleNest.events
        (RecordFirstEvent Constraints.sampleParamsTSO init) = some h1 ∧
      h1.trace_rec = (RecordFirstEvent Constraints.sampleParamsTSO init).trace_rec ++
        sampleNest.outermostEntries ["wsq_put"] 1 ∧
      h1.recur_calls = (RecordFirstEvent Constraints.sampleParamsTSO init).recur_calls ∧
      h1.recur_calls[1]? = some 0 :=
  history_records_outermost_invocations Constraints.sampleParamsTSO ["wsq_put"] 1 sampleNest
    (RecordFirstEvent Constraints.sampleParamsTSO init) (by decide) (by decide)

end History

namespace History

open Interpreter

/-- C26: a floating-point argument leaves no value in the CALL entry. The thread 1, with the
counter 0, calls the recorded function `wsq_put` with the integer 1, a floating-point
value and the integer 3: `getInvokeHistoryData` keeps the two integers only and the CALL
entry has the two values 1 and 3, where the specification asks for the three values 1, 0
and 3. -/
theorem call_entry_drops_float_argument :
    (getInvokeHistoryData [(intTy, ⟨1, 0⟩), (floatTy, ⟨0, 0⟩), (intTy, ⟨3, 0⟩)] init).paramTypes =
      [intTy, intTy] ∧
    (RecordInvokeEvent Constraints.sampleParamsTSO ["wsq_put"] 0 "wsq_put" 1
      (getInvokeHistoryData [(intTy, ⟨1, 0⟩), (floatTy, ⟨0, 0⟩), (intTy, ⟨3, 0⟩)]
        (RecordFirstEvent Constraints.sampleParamsTSO init))).map (fun h => h.trace_rec) =
      some [⟨inst_type.CALL_FUNC, [1, 3], 0, "wsq_put", 1⟩] := by
  decide

end History

namespace RWHistory

/-! ### The filter of the shared read/write log (C27) -/

theorem lastSync_concat (pre : Trace) (e : rwtrace_elem) :
    lastSync (pre ++ [e]) = if isSync e = true then some e.type else lastSync pre := by
  unfold lastSync
  rw [List.reverse_append, List.reverse_singleton, List.singleton_append, List.find?_cons]
  cases h : isSync e <;> simp

theorem inRegion_concat (pre : Trace) (e : rwtrace_elem) :
    inRegion (pre ++ [e]) =
      if e.type = RWType.SPAWN then true
      else if e.type = RWType.JOIN then false else inRegion pre := by
  unfold inRegion
  rw [lastSync_concat]
  unfold isSync
  by_cases h1 : e.type = RWType.SPAWN
  · simp [h1]
  · by_cases h2 : e.type = RWType.JOIN
    · simp [h2]
    · simp [h1, h2]

/-- The fields that one round of the first loop leaves. -/
theorem scanStep_fields (s : Scan) (e : rwtrace_elem) :
    (scanStep s e).i = s.i + 1 ∧
    ((scanStep s e).hasSpawn && !(scanStep s e).hasJoin) =
      (if e.type = RWType.SPAWN then true
        else if e.type = RWType.JOIN then false else (s.hasSpawn && !s.hasJoin)) ∧
    (scanStep s e).sharedIndex = s.sharedIndex ++
      [if e.type = RWType.SPAWN then true
        else if e.type = RWType.JOIN then false else (s.hasSpawn && !s.hasJoin)] ∧
    (scanStep s e).index = s.index ++ [isFlush e] ∧
    (scanStep s e).m =
      (if isRW e = true then Function.update s.m e.location (s.m e.location ++ [s.i])
        else s.m) ∧
    (scanStep s e).t =
      (if isRW e = true then mapModify e.location (setInsert (e.thr : Int)) s.t else s.t) := by
  cases hty : e.type <;> cases hs : s.hasSpawn <;> cases hj : s.hasJoin <;>
    simp [scanStep, isFlush, isRW, hty, hs, hj]

theorem mem_mapModify {α : Type} (k : Nat) (f : List α → List α) (l : List (Nat × List α))
    (x : Nat × List α) (hx : x ∈ mapModify k f l) : x ∈ l ∨ ∃ q, x = (k, f q) := by
  induction l with
  | nil =>
    simp only [mapModify, List.mem_singleton] at hx
    exact Or.inr ⟨[], hx⟩
  | cons y rest ih =>
    obtain ⟨k0, v⟩ := y
    unfold mapModify at hx
    by_cases h1 : k0 = k
    · rw [if_pos h1] at hx
      rcases List.mem_cons.1 hx with hx | hx
      · exact Or.inr ⟨v, by rw [hx, h1]⟩
      · exact Or.inl (List.mem_cons_of_mem _ hx)
    · rw [if_neg h1] at hx
      by_cases h2 : k < k0
      · rw [if_pos h2] at hx
        rcases List.mem_cons.1 hx with hx | hx
        · exact Or.inr ⟨[], hx⟩
        · exact Or.inl hx
      · rw [if_neg h2] at hx
        rcases List.mem_cons.1 hx with hx | hx
        · exact Or.inl (by rw [hx]; exact List.mem_cons_self _ _)
        · rcases ih hx with h | h
          · exact Or.inl (List.mem_cons_of_mem _ h)
          · exact Or.inr h

theorem key_mapModify {α : Type} (k : Nat) (f : List α → List α) (l : List (Nat × List α)) :
    ∃ x ∈ mapModify k f l, x.1 = k := by
  induction l with
  | nil => exact ⟨(k, f []), by simp [mapModify], rfl⟩
  | cons y rest ih =>
    obtain ⟨k0, v⟩ := y
    unfold mapModify
    by_cases h1 : k0 = k
    · rw [if_pos h1]
      exact ⟨(k0, f v), List.mem_cons_self _ _, h1⟩
    · rw [if_neg h1]
      by_cases h2 : k < k0
      · rw [if_pos h2]
        exact ⟨(k, f []), List.mem_cons_self _ _, rfl⟩
      · rw [if_neg h2]
        obtain ⟨x, hx, hxk⟩ := ih
        exact ⟨x, List.mem_cons_of_mem _ hx, hxk⟩

theorem keys_mapModify {α : Type} (k : Nat) (f : List α → List α) (l : List (Nat × List α))
    (k1 : Nat) (h : ∃ x ∈ l, x.1 = k1) : ∃ x ∈ mapModify k f l, x.1 = k1 := by
  by_cases hk : k1 = k
  · rw [hk]
    exact key_mapModify k f l
  · induction l with
    | nil =>
      obtain ⟨x, hx, _⟩ := h
      exact absurd hx (List.not_mem_nil x)
    | cons y rest ih =>
      obtain ⟨k0, v⟩ := y
      obtain ⟨x, hx, hxk⟩ := h
      unfold mapModify
      by_cases h1 : k0 = k
      · rw [if_pos h1]
        rcases List.mem_cons.1 hx with hx | hx
        · rw [hx] at hxk
          exact absurd (hxk.symm.trans h1) hk
        · exact ⟨x, List.mem_cons_of_mem _ hx, hxk⟩
      · rw [if_neg h1]
        by_cases h2 : k < k0
        · rw [if_pos h2]
          exact ⟨x, List.mem_cons_of_mem _ hx, hxk⟩
        · rw [if_neg h2]
          rcases List.mem_cons.1 hx with hx | hx
          · exact ⟨(k0, v), List.mem_cons_self _ _, by rw [hx] at hxk; exact hxk⟩
          · obtain ⟨x1, hx1, hxk1⟩ := ih ⟨x, hx, hxk⟩
            exact ⟨x1, List.mem_cons_of_mem _ hx1, hxk1⟩

theorem setInsert_length_pos (x : Int) (l : List Int) : 0 < (setInsert x l).length := by
  induction l with
  | nil => simp [setInsert]
  | cons y rest ih =>
    unfold setInsert
    split
    · simp
    · split <;> simp

theorem scanInv_init : ScanInv [] scanInit where
  i_eq := rfl
  flags := by decide
  shared := rfl
  index_eq := rfl
  t_pos := by simp [scanInit]
  t_key := by simp
  m_mem := by simp [scanInit]

theorem scanInv_step (pre : Trace) (s : Scan) (e : rwtrace_elem) (h : ScanInv pre s) :
    ScanInv (pre ++ [e]) (scanStep s e) := by
  obtain ⟨f1, f2, f3, f4, f5, f6⟩ := scanStep_fields s e
  refine ⟨?_, ?_, ?_, ?_, ?_, ?_, ?_⟩
  · rw [f1, h.i_eq]
    simp
  · rw [f2, inRegion_concat, h.flags]
  · rw [f3, h.shared, h.flags, ← inRegion_concat, List.length_append, List.length_singleton,
      List.range_succ, List.map_append]
    congr 1
    · apply List.map_congr_left
      intro i hi
      rw [List.mem_range] at hi
      rw [List.take_append_of_le_length (by omega)]
    · have htake : List.take (pre.length + 1) (pre ++ [e]) = pre ++ [e] :=
        List.take_of_length_le (by simp)
      simp only [List.map_cons, List.map_nil, htake]
  · rw [f4, h.index_eq]
    simp
  · rw [f6]
    intro x hx
    by_cases hrw : isRW e = true
    · rw [if_pos hrw] at hx
      rcases mem_mapModify _ _ _ x hx with hx | ⟨q, hq⟩
      · exact h.t_pos x hx
      · rw [hq]
        exact setInsert_length_pos _ _
    · rw [if_neg hrw] at hx
      exact h.t_pos x hx
  · rw [f6]
    intro e1 he1 hrw1
    rcases List.mem_append.1 he1 with he1 | he1
    · have hold := h.t_key e1 he1 hrw1
      by_cases hrw : isRW e = true
      · rw [if_pos hrw]
        exact keys_mapModify _ _ _ _ hold
      · rw [if_neg hrw]
        exact hold
    · rw [List.mem_singleton] at he1
      rw [he1] at hrw1 ⊢
      rw [if_pos hrw1]
      exact key_mapModify _ _ _
  · rw [f5]
    intro i k
    have hget : ∀ e1, (pre ++ [e])[i]? = some e1 ↔
        (pre)[i]? = some e1 ∨ (i = pre.length ∧ e1 = e) := by
      intro e1
      by_cases hi : i < pre.length
      · rw [List.getElem?_append_left hi]
        exact ⟨Or.inl, fun h1 => h1.resolve_right (fun h2 => by omega)⟩
      · rw [List.getElem?_append_right (not_lt.1 hi), List.getElem?_eq_none (not_lt.1 hi)]
        by_cases hi2 : i = pre.length
        · subst hi2
          simp [eq_comm]
        · have h3 : i - pre.length ≠ 0 := by omega
          obtain ⟨j, hj⟩ := Nat.exists_eq_succ_of_ne_zero h3
          rw [hj]
          simp [hi2]
    by_cases hrw : isRW e = true
    · rw [if_pos hrw]
      by_cases hk : k = e.location
      · subst hk
        rw [Function.update_same, List.mem_append, List.mem_singleton, h.m_mem, h.i_eq]
        constructor
        · rintro (⟨e1, h1, h2, h3⟩ | h1)
          · exact ⟨e1, (hget e1).2 (Or.inl h1), h2, h3⟩
          · exact ⟨e, (hget e).2 (Or.inr ⟨h1, rfl⟩), hrw, rfl⟩
        · rintro ⟨e1, h1, h2, h3⟩
          rcases (hget e1).1 h1 with h1 | ⟨h1, _⟩
          · exact Or.inl ⟨e1, h1, h2, h3⟩
          · exact Or.inr h1
      · rw [Function.update_noteq hk, h.m_mem]
        constructor
        · rintro ⟨e1, h1, h2, h3⟩
          exact ⟨e1, (hget e1).2 (Or.inl h1), h2, h3⟩
        · rintro ⟨e1, h1, h2, h3⟩
          rcases (hget e1).1 h1 with h1 | ⟨_, h1⟩
          · exact ⟨e1, h1, h2, h3⟩
          · rw [h1] at h3
            exact absurd h3.symm hk
    · rw [if_neg hrw, h.m_mem]
      constructor
      · rintro ⟨e1, h1, h2, h3⟩
        exact ⟨e1, (hget e1).2 (Or.inl h1), h2, h3⟩
      · rintro ⟨e1, h1, h2, h3⟩
        rcases (hget e1).1 h1 with h1 | ⟨_, h1⟩
        · exact ⟨e1, h1, h2, h3⟩
        · rw [h1] at h2
          exact absurd h2 hrw

theorem scanInv_foldl (log : Trace) : ScanInv log (log.foldl scanStep scanInit) := by
  induction log using List.reverseRecOn with
  | nil => exact scanInv_init
  | append_singleton pre e ih =>
    rw [List.foldl_append]
    exact scanInv_step pre _ e ih

theorem set_true_getD (index : List Bool) (it i : Nat) (hi : i < index.length) :
    (index.set it true).getD i false = (index.getD i false || decide (it = i)) := by
  simp only [List.getD_eq_getElem?_getD, List.getElem?_set]
  by_cases h : it = i
  · subst h
    simp [hi]
  · simp [h]

theorem foldl_set_true (its : List Nat) (index : List Bool) (i : Nat) (hi : i < index.length) :
    (its.foldl (fun index it => index.set it true) index).length = index.length ∧
    (its.foldl (fun index it => index.set it true) index).getD i false =
      (index.getD i false || decide (i ∈ its)) := by
  induction its generalizing index with
  | nil => simp
  | cons it rest ih =>
    rw [List.foldl_cons]
    obtain ⟨h1, h2⟩ := ih (index.set it true) (by simpa using hi)
    refine ⟨by rw [h1]; simp, ?_⟩
    rw [h2, set_true_getD index it i hi]
    by_cases h : it = i
    · simp [h]
    · have h3 : ¬ i = it := fun h4 => h h4.symm
      simp [h, h3]

/-- The second loop sets the elements of `index` whose index is kept in `m` for a location
that has a thread in `t`. -/
theorem markLoop_getD (m : Nat → List Nat) (t : List (Nat × List Int)) (index : List Bool)
    (i : Nat) (hi : i < index.length) :
    (markLoop m t index).length = index.length ∧
    (markLoop m t index).getD i false =
      (index.getD i false || decide (∃ x ∈ t, 0 < x.2.length ∧ i ∈ m x.1)) := by
  induction t generalizing index with
  | nil => simp [markLoop]
  | cons iter rest ih =>
    unfold markLoop
    by_cases hpos : iter.2.length > 0
    · rw [if_pos hpos]
      obtain ⟨l1, g1⟩ := foldl_set_true (m iter.1) index i hi
      obtain ⟨l2, g2⟩ := ih ((m iter.1).foldl (fun index it => index.set it true) index)
        (by rw [l1]; exact hi)
      refine ⟨by rw [l2, l1], ?_⟩
      rw [g2, g1]
      by_cases hmem : i ∈ m iter.1
      · have hex : ∃ x ∈ iter :: rest, 0 < x.2.length ∧ i ∈ m x.1 :=
          ⟨iter, List.mem_cons_self _ _, hpos, hmem⟩
        simp only [decide_eq_true hex, decide_eq_true hmem, Bool.or_true, Bool.true_or]
      · have hex : (∃ x ∈ iter :: rest, 0 < x.2.length ∧ i ∈ m x.1) ↔
            ∃ x ∈ rest, 0 < x.2.length ∧ i ∈ m x.1 := by
          constructor
          · rintro ⟨x, hx, h1, h2⟩
            rcases List.mem_cons.1 hx with rfl | hx
            · exact absurd h2 hmem
            · exact ⟨x, hx, h1, h2⟩
          · rintro ⟨x, hx, h1, h2⟩
            exact ⟨x, List.mem_cons_of_mem _ hx, h1, h2⟩
        have hd : decide (∃ x ∈ iter :: rest, 0 < x.2.length ∧ i ∈ m x.1) =
            decide (∃ x ∈ rest, 0 < x.2.length ∧ i ∈ m x.1) := decide_eq_decide.2 hex
        rw [hd, decide_eq_false hmem, Bool.or_false]
    · rw [if_neg hpos]
      obtain ⟨l2, g2⟩ := ih index hi
      refine ⟨l2, ?_⟩
      have hex : (∃ x ∈ iter :: rest, 0 < x.2.length ∧ i ∈ m x.1) ↔
          ∃ x ∈ rest, 0 < x.2.length ∧ i ∈ m x.1 := by
        constructor
        · rintro ⟨x, hx, h1, h2⟩
          rcases List.mem_cons.1 hx with rfl | hx
          · exact absurd h1 hpos
          · exact ⟨x, hx, h1, h2⟩
        · rintro ⟨x, hx, h1, h2⟩
          exact ⟨x, List.mem_cons_of_mem _ hx, h1, h2⟩
      have hd : decide (∃ x ∈ iter :: rest, 0 < x.2.length ∧ i ∈ m x.1) =
          decide (∃ x ∈ rest, 0 < x.2.length ∧ i ∈ m x.1) := decide_eq_decide.2 hex
      rw [g2, hd]

theorem isSync_cases (e : rwtrace_elem) :
    (isFlush e || isRW e) = !isSync e := by
  cases hty : e.type <;> simp [isFlush, isRW, isSync, hty]

/-- The entries that the third loop pushes are those of the region between a SPAWN and
the next JOIN. -/
theorem collect_eq_sharedRegion (log : Trace) (s : Scan) (h : ScanInv log s) :
    collect log (markLoop s.m s.t s.index) s.sharedIndex = sharedRegion log := by
  unfold collect sharedRegion
  apply List.filterMap_congr
  intro i hi
  rw [List.mem_range] at hi
  have hget : (log)[i]? = some (log.get ⟨i, hi⟩) := List.getElem?_eq_getElem hi
  generalize log.get ⟨i, hi⟩ = e at hget
  have hlen : i < s.index.length := by rw [h.index_eq]; simpa using hi
  have hindex : (markLoop s.m s.t s.index).getD i false = !isSync e := by
    rw [(markLoop_getD s.m s.t s.index i hlen).2, ← isSync_cases, h.index_eq]
    have h1 : (List.map isFlush log).getD i false = isFlush e := by
      simp [List.getD_eq_getElem?_getD, hget]
    rw [h1]
    congr 1
    by_cases hrw : isRW e = true
    · rw [hrw, decide_eq_true_iff]
      have hmem : e ∈ log := List.getElem?_mem hget
      obtain ⟨x, hx, hxk⟩ := h.t_key e hmem hrw
      exact ⟨x, hx, h.t_pos x hx, (h.m_mem i x.1).2 ⟨e, hget, hrw, hxk.symm⟩⟩
    · have hfalse : isRW e = false := by simpa using hrw
      rw [hfalse, decide_eq_false_iff_not]
      rintro ⟨x, _, _, hx⟩
      obtain ⟨e1, h1, h2, _⟩ := (h.m_mem i x.1).1 hx
      rw [hget] at h1
      rw [← Option.some.inj h1] at h2
      exact hrw h2
  have hshared : s.sharedIndex.getD i false = inRegion (log.take i ++ [e]) := by
    rw [h.shared]
    have h1 : ((List.range log.length).map (fun i => inRegion (log.take (i + 1)))).getD i false =
        inRegion (log.take (i + 1)) := by
      simp [List.getD_eq_getElem?_getD, hi]
    rw [h1, List.take_succ, hget]
    rfl
  rw [hindex, hshared, hget, inRegion_concat, Option.some_bind]
  unfold isSync
  by_cases h1 : e.type = RWType.SPAWN
  · simp [h1]
  · by_cases h2 : e.type = RWType.JOIN
    · simp [h2]
    · simp [h1, h2]

/-- C27: with logging enabled `FindSharedRW` appends to `shared_rec`, in the order of the
log, exactly the entries of `rwtrace_rec` that are no SPAWN and no JOIN and for which the
most recent SPAWN or JOIN entry before them is a SPAWN; with logging disabled it leaves
`shared_rec` as it is. -/
theorem FindSharedRW_spec (P : Params) (rwtrace_rec shared_rec : Trace) :
    (P.logging = true →
      FindSharedRW P rwtrace_rec shared_rec = shared_rec ++ sharedRegion rwtrace_rec) ∧
    (P.logging = false → FindSharedRW P rwtrace_rec shared_rec = shared_rec) := by
  constructor
  · intro hlog
    unfold FindSharedRW
    rw [if_pos hlog]
    exact congrArg _ (collect_eq_sharedRegion rwtrace_rec _ (scanInv_foldl rwtrace_rec))
  · intro hlog
    unfold FindSharedRW
    rw [hlog]
    rfl

theorem FindSharedRW_spec_witness :
    FindSharedRW Constraints.sampleParamsTSO sampleLog [] =
      [⟨1, RWType.WRITE, 2, 100, 2⟩, ⟨1, RWType.FLUSH_FENCE, 0, 0, 0⟩] ∧
    FindSharedRW CheckTrace.sampleParamsMalloc sampleLog [⟨1, RWType.WRITE, 2, 100, 2⟩] =
      [⟨1, RWType.WRITE, 2, 100, 2⟩] :=
  ⟨((FindSharedRW_spec Constraints.sampleParamsTSO sampleLog []).1 rfl).trans (by decide),
    (FindSharedRW_spec CheckTrace.sampleParamsMalloc sampleLog
      [⟨1, RWType.WRITE, 2, 100, 2⟩]).2 rfl⟩

end RWHistory

namespace Interpreter

/-! ### The instruction `join_all` (C28) -/

/-- Every execution of `visitJoinAll` appends a JOIN entry of the current thread to the
log, whatever the number of threads that still run. -/
theorem visitJoinAll_log (u : rwtrace_elem) (st : Interp) :
    (visitJoinAll u st).rwtrace_rec =
      st.rwtrace_rec ++ [{ u with thr := st.currThread, type := RWType.JOIN, label := 0 }] := by
  unfold visitJoinAll
  by_cases h : (st.threadStacks.filter (fun e => !e.2.isEmpty)).length > 1
  · simp only [if_pos h, RecordRWEventThr]
  · simp only [if_neg h, RecordRWEventThr]

/-- C28: an execution of `join_all` that finds two threads with a non-empty stack appends a
JOIN entry. In the sample state the threads 1 and 2 both have a frame and thread 1
executes `join_all`: the instruction is marked blocked and the cursor of the frame goes
back from 7 to 6, and the log, empty before, holds a JOIN entry of thread 1; the three
executions that the blocked instruction gets when it is tried three times leave three
JOIN entries. -/
theorem visitJoinAll_blocked_logs_join :
    getAllActiveThreads sampleState = [1, 2] ∧
    sampleState.currThread = 1 ∧
    sampleState.rwtrace_rec = [] ∧
    (visitJoinAll sampleElem sampleState).isBlocked = true ∧
    (stackOf (visitJoinAll sampleElem sampleState).threadStacks 1).map
      (fun SF => SF.CurInst) = [6] ∧
    (visitJoinAll sampleElem sampleState).rwtrace_rec = [⟨1, RWType.JOIN, 0, 0, 0⟩] ∧
    (visitJoinAll sampleElem
      (visitJoinAll sampleElem (visitJoinAll sampleElem sampleState))).rwtrace_rec =
      [⟨1, RWType.JOIN, 0, 0, 0⟩, ⟨1, RWType.JOIN, 0, 0, 0⟩, ⟨1, RWType.JOIN, 0, 0, 0⟩] := by
  refine ⟨by decide, rfl, rfl, by decide, by decide, by decide, by decide⟩

end Interpreter

namespace Scheduler

open Interpreter

/-! ### The scheduler (C29, C30) -/

theorem belongsTo_iff (thds : List Nat) (thd : Nat) : belongsTo thds thd = true ↔ thd ∈ thds := by
  induction thds with
  | nil => simp [belongsTo]
  | cons it rest ih =>
    unfold belongsTo
    by_cases h : it = thd
    · simp [h]
    · simp only [if_neg h, ih, List.mem_cons]
      exact ⟨Or.inr, fun h1 => h1.resolve_left (fun h2 => h h2.symm)⟩

/-- A thread is among the active threads exactly when its stack is not empty; the keys of
`threadStacks`, a `std::map`, are distinct. -/
theorem mem_getAllActiveThreads (st : Interp)
    (hkeys : (st.threadStacks.map Prod.fst).Nodup) (t : Nat) :
    t ∈ getAllActiveThreads st ↔ Enabled st t := by
  unfold getAllActiveThreads Enabled
  generalize st.threadStacks = l at hkeys
  induction l with
  | nil => simp [stackOf]
  | cons e rest ih =>
    obtain ⟨k, frames⟩ := e
    rw [List.map_cons, List.nodup_cons] at hkeys
    have ih1 := ih hkeys.2
    unfold stackOf
    by_cases hk : k = t
    · subst hk
      have hno : k ∉ List.map Prod.fst (List.filter (fun e => !e.2.isEmpty) rest) := by
        intro hmem
        obtain ⟨x, hx, hxk⟩ := List.mem_map.1 hmem
        exact hkeys.1 (List.mem_map.2 ⟨x, (List.mem_filter.1 hx).1, hxk⟩)
      rw [if_pos rfl]
      cases frames with
      | nil => simpa [List.filter_cons] using hno
      | cons f fs => simp [List.filter_cons]
    · rw [if_neg hk, ← ih1]
      cases frames with
      | nil => simp [List.filter_cons]
      | cons f fs =>
        simp only [List.filter_cons, List.isEmpty_cons, Bool.not_false, if_true, List.map_cons,
          List.mem_cons]
        exact ⟨fun h => h.resolve_left (fun h2 => hk h2.symm), Or.inr⟩

/-- C29: `selectAction` returns SWITCH_THREAD for the current thread whenever the last
instruction executed was neither blocked nor a shared access and the current thread is
enabled (its stack is not empty); no value of `rand()` is used and the state of the
scheduler stays as it is. In every other case the result is that of `selectAction1`. -/
theorem selectAction_spec (P : Params) (C : Env) (u : Action) (st : Interp) (s : State)
    (hkeys : (st.threadStacks.map Prod.fst).Nodup) :
    (st.isBlocked = false ∧ st.isSharedAccessing = false ∧ Enabled st st.currThread →
      selectAction P C u st s =
        some (⟨ActionType.SWITCH_THREAD, st.currThread, u.pso_var⟩, s)) ∧
    (¬ (st.isBlocked = false ∧ st.isSharedAccessing = false ∧ Enabled st st.currThread) →
      selectAction P C u st s = selectAction1 P C u st s) := by
  have hb := (belongsTo_iff (getAllActiveThreads st) st.currThread).trans
    (mem_getAllActiveThreads st hkeys st.currThread)
  constructor
  · rintro ⟨h1, h2, h3⟩
    unfold selectAction
    simp only [h1, h2, hb.2 h3, Bool.false_eq_true, if_false, Bool.not_false, if_true]
  · intro h
    unfold selectAction
    by_cases h1 : st.isBlocked = true
    · simp only [h1, if_true]
    · by_cases h2 : st.isSharedAccessing = true
      · simp only [h1, h2, if_false, Bool.not_true, Bool.false_eq_true]
      · have h3 : ¬ Enabled st st.currThread := fun h3 =>
          h ⟨by simpa using h1, by simpa using h2, h3⟩
        have h4 : belongsTo (getAllActiveThreads st) st.currThread = false := by
          cases hbt : belongsTo (getAllActiveThreads st) st.currThread with
          | false => rfl
          | true => exact absurd (hb.1 hbt) h3
        simp only [h1, h2, h4, if_false, Bool.not_false, if_true, Bool.false_eq_true]

theorem selectAction_spec_witness :
    selectAction Constraints.sampleParamsTSO sampleEnv ⟨ActionType.NO_ACTION, 0, 0⟩ sampleState
        ⟨0, -1⟩ = some (⟨ActionType.SWITCH_THREAD, 1, 0⟩, ⟨0, -1⟩) ∧
    selectAction Constraints.sampleParamsTSO sampleEnv ⟨ActionType.NO_ACTION, 0, 0⟩
        { sampleState with isSharedAccessing := true } ⟨0, -1⟩ =
      selectAction1 Constraints.sampleParamsTSO sampleEnv ⟨ActionType.NO_ACTION, 0, 0⟩
        { sampleState with isSharedAccessing := true } ⟨0, -1⟩ :=
  ⟨(selectAction_spec Constraints.sampleParamsTSO sampleEnv ⟨ActionType.NO_ACTION, 0, 0⟩
      sampleState ⟨0, -1⟩ (by decide)).1
      ⟨rfl, rfl, by simp [Enabled, sampleState, stackOf]⟩,
    (selectAction_spec Constraints.sampleParamsTSO sampleEnv ⟨ActionType.NO_ACTION, 0, 0⟩
      { sampleState with isSharedAccessing := true } ⟨0, -1⟩ (by decide)).2
      (fun h => absurd h.2.1 (by decide))⟩

end Scheduler

namespace Scheduler

theorem firstAbove_some (thds : List Nat) (thd : Int) (r : Nat)
    (h : firstAbove thds thd = some r) :
    ∃ pre post, thds = pre ++ r :: post ∧ thd < (r : Int) ∧ ∀ x ∈ pre, (x : Int) ≤ thd := by
  induction thds with
  | nil => simp [firstAbove] at h
  | cons it rest ih =>
    unfold firstAbove at h
    by_cases hit : (it : Int) > thd
    · rw [if_pos hit] at h
      have hr : it = r := Option.some.inj h
      subst hr
      exact ⟨[], rest, rfl, hit, by simp⟩
    · rw [if_neg hit] at h
      obtain ⟨pre, post, hp, hlt, hpre⟩ := ih h
      refine ⟨it :: pre, post, by rw [hp]; rfl, hlt, ?_⟩
      intro x hx
      rcases List.mem_cons.1 hx with rfl | hx
      · exact not_lt.1 hit
      · exact hpre x hx

theorem firstAbove_none (thds : List Nat) (thd : Int) (h : firstAbove thds thd = none) :
    ∀ x ∈ thds, (x : Int) ≤ thd := by
  induction thds with
  | nil => simp
  | cons it rest ih =>
    unfold firstAbove at h
    by_cases hit : (it : Int) > thd
    · rw [if_pos hit] at h
      simp at h
    · rw [if_neg hit] at h
      intro x hx
      rcases List.mem_cons.1 hx with rfl | hx
      · exact not_lt.1 hit
      · exact ih h x hx

/-- C30: for a non-empty list of enabled thread tags in ascending order and a tag `t`,
`pickUpNextThreadRR` returns a member of the list: the smallest tag of the list greater
than `t` when there is one, and the smallest tag of the list when none is greater. -/
theorem pickUpNextThreadRR_spec (thds : List Nat) (t : Int) (hne : thds ≠ [])
    (hsorted : thds.Sorted (· ≤ ·)) :
    ∃ r, pickUpNextThreadRR thds t = some r ∧ r ∈ thds ∧
      ((∃ x ∈ thds, t < (x : Int)) → t < (r : Int) ∧ ∀ x ∈ thds, t < (x : Int) → r ≤ x) ∧
      ((∀ x ∈ thds, (x : Int) ≤ t) → ∀ x ∈ thds, r ≤ x) := by
  unfold pickUpNextThreadRR
  cases hf : firstAbove thds t with
  | some r =>
    obtain ⟨pre, post, hp, hlt, hpre⟩ := firstAbove_some thds t r hf
    refine ⟨r, rfl, by rw [hp]; simp, ?_, ?_⟩
    · intro _
      refine ⟨hlt, ?_⟩
      intro x hx hxt
      rw [hp] at hx hsorted
      rcases List.mem_append.1 hx with hx | hx
      · exact absurd (hpre x hx) (not_le.2 hxt)
      · rcases List.mem_cons.1 hx with rfl | hx
        · exact le_refl _
        · have h2 : (r :: post).Pairwise (· ≤ ·) := (List.pairwise_append.1 hsorted).2.1
          exact List.rel_of_pairwise_cons h2 hx
    · intro hall
      have hr : r ∈ thds := by rw [hp]; simp
      exact absurd (hall r hr) (not_le.2 hlt)
  | none =>
    cases thds with
    | nil => exact absurd rfl hne
    | cons a rest =>
      refine ⟨a, rfl, List.mem_cons_self _ _, ?_, ?_⟩
      · rintro ⟨x, hx, hxt⟩
        exact absurd (firstAbove_none _ t hf x hx) (not_le.2 hxt)
      · intro _ x hx
        rcases List.mem_cons.1 hx with rfl | hx
        · exact le_refl _
        · exact List.rel_of_sorted_cons hsorted x hx

theorem pickUpNextThreadRR_spec_witness :
    ∃ r, pickUpNextThreadRR [1, 2, 5] 2 = some r ∧ r ∈ [1, 2, 5] ∧
      ((∃ x ∈ [1, 2, 5], (2 : Int) < ((x : Nat) : Int)) →
        (2 : Int) < (r : Int) ∧ ∀ x ∈ [1, 2, 5], (2 : Int) < ((x : Nat) : Int) → r ≤ x) ∧
      ((∀ x ∈ [1, 2, 5], ((x : Nat) : Int) ≤ 2) → ∀ x ∈ [1, 2, 5], r ≤ x) :=
  pickUpNextThreadRR_spec [1, 2, 5] 2 (by decide) (by decide)

end Scheduler

namespace Params

/-! ### The configuration file (C31, C32) -/

theorem SchedulerKept_ite (c : Config) (p : Prop) [Decidable p] (a b : Option Config)
    (ha : SchedulerKept c a) (hb : SchedulerKept c b) :
    SchedulerKept c (if p then a else b) := by
  by_cases h : p
  · rw [if_pos h]; exact ha
  · rw [if_neg h]; exact hb

theorem SchedulerKept_none (c : Config) : SchedulerKept c none :=
  fun _ h => absurd h (by simp)

theorem SchedulerKept_some (c c2 : Config)
    (h : c2.Scheduler = c.Scheduler ∨ c2.Scheduler = Scheduler.RANDOM) :
    SchedulerKept c (some c2) := by
  intro c1 h1
  simp only [Option.some.injEq] at h1
  rw [← h1]; exact h

/-- An option leaves the field `Scheduler` as it is or sets it to `RANDOM`. -/
theorem applyOption_Scheduler (str tmpString : String) (c c1 : Config)
    (h : applyOption str tmpString c = some c1) :
    c1.Scheduler = c.Scheduler ∨ c1.Scheduler = Scheduler.RANDOM := by
  have key : SchedulerKept c (applyOption str tmpString c) := by
    unfold applyOption
    repeat' (first
      | apply SchedulerKept_ite
      | exact SchedulerKept_none c
      | exact SchedulerKept_some c _ (Or.inl rfl)
      | exact SchedulerKept_some c _ (Or.inr rfl))
  exact key c1 h

/-- The loop of the parser leaves `RANDOM` in the field `Scheduler` when it starts with it. -/
theorem parseLoop_Scheduler :
    ∀ (n : Nat) (words : List String), words.length ≤ n → ∀ (tmpString : String) (c c1 : Config),
      c.Scheduler = Scheduler.RANDOM → parseLoop words tmpString c = some c1 →
      c1.Scheduler = Scheduler.RANDOM := by
  intro n
  induction n with
  | zero =>
    intro words hlen tmpString c c1 hc h
    have : words = [] := List.length_eq_zero.1 (Nat.le_zero.1 hlen)
    subst this
    rw [parseLoop] at h
    simp only [Option.some.injEq] at h
    rw [← h]; exact hc
  | succ n ih =>
    intro words hlen tmpString c c1 hc h
    match words, hlen, h with
    | [], _, h =>
      rw [parseLoop] at h
      simp only [Option.some.injEq] at h
      rw [← h]; exact hc
    | [str], _, h =>
      rw [parseLoop] at h
      rcases applyOption_Scheduler _ _ _ _ h with h1 | h1
      · rw [h1]; exact hc
      · exact h1
    | [str, a], _, h =>
      rw [parseLoop] at h
      rcases applyOption_Scheduler _ _ _ _ h with h1 | h1
      · rw [h1]; exact hc
      · exact h1
    | str :: a :: b :: rest, hlen, h =>
      rw [parseLoop] at h
      cases ha : applyOption str b c with
      | none => rw [ha] at h; exact absurd h (by simp)
      | some c2 =>
        rw [ha, Option.some_bind] at h
        have h2 : c2.Scheduler = Scheduler.RANDOM := by
          rcases applyOption_Scheduler _ _ _ _ ha with h1 | h1
          · rw [h1]; exact hc
          · exact h1
        refine ih rest ?_ b c2 c1 h2 h
        simp only [List.length_cons] at hlen
        omega

/-- C31 (fails on the code): the specification asks that the parser accepts the values
`DBRR` and `PREDICTIVE` of `SCHEDULER`. On a configuration file that is accepted with
`SCHEDULER = RANDOM`, each of the two values ends in the failed assertion "The given type of
scheduler cannot be recognized!". -/
theorem processInputFile_rejects_DBRR_and_PREDICTIVE :
    processInputFile (some "d/") (sampleFiles "RANDOM") =
        ParseResult.ok
          ⟨⟨PROP_LIN, WMM_TSO, program_type.WSQ_CHASE, false⟩, Scheduler.RANDOM, none, "d/wsq.txt"⟩
          ["wsq_put", "wsq_take", "wsq_steal"] ∧
      processInputFile (some "d/") (sampleFiles "DBRR") = ParseResult.assertFailed ∧
      processInputFile (some "d/") (sampleFiles "PREDICTIVE") = ParseResult.assertFailed := by
  refine ⟨by decide, by decide, by decide⟩

/-- C31 (amended): the parser accepts the value `RANDOM` of `SCHEDULER` alone and sets
`Params::Scheduler` to `RANDOM`; every other value, `DBRR` and `PREDICTIVE` among them, is a
configuration error. A line `SCHEDULER = value` makes the loop go on with the field set to
`RANDOM` when the value is `RANDOM` and fail otherwise, and whenever `processInputFile`
returns, the field is `RANDOM`. -/
theorem processInputFile_SCHEDULER_spec :
    (∀ (value : String) (c : Config),
      applyOption "SCHEDULER" value c =
        if value = "RANDOM" then some { c with Scheduler := Scheduler.RANDOM } else none) ∧
      (∀ (eq value : String) (rest : List String) (tmpString : String) (c : Config),
        parseLoop ("SCHEDULER" :: eq :: value :: rest) tmpString c =
          if value = "RANDOM" then
            parseLoop rest value { c with Scheduler := Scheduler.RANDOM }
          else none) ∧
      (∀ (confdir : Option String) (files : String → Option (List String)) (c : Config)
        (funcs_rec : List String),
        processInputFile confdir files = ParseResult.ok c funcs_rec →
          c.Scheduler = Scheduler.RANDOM) := by
  have h1 : ∀ (value : String) (c : Config),
      applyOption "SCHEDULER" value c =
        if value = "RANDOM" then some { c with Scheduler := Scheduler.RANDOM } else none := by
    intro value c
    unfold applyOption
    simp
  refine ⟨h1, ?_, ?_⟩
  · intro eq value rest tmpString c
    rw [parseLoop, h1]
    by_cases hv : value = "RANDOM"
    · rw [if_pos hv, if_pos hv, Option.some_bind]
    · rw [if_neg hv, if_neg hv, Option.none_bind]
  · intro confdir files c funcs_rec h
    unfold processInputFile at h
    cases confdir with
    | none => exact absurd h (by simp)
    | some base =>
      dsimp only at h
      cases hw : files (base ++ "conf.txt") with
      | none => rw [hw] at h; exact absurd h (by simp)
      | some words =>
        rw [hw] at h
        dsimp only at h
        cases hp : parseLoop words "" (Config.init base) with
        | none => rw [hp] at h; exact absurd h (by simp)
        | some c2 =>
          rw [hp] at h
          dsimp only at h
          have hc2 := parseLoop_Scheduler words.length words (le_refl _) "" _ c2 rfl hp
          split at h
          · cases hm : files c2.methodsFile with
            | none => rw [hm] at h; exact absurd h (by simp)
            | some names =>
              rw [hm] at h
              simp only [ParseResult.ok.injEq] at h
              rw [← h.1]; exact hc2
          · simp only [ParseResult.ok.injEq] at h
            rw [← h.1]; exact hc2

theorem processInputFile_SCHEDULER_spec_witness :
    processInputFile (some "d/") (sampleFiles "RANDOM") =
        ParseResult.ok
          ⟨⟨PROP_LIN, WMM_TSO, program_type.WSQ_CHASE, false⟩, Scheduler.RANDOM, none, "d/wsq.txt"⟩
          ["wsq_put", "wsq_take", "wsq_steal"] ∧
      (⟨⟨PROP_LIN, WMM_TSO, program_type.WSQ_CHASE, false⟩, Scheduler.RANDOM, none,
        "d/wsq.txt"⟩ : Config).Scheduler = Scheduler.RANDOM :=
  ⟨by decide,
    processInputFile_SCHEDULER_spec.2.2 (some "d/") (sampleFiles "RANDOM")
      ⟨⟨PROP_LIN, WMM_TSO, program_type.WSQ_CHASE, false⟩, Scheduler.RANDOM, none, "d/wsq.txt"⟩
      ["wsq_put", "wsq_take", "wsq_steal"] (by decide)⟩

end Params

namespace CheckTrace

/-! ### The program of the configuration and the replay (C32) -/

/-- The program type that an accepted line `PROGRAM = value` sets: `SKIP_LIST` for the value
`SKIP_LIST`, and a type other than `NO_PROGRAM` and `SKIP_LIST` for every other value. -/
theorem applyOption_PROGRAM (value : String) (c c1 : Params.Config)
    (h : Params.applyOption "PROGRAM" value c = some c1) :
    (value = "SKIP_LIST" ∧ c1.params.programToCheck = program_type.SKIP_LIST) ∨
      (value ≠ "SKIP_LIST" ∧ c1.params.programToCheck ≠ program_type.NO_PROGRAM ∧
        c1.params.programToCheck ≠ program_type.SKIP_LIST) := by
  unfold Params.applyOption at h
  rw [if_neg (by decide), if_neg (by decide), if_neg (by decide), if_pos rfl] at h
  by_cases h1 : value = "WSQ_CHASE"
  · rw [if_pos h1] at h
    simp only [Option.some.injEq] at h
    subst h
    exact Or.inr ⟨by rw [h1]; decide, by dsimp only; decide, by dsimp only; decide⟩
  rw [if_neg h1] at h
  by_cases h2 : value = "WSQ_LIFO"
  · rw [if_pos h2] at h
    simp only [Option.some.injEq] at h
    subst h
    exact Or.inr ⟨by rw [h2]; decide, by dsimp only; decide, by dsimp only; decide⟩
  rw [if_neg h2] at h
  by_cases h3 : value = "WSQ_FIFO"
  · rw [if_pos h3] at h
    simp only [Option.some.injEq] at h
    subst h
    exact Or.inr ⟨by rw [h3]; decide, by dsimp only; decide, by dsimp only; decide⟩
  rw [if_neg h3] at h
  by_cases h4 : value = "WSQ_THE"
  · rw [if_pos h4] at h
    simp only [Option.some.injEq] at h
    subst h
    exact Or.inr ⟨by rw [h4]; decide, by dsimp only; decide, by dsimp only; decide⟩
  rw [if_neg h4] at h
  by_cases h5 : value = "WSQ_ANCHOR"
  · rw [if_pos h5] at h
    simp only [Option.some.injEq] at h
    subst h
    exact Or.inr ⟨by rw [h5]; decide, by dsimp only; decide, by dsimp only; decide⟩
  rw [if_neg h5] at h
  by_cases h6 : value = "LF_MALLOC"
  · rw [if_pos h6] at h
    simp only [Option.some.injEq] at h
    subst h
    exact Or.inr ⟨by rw [h6]; decide, by dsimp only; decide, by dsimp only; decide⟩
  rw [if_neg h6] at h
  by_cases h7 : value = "SKIP_LIST"
  · rw [if_pos h7] at h
    simp only [Option.some.injEq] at h
    subst h
    exact Or.inl ⟨h7, rfl⟩
  rw [if_neg h7] at h
  by_cases h8 : value = "MS2" ∨ value = "MSN"
  · rw [if_pos h8] at h
    simp only [Option.some.injEq] at h
    subst h
    exact Or.inr ⟨h7, by dsimp only; decide, by dsimp only; decide⟩
  rw [if_neg h8] at h
  by_cases h9 : value = "SNARK"
  · rw [if_pos h9] at h
    simp only [Option.some.injEq] at h
    subst h
    exact Or.inr ⟨h7, by dsimp only; decide, by dsimp only; decide⟩
  rw [if_neg h9] at h
  by_cases h10 : value = "LAZYLIST" ∨ value = "HARRIS"
  · rw [if_pos h10] at h
    simp only [Option.some.injEq] at h
    subst h
    exact Or.inr ⟨h7, by dsimp only; decide, by dsimp only; decide⟩
  rw [if_neg h10] at h
  exact absurd h (by simp)

/-- C32 (fails on the code): the specification asks that every accepted value of `PROGRAM`
selects a program type that `checkPermutation` replays. The parser accepts a file with
`PROGRAM = SKIP_LIST` and sets the type `SKIP_LIST`, for which `checkPermutation` has no
branch: the check of the history of one call of `insert` then ends with `exit(254)`
("undefined program"). -/
theorem SKIP_LIST_accepted_and_undefined :
    Params.processInputFile (some "d/") (Params.programFiles "SKIP_LIST") =
        Params.ParseResult.ok
          ⟨⟨PROP_LIN, WMM_TSO, program_type.SKIP_LIST, false⟩, Scheduler.RANDOM, none,
            "d/skip.txt"⟩ ["insert", "remove"] ∧
      checkPermutation ⟨PROP_LIN, WMM_TSO, program_type.SKIP_LIST, false⟩ sampleExtern
        sampleIndet (gen_init_sc_perm skipHistory 2 sampleIndet.index).init_perm [0] = none ∧
      checkHistory ⟨PROP_LIN, WMM_TSO, program_type.SKIP_LIST, false⟩ sampleExtern
        sampleIndet skipHistory 2 = Outcome.exited 254 := by
  refine ⟨by decide, by decide, by decide⟩

/-- C32 (amended): every value of `PROGRAM` that the parser accepts, except `SKIP_LIST`,
selects a program type for which `checkPermutation` runs a reference implementation and
returns its verdict; the exit "undefined program" is reached after an accepted line
`PROGRAM = value` for the value `SKIP_LIST` alone. -/
theorem accepted_PROGRAM_dispatches (value : String) (c c1 : Params.Config)
    (X : WSQExtern) (U : Indet) (init_perm : List perm_elem) (curr_perm : List Nat)
    (h : Params.applyOption "PROGRAM" value c = some c1) :
    (value ≠ "SKIP_LIST" → ∃ b, checkPermutation c1.params X U init_perm curr_perm = some b) ∧
      (value = "SKIP_LIST" → checkPermutation c1.params X U init_perm curr_perm = none) := by
  rcases applyOption_PROGRAM value c c1 h with ⟨hv, hp⟩ | ⟨hv, hp⟩
  · refine ⟨fun hne => absurd hv hne, fun _ => ?_⟩
    exact checkPermutation_none c1.params X U (by rw [hp]; decide) init_perm curr_perm
  · refine ⟨fun _ => ?_, fun heq => absurd heq hv⟩
    exact checkPermutation_isSome c1.params X U hp init_perm curr_perm

theorem accepted_PROGRAM_dispatches_witness :
    ("SNARK" ≠ "SKIP_LIST" →
      ∃ b, checkPermutation
        ({ Params.Config.init "d/" with
            params := { (Params.Config.init "d/").params with
              programToCheck := program_type.DEQUE }
            methodsFile := (Params.Config.init "d/").methodsFile ++ "deque.txt" } :
          Params.Config).params sampleExtern sampleIndet [] [] = some b) ∧
      ("SNARK" = "SKIP_LIST" →
        checkPermutation
          ({ Params.Config.init "d/" with
              params := { (Params.Config.init "d/").params with
                programToCheck := program_type.DEQUE }
              methodsFile := (Params.Config.init "d/").methodsFile ++ "deque.txt" } :
            Params.Config).params sampleExtern sampleIndet [] [] = none) :=
  accepted_PROGRAM_dispatches "SNARK" (Params.Config.init "d/") _ sampleExtern sampleIndet [] []
    (by decide)

end CheckTrace

namespace Interpreter

/-! ### The random flush of the run loop (C33) -/

/-- The entry that the run loop logs for a random flush under TSO carries the tag of the
current thread, whatever the thread of the action. -/
theorem runFlushAction_tso_log (P : Params) (T : Target) (u : rwtrace_elem)
    (action : Scheduler.Action) (st : Interp) (h : P.WMM = WMM_TSO) :
    (runFlushAction P T u action st).rwtrace_rec =
      st.rwtrace_rec ++
        [{ u with thr := st.currThread, type := RWType.FLUSH_RANDOM_TSO, label := -1 }] := by
  unfold runFlushAction
  rw [if_pos h]
  unfold flush_buffer_tso RecordRWEventThr
  cases st.thread_buffer_tso action.thread <;> rfl

/-- C33 (fails on the code): the specification asks that the entry logged for a random
flush carries the tag of the thread whose buffer was flushed. In the sample state, with
thread 1 current, the scheduler picks the action `FLUSH_BUFFER` for thread 2; the run loop
flushes the oldest store of thread 2 (the buffer of thread 1 keeps its three stores) and
logs `FLUSH_RANDOM_TSO` with the tag 1. Under PSO the queue of thread 2 at 100 is flushed and
`FLUSH_RANDOM_PSO` is logged with the tag 1. -/
theorem run_random_flush_logs_current_thread :
    Scheduler.selectAction Constraints.sampleParamsTSO Scheduler.flushEnv
        ⟨Scheduler.ActionType.NO_ACTION, 0, 0⟩ sharedState ⟨0, -1⟩ =
        some (⟨Scheduler.ActionType.FLUSH_BUFFER, 2, 0⟩, ⟨2, -1⟩) ∧
      sharedState.currThread = 1 ∧
      (runFlushAction Constraints.sampleParamsTSO sampleTarget sampleElem
        ⟨Scheduler.ActionType.FLUSH_BUFFER, 2, 0⟩ sharedState).thread_buffer_tso 2 = [] ∧
      (runFlushAction Constraints.sampleParamsTSO sampleTarget sampleElem
        ⟨Scheduler.ActionType.FLUSH_BUFFER, 2, 0⟩ sharedState).thread_buffer_tso 1 =
        sharedState.thread_buffer_tso 1 ∧
      (runFlushAction Constraints.sampleParamsTSO sampleTarget sampleElem
        ⟨Scheduler.ActionType.FLUSH_BUFFER, 2, 0⟩ sharedState).rwtrace_rec =
        [⟨1, RWType.FLUSH_RANDOM_TSO, 0, 0, -1⟩] ∧
      Scheduler.selectAction Constraints.sampleParamsPSO Scheduler.flushEnv
        ⟨Scheduler.ActionType.NO_ACTION, 0, 0⟩ sharedState ⟨0, -1⟩ =
        some (⟨Scheduler.ActionType.FLUSH_BUFFER, 2, 100⟩, ⟨3, -1⟩) ∧
      (runFlushAction Constraints.sampleParamsPSO sampleTarget sampleElem
        ⟨Scheduler.ActionType.FLUSH_BUFFER, 2, 100⟩ sharedState).thread_buffer_pso 2 =
        [(100, [])] ∧
      (runFlushAction Constraints.sampleParamsPSO sampleTarget sampleElem
        ⟨Scheduler.ActionType.FLUSH_BUFFER, 2, 100⟩ sharedState).rwtrace_rec =
        [⟨1, RWType.FLUSH_RANDOM_PSO, 0, 100, -1⟩] := by
  refine ⟨by decide, rfl, by decide, ?_, by decide, by decide, by decide, by decide⟩
  simp [runFlushAction, flush_buffer_tso, sharedState, sampleState, Constraints.sampleParamsTSO, WMM_TSO,
    Function.update]

end Interpreter

namespace Interpreter

/-! ### Compare-and-swap outside the live blocks -/

theorem toInt32_low (n : Nat) (h : n < 2 ^ 31) : toInt32 n = (n : Int) := by
  unfold toInt32
  have h1 : n % 2 ^ 32 = n := Nat.mod_eq_of_lt (by omega)
  rw [h1, if_pos h]

theorem toInt32_high (n : Nat) (h1 : 2 ^ 31 ≤ n) (h2 : n < 2 ^ 32) :
    toInt32 n = (n : Int) - 2 ^ 32 := by
  unfold toInt32
  have h3 : n % 2 ^ 32 = n := Nat.mod_eq_of_lt h2
  rw [h3, if_neg (by omega)]

theorem wrapInt32_of_range (x : Int) (h1 : -2 ^ 31 ≤ x) (h2 : x < 2 ^ 31) :
    wrapInt32 x = x := by
  unfold wrapInt32
  by_cases h : 0 ≤ x
  · have h3 : x % 2 ^ 32 = x := Int.emod_eq_of_lt h (by omega)
    rw [h3]
    obtain ⟨n, rfl⟩ := Int.eq_ofNat_of_zero_le h
    rw [Int.toNat_ofNat, toInt32_low n (by omega)]
  · have h3 : x % 2 ^ 32 = x + 2 ^ 32 := by omega
    rw [h3]
    obtain ⟨n, hn⟩ := Int.eq_ofNat_of_zero_le (show (0 : Int) ≤ x + 2 ^ 32 by omega)
    rw [hn, Int.toNat_ofNat, toInt32_high n (by omega) (by omega)]
    omega

theorem wrapInt32_sign : wrapInt32 (2 ^ 31) = -2 ^ 31 := by decide

/-- An entry that fits matches in `getPhysicalBaseAddressHeap` only an address of its
block. -/
theorem heapEntry_match (first : Nat) (second : Int) (a : Nat) (ha : a < 2 ^ 32)
    (h1 : first < 2 ^ 32) (h2 : 0 ≤ second) (h3 : (first : Int) + second ≤ 2 ^ 32)
    (h4 : (first : Int) + second ≤ 2 ^ 31 ∨ 2 ^ 31 ≤ first)
    (hm : toInt32 a ≥ toInt32 first ∧ toInt32 a < wrapInt32 (toInt32 first + second)) :
    (first : Int) ≤ a ∧ (a : Int) < first + second := by
  obtain ⟨hm1, hm2⟩ := hm
  by_cases hf : first < 2 ^ 31
  · rw [toInt32_low first hf] at hm1 hm2
    have h5 : (first : Int) + second ≤ 2 ^ 31 := by omega
    by_cases ha1 : a < 2 ^ 31
    · rw [toInt32_low a ha1] at hm1 hm2
      by_cases h6 : (first : Int) + second = 2 ^ 31
      · rw [h6, wrapInt32_sign] at hm2
        omega
      · rw [wrapInt32_of_range _ (by omega) (by omega)] at hm2
        exact ⟨hm1, hm2⟩
    · rw [toInt32_high a (by omega) ha] at hm1
      omega
  · rw [toInt32_high first (by omega) h1] at hm1 hm2
    rw [wrapInt32_of_range _ (by omega) (by omega)] at hm2
    by_cases ha1 : a < 2 ^ 31
    · rw [toInt32_low a ha1] at hm2
      omega
    · rw [toInt32_high a (by omega) ha] at hm1 hm2
      omega

/-- An address outside the live blocks has no base in the table. -/
theorem heapBase_eq_zero (a : Nat) :
    ∀ table : List (Nat × Int), TableFits table a → ¬ InLiveBlock table a →
      getPhysicalBaseAddressHeap table a = 0 := by
  intro table
  induction table with
  | nil => intro _ _; rfl
  | cons e rest ih =>
    intro hfit hout
    obtain ⟨first, second⟩ := e
    obtain ⟨ha, hall⟩ := hfit
    have he := hall (first, second) (List.mem_cons_self _ _)
    have hrest : getPhysicalBaseAddressHeap rest a = 0 :=
      ih ⟨ha, fun x hx => hall x (List.mem_cons_of_mem _ hx)⟩
        (fun ⟨x, hx, hin⟩ => hout ⟨x, List.mem_cons_of_mem _ hx, hin⟩)
    rw [getPhysicalBaseAddressHeap, if_neg, hrest]
    intro hm
    exact hout ⟨(first, second), List.mem_cons_self _ _,
      heapEntry_match first second a ha he.1 he.2.1 he.2.2.1 he.2.2.2 hm⟩

/-- On an address without a base in the table `visitCAS` does no more, after its flush, than
set the flag. -/
theorem casBody_segfault (P : Params) (u : rwtrace_elem) (arg1 arg2 arg3 : GenericValue)
    (label_instr : Int) (st : Interp)
    (h : getPhysicalBaseAddressHeap st.bytesAtPhysicalAddress arg1.PointerVal = 0) :
    casBody P u arg1 arg2 arg3 label_instr st = (none, { st with segmentFaultFlag := true }) := by
  unfold casBody
  dsimp only
  rw [if_pos h]

/-- The entries of the table after an assignment: the new entry, and the entries with
another key. -/
theorem mem_tableSet (addr : Nat) (numBytes : Int) :
    ∀ table : List (Nat × Int), TableSorted table → ∀ x, x ∈ tableSet addr numBytes table →
      x = (addr, numBytes) ∨ (x ∈ table ∧ x.1 ≠ addr) := by
  intro table
  induction table with
  | nil =>
    intro _ x hx
    rw [tableSet, List.mem_singleton] at hx
    exact Or.inl hx
  | cons e rest ih =>
    intro hs x hx
    obtain ⟨k, v⟩ := e
    unfold TableSorted at hs
    rw [List.map_cons, List.pairwise_cons] at hs
    rw [tableSet] at hx
    by_cases h1 : k = addr
    · rw [if_pos h1, List.mem_cons] at hx
      rcases hx with hx | hx
      · left; rw [hx, h1]
      · right
        have := hs.1 x.1 (List.mem_map_of_mem _ hx)
        exact ⟨List.mem_cons_of_mem _ hx, by omega⟩
    · rw [if_neg h1] at hx
      by_cases h2 : addr < k
      · rw [if_pos h2, List.mem_cons] at hx
        rcases hx with hx | hx
        · exact Or.inl hx
        · right
          refine ⟨hx, ?_⟩
          rw [List.mem_cons] at hx
          rcases hx with hx | hx
          · rw [hx]; exact h1
          · have := hs.1 x.1 (List.mem_map_of_mem _ hx)
            omega
      · rw [if_neg h2, List.mem_cons] at hx
        rcases hx with hx | hx
        · right
          rw [hx]
          exact ⟨List.mem_cons_self _ _, h1⟩
        · rcases ih hs.2 x hx with h | h
          · exact Or.inl h
          · exact Or.inr ⟨List.mem_cons_of_mem _ h.1, h.2⟩

theorem mem_tableSet_self (addr : Nat) (numBytes : Int) :
    ∀ table : List (Nat × Int), (addr, numBytes) ∈ tableSet addr numBytes table := by
  intro table
  induction table with
  | nil => rw [tableSet]; exact List.mem_singleton.2 rfl
  | cons e rest ih =>
    obtain ⟨k, v⟩ := e
    rw [tableSet]
    by_cases h1 : k = addr
    · rw [if_pos h1, h1]; exact List.mem_cons_self _ _
    · rw [if_neg h1]
      by_cases h2 : addr < k
      · rw [if_pos h2]; exact List.mem_cons_self _ _
      · rw [if_neg h2]; exact List.mem_cons_of_mem _ ih

/-- Where the `int` arithmetic of the lookup compares the addresses as they are
(`TableFits`), `cas32` on an address that lies in no live block of the table returns, once
the buffer of the current thread is flushed as before every compare-and-swap, with
`segmentFaultFlag` set and without a value: the word at the address is not compared or
written by the instruction (the memory is the memory after the flush, which under PSO
drops the stores to this address) and nothing is logged. A block that `visitFree` has
freed has the size entry 0 and holds no such address: an address that is in a live block
after the call is in a block with another base. -/
theorem visitCAS_outside_live_blocks (P : Params) (T : Target) (u : rwtrace_elem) (fuel : Nat)
    (arg1 arg2 arg3 : GenericValue) (label_instr : Int) (st : Interp)
    (hfit : TableFits st.bytesAtPhysicalAddress arg1.PointerVal)
    (hout : ¬ InLiveBlock st.bytesAtPhysicalAddress arg1.PointerVal)
    (hT : P.WMM = WMM_TSO → (st.thread_buffer_tso st.currThread).length ≤ fuel)
    (hP : P.WMM = WMM_PSO → PsoSorted (st.thread_buffer_pso st.currThread) ∧
      (psoQueue (st.thread_buffer_pso st.currThread) arg1.PointerVal).length ≤ fuel) :
    (∃ st1, visitCAS P T u fuel arg1 arg2 arg3 label_instr st = some (none, st1) ∧
      st1.segmentFaultFlag = true ∧ st1.rwtrace_rec = st.rwtrace_rec ∧
      st1.memory =
        (if P.WMM = WMM_TSO then applyStores T (st.thread_buffer_tso st.currThread) st.memory
        else st.memory)) ∧
      (∀ (p : Nat) (st0 st2 : Interp), TableSorted st0.bytesAtPhysicalAddress →
        visitFree p st0 = some st2 →
        (p, 0) ∈ st2.bytesAtPhysicalAddress ∧
          ∀ a, InLiveBlock st2.bytesAtPhysicalAddress a →
            ∃ e ∈ st0.bytesAtPhysicalAddress, e.1 ≠ p ∧ (e.1 : Int) ≤ a ∧ (a : Int) < e.1 + e.2) := by
  have h0 := heapBase_eq_zero arg1.PointerVal st.bytesAtPhysicalAddress hfit hout
  have key : ∀ s : Interp, s.bytesAtPhysicalAddress = st.bytesAtPhysicalAddress →
      casBody P u arg1 arg2 arg3 label_instr s = (none, { s with segmentFaultFlag := true }) :=
    fun s hs => casBody_segfault P u arg1 arg2 arg3 label_instr s (by rw [hs]; exact h0)
  refine ⟨?_, ?_⟩
  · by_cases h1 : P.WMM = WMM_TSO
    · rw [visitCAS_tso P T u fuel arg1 arg2 arg3 label_instr st h1 (hT h1)]
      exact ⟨_, congrArg some (key _ rfl), rfl, rfl, by rw [if_pos h1]⟩
    · by_cases h2 : P.WMM = WMM_PSO
      · have hv : ¬ ValidAddress st arg1.PointerVal := by
          unfold ValidAddress
          rw [not_not]
          exact h0
        rw [visitCAS_pso P T u fuel arg1 arg2 arg3 label_instr st h2 (hP h2).1 (hP h2).2]
        exact ⟨_, congrArg some (key _ rfl), rfl, rfl, by rw [if_neg h1]; exact if_neg hv⟩
      · unfold visitCAS
        rw [if_neg h1, if_neg h2, Option.map_some']
        exact ⟨_, congrArg some (key _ rfl), rfl, rfl, by rw [if_neg h1]⟩
  · intro p st0 st2 hs hfree
    unfold visitFree at hfree
    dsimp only at hfree
    by_cases hb : getPhysicalBaseAddressHeap st0.bytesAtPhysicalAddress p = 0
    · rw [if_pos hb] at hfree
      exact absurd hfree (by simp)
    · rw [if_neg hb] at hfree
      by_cases hne : getPhysicalBaseAddressHeap st0.bytesAtPhysicalAddress p ≠ p
      · rw [if_pos hne] at hfree
        exact absurd hfree (by simp)
      · rw [if_neg hne] at hfree
        rw [not_not] at hne
        simp only [Option.some.injEq] at hfree
        subst hfree
        rw [hne]
        refine ⟨mem_tableSet_self p 0 _, ?_⟩
        rintro a ⟨e, he, hin⟩
        rcases mem_tableSet p 0 _ hs e he with h | h
        · rw [h] at hin
          simp only at hin
          omega
        · exact ⟨e, h.1, h.2, hin⟩

theorem visitCAS_outside_live_blocks_witness :
    (∃ st1, visitCAS Constraints.sampleParamsTSO sampleTarget sampleElem 3 ⟨0, 5000⟩ ⟨5, 0⟩
        ⟨6, 0⟩ 9 sampleState = some (none, st1) ∧
      st1.segmentFaultFlag = true ∧ st1.rwtrace_rec = sampleState.rwtrace_rec ∧
      st1.memory =
        (if Constraints.sampleParamsTSO.WMM = WMM_TSO then
          applyStores sampleTarget (sampleState.thread_buffer_tso sampleState.currThread)
            sampleState.memory
        else sampleState.memory)) ∧
      (∀ (p : Nat) (st0 st2 : Interp), TableSorted st0.bytesAtPhysicalAddress →
        visitFree p st0 = some st2 →
        (p, 0) ∈ st2.bytesAtPhysicalAddress ∧
          ∀ a, InLiveBlock st2.bytesAtPhysicalAddress a →
            ∃ e ∈ st0.bytesAtPhysicalAddress, e.1 ≠ p ∧ (e.1 : Int) ≤ a ∧ (a : Int) < e.1 + e.2) :=
  visitCAS_outside_live_blocks Constraints.sampleParamsTSO sampleTarget sampleElem 3 ⟨0, 5000⟩
    ⟨5, 0⟩ ⟨6, 0⟩ 9 sampleState
    (by simp [TableFits, sampleState])
    (by simp [InLiveBlock, sampleState])
    (fun _ => by decide)
    (fun h => absurd h (by decide))

end Interpreter

namespace Interpreter

/-! ### Compare-and-swap on an address that the table takes for another (C34) -/

/-- C34 (fails on the code): the specification asks that `cas32` on an address in no live
block sets `segmentFaultFlag` and does not compare or write. `getPhysicalBaseAddressHeap`
keeps the addresses in `int` variables, so two addresses `2 ^ 32` apart are the same to
it. With a block of 16 bytes at `0x7f0000001000`, the address `0x7e0000001004` lies in no
live block, yet the lookup returns the base of the block and `visitCAS` compares, writes 6,
gives the result 1, logs its two entries and leaves the flag clear. The same happens on
the address `0x7f0000001004` of a block that `visitFree` has freed, when a live block lies
`2 ^ 32` bytes further. -/
theorem visitCAS_accepts_aliased_address :
    ¬ InLiveBlock aliasTable 0x7e0000001004 ∧
      getPhysicalBaseAddressHeap aliasTable 0x7e0000001004 = 0x7f0000001000 ∧
      (visitCAS Constraints.sampleParamsTSO sampleTarget sampleElem 1 ⟨0, 0x7e0000001004⟩
          ⟨0, 0⟩ ⟨6, 0⟩ 9 (heapState aliasTable)).map
        (fun r => (r.1, r.2.segmentFaultFlag, readInt 0x7e0000001004 r.2.memory,
          r.2.rwtrace_rec.length)) = some (some 1, false, 6, 2) ∧
      (visitFree 0x7f0000001000 (heapState twoBlockTable)).map
          (fun s => s.bytesAtPhysicalAddress) =
        some [(0, 0), (0x7f0000001000, 0), (0x7f0100001000, 16)] ∧
      ¬ InLiveBlock [(0, 0), (0x7f0000001000, 0), (0x7f0100001000, 16)] 0x7f0000001004 ∧
      (visitCAS Constraints.sampleParamsTSO sampleTarget sampleElem 1 ⟨0, 0x7f0000001004⟩
          ⟨0, 0⟩ ⟨6, 0⟩ 9
          (heapState [(0, 0), (0x7f0000001000, 0), (0x7f0100001000, 16)])).map
        (fun r => (r.1, r.2.segmentFaultFlag, readInt 0x7f0000001004 r.2.memory,
          r.2.rwtrace_rec.length)) = some (some 1, false, 6, 2) := by
  refine ⟨?_, by decide, by decide, by decide, ?_, by decide⟩
  · simp [InLiveBlock, aliasTable]
  · simp [InLiveBlock]

end Interpreter

namespace Interpreter

/-! ### Thread keys (C35) -/

/-- The loop that fills `tmp_threads` inserts a thread only when the set holds it already:
the set stays empty. -/
theorem collectThreads_eq_nil (threadKeys : List ((Nat × Nat) × ThreadKey)) :
    collectThreads threadKeys = [] := by
  unfold collectThreads
  induction threadKeys with
  | nil => rfl
  | cons cit rest ih =>
    rw [List.foldl_cons]
    simpa using ih

/-- The map that `visitKeyCreate` leaves differs from the map before in the entry of the
current thread alone. -/
theorem visitKeyCreate_keys (funcs : List Nat) (found0 : Bool) (funcAddr0 natAddr arg : Nat)
    (st : Interp) (r : Int × Interp)
    (h : visitKeyCreate funcs found0 funcAddr0 natAddr arg st = some r) :
    ∃ funcAddr, r.2.threadKeys = keysSet (st.currThread, natAddr) ⟨0, funcAddr⟩ st.threadKeys := by
  unfold visitKeyCreate at h
  dsimp only at h
  rw [collectThreads_eq_nil] at h
  by_cases hf : (if arg ∈ funcs then true else found0) = false
  · rw [if_pos hf] at h
    exact absurd h (by simp)
  · rw [if_neg hf, List.foldl_nil] at h
    simp only [Option.some.injEq] at h
    subst h
    exact ⟨_, rfl⟩

/-- C35 (fails on the code): the specification asks that `key_create` leaves an entry with
a null value for every live thread. In the sample state the threads 1 and 2 are live and
thread 2 has a value under another name; `key_create` by thread 1 with the name at 300 and
the destructor at 500 leaves the entry of thread 1 only, and the map has no entry for
thread 2 and the name at 300. A `key_getspecific` of thread 2 still reads the null
pointer, through the branch for an absent entry. -/
theorem key_create_skips_other_threads :
    getAllActiveThreads keyState = [1, 2] ∧
      keyState.threadKeys = [((2, 200), ⟨77, 0⟩)] ∧
      (visitKeyCreate [500] false 0 300 500 keyState).map (fun r => (r.1, r.2.threadKeys)) =
        some (0, [((1, 300), ⟨0, 500⟩), ((2, 200), ⟨77, 0⟩)]) ∧
      (visitKeyCreate [500] false 0 300 500 keyState).map
        (fun r => keysFind r.2.threadKeys (2, 300)) = some none ∧
      (visitKeyCreate [500] false 0 300 500 keyState).map
        (fun r => visitKeyGetSpecific 300 { r.2 with currThread := 2 }) = some 0 := by
  refine ⟨by decide, by decide, by decide, by decide, by decide⟩

end Interpreter

namespace Constraints

/-! ### The constraint generator on the filtered log (C36) -/

/-- C36 (fails on the code): the specification asks that `Calculate` on the trace that
`FindSharedRW` leaves meets its own assertions for every log and thread count. On the log
of a run in which thread 1 spawns thread 2, writes and waits, and thread 2 makes no shared
access, with `nextThreadNum = 3`, the filtered trace holds the write of thread 1 alone, the
trace of thread 2 is empty, and `Calculate` stops at `assert(trace_temp->size() > 0)`. On
the log of a run in which the `join_all` of thread 1 blocks first, the filtered trace is
empty and `Calculate` stops at the same assertion for thread 1. -/
theorem Calculate_fails_on_thread_without_entry :
    RWHistory.FindSharedRW sampleParamsTSO RWHistory.spawnJoinLog [] =
        [⟨1, RWType.WRITE, 5, 100, 3⟩] ∧
      threadTrace (RWHistory.FindSharedRW sampleParamsTSO RWHistory.spawnJoinLog []) 2 = [] ∧
      Calculate sampleParamsTSO
        (RWHistory.FindSharedRW sampleParamsTSO RWHistory.spawnJoinLog []) 3 init = none ∧
      RWHistory.FindSharedRW sampleParamsTSO RWHistory.blockedJoinLog [] = [] ∧
      Calculate sampleParamsTSO
        (RWHistory.FindSharedRW sampleParamsTSO RWHistory.blockedJoinLog []) 3 init = none := by
  have h : RWHistory.FindSharedRW sampleParamsTSO RWHistory.spawnJoinLog [] =
      [⟨1, RWType.WRITE, 5, 100, 3⟩] := by
    decide
  have h2 : RWHistory.FindSharedRW sampleParamsTSO RWHistory.blockedJoinLog [] = [] := by
    decide
  rw [h, h2]
  exact ⟨rfl, by decide, by decide, rfl, by decide⟩

end Constraints

namespace CheckTrace

/-! ### Histories without overlapping calls (C37) -/

theorem pairs_induction {α : Type} {motive : List α → Prop} (h0 : motive [])
    (h1 : ∀ a, motive [a]) (h2 : ∀ a b rest, motive rest → motive (a :: b :: rest)) :
    ∀ l, motive l := by
  intro l
  have h : motive l ∧ ∀ a, motive (a :: l) := by
    induction l with
    | nil => exact ⟨h0, h1⟩
    | cons b rest ih => exact ⟨ih.2 b, fun a => h2 a b rest ih.1⟩
  exact h.1

/-- The calls matched in a history without overlapping calls are its pairs of entries. -/
theorem matchCalls_sequential (tr : List trace_elem) :
    ∀ rest : List trace_elem, Sequential rest →
      ∀ (i : Nat) (calls : Nat → Option Nat) (acc : List perm_elem),
        matchCalls tr rest i calls acc = acc ++ seqCalls tr rest i := by
  intro rest
  induction rest using pairs_induction with
  | h0 =>
    intro _ i calls acc
    rw [matchCalls, seqCalls, List.append_nil]
  | h1 a =>
    intro h
    exact absurd h (by simp [Sequential])
  | h2 c r rest ih =>
    intro h i calls acc
    rw [Sequential] at h
    obtain ⟨hc, hr, ht, hrest⟩ := h
    have hne : ¬ r.type = inst_type.CALL_FUNC := by rw [hr]; decide
    have hcalls : Function.update calls c.thread (some i) r.thread = some i := by
      rw [ht, Function.update_same]
    rw [matchCalls, if_pos hc, matchCalls, if_neg hne, if_pos hr]
    dsimp only
    rw [hcalls, Option.getD_some, ih hrest, seqCalls, List.append_assoc]
    rfl

/-- The indices of the k-th call of a history without overlapping calls. -/
theorem seqCalls_index (tr : List trace_elem) :
    ∀ (rest : List trace_elem) (i k : Nat), k < (seqCalls tr rest i).length →
      ((seqCalls tr rest i).getD k default).call = i + 2 * k ∧
        ((seqCalls tr rest i).getD k default).ret = i + 2 * k + 1 := by
  intro rest
  induction rest using pairs_induction with
  | h0 =>
    intro i k hk
    rw [seqCalls] at hk
    exact absurd hk (by simp)
  | h1 a =>
    intro i k hk
    rw [seqCalls] at hk
    exact absurd hk (by simp)
  | h2 c r rest ih =>
    intro i k hk
    rw [seqCalls] at hk ⊢
    cases k with
    | zero => exact ⟨rfl, rfl⟩
    | succ k =>
      rw [List.length_cons] at hk
      have := ih (i + 2) k (by omega)
      rw [List.getD_cons_succ]
      constructor
      · rw [this.1]; omega
      · rw [this.2]; omega

/-- In the calls matched in a history without overlapping calls, the call `k` spans the
entries `2 * k` and `2 * k + 1`. -/
theorem gen_init_sequential (history : List trace_elem) (n : Nat) (junk : Nat → Nat)
    (hseq : Sequential history) :
    ∀ k, k < (gen_init_sc_perm history n junk).init_perm.length →
      callIdx (gen_init_sc_perm history n junk).init_perm k = 2 * k ∧
        retIdx (gen_init_sc_perm history n junk).init_perm k = 2 * k + 1 := by
  intro k hk
  have hip : (gen_init_sc_perm history n junk).init_perm = seqCalls history history 0 := by
    show matchCalls history history 0 (fun _ => none) [] = _
    rw [matchCalls_sequential history history hseq, List.nil_append]
  rw [hip] at hk ⊢
  have := seqCalls_index history history 0 k hk
  unfold callIdx retIdx
  constructor
  · rw [this.1]; omega
  · rw [this.2]; omega

/-- When the calls follow one another in real time, the recording order is the one
ordering of the calls that keeps the real-time order. -/
theorem rt_sequential (ip : List perm_elem)
    (hc : ∀ k, k < ip.length → callIdx ip k = 2 * k ∧ retIdx ip k = 2 * k + 1)
    (p : List Nat) (hp : p.Perm (List.range ip.length)) :
    isRealTimeOrderPreserved ip p = true ↔ p = List.range ip.length := by
  have hmem : ∀ k ∈ p, k < ip.length := fun k hk => List.mem_range.1 (hp.mem_iff.1 hk)
  have hnd : p.Nodup := hp.nodup_iff.2 (List.nodup_range _)
  have hdist : (p.map (callIdx ip) ++ p.map (retIdx ip)).Nodup := by
    rw [List.nodup_append]
    refine ⟨?_, ?_, ?_⟩
    · refine List.Nodup.map_on ?_ hnd
      intro x hx y hy hxy
      have h1 := hc x (hmem x hx)
      have h2 := hc y (hmem y hy)
      omega
    · refine List.Nodup.map_on ?_ hnd
      intro x hx y hy hxy
      have h1 := hc x (hmem x hx)
      have h2 := hc y (hmem y hy)
      omega
    · intro v hv1 hv2
      rw [List.mem_map] at hv1 hv2
      obtain ⟨a, ha, ha2⟩ := hv1
      obtain ⟨b, hb, hb2⟩ := hv2
      have h1 := hc a (hmem a ha)
      have h2 := hc b (hmem b hb)
      omega
  rw [rt_pairwise_iff ip p
    (fun k hk => by have := hc k (hmem k hk); omega) hdist]
  constructor
  · intro hpw
    have hs : p.Sorted (· ≤ ·) := by
      refine (List.Pairwise.and_mem.1 hpw).imp ?_
      rintro a b ⟨ha, hb, h⟩
      have h1 := hc a (hmem a ha)
      have h2 := hc b (hmem b hb)
      omega
    exact List.eq_of_perm_of_sorted hp hs (List.sorted_le_range _)
  · intro h
    rw [h]
    refine (List.Pairwise.and_mem.1 (List.pairwise_lt_range ip.length)).imp ?_
    rintro a b ⟨ha, hb, h⟩
    have h1 := hc a (List.mem_range.1 ha)
    have h2 := hc b (List.mem_range.1 hb)
    omega

/-- The enumerated permutations are the orderings of the calls that keep the order of
every thread. -/
theorem mem_enumeratedPerms_iff (history : List trace_elem) (n : Nat) (junk : Nat → Nat)
    (hwf : ∀ e ∈ history, e.thread < n) (p : List Nat) :
    p ∈ enumeratedPerms history n junk ↔
      p.Perm (List.range (gen_init_sc_perm history n junk).init_perm.length) ∧
        KeepsThreadOrder (gen_init_sc_perm history n junk).init_perm p := by
  rw [enumeratedPerms_eq_map history n junk hwf]
  simp only [List.mem_map, mem_threadPermsFrom_sorted]
  constructor
  · rintro ⟨tp, htp, rfl⟩
    exact ⟨(assignFresh_valid _ tp htp).1, (assignFresh_valid _ tp htp).2.1⟩
  · rintro ⟨hp, hord⟩
    obtain ⟨h1, h2⟩ := assignFresh_of_valid _ p hp hord
    exact ⟨_, h1, h2⟩

/-- With recording on, `checkHistory` returns 0 exactly when an enumerated permutation is
accepted. -/
theorem checkHistory_zero_iff (P : Params) (X : WSQExtern) (U : Indet)
    (history : List trace_elem) (n : Nat) (hrec : P.recTrace = true) :
    checkHistory P X U history n = Outcome.returned 0 ↔
      ∃ p ∈ enumeratedPerms history n U.index,
        accepted P X U (gen_init_sc_perm history n U.index).init_perm p := by
  have hch : checkHistory P X U history n =
      checkLoop P X U n (permFuel (gen_init_sc_perm history n U.index) + 1)
        (gen_init_sc_perm history n U.index) := by
    unfold checkHistory
    simp [hrec]
  rw [hch]
  by_cases hprog : P.programToCheck ≠ program_type.NO_PROGRAM ∧
      P.programToCheck ≠ program_type.SKIP_LIST
  · have hloop := checkLoop_spec P X U n hprog _ _ (endsWithin_gen_init history n U.index)
    unfold enumeratedPerms
    refine ⟨fun h => ?_, hloop.1⟩
    by_contra hno
    rw [hloop.2 hno] at h
    cases h
  · constructor
    · intro h
      exact absurd h (checkLoop_ne_zero_of_none P X U n
        (fun ip cp => checkPermutation_none P X U hprog ip cp) _ _)
    · rintro ⟨p, -, hacc⟩
      unfold accepted at hacc
      rw [checkPermutation_none P X U hprog] at hacc
      exact absurd hacc.2 (by simp)

/-- C37: under `PROPERTY = LIN`, for a history in which no two calls overlap (and whose
entries belong to threads with a tag below `nextThreadNum`), the recording order of the
calls is among the enumerated permutations and is the only one of them that passes
`isRealTimeOrderPreserved`; `checkHistory` returns 0 exactly when `checkPermutation` accepts
the calls in their recording order. -/
theorem checkHistory_sequential (P : Params) (X : WSQExtern) (U : Indet)
    (history : List trace_elem) (nextThreadNum : Nat)
    (hlin : P.Property = PROP_LIN) (hseq : Sequential history)
    (hwf : ∀ e ∈ history, e.thread < nextThreadNum) :
    List.range (gen_init_sc_perm history nextThreadNum U.index).init_perm.length ∈
        enumeratedPerms history nextThreadNum U.index ∧
      (∀ p ∈ enumeratedPerms history nextThreadNum U.index,
        (isRealTimeOrderPreserved (gen_init_sc_perm history nextThreadNum U.index).init_perm p =
            true ↔
          p = List.range (gen_init_sc_perm history nextThreadNum U.index).init_perm.length)) ∧
      (checkHistory P X U history nextThreadNum = Outcome.returned 0 ↔
        checkPermutation P X U (gen_init_sc_perm history nextThreadNum U.index).init_perm
          (List.range (gen_init_sc_perm history nextThreadNum U.index).init_perm.length) =
          some true) := by
  have hc := gen_init_sequential history nextThreadNum U.index hseq
  have hrange : List.range (gen_init_sc_perm history nextThreadNum U.index).init_perm.length ∈
      enumeratedPerms history nextThreadNum U.index := by
    rw [mem_enumeratedPerms_iff history nextThreadNum U.index hwf]
    refine ⟨List.Perm.refl _, ?_⟩
    unfold KeepsThreadOrder
    refine List.Pairwise.imp ?_ (List.pairwise_lt_range _)
    intro a b h _
    exact h
  have hrt : ∀ p ∈ enumeratedPerms history nextThreadNum U.index,
      (isRealTimeOrderPreserved (gen_init_sc_perm history nextThreadNum U.index).init_perm p =
          true ↔
        p = List.range (gen_init_sc_perm history nextThreadNum U.index).init_perm.length) := by
    intro p hp
    rw [mem_enumeratedPerms_iff history nextThreadNum U.index hwf] at hp
    exact rt_sequential _ hc p hp.1
  refine ⟨hrange, hrt, ?_⟩
  have hrec : P.recTrace = true := by
    unfold Params.recTrace
    simp [hlin]
  rw [checkHistory_zero_iff P X U history nextThreadNum hrec]
  constructor
  · rintro ⟨p, hp, hacc⟩
    unfold accepted at hacc
    have := (hrt p hp).1 (hacc.1 hlin)
    rw [← this]
    exact hacc.2
  · intro h
    refine ⟨_, hrange, ?_⟩
    unfold accepted
    exact ⟨fun _ => (hrt _ hrange).2 rfl, h⟩

theorem checkHistory_sequential_witness :
    List.range (gen_init_sc_perm sequentialHistory 3 sampleIndet.index).init_perm.length ∈
        enumeratedPerms sequentialHistory 3 sampleIndet.index ∧
      (∀ p ∈ enumeratedPerms sequentialHistory 3 sampleIndet.index,
        (isRealTimeOrderPreserved
            (gen_init_sc_perm sequentialHistory 3 sampleIndet.index).init_perm p = true ↔
          p = List.range
            (gen_init_sc_perm sequentialHistory 3 sampleIndet.index).init_perm.length)) ∧
      (checkHistory ⟨PROP_LIN, WMM_TSO, program_type.WSQ_CHASE, true⟩ sampleExtern sampleIndet
          sequentialHistory 3 = Outcome.returned 0 ↔
        checkPermutation ⟨PROP_LIN, WMM_TSO, program_type.WSQ_CHASE, true⟩ sampleExtern
          sampleIndet (gen_init_sc_perm sequentialHistory 3 sampleIndet.index).init_perm
          (List.range (gen_init_sc_perm sequentialHistory 3 sampleIndet.index).init_perm.length) =
          some true) :=
  checkHistory_sequential ⟨PROP_LIN, WMM_TSO, program_type.WSQ_CHASE, true⟩ sampleExtern
    sampleIndet sequentialHistory 3 rfl (by simp [Sequential, sequentialHistory, callEntry,
      returnEntry])
    (by decide)

end CheckTrace

namespace CheckTrace

/-! ### The replay of the linked set and of the queue (C38, C39) -/

/-- One round of the loop of `checkLinkSet` returns false or goes on with the rest of the
permutation. -/
theorem checkLinkSetLoop_cons (prog : program_type) (e : trace_elem)
    (rest : List trace_elem) (q : List Int) (task rst : Int) :
    checkLinkSetLoop prog (e :: rest) q task rst = false ∨
      ∃ q1 task1 rst1, checkLinkSetLoop prog (e :: rest) q task rst =
        checkLinkSetLoop prog rest q1 task1 rst1 := by
  rw [checkLinkSetLoop]
  dsimp only
  repeat' (first | split | dsimp only)
  all_goals first | exact Or.inl rfl | exact Or.inr ⟨_, _, _, rfl⟩

/-- A `linkset_add` with a return value other than 1 ends the loop with false. -/
theorem checkLinkSetLoop_bad_add (prog : program_type) (e : trace_elem)
    (rest : List trace_elem) (q : List Int) (task rst : Int)
    (hadd : e.func = "linkset_add") (hret : e.ret_val ≠ 1) :
    checkLinkSetLoop prog (e :: rest) q task rst = false := by
  rw [checkLinkSetLoop]
  simp [hadd, hret]

theorem checkLinkSetLoop_false (prog : program_type) :
    ∀ (elems : List trace_elem) (q : List Int) (task rst : Int),
      (∃ e ∈ elems, e.func = "linkset_add" ∧ e.ret_val ≠ 1) →
      checkLinkSetLoop prog elems q task rst = false := by
  intro elems
  induction elems with
  | nil =>
    rintro _ _ _ ⟨e, he, _⟩
    exact absurd he (List.not_mem_nil e)
  | cons x rest ih =>
    rintro q task rst ⟨e, he, hadd, hret⟩
    rcases List.mem_cons.1 he with rfl | he
    · exact checkLinkSetLoop_bad_add prog e rest q task rst hadd hret
    · rcases checkLinkSetLoop_cons prog x rest q task rst with h | ⟨q1, task1, rst1, h⟩
      · exact h
      · rw [h]
        exact ih q1 task1 rst1 ⟨e, he, hadd, hret⟩

/-- C39: `seq_linkset_add` returns 1 whether or not the element is in the set, and
`checkLinkSet` returns false for every permutation that holds a `linkset_add` whose
recorded return value is not 1, whatever the program configured, the calls before it and
the content of the set at that point. -/
theorem checkLinkSet_add_must_return_one :
    (∀ (task : Int) (q : List Int), (LKS.seq_linkset_add task q).1 = 1) ∧
    (∀ (prog : program_type) (task0 rst0 : Int) (init_perm : List perm_elem)
      (curr_perm : List Nat),
      (∃ e ∈ permElems init_perm curr_perm, e.func = "linkset_add" ∧ e.ret_val ≠ 1) →
      checkLinkSet prog task0 rst0 init_perm curr_perm = false) := by
  refine ⟨fun _ _ => rfl, ?_⟩
  rintro prog task0 rst0 init_perm curr_perm ⟨e, he, hadd, hret⟩
  unfold checkLinkSet
  exact checkLinkSetLoop_false prog _ _ _ _ ⟨e, he, hadd, hret⟩

theorem checkLinkSet_add_must_return_one_witness :
    checkLinkSet program_type.LINKSET 0 0
      [⟨0, 1, ⟨inst_type.NONE, [5], 1, "linkset_add", 1⟩⟩,
        ⟨2, 3, ⟨inst_type.NONE, [5], 0, "linkset_add", 2⟩⟩] [0, 1] = false :=
  checkLinkSet_add_must_return_one.2 program_type.LINKSET 0 0
    [⟨0, 1, ⟨inst_type.NONE, [5], 1, "linkset_add", 1⟩⟩,
      ⟨2, 3, ⟨inst_type.NONE, [5], 0, "linkset_add", 2⟩⟩] [0, 1]
    ⟨⟨inst_type.NONE, [5], 0, "linkset_add", 2⟩, by decide, rfl, by decide⟩

end CheckTrace

namespace CheckTrace

theorem putsOf_cons (e : trace_elem) (es : List trace_elem) :
    putsOf (e :: es) =
      if e.func = "wsq_put" then e.arg_vals.getLastD 0 :: putsOf es else putsOf es := by
  unfold putsOf
  rw [List.filterMap_cons]
  by_cases h : e.func = "wsq_put" <;> simp [h]

theorem takenOf_cons (e : trace_elem) (es : List trace_elem) :
    takenOf (e :: es) =
      if (e.func = "wsq_take" ∨ e.func = "wsq_steal") ∧ e.ret_val ≠ -1 then
        e.ret_val :: takenOf es
      else takenOf es := by
  unfold takenOf
  rw [List.filterMap_cons]
  by_cases h : (e.func = "wsq_take" ∨ e.func = "wsq_steal") ∧ e.ret_val ≠ -1
  · rw [if_pos h, if_pos h]
  · rw [if_neg h, if_neg h]

/-- The loop of `checkWSQ` for the Chase queue, started with the content `q`: the values
other than -1 that the takes and steals of a prefix returned are among the content `q`
and the arguments of the puts of that prefix, each as often at most. -/
theorem checkWSQLoop_chase_taken (X : WSQExtern) :
    ∀ (elems : List trace_elem) (q : List Int) (task : Int),
      checkWSQLoop program_type.WSQ_CHASE X elems q task = true →
      ∀ pre post, elems = pre ++ post → (takenOf pre).Subperm (q ++ putsOf pre) := by
  intro elems
  induction elems with
  | nil =>
    intro q task _ pre post hsplit
    have hpre : pre = [] := (List.append_eq_nil.1 hsplit.symm).1
    rw [hpre]
    exact List.nil_subperm
  | cons e rest ih =>
    intro q task h pre post hsplit
    cases pre with
    | nil => exact List.nil_subperm
    | cons e1 pre1 =>
      rw [List.cons_append] at hsplit
      obtain ⟨he, hrest⟩ := List.cons.inj hsplit
      subst he
      rw [checkWSQLoop] at h
      rw [putsOf_cons, takenOf_cons]
      by_cases hput : e.func = "wsq_put"
      · simp only [if_pos hput, if_true, WSQ.seq_wsq_put_chase] at h
        have h1 : checkWSQLoop program_type.WSQ_CHASE X rest (q ++ [e.arg_vals.getLastD 0])
            (e.arg_vals.getLastD 0) = true := by
          by_cases hr : e.ret_val = 1
          · simpa [hr] using h
          · simp [hr] at h
        have hih := ih _ _ h1 pre1 post hrest
        have hnot : ¬ ((e.func = "wsq_take" ∨ e.func = "wsq_steal") ∧ e.ret_val ≠ -1) := by
          rw [hput]
          intro hc
          rcases hc.1 with h2 | h2
          · exact absurd h2 (by decide)
          · exact absurd h2 (by decide)
        rw [if_pos hput, if_neg hnot]
        refine hih.trans (List.Perm.subperm ?_)
        rw [List.append_assoc]
        exact List.Perm.refl _
      · rw [if_neg hput]
        simp only [if_neg hput, if_true] at h
        by_cases htake : e.func = "wsq_take"
        · simp only [if_pos htake, WSQ.seq_wsq_take_chase] at h
          rcases List.eq_nil_or_concat q with hq | ⟨q1, y, hq⟩
          · subst hq
            simp only [ne_eq, not_true_eq_false, if_false] at h
            have hret : e.ret_val = -1 := by
              by_contra hne
              have hne2 : ¬ (-1 : Int) = e.ret_val := fun hc => hne hc.symm
              simp [hne2] at h
            have h1 : checkWSQLoop program_type.WSQ_CHASE X rest [] (-1) = true := by
              simpa [hret] using h
            rw [if_neg (fun hc => hc.2 hret)]
            exact ih _ _ h1 pre1 post hrest
          · rw [List.concat_eq_append] at hq
            subst hq
            have hne : q1 ++ [y] ≠ [] := by simp
            simp only [ne_eq, hne, not_false_eq_true, if_true, List.getLastD_concat,
              List.dropLast_concat] at h
            have hret : e.ret_val = y := by
              by_contra hne2
              have hne3 : ¬ y = e.ret_val := fun hc => hne2 hc.symm
              simp [hne3] at h
            have h1 : checkWSQLoop program_type.WSQ_CHASE X rest q1 y = true := by
              simpa [hret] using h
            have hih := ih _ _ h1 pre1 post hrest
            have hbig : (y :: takenOf pre1).Subperm ((q1 ++ [y]) ++ putsOf pre1) := by
              refine (List.subperm_cons y |>.2 hih).trans (List.Perm.subperm ?_)
              rw [List.append_assoc]
              have hm : (q1 ++ y :: putsOf pre1).Perm (y :: (q1 ++ putsOf pre1)) :=
                List.perm_middle
              exact hm.symm
            split
            · rw [hret]
              exact hbig
            · exact ((List.sublist_cons_self y _).subperm).trans hbig
        · simp only [if_neg htake] at h
          by_cases hsteal : e.func = "wsq_steal"
          · simp only [if_pos hsteal, WSQ.seq_wsq_steal_chase] at h
            cases q with
            | nil =>
              simp only [ne_eq, not_true_eq_false, if_false] at h
              have hret : e.ret_val = -1 := by
                by_contra hne
                have hne2 : ¬ (-1 : Int) = e.ret_val := fun hc => hne hc.symm
                simp [hne2] at h
              have h1 : checkWSQLoop program_type.WSQ_CHASE X rest [] (-1) = true := by
                simpa [hret] using h
              rw [if_neg (fun hc => hc.2 hret)]
              exact ih _ _ h1 pre1 post hrest
            | cons y q1 =>
              simp only [ne_eq, reduceCtorEq, not_false_eq_true, if_true, List.headD_cons,
                List.tail_cons] at h
              have hret : e.ret_val = y := by
                by_contra hne2
                have hne3 : ¬ y = e.ret_val := fun hc => hne2 hc.symm
                simp [hne3] at h
              have h1 : checkWSQLoop program_type.WSQ_CHASE X rest q1 y = true := by
                simpa [hret] using h
              have hih := ih _ _ h1 pre1 post hrest
              have hbig : (y :: takenOf pre1).Subperm ((y :: q1) ++ putsOf pre1) :=
                List.subperm_cons y |>.2 hih
              split
              · rw [hret]
                exact hbig
              · exact ((List.sublist_cons_self y _).subperm).trans hbig
          · simp only [if_neg hsteal] at h
            rw [if_neg (fun hc => hc.1.elim htake hsteal)]
            exact ih _ _ h pre1 post hrest

/-- C38: with PROGRAM = WSQ_CHASE, in every permutation that `checkWSQ` accepts and for
every prefix of it, the values other than -1 returned by the `wsq_take` and `wsq_steal`
calls of the prefix form a multiset that is contained in the multiset of the arguments of
the `wsq_put` calls of the prefix, which are the puts placed before: no task is returned
that was not put before, and no task is returned more often than it was put. -/
theorem checkWSQ_chase_returns_put_tasks (X : WSQExtern) (task0 : Int)
    (init_perm : List perm_elem) (curr_perm : List Nat)
    (h : checkWSQ program_type.WSQ_CHASE X task0 init_perm curr_perm = true) :
    ∀ pre post, permElems init_perm curr_perm = pre ++ post →
      ((takenOf pre : Multiset Int) ≤ (putsOf pre : Multiset Int)) ∧
      (∀ y ∈ takenOf pre, y ∈ putsOf pre) ∧
      (∀ y, (takenOf pre).count y ≤ (putsOf pre).count y) := by
  intro pre post hsplit
  unfold checkWSQ at h
  have hsub : (takenOf pre).Subperm (putsOf pre) := by
    have := checkWSQLoop_chase_taken X _ [] task0 h pre post hsplit
    simpa using this
  exact ⟨Multiset.coe_le.2 hsub, fun y hy => hsub.subset hy, fun y => hsub.count_le y⟩

theorem checkWSQ_chase_returns_put_tasks_witness :
    ((takenOf (permElems (gen_init_sc_perm sampleHistory 3 (fun _ => 0)).init_perm [0, 1]) :
        Multiset Int) ≤
      (putsOf (permElems (gen_init_sc_perm sampleHistory 3 (fun _ => 0)).init_perm [0, 1]) :
        Multiset Int)) ∧
    (∀ y ∈ takenOf (permElems (gen_init_sc_perm sampleHistory 3 (fun _ => 0)).init_perm [0, 1]),
      y ∈ putsOf (permElems (gen_init_sc_perm sampleHistory 3 (fun _ => 0)).init_perm [0, 1])) ∧
    (∀ y, (takenOf (permElems (gen_init_sc_perm sampleHistory 3 (fun _ => 0)).init_perm
        [0, 1])).count y ≤
      (putsOf (permElems (gen_init_sc_perm sampleHistory 3 (fun _ => 0)).init_perm
        [0, 1])).count y) :=
  checkWSQ_chase_returns_put_tasks sampleExtern 0
    (gen_init_sc_perm sampleHistory 3 (fun _ => 0)).init_perm [0, 1] (by decide)
    (permElems (gen_init_sc_perm sampleHistory 3 (fun _ => 0)).init_perm [0, 1]) []
    (by simp)

end CheckTrace

namespace Interpreter

/-! ### Thread tags and depth counters (C40) -/

/-- The recorder, called for a thread that has a depth counter, reads no vector beyond its
end and leaves the number of the counters as it is. -/
theorem recordEvent_length (P : Params) (funcs_rec : List String) (t : Nat) (h : History)
    (e : History.Event) (ht : t < h.recur_calls.length) :
    ∃ h1, History.recordEvent P funcs_rec t h e = some h1 ∧
      h1.recur_calls.length = h.recur_calls.length := by
  have hd : h.recur_calls[t]? = some (h.recur_calls.get ⟨t, ht⟩) := by
    rw [List.getElem?_eq_getElem ht]
    rfl
  cases e with
  | call f args junk =>
    by_cases hs : P.recTrace = true ∧ f ∈ funcs_rec
    · obtain ⟨h1, he, -, hr⟩ :=
        History.recordEvent_call P funcs_rec t h f args junk _ hs.1 hs.2 hd
      exact ⟨h1, he, by rw [hr, List.length_set]⟩
    · obtain ⟨h1, he, -, hr⟩ :=
        History.recordEvent_skip P funcs_rec t h (History.Event.call f args junk) f
          (Or.inl ⟨args, junk, rfl⟩)
          (by
            by_cases hr : P.recTrace = true
            · exact Or.inr (fun hf => hs ⟨hr, hf⟩)
            · exact Or.inl (by simpa using hr))
      exact ⟨h1, he, by rw [hr]⟩
  | ret f RetTy Result =>
    by_cases hs : P.recTrace = true ∧ f ∈ funcs_rec
    · obtain ⟨h1, he, -, hr⟩ :=
        History.recordEvent_ret P funcs_rec t h f RetTy Result _ hs.1 hs.2 hd
      exact ⟨h1, he, by rw [hr, List.length_set]⟩
    · obtain ⟨h1, he, -, hr⟩ :=
        History.recordEvent_skip P funcs_rec t h (History.Event.ret f RetTy Result) f
          (Or.inr ⟨RetTy, Result, rfl⟩)
          (by
            by_cases hr : P.recTrace = true
            · exact Or.inr (fun hf => hs ⟨hr, hf⟩)
            · exact Or.inl (by simpa using hr))
      exact ⟨h1, he, by rw [hr]⟩

/-- The access `threadStacks[t]` for a tag above every key adds the thread at the end. -/
theorem stackUpdate_new (t : Nat) (f : List ExecutionContext → List ExecutionContext) :
    ∀ l : List (Nat × List ExecutionContext), (∀ e ∈ l, e.1 < t) →
      stackUpdate t f l = l ++ [(t, f [])] := by
  intro l
  induction l with
  | nil => intro _; rfl
  | cons e rest ih =>
    intro h
    obtain ⟨k, frames⟩ := e
    have hk : k < t := h (k, frames) (List.mem_cons_self _ _)
    rw [stackUpdate, if_neg (by omega), if_neg (by omega),
      ih (fun e he => h e (List.mem_cons_of_mem _ he))]
    rfl

/-- The access `threadStacks[t]` for the last key changes the stack of this thread. -/
theorem stackUpdate_last (t : Nat) (f : List ExecutionContext → List ExecutionContext)
    (x : List ExecutionContext) :
    ∀ l : List (Nat × List ExecutionContext), (∀ e ∈ l, e.1 < t) →
      stackUpdate t f (l ++ [(t, x)]) = l ++ [(t, f x)] := by
  intro l
  induction l with
  | nil =>
    intro _
    rw [List.nil_append, stackUpdate, if_pos rfl]
    rfl
  | cons e rest ih =>
    intro h
    obtain ⟨k, frames⟩ := e
    have hk : k < t := h (k, frames) (List.mem_cons_self _ _)
    rw [List.cons_append, stackUpdate, if_neg (by omega), if_neg (by omega),
      ih (fun e he => h e (List.mem_cons_of_mem _ he))]
    rfl

/-- One step of a run keeps the invariant of the threads; a spawn adds a thread. -/
theorem step_ThreadsInv (P : Params) (funcs_rec : List String) (funcs : List Nat)
    (u : rwtrace_elem) (hrec : P.recTrace = true) (m : Machine) (k : Nat)
    (hinv : ThreadsInv m k) (s : Step)
    (hfun : ∀ Arg callee, s = Step.spawn Arg callee → Arg ∈ funcs) :
    ∃ m1, step P funcs_rec funcs u m s = some m1 ∧ ThreadsInv m1 (k + spawns [s]) := by
  obtain ⟨hnext, hkeys, hcount, hcurr⟩ := hinv
  cases s with
  | spawn Arg callee =>
    have hA := hfun Arg callee rfl
    have hlt : ∀ e ∈ m.interp.threadStacks, e.1 < m.nextThreadNum := by
      intro e he
      have hm : e.1 ∈ m.interp.threadStacks.map Prod.fst := List.mem_map_of_mem _ he
      rw [hkeys, List.mem_range'_1] at hm
      omega
    have hc : createThread funcs callee Arg m =
        some { m with
          interp := { m.interp with
            threadStacks := m.interp.threadStacks ++ [(m.nextThreadNum, [] ++ callee.toList)] }
          nextThreadNum := m.nextThreadNum + 1 } := by
      unfold createThread
      dsimp only
      rw [if_pos hA, stackUpdate_new _ _ _ hlt, stackUpdate_last _ _ _ _ hlt]
    refine ⟨{ interp := { m.interp with
                threadStacks :=
                  m.interp.threadStacks ++ [(m.nextThreadNum, [] ++ callee.toList)]
                rwtrace_rec :=
                  RecordRWEventThr u m.interp.currThread RWType.SPAWN 0 m.interp.rwtrace_rec }
              history := History.RecordFirstEvent P m.history
              nextThreadNum := m.nextThreadNum + 1 }, ?_, ?_⟩
    · show visitSpawnThread P funcs callee u Arg m = _
      unfold visitSpawnThread
      rw [hc, Option.map_some']
    · refine ⟨?_, ?_, ?_, ?_⟩
      · show m.nextThreadNum + 1 = 2 + (k + spawns [Step.spawn Arg callee])
        simp only [spawns]
        omega
      · show (m.interp.threadStacks ++ [(m.nextThreadNum, [] ++ callee.toList)]).map Prod.fst =
          List.range' 1 (1 + (k + spawns [Step.spawn Arg callee]))
        rw [List.map_append, hkeys, hnext]
        simp only [spawns, List.map_cons, List.map_nil]
        have h1 : 1 + (k + (0 + 1)) = (1 + k) + 1 := by omega
        rw [h1, List.range'_1_concat]
        have h2 : 1 + (1 + k) = 2 + k := by omega
        rw [h2]
      · show (History.RecordFirstEvent P m.history).recur_calls.length = m.nextThreadNum + 1
        unfold History.RecordFirstEvent
        rw [if_pos hrec]
        simp only [List.length_append, List.length_singleton, hcount]
      · show 1 ≤ m.interp.currThread ∧ m.interp.currThread < m.nextThreadNum + 1
        omega
  | switch t =>
    by_cases ht : t ∈ m.interp.threadStacks.map Prod.fst
    · refine ⟨{ m with interp := { m.interp with currThread := t } }, ?_, ?_⟩
      · show (if t ∈ m.interp.threadStacks.map Prod.fst then _ else _) = _
        rw [if_pos ht]
      · refine ⟨?_, ?_, hcount, ?_⟩
        · simpa [spawns] using hnext
        · simpa [spawns] using hkeys
        · show 1 ≤ t ∧ t < m.nextThreadNum
          rw [hkeys, List.mem_range'_1] at ht
          omega
    · refine ⟨m, ?_, ?_⟩
      · show (if t ∈ m.interp.threadStacks.map Prod.fst then _ else _) = _
        rw [if_neg ht]
      · exact ⟨by simpa [spawns] using hnext, by simpa [spawns] using hkeys, hcount, hcurr⟩
  | call f args junk =>
    obtain ⟨h1, he, hl⟩ := recordEvent_length P funcs_rec m.interp.currThread m.history
      (History.Event.call f args junk) (by omega)
    refine ⟨{ m with history := h1 }, ?_, ?_⟩
    · show (History.recordEvent P funcs_rec m.interp.currThread m.history _).map _ = _
      rw [he, Option.map_some']
    · exact ⟨by simpa [spawns] using hnext, by simpa [spawns] using hkeys,
        by show h1.recur_calls.length = m.nextThreadNum; omega, hcurr⟩
  | ret f RetTy Result =>
    obtain ⟨h1, he, hl⟩ := recordEvent_length P funcs_rec m.interp.currThread m.history
      (History.Event.ret f RetTy Result) (by omega)
    refine ⟨{ m with history := h1 }, ?_, ?_⟩
    · show (History.recordEvent P funcs_rec m.interp.currThread m.history _).map _ = _
      rw [he, Option.map_some']
    · exact ⟨by simpa [spawns] using hnext, by simpa [spawns] using hkeys,
        by show h1.recur_calls.length = m.nextThreadNum; omega, hcurr⟩

theorem spawns_cons (s : Step) (rest : List Step) :
    spawns (s :: rest) = spawns [s] + spawns rest := by
  cases s
  · simp only [spawns]; omega
  all_goals simp [spawns]

/-- A run keeps the invariant of the threads from a state that has it. -/
theorem runSteps_ThreadsInv (P : Params) (funcs_rec : List String) (funcs : List Nat)
    (u : rwtrace_elem) (hrec : P.recTrace = true) :
    ∀ (steps : List Step) (m : Machine) (k : Nat), ThreadsInv m k →
      (∀ Arg callee, Step.spawn Arg callee ∈ steps → Arg ∈ funcs) →
      ∃ m1, runSteps P funcs_rec funcs u steps m = some m1 ∧
        ThreadsInv m1 (k + spawns steps) := by
  intro steps
  induction steps with
  | nil =>
    intro m k hinv _
    exact ⟨m, rfl, by simpa [spawns] using hinv⟩
  | cons s rest ih =>
    intro m k hinv hfun
    obtain ⟨m1, hs, hinv1⟩ := step_ThreadsInv P funcs_rec funcs u hrec m k hinv s
      (fun Arg callee he => hfun Arg callee (by rw [he]; exact List.mem_cons_self _ _))
    obtain ⟨m2, hr, hinv2⟩ := ih m1 _ hinv1
      (fun Arg callee he => hfun Arg callee (List.mem_cons_of_mem _ he))
    refine ⟨m2, ?_, ?_⟩
    · rw [runSteps, hs, Option.some_bind, hr]
    · rw [spawns_cons, ← Nat.add_assoc]
      exact hinv2

/-- C40: with recording on, every run from the state that the constructor leaves, in which
the spawned functions are functions of the module, goes through without a failed
assertion and without reading a vector beyond its end, and after it `nextThreadNum` is 2
plus the number of spawns, the threads are `1, ..., 1 + spawns` (the k-th spawn creates the
thread `k + 1`), `recur_calls` has `nextThreadNum` entries, so that `recur_calls[tid]` is in
range for every tag `1 ≤ tid < nextThreadNum`, and the current thread is such a tag. -/
theorem thread_tags_consecutive (P : Params) (funcs_rec : List String) (funcs : List Nat)
    (u : rwtrace_elem) (memory : Memory) (table : List (Nat × Int)) (steps : List Step)
    (hrec : P.recTrace = true)
    (hfun : ∀ Arg callee, Step.spawn Arg callee ∈ steps → Arg ∈ funcs) :
    ∃ m, runSteps P funcs_rec funcs u steps (construct memory table) = some m ∧
      m.nextThreadNum = 2 + spawns steps ∧
      m.interp.threadStacks.map Prod.fst = List.range' 1 (1 + spawns steps) ∧
      m.history.recur_calls.length = m.nextThreadNum ∧
      (∀ tid, 1 ≤ tid → tid < m.nextThreadNum → ∃ d, m.history.recur_calls[tid]? = some d) ∧
      1 ≤ m.interp.currThread ∧ m.interp.currThread < m.nextThreadNum := by
  have h0 : ThreadsInv (construct memory table) 0 := ⟨rfl, rfl, rfl, ⟨Nat.le_refl 1, Nat.lt_succ_self 1⟩⟩
  obtain ⟨m, hr, hinv⟩ := runSteps_ThreadsInv P funcs_rec funcs u hrec steps _ 0 h0 hfun
  rw [Nat.zero_add] at hinv
  refine ⟨m, hr, hinv.next, hinv.keys, hinv.counters, ?_, hinv.curr⟩
  intro tid _ hlt
  have hl : tid < m.history.recur_calls.length := by rw [hinv.counters]; exact hlt
  exact ⟨_, List.getElem?_eq_getElem hl⟩

theorem thread_tags_consecutive_witness :
    Constraints.sampleParamsTSO.recTrace = true ∧
      ∃ m, runSteps Constraints.sampleParamsTSO ["wsq_put"] [500] sampleElem sampleSteps
          (construct (fun _ => 0) [(0, 0)]) = some m ∧
        m.nextThreadNum = 2 + spawns sampleSteps ∧
        m.interp.threadStacks.map Prod.fst = List.range' 1 (1 + spawns sampleSteps) ∧
        m.history.recur_calls.length = m.nextThreadNum ∧
        (∀ tid, 1 ≤ tid → tid < m.nextThreadNum →
          ∃ d, m.history.recur_calls[tid]? = some d) ∧
        1 ≤ m.interp.currThread ∧ m.interp.currThread < m.nextThreadNum :=
  ⟨by decide,
    thread_tags_consecutive Constraints.sampleParamsTSO ["wsq_put"] [500] sampleElem
      (fun _ => 0) [(0, 0)] sampleSteps (by decide)
      (by
        intro Arg callee h
        simp only [sampleSteps, List.mem_cons, Step.spawn.injEq, List.mem_singleton,
          reduceCtorEq, or_false, List.not_mem_nil] at h
        rcases h with h | h <;> simp [h.1])⟩

end Interpreter

end DFence
